import Mathlib

/-!
# Dimensional analysis library: embedding and verification

The C++ library computes with *types*: a rational constant is the type
`rational_constant<Num, Den>`, a dimension is a `meta::set` of
`dimension_factor<Tag, Power>` types, a unit is a pair of such types and a
quantity is one run-time payload tagged with a unit type.  A violated
`static_assert`, an ill-formed template instantiation, a division by zero or an
overflow in a constant expression makes the program ill-formed: the operation yields
no value.

The embedding makes the type-level data explicit values and a rejected
instantiation the value `none`:

* `intmax_t` template arguments are integers (`Int`); the values of `intmax_t` are
  the `representable` ones.  Arithmetic on `intmax_t` is checked: a result that is
  not representable, `INTMAX_MIN / -1`, `INTMAX_MIN % -1` and `-INTMAX_MIN` have no
  value (`none`), they never wrap;
* C++ `/` and `%` on integers truncate toward zero: `Int.tdiv`, `Int.tmod`;
* a type pack `Seq<Ts...>` is a `List`, `std::is_same` is `=`, a dimension tag (a
  C++ type used only for its identity) is a natural number;
* the payload type `T` of `quantity<T, Unit>` is a signed integer type, `int` or
  `intmax_t`; a quantity carries its payload type, and the conversion `T(x)` of the
  source wraps modulo `2^32` for `int`.
-/

namespace Dimensional

/-! ## The type `intmax_t` -/

/-- The value `INTMAX_MAX` of a 64-bit `intmax_t`: `2^63 - 1`. -/
def intmax_max : Int := 9223372036854775807

/-- The value `INTMAX_MIN` of a 64-bit `intmax_t`: `-2^63`. -/
def intmax_min : Int := -9223372036854775808

/-- The integer is a value of `intmax_t`. -/
def representable (x : Int) : Prop := intmax_min ≤ x ∧ x ≤ intmax_max

instance (x : Int) : Decidable (representable x) := by
  unfold representable
  infer_instance

namespace intmax_t

/-- The product `x * y` of `intmax_t` operands: a product that is not representable is
a signed overflow, which has no value (in a constant expression the program is
ill-formed). -/
def mul (x y : Int) : Option Int := if representable (x * y) then some (x * y) else none

/-- The quotient `x / y` of `intmax_t` operands, truncated toward zero: a zero divisor
and the quotient `INTMAX_MIN / -1` have no value. -/
def div (x y : Int) : Option Int :=
  if y = 0 ∨ (x = intmax_min ∧ y = -1) then none else some (x.tdiv y)

/-- The negation `-x` of an `intmax_t` operand: `-INTMAX_MIN` has no value. -/
def neg (x : Int) : Option Int := if x = intmax_min then none else some (-x)

end intmax_t

/-! ## `mjk::sgcd` (impl/mjk/impl/gcd.hpp) -/

namespace mjk

theorem natAbs_tmod (a b : Int) : (a.tmod b).natAbs = a.natAbs % b.natAbs := by
  cases a <;> cases b <;> simp [Int.tmod, Int.natAbs_neg] <;> rfl

/-- Signed greatest common divisor, `mjk::sgcd` on `intmax_t`: `!divisor ? dividend :
sgcd(divisor, dividend % divisor)` with the truncating remainder of C++; the
remainder `INTMAX_MIN % -1` has no value. -/
def sgcd (dividend divisor : Int) : Option Int :=
  if divisor = 0 then some dividend
  else if dividend = intmax_min ∧ divisor = -1 then none
  else sgcd divisor (dividend.tmod divisor)
termination_by divisor.natAbs
decreasing_by
  rename_i h _
  rw [natAbs_tmod]
  exact Nat.mod_lt _ (Int.natAbs_pos.mpr h)

theorem sgcd_eq_some {a b g : Int} (h : sgcd a b = some g) : g.natAbs = Int.gcd a b := by
  induction a, b using sgcd.induct with
  | case1 a =>
    rw [sgcd, if_pos rfl, Option.some.injEq] at h
    rw [← h]
    simp
  | case2 a b hb hov =>
    rw [sgcd, if_neg hb, if_pos hov] at h
    cases h
  | case3 a b hb hov ih =>
    rw [sgcd, if_neg hb, if_neg hov] at h
    rw [ih h]
    simp only [Int.gcd, natAbs_tmod]
    rw [Nat.gcd_comm, ← Nat.gcd_rec, Nat.gcd_comm]

theorem sgcd_isSome_of_nonneg {a b : Int} (h : 0 ≤ a ∨ 0 ≤ b) : (sgcd a b).isSome = true := by
  induction a, b using sgcd.induct with
  | case1 a => rw [sgcd, if_pos rfl]; rfl
  | case2 a b hb hov =>
    exfalso
    rcases h with h | h
    · rw [hov.1] at h
      exact absurd h (by decide)
    · rw [hov.2] at h
      exact absurd h (by decide)
  | case3 a b hb hov ih =>
    rw [sgcd, if_neg hb, if_neg hov]
    apply ih
    rcases h with h | h
    · exact Or.inr (Int.tmod_nonneg b h)
    · exact Or.inl h

theorem sgcd_nonneg {a b g : Int} (ha : 0 ≤ a) (hb : 0 ≤ b) (h : sgcd a b = some g) :
    0 ≤ g := by
  induction a, b using sgcd.induct with
  | case1 a =>
    rw [sgcd, if_pos rfl, Option.some.injEq] at h
    rw [← h]
    exact ha
  | case2 a b hb0 hov =>
    rw [sgcd, if_neg hb0, if_pos hov] at h
    cases h
  | case3 a b hb0 hov ih =>
    rw [sgcd, if_neg hb0, if_neg hov] at h
    exact ih hb (Int.tmod_nonneg b ha) h

theorem sgcd_of_nonneg {a b : Int} (ha : 0 ≤ a) (hb : 0 ≤ b) :
    sgcd a b = some (Int.gcd a b : Int) := by
  cases h : sgcd a b with
  | none =>
    have := sgcd_isSome_of_nonneg (Or.inl ha : 0 ≤ a ∨ 0 ≤ b)
    rw [h] at this
    cases this
  | some g =>
    rw [← sgcd_eq_some h, Int.natAbs_of_nonneg (sgcd_nonneg ha hb h)]

theorem sgcd_of_pos_divisor (a : Int) {b : Int} (hb : 0 < b) :
    ∃ g, sgcd a b = some g ∧ g.natAbs = Int.gcd a b := by
  cases h : sgcd a b with
  | none =>
    have := sgcd_isSome_of_nonneg (Or.inr (le_of_lt hb) : 0 ≤ a ∨ 0 ≤ b)
    rw [h] at this
    cases this
  | some g => exact ⟨g, rfl, sgcd_eq_some h⟩

end mjk

/-! ## Rational constants (impl/rational_constant.hpp) -/

namespace impl

/-- The helper `meta::impl::sign`: `x < 0 ? -1 : +1`. -/
def sign (x : Int) : Int := if x < 0 then -1 else 1

/-- The helper `meta::impl::abs`: `x < 0 ? -x : +x`, written in the source so that the
overflow of `-INTMAX_MIN` is detected in a constant expression. -/
def abs (x : Int) : Option Int := if x < 0 then intmax_t.neg x else some x

theorem abs_eq_some {x y : Int} (h : abs x = some y) : y = (x.natAbs : Int) := by
  unfold abs intmax_t.neg at h
  by_cases hx : x < 0
  · rw [if_pos hx] at h
    by_cases hm : x = intmax_min
    · rw [if_pos hm] at h
      cases h
    · rw [if_neg hm, Option.some.injEq] at h
      rw [← h, Int.ofNat_natAbs_of_nonpos (le_of_lt hx)]
  · rw [if_neg hx, Option.some.injEq] at h
    rw [← h, Int.natAbs_of_nonneg (not_lt.mp hx)]

theorem abs_of_ne_min {x : Int} (h : x ≠ intmax_min) : abs x = some (x.natAbs : Int) := by
  unfold abs intmax_t.neg
  by_cases hx : x < 0
  · rw [if_pos hx, if_neg h, Int.ofNat_natAbs_of_nonpos (le_of_lt hx)]
  · rw [if_neg hx, Int.natAbs_of_nonneg (not_lt.mp hx)]

end impl

/-- The template arguments of `rational_constant<Num, Den>` (alias `ratio`,
`constant`). Two such types are the same type iff both arguments agree. -/
structure rational_constant where
  num : Int
  den : Int
deriving DecidableEq, Repr

namespace rational_constant

/-- The static assertions in the body of `rational_constant<Num, Den>`:
`den` (non-zero) and `den > 0 && abs(sgcd(Num, Den)) == 1`. -/
def valid (r : rational_constant) : Prop :=
  r.den ≠ 0 ∧ (0 < r.den ∧ (mjk.sgcd r.num r.den).bind impl.abs = some 1)

theorem valid_iff (r : rational_constant) :
    r.valid ↔ 0 < r.den ∧ Int.gcd r.num r.den = 1 := by
  unfold valid
  constructor
  · rintro ⟨_, h1, h2⟩
    refine ⟨h1, ?_⟩
    rw [Option.bind_eq_some] at h2
    obtain ⟨s, hs, ha⟩ := h2
    have e := impl.abs_eq_some ha
    rw [← mjk.sgcd_eq_some hs]
    exact_mod_cast e.symm
  · rintro ⟨h1, h2⟩
    refine ⟨ne_of_gt h1, h1, ?_⟩
    obtain ⟨g, hg, hn⟩ := mjk.sgcd_of_pos_divisor r.num h1
    rw [hg, Option.some_bind]
    have hg1 : g.natAbs = 1 := by rw [hn, h2]
    have hne : g ≠ intmax_min := by
      intro e
      rw [e] at hg1
      exact absurd hg1 (by decide)
    rw [impl.abs_of_ne_min hne, hg1]
    rfl

theorem valid_den_pos {r : rational_constant} (h : r.valid) : 0 < r.den :=
  ((valid_iff r).mp h).1

/-- The assertions are decided through `Int.gcd`, which evaluates by computation. -/
instance (r : rational_constant) : Decidable r.valid :=
  decidable_of_iff _ (valid_iff r).symm

/-- Naming the object `rational_constant<Num, Den>{}`: the class is instantiated and
its static assertions are checked. -/
def instantiate (Num Den : Int) : Option rational_constant :=
  if valid ⟨Num, Den⟩ then some ⟨Num, Den⟩ else none

/-- The rational number a constant denotes. -/
def toRat (r : rational_constant) : ℚ := (r.num : ℚ) / (r.den : ℚ)

/-- The constant with the numerator and denominator of a rational number. -/
def ofRat (q : ℚ) : rational_constant := ⟨q.num, (q.den : Int)⟩

/-- The constant can stand for a specialisation of `std::ratio`, which requires the
absolute values of the numerator and of the denominator to be representable by
`intmax_t` ([ratio.ratio]): neither is `INTMAX_MIN`. -/
def fits (r : rational_constant) : Prop := |r.num| ≤ intmax_max ∧ |r.den| ≤ intmax_max

instance (r : rational_constant) : Decidable r.fits := by
  unfold fits
  infer_instance

end rational_constant


/-! ### The `<ratio>` header of the C++ standard library

`std::ratio` is not code of the repository; its members are fixed by the C++
standard ([ratio.ratio], [ratio.arithmetic], [ratio.comparison]). -/

namespace std

/-- The members `num` and `den` that [ratio.ratio] gives a ratio of numerator `N` and
denominator `D`, `D` not 0: `num = sign(N) * sign(D) * abs(N) / gcd(N, D)`,
`den = abs(D) / gcd(N, D)`.  (The sign given to `0` plays no part: `abs(N)` is `0`
there.) -/
def lowest_terms (N D : Int) : Int × Int :=
  ((Int.sign N * Int.sign D * |N|).tdiv (Int.gcd N D), (|D|).tdiv (Int.gcd N D))

/-- The result type `ratio<U, V>` of ratio arithmetic ([ratio.arithmetic]), where `U`
and `V` are the `num` and `den` of the exact ratio `X / Y`: a zero `Y` is ill-formed,
and so is a `U` or `V` whose absolute value is not representable.  Where only `X` or
`Y` leaves `intmax_t` the standard lets an implementation reject the program "unless
the implementation yields correct values of `U` and `V`"; the model is an
implementation that yields them, as libstdc++ does. -/
def ratio_arithmetic (X Y : Int) : Option (Int × Int) :=
  if Y = 0 then none
  else if |(lowest_terms X Y).1| ≤ intmax_max ∧ |(lowest_terms X Y).2| ≤ intmax_max then
    some (lowest_terms X Y)
  else none

/-- The ratio `std::ratio_add<R1, R2>`: the exact
`(R1::num * R2::den + R2::num * R1::den) / (R1::den * R2::den)`.  `R1` and `R2` stand
for specialisations of `std::ratio`, whose members are representable in absolute
value. -/
def ratio_add (a b : rational_constant) : Option (Int × Int) :=
  if a.fits ∧ b.fits then ratio_arithmetic (a.num * b.den + b.num * a.den) (a.den * b.den)
  else none

/-- The ratio `std::ratio_multiply<R1, R2>`: the exact
`(R1::num * R2::num) / (R1::den * R2::den)`. -/
def ratio_multiply (a b : rational_constant) : Option (Int × Int) :=
  if a.fits ∧ b.fits then ratio_arithmetic (a.num * b.num) (a.den * b.den) else none

/-- The ratio `std::ratio_divide<R1, R2>`: the exact
`(R1::num * R2::den) / (R1::den * R2::num)`; a zero `R2::num` is ill-formed. -/
def ratio_divide (a b : rational_constant) : Option (Int × Int) :=
  if a.fits ∧ b.fits then ratio_arithmetic (a.num * b.den) (a.den * b.num) else none

/-- The constant `std::ratio_equal<R1, R2>`: `R1::num == R2::num && R1::den == R2::den`. -/
def ratio_equal (a b : rational_constant) : Bool :=
  decide (a.num = b.num) && decide (a.den = b.den)

end std

namespace rational_constant

/-- The operator `ratio + ratio`: `std::ratio_add`, then `ratio<r::num, r::den>{}`. -/
def add (a b : rational_constant) : Option rational_constant :=
  (std.ratio_add a b).bind fun r => instantiate r.1 r.2

/-- The operator `ratio * ratio`: `std::ratio_multiply`, then `ratio<r::num, r::den>{}`. -/
def mul (a b : rational_constant) : Option rational_constant :=
  (std.ratio_multiply a b).bind fun r => instantiate r.1 r.2

/-- The operator `ratio / ratio`: `std::ratio_divide`, then `ratio<r::num, r::den>{}`. -/
def div (a b : rational_constant) : Option rational_constant :=
  (std.ratio_divide a b).bind fun r => instantiate r.1 r.2

/-- The operator `ratio == ratio`: `std::ratio_equal`. -/
def eq (a b : rational_constant) : Bool := std.ratio_equal a b

end rational_constant


/-- The function `make_rational_constant(num, den)`: asserts `den` ("dbz"), then with
`gcd = abs(sgcd(Num, Den))` returns `rational_constant<sign(den) * num / gcd,
abs(den / gcd)>{}`; the three template arguments are constant expressions of
`intmax_t`, so an overflow or a zero divisor in them is ill-formed. -/
def make_rational_constant (Num Den : Int) : Option rational_constant :=
  if Den = 0 then none
  else
    (mjk.sgcd Num Den).bind fun s =>
      (impl.abs s).bind fun gcd =>
        (intmax_t.mul (impl.sign Den) Num).bind fun sn =>
          (intmax_t.div sn gcd).bind fun n =>
            (intmax_t.div Den gcd).bind fun dq =>
              (impl.abs dq).bind fun d => rational_constant.instantiate n d


/-! ### Powers and roots (impl/mjk/impl/power.hpp, impl/mjk/impl/root.hpp) -/

namespace std

/-- The expression `static_cast<intmax_t>(std::sqrt(LD{x}))` of the C++ standard
library, `LD` being `long double`: the square root of a negative number is a NaN,
whose conversion is no constant expression; otherwise the root is truncated to an
integer.  Only the values on perfect squares, where the floating-point root is the
exact integer root, ever reach a result (see `sqrt_with_congr`). -/
def sqrt_intmax (x : Int) : Option Int :=
  if x < 0 then none else some (Nat.sqrt x.toNat : Int)

/-- The expression `static_cast<intmax_t>(std::cbrt(LD{x}))` of the C++ standard
library: the cube root, truncated toward zero; the cube root of a negative number is
negative.  Only the values on perfect cubes ever reach a result (see
`cbrt_with_congr`). -/
def cbrt_intmax (x : Int) : Option Int :=
  some (Int.sign x * (Nat.findGreatest (fun k => k ^ 3 ≤ x.natAbs) x.natAbs : Int))

end std

namespace mjk

/-- The function `mjk::square(val)` at a rational constant: `val * val`. -/
def square (val : rational_constant) : Option rational_constant := val.mul val

/-- The function `mjk::cube(val)` at a rational constant: `square(val) * val`. -/
def cube (val : rational_constant) : Option rational_constant :=
  (square val).bind fun s => s.mul val

/-- The specialisation `mjk::one<meta::ratio<Num, Den>>`, reached through
`make_one(x)`: `meta::ratio<1>{}`. -/
def make_one (_ : rational_constant) : rational_constant := ⟨1, 1⟩

end mjk

namespace rational_constant

/-- The function `sqrt(ratio<Num, Den>)` with the library root left open: `isqrt`
stands for `static_cast<intmax_t>(std::sqrt(LD{x}))`.  The candidate
`ratio<isqrt(Num), isqrt(Den)>` is instantiated and returned when the assertion
`mjk::square(root{}) == ratio<Num, Den>{}` ("inexact square root") holds. -/
def sqrt_with (isqrt : Int → Option Int) (r : rational_constant) : Option rational_constant :=
  (isqrt r.num).bind fun n =>
    (isqrt r.den).bind fun d =>
      (instantiate n d).bind fun root =>
        (mjk.square root).bind fun sq =>
          if sq.eq r then some root else none

/-- The function `cbrt(ratio<Num, Den>)` with the library root left open: `icbrt`
stands for `static_cast<intmax_t>(std::cbrt(LD{x}))`; the assertion is
`mjk::cube(root{}) == ratio<Num, Den>{}` ("inexact cube root"). -/
def cbrt_with (icbrt : Int → Option Int) (r : rational_constant) : Option rational_constant :=
  (icbrt r.num).bind fun n =>
    (icbrt r.den).bind fun d =>
      (instantiate n d).bind fun root =>
        (mjk.cube root).bind fun cb =>
          if cb.eq r then some root else none

/-- The function `sqrt(ratio<Num, Den>)`. -/
def sqrt (r : rational_constant) : Option rational_constant := sqrt_with std.sqrt_intmax r

/-- The function `cbrt(ratio<Num, Den>)`. -/
def cbrt (r : rational_constant) : Option rational_constant := cbrt_with std.cbrt_intmax r

end rational_constant

namespace mjk

theorem measure_neg {N : Int} (h : N < 0) :
    2 * (-N).natAbs + (if -N < 0 then 1 else 0) < 2 * N.natAbs + (if N < 0 then 1 else 0) := by
  rw [if_neg (by omega), if_pos h, Int.natAbs_neg]
  omega

theorem measure_pred {N : Int} (h : 0 < N) :
    2 * (N - 1).natAbs + (if N - 1 < 0 then 1 else 0) <
      2 * N.natAbs + (if N < 0 then 1 else 0) := by
  rw [if_neg (by omega), if_neg (by omega)]
  omega

theorem measure_tdiv {N : Int} (k : Int) (hk : 2 ≤ k) (h : 0 < N) :
    2 * (N.tdiv k).natAbs + (if N.tdiv k < 0 then 1 else 0) <
      2 * N.natAbs + (if N < 0 then 1 else 0) := by
  have hN : 0 ≤ N := by omega
  have hk0 : 0 ≤ k := by omega
  have hq : N.tdiv k = N / k := Int.tdiv_eq_ediv hN hk0
  have hq0 : 0 ≤ N / k := Int.ediv_nonneg hN hk0
  have hlt : N / k < N := Int.ediv_lt_of_lt_mul (by omega) (by nlinarith)
  rw [hq, if_neg (by omega), if_neg (by omega)]
  omega

/-- The class template `mjk::impl::power<N>`, applied to a rational constant. The
specialisation is chosen by `N < 0` and `N % 2`: `power<1>` returns `x`; `power<0>`
returns `ternary(isnan(x), x, make_one(x))`, which is `make_one(x)` because `isnan`
of a ratio is `false_type`; a negative `N` gives `make_one(x) / power<-N>{}(x)`, where
the template argument `-N` has no value for `INTMAX_MIN`; an odd `N` gives
`x * power<N-1>{}(x)`; an even `N` gives `square(power<N/2>{}(x))`. -/
def power (N : Int) (x : rational_constant) : Option rational_constant :=
  if N = 1 then some x
  else if N = 0 then some (make_one x)
  else if N < 0 then
    if N = intmax_min then none
    else (power (-N) x).bind fun p => (make_one x).div p
  else if N.tmod 2 ≠ 0 then (power (N - 1) x).bind fun p => x.mul p
  else (power (N.tdiv 2) x).bind fun p => square p
termination_by 2 * N.natAbs + (if N < 0 then 1 else 0)
decreasing_by
  · exact measure_neg (by assumption)
  · exact measure_pred (by omega)
  · exact measure_tdiv 2 (by decide) (by omega)

/-- The function `mjk::pow(x, integral_constant<I, N>)`: `power<N>{}(x)`. -/
def pow (x : rational_constant) (N : Int) : Option rational_constant := power N x

/-- The overloads of `mjk::root(x, intmax_constant<I>)`, applied to a rational
constant: index `0` is rejected ("zeroth root is undefined"), index `1` returns `x`,
a positive even index takes `sqrt(root(x, I/2))`, a positive odd multiple of three
`cbrt(root(x, I/3))`, any other positive index is rejected ("not implemented"), and a
negative index gives `make_one(x) / root(x, -I)`, where the template argument `-I` has
no value for `INTMAX_MIN`. -/
def root (x : rational_constant) (I : Int) : Option rational_constant :=
  if I = 0 then none
  else if I = 1 then some x
  else if 0 < I ∧ I.tmod 2 = 0 then (root x (I.tdiv 2)).bind fun r => r.sqrt
  else if 0 < I ∧ I.tmod 3 = 0 ∧ I.tmod 2 ≠ 0 then (root x (I.tdiv 3)).bind fun r => r.cbrt
  else if 0 < I then none
  else if I = intmax_min then none
  else (root x (-I)).bind fun r => (make_one x).div r
termination_by 2 * I.natAbs + (if I < 0 then 1 else 0)
decreasing_by
  · exact measure_tdiv 2 (by decide) (by omega)
  · exact measure_tdiv 3 (by decide) (by omega)
  · exact measure_neg (by omega)

end mjk

namespace rational_constant

/-- The function `pow(ratio b, ratio n)`: `mjk::root(mjk::pow(b, n.num), n.den)`. -/
def pow (b n : rational_constant) : Option rational_constant :=
  (mjk.pow b n.num).bind fun p => mjk.root p n.den

/-- The function `root(ratio r, ratio i)`: `meta::pow(r, ratio<1>{} / i)`. -/
def root (r i : rational_constant) : Option rational_constant :=
  ((⟨1, 1⟩ : rational_constant).div i).bind fun e => pow r e

end rational_constant

/-! ## Sequences of types (impl/meta.hpp, namespace `meta::seq`) -/

/-- The alias `meta::all<Values...>`: the pack of the values is the same type as the
pack of `(Values || true)`. -/
def all (values : List Bool) : Bool :=
  decide (values = values.map fun v => v || true)

namespace seq

variable {α : Type}

/-- The trait `seq::contains<Seq, Pred>`: `Pred<Head>::value || contains<Tail>`. -/
def contains : List α → (α → Bool) → Bool
  | [], _ => false
  | head :: tail, pred => pred head || contains tail pred

/-- The alias `seq::append<Seq, T>`: `Seq<Ts..., T>`. -/
def append (s : List α) (t : α) : List α := s ++ [t]

/-- The alias `seq::impl::prepend<Seq, T>`: `Seq<T, Ts...>`. -/
def prepend (s : List α) (t : α) : List α := t :: s

/-- The alias `seq::transform_if<Seq, Pred, Transf>`: every element `T` becomes
`template_switch<Pred<T>::value, identity, Transf>::type_template<T>::type`, that is
`Transf<T>::type` where the predicate holds and `T` itself elsewhere.  `Transf` is
instantiated only where the predicate holds; a failing instantiation fails the
whole transformation. -/
def transform_if (s : List α) (pred : α → Bool) (transf : α → Option α) : Option (List α) :=
  s.mapM fun t => if pred t then transf t else some t

/-- The alias `seq::transform<Seq, Transf>`: `transform_if<Seq, always, Transf>`. -/
def transform (s : List α) (transf : α → Option α) : Option (List α) :=
  transform_if s (fun _ => true) transf

/-- The template `seq::impl::remove_if<Seq, Pred, Found, FoundWhat>`.  `foundWhat` is
the element read last and `found` tells whether it is to be dropped; the first call
has `Found = true` and `FoundWhat = void` (here `none`), so `void` is never kept. -/
def remove_if_impl : List α → (α → Bool) → Bool → Option α → List α
  | head :: tail, pred, true, _ => remove_if_impl tail pred (pred head) (some head)
  | head :: tail, pred, false, some foundWhat =>
      prepend (remove_if_impl tail pred (pred head) (some head)) foundWhat
  | head :: tail, pred, false, none => remove_if_impl tail pred (pred head) (some head)
  | [], _, true, _ => []
  | [], _, false, some foundWhat => [foundWhat]
  | [], _, false, none => []

/-- The alias `seq::remove_if<Seq, Pred>`: `impl::remove_if<Seq, Pred>::type` with the
default arguments `Found = true`, `FoundWhat = void`. -/
def remove_if (s : List α) (pred : α → Bool) : List α :=
  remove_if_impl s pred true none

end seq

/-! ## Integer ranges (impl/mjk/impl/intseq.hpp) -/

namespace mjk

namespace impl

/-- The template `impl::integer_sequence_cat<L, R>`: `IntSeq<T, L..., R...>`. -/
def integer_sequence_cat (l r : List Nat) : List Nat := l ++ r

/-- The template `impl::make_closed_integer_range<T, From, To>` at `T = std::size_t`:
`[From, To]` if `From < To`, `[To, From]` reversed otherwise.  The specialisation for
`From == To` is the one-element sequence; the primary template concatenates the
ranges `[From, MidL]` and `[MidR, To]`. -/
def make_closed_integer_range (From To : Nat) : List Nat :=
  if From = To then [From]
  else
    let MidL := if From < To then From + (To - From) / 2 else To + 1 + (From - To) / 2
    let MidR := if From < To then MidL + 1 else MidL - 1
    integer_sequence_cat (make_closed_integer_range From MidL)
      (make_closed_integer_range MidR To)
termination_by (From - To) + (To - From)
decreasing_by
  all_goals simp_wf
  all_goals split <;> omega

/-- The template `impl::make_halfopen_integer_range<T, From, To>`: `[From, To)` if
`From < To`, `[To, From)` reversed otherwise; empty for `From == To`. -/
def make_halfopen_integer_range (From To : Nat) : List Nat :=
  if From = To then []
  else
    let From_ := if From < To then From else From - 1
    let To_ := if From < To then To - 1 else To
    make_closed_integer_range From_ To_

end impl

/-- The alias `mjk::make_integer_range<T, From, To>`. -/
def make_integer_range (From To : Nat) : List Nat :=
  impl.make_halfopen_integer_range From To

/-- Modelled from the spec: the function `mjk::sum` of the header `mjk/math`, which is
not among the sources; `sum(init, terms...)` adds the terms to `init`, giving the
"integer mantissa" of a literal from its weighted digits. -/
def sum (init : rational_constant) : List rational_constant → Option rational_constant
  | [] => some init
  | t :: ts => (init.add t).bind fun s => sum s ts

end mjk

/-! ## Searching sequences of types (impl/meta.hpp, namespace `meta::seq`) -/

namespace seq

variable {α : Type}

/-- What an instantiation of `seq::impl::find_if` provides: the base class (`true_type`
or `false_type`), the member `type` (present when found) and the member `tail_size`. -/
structure find_result (α : Type) where
  value : Bool
  type : Option α
  tail_size : Nat
deriving DecidableEq, Repr

/-- The template `seq::impl::find_if<Seq, Pred, Found, FoundWhat>`: with `Found` false
the head is tested and the search goes on in the tail; with `Found` true and a
non-empty rest the result is `true_type`, `FoundWhat`, and `tail_size` is the length of
the rest; on the empty sequence the result is `false_type` with `tail_size` 0, whatever
`Found` is. -/
def find_if_impl : List α → (α → Bool) → Bool → Option α → find_result α
  | head :: tail, pred, false, _ => find_if_impl tail pred (pred head) (some head)
  | _ :: tail, _, true, foundWhat => ⟨true, foundWhat, 1 + tail.length⟩
  | [], _, _, _ => ⟨false, none, 0⟩

/-- The alias `seq::find_if<Seq, Pred>`: `impl::find_if<Seq, Pred>` with the default
arguments `Found = false`, `FoundWhat = void`. -/
def find_if (s : List α) (pred : α → Bool) : find_result α :=
  find_if_impl s pred false none

/-- The alias `seq::find<Seq, What>`: `find_if<Seq, is<What>::pred>`. -/
def find [DecidableEq α] (s : List α) (what : α) : find_result α :=
  find_if s (fun u => decide (what = u))

/-- The alias `seq::remove<Seq, What>`: `remove_if<Seq, is<What>::pred>`. -/
def remove [DecidableEq α] (s : List α) (what : α) : List α :=
  remove_if s (fun u => decide (what = u))

/-- The trait `seq::is_uset<Seq, Compare>`: the head is not contained in the tail, tested
with `is<Head>::pred` (that is `std::is_same`; the parameter `Compare` is not used), and
the tail is a set; the empty sequence is always a set. -/
def is_uset [DecidableEq α] : List α → Bool
  | [] => true
  | head :: tail => !contains tail (fun u => decide (head = u)) && is_uset tail

end seq

/-! ## Literals (impl/rational_constant.hpp) -/

/-- The conversion `rational_constant::operator intmax_t()`: asserts `den == 1`. -/
def rational_constant.to_intmax (r : rational_constant) : Option Int :=
  if r.den = 1 then some r.num else none

namespace impl

/-- The value of a `char` in integer arithmetic. -/
def code (c : Char) : Int := (c.toNat : Int)

/-- The template `impl::lower<char_constant<c>>`:
`(c >= 'A' && c <= 'Z') ? c + ('a' - 'A') : c`. -/
def lower (c : Char) : Char :=
  if code c ≥ code 'A' ∧ code c ≤ code 'Z' then Char.ofNat (c.toNat + ('a'.toNat - 'A'.toNat))
  else c

/-- The function `impl::parse_digit(d, base)`: asserts that the digit is within
`'0'..'9'` or from `'a'` below `'a' + Base - 10`, and returns
`ratio<(d <= '9') ? (d - '0') : (d - 'a' + 10)>`. -/
def parse_digit (d : Char) (Base : rational_constant) : Option rational_constant :=
  Base.to_intmax.bind fun base =>
    if (code d ≥ code '0' ∧ code d ≤ code '9') ∨
        (code d ≥ code 'a' ∧ code d < code 'a' + base - 10) then
      rational_constant.instantiate
        (if code d ≤ code '9' then code d - code '0' else code d - code 'a' + 10) 1
    else none

/-- The function `impl::parse_digits_2(digits, powers, base)`:
`mjk::sum(ratio<>{}, (parse_digit(Digits{}, base) * mjk::power<Powers>{}(base))...)`;
the two packs are expanded together. -/
def parse_digits_2 (Digits : List Char) (Powers : List Nat) (base : rational_constant) :
    Option rational_constant :=
  if Digits.length = Powers.length then
    ((Digits.zip Powers).mapM fun dp =>
      (parse_digit dp.1 base).bind fun v =>
        (mjk.power (dp.2 : Int) base).bind fun b => v.mul b).bind fun terms =>
      mjk.sum ⟨0, 1⟩ terms
  else none

/-- The function `impl::parse_digits<Base>(dig)`: the powers are
`mjk::make_integer_range<std::size_t, sizeof...(Digits), 0>`, the base is `ratio<Base>`. -/
def parse_digits (Base : Nat) (dig : List Char) : Option rational_constant :=
  parse_digits_2 dig (mjk.make_integer_range dig.length 0) ⟨(Base : Int), 1⟩

/-- The function `impl::parse_number<Base>(number)`: asserts that neither `'p'` nor
`'e'` is found, and divides the digits without `'.'` by the base to the power
`found::tail_size`, where `found` is the search for `'.'`. -/
def parse_number (Base : Nat) (number : List Char) : Option rational_constant :=
  if !(seq.find number 'p').value && !(seq.find number 'e').value then
    let found := seq.find number '.'
    let digits := seq.remove number '.'
    (parse_digits Base digits).bind fun mantissa =>
      (mjk.pow ⟨(Base : Int), 1⟩ (found.tail_size : Int)).bind fun scale =>
        mantissa.div scale
  else none

/-- The overloads of `impl::parse_literal_2(head, tail)`: the ones for `'.'`, `'x'` and
`'b'` need a non-empty tail and give base 10 (the point kept), 16 and 2 (the letter
dropped); the general one gives base 8 with the head kept. -/
def parse_literal_2 (Head : Char) : List Char → Option rational_constant
  | [] => parse_number 8 [Head]
  | h :: t =>
      if Head = '.' then parse_number 10 ('.' :: h :: t)
      else if Head = 'x' then parse_number 16 (h :: t)
      else if Head = 'b' then parse_number 2 (h :: t)
      else parse_number 8 (Head :: h :: t)

/-- The overloads of `impl::parse_literal(head, tail)`: a head `'0'` with a non-empty
tail goes to `parse_literal_2` without the `'0'`, a lone `'0'` is `ratio<>{}`, every
other head gives base 10. -/
def parse_literal (Head : Char) (Tail : List Char) : Option rational_constant :=
  if Head = '0' then
    match Tail with
    | [] => some ⟨0, 1⟩
    | h :: t => parse_literal_2 h t
  else parse_number 10 (Head :: Tail)

end impl

/-- The function `parse_ratio<Head, Tail...>()`: the apostrophes are removed from the
tail, the tail is put in lower case, and `impl::parse_literal` reads the result. -/
def parse_ratio (Head : Char) (Tail : List Char) : Option rational_constant :=
  (seq.transform (seq.remove Tail (Char.ofNat 39)) fun c => some (impl.lower c)).bind
    fun tail => impl.parse_literal Head tail

namespace rational_constant_literals

/-- The literal operator template `operator""_<Chars...>()`: `parse_ratio<Chars...>()`,
which needs at least one character. -/
def literal_operator : List Char → Option rational_constant
  | [] => none
  | Head :: Tail => parse_ratio Head Tail

end rational_constant_literals

/-! ## Unordered sets of types (impl/meta.hpp, namespace `meta::uset`) -/

namespace uset

variable {α : Type}

/-- The alias `uset::insert<Set, T, Compare, Assign>`: a `std::conditional_t` between
`transform_if<s, equiv_to_T, assign_T>` (taken when some element `U` has
`Compare<U, T>`) and `append<s, T>`; both alternatives are instantiated. -/
def insert (s : List α) (t : α) (compare : α → α → Bool) (assign : α → α → Option α) :
    Option (List α) :=
  (seq.transform_if s (fun u => compare u t) (fun u => assign u t)).bind fun assigned =>
    some (if seq.contains s (fun u => compare u t) then assigned else seq.append s t)

/-- The trait `uset::equal<Set<A...>, Set<B...>>`: the sizes agree and every element
of `A` is contained in `B` (`is<A>::pred` is `std::is_same`).  The `VERYDEBUG`
assertion is compiled out by default. -/
def equal [DecidableEq α] (a b : List α) : Bool :=
  decide (a.length = b.length) &&
    all (a.map fun x => seq.contains b (fun u => decide (x = u)))

end uset

/-! ## Dimensions (dimensional.hpp) -/

/-- A dimension tag: a C++ type that is only compared for identity. -/
abbrev Tag := Nat

/-- The type `dimension_factor<Tag, Power>`: one fundamental dimension, exponentiated. -/
structure dimension_factor where
  tag : Tag
  power : rational_constant
deriving DecidableEq, Repr

/-- The type `dimension_product<meta::set<dimension_factor<Tags, Powers>...>>`. -/
structure dimension_product where
  factors : List dimension_factor
deriving DecidableEq, Repr

/-- The alias `dimension<Tag>`: the single factor `dimension_factor<Tag, constant<1>>`. -/
def dimension (tag : Tag) : dimension_product := ⟨[⟨tag, ⟨1, 1⟩⟩]⟩

/-- The constant `dimensionless`: `dimension_product<meta::set<>>`. -/
def dimensionless : dimension_product := ⟨[]⟩

namespace impl

/-- The alias `impl::is_related<DimA, DimB>`: `DimA::tag == DimB::tag`. -/
def is_related (a b : dimension_factor) : Bool := decide (a.tag = b.tag)

/-- The alias `impl::is_one<Dim>`: `Dim::power == constant<>{}`. -/
def is_one (d : dimension_factor) : Bool := rational_constant.eq d.power ⟨0, 1⟩

/-- The template `impl::mul<DimA, DimB>`: asserts `is_related` and adds the powers. -/
def mul (a b : dimension_factor) : Option dimension_factor :=
  if is_related a b then (a.power.add b.power).map fun p => ⟨a.tag, p⟩ else none

/-- The alias `impl::remove_ones<Set>`: `uset::remove_if<Set, is_one>`. -/
def remove_ones (s : List dimension_factor) : List dimension_factor :=
  seq.remove_if s is_one

/-- The template `impl::multiply<SetA, SetB>`: the factors of `SetB` are inserted into
`SetA` from the last to the first, and the factors with power zero are removed
after each insertion. -/
def multiply (a : List dimension_factor) : List dimension_factor → Option (List dimension_factor)
  | [] => some a
  | head :: tail =>
      (multiply a tail).bind fun tailprod =>
        (uset.insert tailprod head is_related mul).bind fun multiplied =>
          some (remove_ones multiplied)

/-- The template `impl::pow<Pow>::f<Dim>`: the power of the factor times `Pow`. -/
def pow (p : rational_constant) (d : dimension_factor) : Option dimension_factor :=
  (d.power.mul p).map fun q => ⟨d.tag, q⟩

end impl

namespace dimension_product

/-- The operator `dimen * dimen`. -/
def mul (a b : dimension_product) : Option dimension_product :=
  (impl.multiply a.factors b.factors).map fun f => ⟨f⟩

/-- The operator `dimen ^ const`: every factor is transformed by `impl::pow`, then the
factors with power zero are removed. -/
def pow (a : dimension_product) (p : rational_constant) : Option dimension_product :=
  (seq.transform a.factors (impl.pow p)).map fun f => ⟨impl.remove_ones f⟩

/-- The operator `dimen / dimen`: `a * (b ^ constant<-1>{})`. -/
def div (a b : dimension_product) : Option dimension_product :=
  (b.pow ⟨-1, 1⟩).bind fun inv => a.mul inv

/-- The operator `dimen == dimen`: `meta::uset::equal` of the factor sets. -/
def eq (a b : dimension_product) : Bool := uset.equal a.factors b.factors

end dimension_product

/-! ## Units and quantities (dimensional.hpp) -/

/-- The type `unit<dimension_product<Factors>, constant<Num, Den>>`. -/
structure unit where
  dimension : dimension_product
  scale : rational_constant
deriving DecidableEq, Repr

/-- The function `unit_of(d)`: `unit<decltype(d), constant<1>>`. -/
def unit_of (d : dimension_product) : unit := ⟨d, ⟨1, 1⟩⟩

namespace unit

/-- The operator `const * unit`: `unit<Dim, decltype(scaleA * ScaleB{})>`. -/
def scaled (scaleA : rational_constant) (u : unit) : Option unit :=
  (scaleA.mul u.scale).map fun s => ⟨u.dimension, s⟩

/-- The operator `unit == unit`: `DimA{} == DimB{} && ScaleA{} == ScaleB{}`. -/
def eq (a b : unit) : Bool := a.dimension.eq b.dimension && a.scale.eq b.scale

/-- The operator `unit * unit`: `(ScaleA{} * ScaleB{}) * unit_of(DimA{} * DimB{})`. -/
def mul (a b : unit) : Option unit :=
  (a.scale.mul b.scale).bind fun s =>
    (a.dimension.mul b.dimension).bind fun d => scaled s (unit_of d)

/-- The operator `unit / unit`: `(ScaleA{} / ScaleB{}) * unit_of(DimA{} / DimB{})`. -/
def div (a b : unit) : Option unit :=
  (a.scale.div b.scale).bind fun s =>
    (a.dimension.div b.dimension).bind fun d => scaled s (unit_of d)

/-- The operator `unit ^ const`: `pow(Scale{}, p) * unit_of(Dim{} ^ p)`, with the `pow`
of rational constants. -/
def pow (u : unit) (p : rational_constant) : Option unit :=
  (rational_constant.pow u.scale p).bind fun s =>
    (u.dimension.pow p).bind fun d => scaled s (unit_of d)

/-- The function `sqrt(unit)`: `u ^ constant<1, 2>{}`. -/
def sqrt (u : unit) : Option unit := u.pow ⟨1, 2⟩

/-- The operator `const / unit`: `scaleA * (b ^ constant<-1>{})`. -/
def const_div (scaleA : rational_constant) (b : unit) : Option unit :=
  (b.pow ⟨-1, 1⟩).bind fun inv => scaled scaleA inv

end unit


/-! ### Payload types -/

/-- The payload types `T` of the model, two signed integer types: `int` (32 bits) and
`intmax_t` (64 bits). -/
inductive payload_type where
  | int
  | intmax_t
deriving DecidableEq, Repr

namespace payload_type

/-- The least value of the type: `INT_MIN`, `INTMAX_MIN`. -/
def min : payload_type → Int
  | int => -2147483648
  | intmax_t => intmax_min

/-- The greatest value of the type: `INT_MAX`, `INTMAX_MAX`. -/
def max : payload_type → Int
  | int => 2147483647
  | intmax_t => intmax_max

/-- The integer is a value of the type. -/
def holds (T : payload_type) (x : Int) : Prop := T.min ≤ x ∧ x ≤ T.max

instance (T : payload_type) (x : Int) : Decidable (T.holds x) := by
  unfold holds
  infer_instance

/-- The conversion `T(x)` of an integer to the type: a value of the type is kept, any
other value wraps modulo the number of values of the type (two's complement). -/
def cast (T : payload_type) (x : Int) : Int := (x - T.min) % (T.max - T.min + 1) + T.min

/-- The type of an arithmetic expression with operands of the types `TA` and `TB`
(the usual arithmetic conversions): the wider of the two. -/
def common : payload_type → payload_type → payload_type
  | int, int => int
  | _, _ => intmax_t

/-- The value of an arithmetic expression of type `T` whose exact result is `z`: a
result that is not a value of the type is a signed overflow, which is undefined
behaviour and has no value. -/
def arith (T : payload_type) (z : Int) : Option Int := if T.holds z then some z else none

end payload_type

/-- The class `quantity<T, unit<Dim, Scale>>`: the payload type `T`, the payload `val`
(read by `count()`) and the unit its type carries. -/
structure quantity where
  type : payload_type
  val : Int
  unit : unit
deriving DecidableEq, Repr

/-- The function `make_quantity(val, u)`, also the operator `T * unit`, for a value of
type `T`. -/
def make_quantity (T : payload_type) (val : Int) (u : unit) : quantity := ⟨T, val, u⟩

namespace mjk

/-- Modelled from the spec: the function object `mjk::plus` of the header `mjk/fun`,
which is not among the sources; heterogeneous addition performs the addition "on
the rescaled payloads", here in their common type `T`. -/
def plus (T : payload_type) (x y : Int) : Option Int := T.arith (x + y)

/-- Modelled from the spec: the function object `mjk::minus` of the header `mjk/fun`,
which is not among the sources; the subtraction of the rescaled payloads in their
common type `T`. -/
def minus (T : payload_type) (x y : Int) : Option Int := T.arith (x - y)

/-- Modelled from the spec: the function object `mjk::less` of the header `mjk/fun`,
which is not among the sources; "comparisons just compare the two rescaled
payloads". -/
def less (_ : payload_type) (x y : Int) : Option Bool := some (decide (x < y))

/-- Modelled from the spec: the function object `mjk::equal_to` of the header
`mjk/fun`, which is not among the sources; equality of the rescaled payloads. -/
def equal_to (_ : payload_type) (x y : Int) : Option Bool := some (decide (x = y))

end mjk

namespace quantity

/-- The member `quantity::to(constant<Num, Den> c)`: with `s = scale / c`,
`T(count() * s::num / s::den) * (c * unit_of(dimension))`.  The product and the
quotient are computed in `intmax_t`, the type of `s::num` and `s::den`, and the
result is converted to `T`. -/
def to_scale (q : quantity) (c : rational_constant) : Option quantity :=
  (q.unit.scale.div c).bind fun s =>
    ((unit_of q.unit.dimension).scaled c).bind fun u =>
      (intmax_t.mul q.val s.num).bind fun p =>
        (intmax_t.div p s.den).map fun v => make_quantity q.type (q.type.cast v) u

/-- The member `quantity::to(unit<ToDim, ToScale> u)`: asserts
`u.dimension == dimension`, then `to(u.scale)`. -/
def to_unit (q : quantity) (u : Dimensional.unit) : Option quantity :=
  if u.dimension.eq q.unit.dimension then q.to_scale u.scale else none

/-- The converting constructor of `quantity<T, unit<Dim, Scale>>` from another
quantity `rhs`: `val(rhs.to(scale).count())`, asserting `rhs.dimension == dimension`.
`T` and `target` are the payload type and the unit of the constructed type; the
payload of `rhs.to(scale)` is converted to `T`. -/
def convert (T : payload_type) (target : Dimensional.unit) (rhs : quantity) : Option quantity :=
  if rhs.unit.dimension.eq target.dimension then
    (rhs.to_scale target.scale).map fun r => ⟨T, T.cast r.val, target⟩
  else none

end quantity

namespace impl

/-- The helper `impl::min`: `a < b ? a : b`. -/
def min (a b : Int) : Int := if a < b then a else b

/-- The helper `impl::max`: `a > b ? a : b`. -/
def max (a b : Int) : Int := if a > b then a else b

/-- The function `impl::gcd(c<A>, c<B>)`: asserts `A >= 0 && B >= 0`, then
`c<mjk::sgcd(A, B)>`. -/
def gcd (A B : Int) : Option Int :=
  if 0 ≤ A ∧ 0 ≤ B then mjk.sgcd A B else none

/-- The function `impl::lcm(c<A>, c<B>)`: `c<max(A, B) / gcd(c<A>{}, c<B>{}) * min(A, B)>`,
a constant expression of `intmax_t`: a zero divisor or an overflow of the product is
ill-formed. -/
def lcm (A B : Int) : Option Int :=
  (gcd A B).bind fun g =>
    (intmax_t.div (max A B) g).bind fun q => intmax_t.mul q (min A B)

/-- The function `impl::heterop_raw(op, a, b)`: asserts `a.dimension == b.dimension`;
the constants `a_scale = (a.num / num_gcd) * (b.den / den_gcd)` and
`b_scale = (b.num / num_gcd) * (a.den / den_gcd)` are computed in `intmax_t`; then
`op(TA(a.count() * a_scale), TB(b.count() * b_scale))`, where the products are
computed in `intmax_t` and converted to the payload types.  `op` is given the common
type of the payloads. -/
def heterop_raw {β : Type} (op : payload_type → Int → Int → Option β) (a b : quantity) :
    Option β :=
  if a.unit.dimension.eq b.unit.dimension then
    (gcd a.unit.scale.num b.unit.scale.num).bind fun num_gcd =>
      (gcd a.unit.scale.den b.unit.scale.den).bind fun den_gcd =>
        (intmax_t.div a.unit.scale.num num_gcd).bind fun an =>
          (intmax_t.div b.unit.scale.den den_gcd).bind fun bd =>
            (intmax_t.mul an bd).bind fun a_scale =>
              (intmax_t.div b.unit.scale.num num_gcd).bind fun bn =>
                (intmax_t.div a.unit.scale.den den_gcd).bind fun ad =>
                  (intmax_t.mul bn ad).bind fun b_scale =>
                    (intmax_t.mul a.val a_scale).bind fun x =>
                      (intmax_t.mul b.val b_scale).bind fun y =>
                        op (payload_type.common a.type b.type) (a.type.cast x)
                          (b.type.cast y)
  else none

/-- The function `impl::heterop(op, a, b)`: the common scale
`constant<gcd(a.num, b.num), lcm(a.den, b.den)>`, the common unit
`common_scale{} * unit_of(a.dimension)`, and `heterop_raw(op, a, b) * common_unit{}`,
a quantity of the type of the result of `op`. -/
def heterop (op : payload_type → Int → Int → Option Int) (a b : quantity) : Option quantity :=
  (gcd a.unit.scale.num b.unit.scale.num).bind fun g =>
    (lcm a.unit.scale.den b.unit.scale.den).bind fun l =>
      (rational_constant.instantiate g l).bind fun common_scale =>
        ((unit_of a.unit.dimension).scaled common_scale).bind fun common_unit =>
          (heterop_raw op a b).map fun v =>
            make_quantity (payload_type.common a.type b.type) v common_unit

end impl

namespace quantity

/-- The operator `quant + quant`: `impl::heterop(mjk::plus, a, b)`. -/
def add (a b : quantity) : Option quantity := impl.heterop mjk.plus a b

/-- The operator `quant - quant`: `impl::heterop(mjk::minus, a, b)`. -/
def sub (a b : quantity) : Option quantity := impl.heterop mjk.minus a b

/-- The operator `quant < quant`: `impl::heterop_raw(mjk::less, a, b)`. -/
def lt (a b : quantity) : Option Bool := impl.heterop_raw mjk.less a b

/-- The operator `quant <= quant`: `!(b < a)`. -/
def le (a b : quantity) : Option Bool := (lt b a).map fun r => !r

/-- The operator `quant == quant`: `impl::heterop_raw(mjk::equal_to, a, b)`. -/
def eq (a b : quantity) : Option Bool := impl.heterop_raw mjk.equal_to a b

/-- The member `quantity::operator+=`: `*this = *this + rhs`; the sum, a quantity of
the common unit, is converted to the type of `*this` by the converting constructor
and assigned. The result is the new value of `*this`. -/
def add_assign (a b : quantity) : Option quantity :=
  (a.add b).bind fun sum => convert a.type a.unit sum

/-- The member `quantity::operator-=`: `*this = *this - rhs`, converted back to the
type of `*this` like `operator+=`. -/
def sub_assign (a b : quantity) : Option quantity :=
  (a.sub b).bind fun diff => convert a.type a.unit diff

/-- The operator `quant * unit`: `a.count() * (Unit{} * u)`. -/
def mul_unit (a : quantity) (u : Dimensional.unit) : Option quantity :=
  (a.unit.mul u).map fun w => make_quantity a.type a.val w

/-- The operator `quant / unit`: `a.count() * (Unit{} / u)`. -/
def div_unit (a : quantity) (u : Dimensional.unit) : Option quantity :=
  (a.unit.div u).map fun w => make_quantity a.type a.val w

/-- The operator `quant * quant`: `(a.count() * b.count()) * (UnitA{} * UnitB{})`; the
product of the payloads is computed in their common type. -/
def mul (a b : quantity) : Option quantity :=
  (a.unit.mul b.unit).bind fun w =>
    ((payload_type.common a.type b.type).arith (a.val * b.val)).map fun v =>
      make_quantity (payload_type.common a.type b.type) v w

/-- The operator `quant / quant`: `(a.count() / b.count()) * (UnitA{} / UnitB{})`.  The
payloads are integers: the quotient truncates, and a zero divisor has no value. -/
def div (a b : quantity) : Option quantity :=
  if b.val = 0 then none
  else
    (a.unit.div b.unit).bind fun w =>
      ((payload_type.common a.type b.type).arith (a.val.tdiv b.val)).map fun v =>
        make_quantity (payload_type.common a.type b.type) v w

/-- The operator `T * quant`: `(a * b.count()) * b.unit`, for a scalar `a` of the
payload type. -/
def scalar_mul (a : Int) (b : quantity) : Option quantity :=
  (b.type.arith (a * b.val)).map fun v => make_quantity b.type v b.unit

/-- The operator `quant * T`: `(a.count() * b) * Unit{}`, for a scalar `b` of the
payload type. -/
def mul_scalar (a : quantity) (b : Int) : Option quantity :=
  (a.type.arith (a.val * b)).map fun v => make_quantity a.type v a.unit

/-- The operator `quant / T`: `(a.count() / b) * Unit{}`, a truncating quotient; a zero
divisor has no value. -/
def div_scalar (a : quantity) (b : Int) : Option quantity :=
  if b = 0 then none
  else (a.type.arith (a.val.tdiv b)).map fun v => make_quantity a.type v a.unit

end quantity

/-! ## Durations (si.hpp) -/

namespace si

/-- The tag `_time_tag` of the dimension `si::time`; tags are only compared for
identity. -/
def time_tag : Tag := 2

/-- The dimension `si::time`: `dimension<struct _time_tag>`. -/
def time : dimension_product := dimension time_tag

/-- The unit `si::second`: `unit_of(time)`. -/
def second : unit := unit_of time

end si

/-- The type `std::chrono::duration<Rep, Period>`: the representation type `Rep`, the
count, and the period `std::ratio<num, den>`. -/
structure duration where
  rep : payload_type
  count : Int
  period : rational_constant
deriving DecidableEq, Repr

namespace mjk

/-- The converter `conversion<quantity<T, unit<si::impl::time, Scale>>,
std::chrono::duration<Rep, Period>>`: with `scale = constant<p::num, p::den>` for the
period `p` of the duration, `dur{Rep(q.to(scale{}).count())}`.  The specialisation is
for quantities whose dimension is the type of `si::time`. -/
def quantity_to_duration (Rep : payload_type) (Period : rational_constant) (q : quantity) :
    Option duration :=
  if q.unit.dimension = si.time then
    (rational_constant.instantiate Period.num Period.den).bind fun scale =>
      (q.to_scale scale).map fun r => ⟨Rep, Rep.cast r.val, Period⟩
  else none

/-- The converter `conversion<std::chrono::duration<Rep, Period>, quantity<T,
unit<si::impl::time, Scale>>>`: with `scale = constant<p::num, p::den>`,
`d.count() * (scale{} * si::second)`, a quantity of payload type `Rep`, converted to
the returned type `quantity<T, unit<si::impl::time, Scale>>` by its converting
constructor. -/
def duration_to_quantity (T : payload_type) (Scale : rational_constant) (d : duration) :
    Option quantity :=
  (rational_constant.instantiate d.period.num d.period.den).bind fun scale =>
    (unit.scaled scale si.second).bind fun u =>
      quantity.convert T ⟨si.time, Scale⟩ (make_quantity d.rep d.count u)

end mjk

/-! ### Vocabulary for stating properties of rational functions -/

/-- Naive repeated multiplication, the specification `mjk::power` is compared with:
`x^0 = 1` and `x^(n+1) = x * x^n`, with the multiplication of rational constants. -/
def naive_power (x : rational_constant) : Nat → Option rational_constant
  | 0 => some ⟨1, 1⟩
  | n + 1 => (naive_power x n).bind fun p => x.mul p

/-! ### Vocabulary for stating properties of literals -/

/-- The apostrophe, the digit separator of a C++ literal. -/
def apostrophe : Char := Char.ofNat 39

/-- The value a digit character denotes: `0..9` for `'0'..'9'` and `10..35` for the
letters `'a'..'z'` and `'A'..'Z'`; other characters denote no digit (value 0). -/
def digit_value (c : Char) : Nat :=
  if '0'.toNat ≤ c.toNat ∧ c.toNat ≤ '9'.toNat then c.toNat - '0'.toNat
  else if 'a'.toNat ≤ c.toNat ∧ c.toNat ≤ 'z'.toNat then c.toNat - 'a'.toNat + 10
  else if 'A'.toNat ≤ c.toNat ∧ c.toNat ≤ 'Z'.toNat then c.toNat - 'A'.toNat + 10
  else 0

/-- The character is a digit or a letter. -/
def is_alphanumeric (c : Char) : Prop :=
  ('0'.toNat ≤ c.toNat ∧ c.toNat ≤ '9'.toNat) ∨ ('a'.toNat ≤ c.toNat ∧ c.toNat ≤ 'z'.toNat) ∨
    ('A'.toNat ≤ c.toNat ∧ c.toNat ≤ 'Z'.toNat)

/-- The character is a digit of base `B`: a digit or a letter whose value is below `B`. -/
def is_digit (B : Nat) (c : Char) : Prop := is_alphanumeric c ∧ digit_value c < B

instance (c : Char) : Decidable (is_alphanumeric c) := by
  unfold is_alphanumeric
  infer_instance

instance (B : Nat) (c : Char) : Decidable (is_digit B c) := by
  unfold is_digit
  infer_instance

/-- The integer spelled in base `B` by a sequence of digits, the most significant digit
first. -/
def spelled (B : Nat) (cs : List Char) : Nat := Nat.ofDigits B (cs.reverse.map digit_value)

/-- The characters of a literal with the points removed. -/
def without_points (cs : List Char) : List Char := cs.filter fun c => decide (c ≠ '.')

/-- The number of characters after the first point of a literal, 0 when it has no
point; for a literal with one point, the number of digits after the point. -/
def fraction_digits (cs : List Char) : Nat :=
  ((cs.dropWhile fun c => decide (c ≠ '.')).drop 1).length

/-- The literal has the hexadecimal prefix `0x` or `0X`, digit separators apart. -/
def hex_prefixed : List Char → Prop
  | [] => False
  | hd :: tl => hd = '0' ∧
      ((tl.filter fun c => decide (c ≠ apostrophe)).head? = some 'x' ∨
        (tl.filter fun c => decide (c ≠ apostrophe)).head? = some 'X')

instance (cs : List Char) : Decidable (hex_prefixed cs) := by
  cases cs <;> unfold hex_prefixed <;> infer_instance

/-- The assertion of `impl::parse_digit` for the base `ratio<B>`: the character is
within `'0'..'9'`, or from `'a'` below `'a' + B - 10`. -/
def impl.accepted (B : Nat) (c : Char) : Prop :=
  (impl.code c ≥ impl.code '0' ∧ impl.code c ≤ impl.code '9') ∨
    (impl.code c ≥ impl.code 'a' ∧ impl.code c < impl.code 'a' + (B : Int) - 10)

instance (B : Nat) (c : Char) : Decidable (impl.accepted B c) := by
  unfold impl.accepted
  infer_instance

/-- The literal is within the range of `intmax_t` in base `B`: with `n` digits, `f` of
them after the point, the weight `B^(n-1)` of the first digit, the integer spelled by
the digits and the divisor `B^f` are at most `INTMAX_MAX`. -/
def literal_representable (B : Nat) (cs : List Char) : Prop :=
  (B : Int) ^ ((without_points cs).length - 1) ≤ intmax_max ∧
    (spelled B (without_points cs) : Int) ≤ intmax_max ∧
    (B : Int) ^ fraction_digits cs ≤ intmax_max

instance (B : Nat) (cs : List Char) : Decidable (literal_representable B cs) := by
  unfold literal_representable
  infer_instance

/-! ### Vocabulary for stating properties of quantities -/

/-- The common scale in the words of the specification:
`Rational(gcd(num1, num2), lcm(den1, den2))`. -/
def common_scale (x y : rational_constant) : rational_constant :=
  ⟨(Int.gcd x.num y.num : Int), (Int.lcm x.den y.den : Int)⟩

/-- The factor that rescales a payload of scale `x` to the common scale of `x` and
`y`: `(x.num / gcd(x.num, y.num)) * (y.den / gcd(x.den, y.den))`. -/
def rescale_factor (x y : rational_constant) : Int :=
  (x.num / (Int.gcd x.num y.num : Int)) * (y.den / (Int.gcd x.den y.den : Int))

/-! ### Vocabulary for stating properties of dimensions -/

/-- The power stored with tag `t` in a list of factors, `constant<0>` when no factor
has that tag. -/
def exponent_in : List dimension_factor → Tag → rational_constant
  | [], _ => ⟨0, 1⟩
  | f :: rest, t => if f.tag = t then f.power else exponent_in rest t

namespace dimension_product

/-- The exponent of tag `t` in a dimension, an absent tag counting as `0`. -/
def exponent (a : dimension_product) (t : Tag) : rational_constant :=
  exponent_in a.factors t

/-- Tag `t` is present: some factor of the dimension has it. -/
def has_tag (a : dimension_product) (t : Tag) : Prop :=
  t ∈ a.factors.map (fun f => f.tag)

/-- Every power is an instantiated `rational_constant` (its assertions hold); the
C++ type system guarantees this of every `dimension_factor` a program names. -/
def instantiated (a : dimension_product) : Prop :=
  ∀ f ∈ a.factors, f.power.valid

/-- No two factors share a tag. -/
def unique_tags (a : dimension_product) : Prop :=
  (a.factors.map (fun f => f.tag)).Nodup

/-- No factor has exponent zero. -/
def no_zero (a : dimension_product) : Prop :=
  ∀ f ∈ a.factors, f.power.num ≠ 0

/-- Canonical form: unique tags and no zero exponent. -/
def canonical (a : dimension_product) : Prop :=
  a.unique_tags ∧ a.no_zero

/-- Every exponent is within the range of `std::ratio`: the numerator and the
denominator are at most `INTMAX_MAX` in absolute value. -/
def in_range (a : dimension_product) : Prop :=
  ∀ f ∈ a.factors, f.power.fits

/-- The exponent sums of `a * b` are within the range of `std::ratio`: for every factor
of `b` whose tag is present in `a`, the sum of the two exponents is a well-formed
`std::ratio_add` (the two exponents and their sum are within the range). -/
def mul_in_range (a b : dimension_product) : Prop :=
  ∀ f ∈ b.factors, f.tag ∈ a.factors.map (fun g => g.tag) →
    ((a.exponent f.tag).add f.power).isSome = true

/-- The exponent products of `a ^ p` are within the range of `std::ratio`: for every
factor of `a`, the product of its exponent and `p` is a well-formed
`std::ratio_multiply` (the exponent, `p` and their product are within the range). -/
def pow_in_range (a : dimension_product) (p : rational_constant) : Prop :=
  ∀ d ∈ a.factors, (d.power.mul p).isSome = true

instance (a : dimension_product) (t : Tag) : Decidable (a.has_tag t) := by
  unfold has_tag
  infer_instance

instance (a : dimension_product) : Decidable a.instantiated := by
  unfold instantiated
  infer_instance

instance (a : dimension_product) : Decidable a.unique_tags := by
  unfold unique_tags
  infer_instance

instance (a : dimension_product) : Decidable a.no_zero := by
  unfold no_zero
  infer_instance

instance (a : dimension_product) : Decidable a.in_range := by
  unfold in_range
  infer_instance

instance (a b : dimension_product) : Decidable (a.mul_in_range b) := by
  unfold mul_in_range
  infer_instance

instance (a : dimension_product) (p : rational_constant) : Decidable (a.pow_in_range p) := by
  unfold pow_in_range
  infer_instance

instance (a : dimension_product) : Decidable a.canonical := by
  unfold canonical
  infer_instance

end dimension_product

/-! ### Vocabulary for stating properties of checked arithmetic -/

/-- The constant when it can stand for a `std::ratio`, no value otherwise: the result
of ratio arithmetic whose exact value is the constant. -/
def rational_constant.checked (r : rational_constant) : Option rational_constant :=
  if r.fits then some r else none


/-! ## Lemmas: `sgcd` and rational constants -/

namespace rational_constant

theorem valid_ofRat (q : ℚ) : (ofRat q).valid := by
  rw [valid_iff]
  refine ⟨?_, ?_⟩
  · show (0 : Int) < (q.den : Int)
    exact_mod_cast q.den_pos
  · show Int.gcd q.num (q.den : Int) = 1
    simpa [Int.gcd, Nat.Coprime] using q.reduced

theorem toRat_ofRat (q : ℚ) : (ofRat q).toRat = q := by
  simp [toRat, ofRat, Rat.num_div_den]

theorem ofRat_toRat {r : rational_constant} (h : r.valid) : ofRat r.toRat = r := by
  obtain ⟨hd, hg⟩ := (valid_iff r).mp h
  have hc : r.num.natAbs.Coprime r.den.natAbs := hg
  cases r with
  | mk n d =>
    simp only [ofRat, toRat, mk.injEq]
    exact ⟨Rat.num_div_eq_of_coprime hd hc, Rat.den_div_eq_of_coprime hd hc⟩

theorem toRat_injective {a b : rational_constant} (ha : a.valid) (hb : b.valid)
    (h : a.toRat = b.toRat) : a = b := by
  rw [← ofRat_toRat ha, ← ofRat_toRat hb, h]

theorem instantiate_ofRat (q : ℚ) : instantiate q.num (q.den : Int) = some (ofRat q) := by
  have h : valid ⟨q.num, (q.den : Int)⟩ := valid_ofRat q
  simp [instantiate, h, ofRat]

theorem instantiate_of_valid {r : rational_constant} (h : r.valid) :
    instantiate r.num r.den = some r := by
  simp [instantiate, h]

theorem checked_eq_some_iff {r y : rational_constant} :
    r.checked = some y ↔ y = r ∧ r.fits := by
  unfold checked
  by_cases h : r.fits
  · rw [if_pos h, Option.some.injEq]
    exact ⟨fun e => ⟨e.symm, h⟩, fun e => e.1.symm⟩
  · rw [if_neg h]
    exact ⟨fun e => (by cases e), fun e => absurd e.2 h⟩

theorem checked_of_fits {r : rational_constant} (h : r.fits) : r.checked = some r := by
  unfold checked
  rw [if_pos h]

theorem checked_of_not_fits {r : rational_constant} (h : ¬ r.fits) : r.checked = none := by
  unfold checked
  rw [if_neg h]

theorem fits_iff {r : rational_constant} :
    r.fits ↔ -intmax_max ≤ r.num ∧ r.num ≤ intmax_max ∧ -intmax_max ≤ r.den ∧
      r.den ≤ intmax_max := by
  unfold fits
  rw [abs_le, abs_le]
  constructor
  · rintro ⟨⟨h1, h2⟩, h3, h4⟩
    exact ⟨h1, h2, h3, h4⟩
  · rintro ⟨h1, h2, h3, h4⟩
    exact ⟨⟨h1, h2⟩, h3, h4⟩

end rational_constant

namespace std

theorem lowest_terms_eq_divInt (N D : Int) (h : D ≠ 0) :
    lowest_terms N D = ((Rat.divInt N D).num, ((Rat.divInt N D).den : Int)) := by
  unfold lowest_terms
  rw [Rat.num_mk, Rat.den_mk, if_neg h]
  have h1 : Int.sign N * Int.sign D * |N| = D.sign * N := by
    rw [mul_comm (Int.sign N), mul_assoc, Int.sign_mul_abs]
  have hdvd : (Int.gcd N D : Int) ∣ D.sign * N := Dvd.dvd.mul_left Int.gcd_dvd_left _
  have hdvd2 : (Int.gcd N D : Int) ∣ |D| := (dvd_abs _ _).mpr Int.gcd_dvd_right
  rw [h1, Int.tdiv_eq_ediv_of_dvd hdvd, Int.tdiv_eq_ediv_of_dvd hdvd2]
  congr 2
  rw [Int.abs_eq_natAbs]
  norm_cast

theorem ratio_arithmetic_bind (X Y : Int) (h : Y ≠ 0) :
    ((ratio_arithmetic X Y).bind fun r => rational_constant.instantiate r.1 r.2) =
      (rational_constant.ofRat (Rat.divInt X Y)).checked := by
  unfold ratio_arithmetic rational_constant.checked
  rw [if_neg h, lowest_terms_eq_divInt X Y h]
  by_cases hf : (rational_constant.ofRat (Rat.divInt X Y)).fits
  · rw [if_pos hf]
    have hf2 : |((Rat.divInt X Y).num, ((Rat.divInt X Y).den : Int)).1| ≤ intmax_max ∧
        |((Rat.divInt X Y).num, ((Rat.divInt X Y).den : Int)).2| ≤ intmax_max := hf
    rw [if_pos hf2, Option.some_bind]
    exact rational_constant.instantiate_ofRat _
  · rw [if_neg hf]
    have hf2 : ¬ (|((Rat.divInt X Y).num, ((Rat.divInt X Y).den : Int)).1| ≤ intmax_max ∧
        |((Rat.divInt X Y).num, ((Rat.divInt X Y).den : Int)).2| ≤ intmax_max) := hf
    rw [if_neg hf2]
    rfl

end std

namespace rational_constant

theorem add_eq {a b : rational_constant} (ha : a.den ≠ 0) (hb : b.den ≠ 0)
    (hfa : a.fits) (hfb : b.fits) :
    a.add b = (ofRat (a.toRat + b.toRat)).checked := by
  have hd : a.den * b.den ≠ 0 := mul_ne_zero ha hb
  have hq : Rat.divInt (a.num * b.den + b.num * a.den) (a.den * b.den) = a.toRat + b.toRat := by
    rw [Rat.divInt_eq_div, toRat, toRat]
    have ha' : (a.den : ℚ) ≠ 0 := by exact_mod_cast ha
    have hb' : (b.den : ℚ) ≠ 0 := by exact_mod_cast hb
    push_cast
    field_simp
  unfold add std.ratio_add
  rw [if_pos ⟨hfa, hfb⟩, std.ratio_arithmetic_bind _ _ hd, hq]

theorem mul_eq {a b : rational_constant} (ha : a.den ≠ 0) (hb : b.den ≠ 0)
    (hfa : a.fits) (hfb : b.fits) :
    a.mul b = (ofRat (a.toRat * b.toRat)).checked := by
  have hd : a.den * b.den ≠ 0 := mul_ne_zero ha hb
  have hq : Rat.divInt (a.num * b.num) (a.den * b.den) = a.toRat * b.toRat := by
    rw [Rat.divInt_eq_div, toRat, toRat]
    have ha' : (a.den : ℚ) ≠ 0 := by exact_mod_cast ha
    have hb' : (b.den : ℚ) ≠ 0 := by exact_mod_cast hb
    push_cast
    field_simp
  unfold mul std.ratio_multiply
  rw [if_pos ⟨hfa, hfb⟩, std.ratio_arithmetic_bind _ _ hd, hq]

theorem div_eq {a b : rational_constant} (ha : a.den ≠ 0) (hb : b.den ≠ 0) (hn : b.num ≠ 0)
    (hfa : a.fits) (hfb : b.fits) :
    a.div b = (ofRat (a.toRat / b.toRat)).checked := by
  have hd : a.den * b.num ≠ 0 := mul_ne_zero ha hn
  have hq : Rat.divInt (a.num * b.den) (a.den * b.num) = a.toRat / b.toRat := by
    rw [Rat.divInt_eq_div, toRat, toRat]
    have ha' : (a.den : ℚ) ≠ 0 := by exact_mod_cast ha
    have hb' : (b.den : ℚ) ≠ 0 := by exact_mod_cast hb
    have hn' : (b.num : ℚ) ≠ 0 := by exact_mod_cast hn
    push_cast
    field_simp
  unfold div std.ratio_divide
  rw [if_pos ⟨hfa, hfb⟩, std.ratio_arithmetic_bind _ _ hd, hq]

theorem add_eq_none_of_not_fits {a b : rational_constant} (h : ¬ (a.fits ∧ b.fits)) :
    a.add b = none := by
  unfold add std.ratio_add
  rw [if_neg h]
  rfl

theorem mul_eq_none_of_not_fits {a b : rational_constant} (h : ¬ (a.fits ∧ b.fits)) :
    a.mul b = none := by
  unfold mul std.ratio_multiply
  rw [if_neg h]
  rfl

theorem div_eq_none_of_not_fits {a b : rational_constant} (h : ¬ (a.fits ∧ b.fits)) :
    a.div b = none := by
  unfold div std.ratio_divide
  rw [if_neg h]
  rfl

theorem div_eq_none_of_num_zero (a : rational_constant) {b : rational_constant}
    (hn : b.num = 0) : a.div b = none := by
  unfold div std.ratio_divide
  by_cases h : a.fits ∧ b.fits
  · rw [if_pos h]
    unfold std.ratio_arithmetic
    rw [if_pos (by rw [hn, mul_zero])]
    rfl
  · rw [if_neg h]
    rfl

theorem add_eq_some {a b r : rational_constant} (ha : a.den ≠ 0) (hb : b.den ≠ 0)
    (h : a.add b = some r) :
    r = ofRat (a.toRat + b.toRat) ∧ r.fits ∧ a.fits ∧ b.fits := by
  by_cases hf : a.fits ∧ b.fits
  · rw [add_eq ha hb hf.1 hf.2, checked_eq_some_iff] at h
    exact ⟨h.1, h.1 ▸ h.2, hf.1, hf.2⟩
  · rw [add_eq_none_of_not_fits hf] at h
    cases h

theorem mul_eq_some {a b r : rational_constant} (ha : a.den ≠ 0) (hb : b.den ≠ 0)
    (h : a.mul b = some r) :
    r = ofRat (a.toRat * b.toRat) ∧ r.fits ∧ a.fits ∧ b.fits := by
  by_cases hf : a.fits ∧ b.fits
  · rw [mul_eq ha hb hf.1 hf.2, checked_eq_some_iff] at h
    exact ⟨h.1, h.1 ▸ h.2, hf.1, hf.2⟩
  · rw [mul_eq_none_of_not_fits hf] at h
    cases h

theorem div_eq_some {a b r : rational_constant} (ha : a.den ≠ 0) (hb : b.den ≠ 0)
    (h : a.div b = some r) :
    b.num ≠ 0 ∧ r = ofRat (a.toRat / b.toRat) ∧ r.fits ∧ a.fits ∧ b.fits := by
  by_cases hn : b.num = 0
  · rw [div_eq_none_of_num_zero a hn] at h
    cases h
  · by_cases hf : a.fits ∧ b.fits
    · rw [div_eq ha hb hn hf.1 hf.2, checked_eq_some_iff] at h
      exact ⟨hn, h.1, h.1 ▸ h.2, hf.1, hf.2⟩
    · rw [div_eq_none_of_not_fits hf] at h
      cases h

theorem add_of_fits {a b : rational_constant} (ha : a.den ≠ 0) (hb : b.den ≠ 0)
    (hfa : a.fits) (hfb : b.fits) (hf : (ofRat (a.toRat + b.toRat)).fits) :
    a.add b = some (ofRat (a.toRat + b.toRat)) := by
  rw [add_eq ha hb hfa hfb, checked_of_fits hf]

theorem mul_of_fits {a b : rational_constant} (ha : a.den ≠ 0) (hb : b.den ≠ 0)
    (hfa : a.fits) (hfb : b.fits) (hf : (ofRat (a.toRat * b.toRat)).fits) :
    a.mul b = some (ofRat (a.toRat * b.toRat)) := by
  rw [mul_eq ha hb hfa hfb, checked_of_fits hf]

theorem div_of_fits {a b : rational_constant} (ha : a.den ≠ 0) (hb : b.den ≠ 0)
    (hn : b.num ≠ 0) (hfa : a.fits) (hfb : b.fits) (hf : (ofRat (a.toRat / b.toRat)).fits) :
    a.div b = some (ofRat (a.toRat / b.toRat)) := by
  rw [div_eq ha hb hn hfa hfb, checked_of_fits hf]

theorem eq_iff (a b : rational_constant) : a.eq b = true ↔ a = b := by
  cases a; cases b
  simp [eq, std.ratio_equal]

theorem toRat_eq_zero_iff {r : rational_constant} (h : r.den ≠ 0) :
    r.toRat = 0 ↔ r.num = 0 := by
  have h' : (r.den : ℚ) ≠ 0 := by exact_mod_cast h
  simp [toRat, h']

theorem ofRat_zero : ofRat 0 = ⟨0, 1⟩ := rfl

theorem ofRat_num_eq_zero_iff (q : ℚ) : (ofRat q).num = 0 ↔ q = 0 := by
  simp [ofRat]

theorem fits_zero_one : (⟨0, 1⟩ : rational_constant).fits := by decide

theorem fits_one_one : (⟨1, 1⟩ : rational_constant).fits := by decide

end rational_constant

/-! ## Lemmas: sequences and sets -/

theorem all_iff (values : List Bool) : all values = true ↔ ∀ v ∈ values, v = true := by
  unfold all
  rw [decide_eq_true_iff]
  induction values with
  | nil => simp
  | cons v vs ih =>
    simp only [List.map_cons, List.cons.injEq, List.mem_cons, forall_eq_or_imp]
    rw [← ih]
    cases v <;> simp

namespace seq

variable {α : Type}

theorem contains_iff (s : List α) (pred : α → Bool) :
    contains s pred = true ↔ ∃ x ∈ s, pred x = true := by
  induction s with
  | nil => simp [contains]
  | cons h t ih => simp [contains, ih]

theorem contains_eq_false_iff (s : List α) (pred : α → Bool) :
    contains s pred = false ↔ ∀ x ∈ s, pred x = false := by
  rw [← Bool.not_eq_true, contains_iff]
  simp

theorem remove_if_impl_eq (s : List α) (pred : α → Bool) (found : Bool) (foundWhat : Option α) :
    remove_if_impl s pred found foundWhat =
      (if found then [] else foundWhat.toList) ++ s.filter (fun x => !pred x) := by
  induction s generalizing found foundWhat with
  | nil => cases found <;> cases foundWhat <;> simp [remove_if_impl]
  | cons h t ih =>
    cases found <;> cases foundWhat <;> simp only [remove_if_impl, prepend, ih] <;>
      cases hp : pred h <;> simp [hp]

theorem remove_if_eq_filter (s : List α) (pred : α → Bool) :
    remove_if s pred = s.filter (fun x => !pred x) := by
  simp [remove_if, remove_if_impl_eq]

theorem transform_if_eq_map (s : List α) (pred : α → Bool) (transf : α → Option α)
    (g : α → α) (h : ∀ x ∈ s, pred x = true → transf x = some (g x)) :
    transform_if s pred transf = some (s.map fun x => if pred x then g x else x) := by
  unfold transform_if
  induction s with
  | nil => rfl
  | cons a t ih =>
    have ht : ∀ x ∈ t, pred x = true → transf x = some (g x) :=
      fun x hx => h x (List.mem_cons_of_mem _ hx)
    rw [List.mapM_cons, ih ht]
    cases hp : pred a
    · simp [hp]
    · simp [h a (List.mem_cons_self _ _) hp, hp]

theorem transform_eq_map (s : List α) (transf : α → Option α)
    (g : α → α) (h : ∀ x ∈ s, transf x = some (g x)) :
    transform s transf = some (s.map g) := by
  unfold transform
  rw [transform_if_eq_map s _ transf g (fun x hx _ => h x hx)]
  simp

end seq

namespace uset

variable {α : Type}

theorem equal_iff [DecidableEq α] (a b : List α) :
    equal a b = true ↔ a.length = b.length ∧ ∀ x ∈ a, x ∈ b := by
  unfold equal
  rw [Bool.and_eq_true, decide_eq_true_iff, all_iff]
  simp only [List.mem_map, forall_exists_index, and_imp, forall_apply_eq_imp_iff₂,
    seq.contains_iff, decide_eq_true_eq, exists_eq_right']

theorem equal_iff_perm [DecidableEq α] {a b : List α} (ha : a.Nodup) :
    equal a b = true ↔ a.Perm b := by
  rw [equal_iff]
  constructor
  · rintro ⟨hl, hs⟩
    exact (List.subperm_of_subset ha hs).perm_of_length_le (le_of_eq hl.symm)
  · intro hp
    exact ⟨hp.length_eq, fun x hx => hp.subset hx⟩

theorem equal_comm [DecidableEq α] {a b : List α} (ha : a.Nodup) (hb : b.Nodup) :
    equal a b = equal b a := by
  rw [Bool.eq_iff_iff, equal_iff_perm ha, equal_iff_perm hb]
  exact ⟨List.Perm.symm, List.Perm.symm⟩

end uset


/-! ## Lemmas: dimension algebra -/

namespace impl

open rational_constant

theorem is_one_iff {d : dimension_factor} (h : d.power.valid) :
    is_one d = true ↔ d.power.num = 0 := by
  unfold is_one
  rw [rational_constant.eq_iff]
  constructor
  · intro h0; rw [h0]
  · intro h0
    obtain ⟨hd, hg⟩ := (valid_iff _).mp h
    rw [h0, Int.gcd_zero_left] at hg
    cases hp : d.power with
    | mk n m =>
      rw [hp] at h0 hd hg
      simp only at h0 hd hg
      have hm : m = 1 := by omega
      rw [h0, hm]

theorem remove_ones_eq_filter (s : List dimension_factor) :
    remove_ones s = s.filter (fun d => !is_one d) :=
  seq.remove_if_eq_filter s is_one

theorem factor_mul_eq {u h : dimension_factor} (hr : is_related u h = true)
    (hu : u.power.den ≠ 0) (hh : h.power.den ≠ 0) (hfu : u.power.fits) (hfh : h.power.fits)
    (hf : (ofRat (u.power.toRat + h.power.toRat)).fits) :
    mul u h = some ⟨u.tag, ofRat (u.power.toRat + h.power.toRat)⟩ := by
  simp [mul, hr, rational_constant.add_of_fits hu hh hfu hfh hf]

theorem factor_pow_eq {p : rational_constant} {d : dimension_factor}
    (hd : d.power.den ≠ 0) (hp : p.den ≠ 0) (hfd : d.power.fits) (hfp : p.fits)
    (hf : (ofRat (d.power.toRat * p.toRat)).fits) :
    pow p d = some ⟨d.tag, ofRat (d.power.toRat * p.toRat)⟩ := by
  simp [pow, rational_constant.mul_of_fits hd hp hfd hfp hf]

end impl

theorem exponent_in_of_not_mem {s : List dimension_factor} {t : Tag}
    (h : t ∉ s.map (fun f => f.tag)) : exponent_in s t = ⟨0, 1⟩ := by
  induction s with
  | nil => rfl
  | cons f rest ih =>
    simp only [List.map_cons, List.mem_cons, not_or] at h
    simp only [exponent_in]
    rw [if_neg (fun e => h.1 e.symm), ih h.2]

theorem exponent_in_valid {s : List dimension_factor} (hs : ∀ f ∈ s, f.power.valid) (t : Tag) :
    (exponent_in s t).valid := by
  induction s with
  | nil => exact (rational_constant.valid_iff ⟨0, 1⟩).mpr (by decide)
  | cons f rest ih =>
    simp only [exponent_in]
    split
    · exact hs f (List.mem_cons_self _ _)
    · exact ih (fun g hg => hs g (List.mem_cons_of_mem _ hg))

theorem exponent_in_mem {s : List dimension_factor}
    (hu : (s.map (fun f => f.tag)).Nodup) {f : dimension_factor} (hf : f ∈ s) :
    exponent_in s f.tag = f.power := by
  induction s with
  | nil => cases hf
  | cons g rest ih =>
    simp only [List.map_cons, List.nodup_cons] at hu
    simp only [exponent_in]
    rcases List.mem_cons.mp hf with rfl | hmem
    · simp
    · have hne : g.tag ≠ f.tag := by
        intro e
        exact hu.1 (e ▸ List.mem_map_of_mem (fun f => f.tag) hmem)
      rw [if_neg hne, ih hu.2 hmem]

theorem exponent_in_num_ne_zero {s : List dimension_factor} {t : Tag}
    (h : (exponent_in s t).num ≠ 0) : t ∈ s.map (fun f => f.tag) := by
  by_contra hn
  rw [exponent_in_of_not_mem hn] at h
  exact h rfl

theorem mem_iff_exponent_in {s : List dimension_factor}
    (hu : (s.map (fun f => f.tag)).Nodup) (hz : ∀ f ∈ s, f.power.num ≠ 0)
    (f : dimension_factor) :
    f ∈ s ↔ exponent_in s f.tag = f.power ∧ f.power.num ≠ 0 := by
  constructor
  · intro hf
    exact ⟨exponent_in_mem hu hf, hz f hf⟩
  · rintro ⟨he, hn⟩
    have ht : f.tag ∈ s.map (fun f => f.tag) := exponent_in_num_ne_zero (he ▸ hn)
    obtain ⟨g, hg, hgt⟩ := List.mem_map.mp ht
    have hgp : g.power = f.power := by
      have := exponent_in_mem hu hg
      rw [hgt, he] at this
      exact this.symm
    have : g = f := by
      cases g; cases f
      simp only [dimension_factor.mk.injEq]
      exact ⟨hgt, hgp⟩
    exact this ▸ hg

theorem tag_mem_iff_exponent_in {s : List dimension_factor}
    (hu : (s.map (fun f => f.tag)).Nodup) (hz : ∀ f ∈ s, f.power.num ≠ 0) (t : Tag) :
    t ∈ s.map (fun f => f.tag) ↔ (exponent_in s t).num ≠ 0 := by
  constructor
  · intro ht
    obtain ⟨g, hg, hgt⟩ := List.mem_map.mp ht
    rw [← hgt, exponent_in_mem hu hg]
    exact hz g hg
  · exact exponent_in_num_ne_zero

theorem exponent_in_remove_ones {s : List dimension_factor}
    (hs : ∀ f ∈ s, f.power.valid) (hu : (s.map (fun f => f.tag)).Nodup) (t : Tag) :
    exponent_in (impl.remove_ones s) t = exponent_in s t := by
  rw [impl.remove_ones_eq_filter]
  induction s with
  | nil => rfl
  | cons f rest ih =>
    simp only [List.map_cons, List.nodup_cons] at hu
    have hrest := ih (fun g hg => hs g (List.mem_cons_of_mem _ hg)) hu.2
    have hf := hs f (List.mem_cons_self _ _)
    simp only [List.filter_cons]
    cases h1 : impl.is_one f
    · simp only [Bool.not_false, if_true, exponent_in, hrest]
    · simp only [Bool.not_true, Bool.false_eq_true, if_false, exponent_in, hrest]
      split
      · next e =>
        rw [exponent_in_of_not_mem (e ▸ hu.1)]
        have h0 := (impl.is_one_iff hf).mp h1
        unfold impl.is_one at h1
        exact ((rational_constant.eq_iff _ _).mp h1).symm
      · rfl

theorem remove_ones_valid {s : List dimension_factor} (hs : ∀ f ∈ s, f.power.valid) :
    ∀ f ∈ impl.remove_ones s, f.power.valid := by
  intro f hf
  rw [impl.remove_ones_eq_filter] at hf
  exact hs f (List.mem_of_mem_filter hf)

theorem remove_ones_nodup {s : List dimension_factor} (hu : (s.map (fun f => f.tag)).Nodup) :
    ((impl.remove_ones s).map (fun f => f.tag)).Nodup := by
  rw [impl.remove_ones_eq_filter]
  exact hu.sublist ((List.filter_sublist s).map _)

theorem remove_ones_no_zero {s : List dimension_factor} (hs : ∀ f ∈ s, f.power.valid) :
    ∀ f ∈ impl.remove_ones s, f.power.num ≠ 0 := by
  intro f hf
  rw [impl.remove_ones_eq_filter, List.mem_filter] at hf
  intro h0
  have := (impl.is_one_iff (hs f hf.1)).mpr h0
  simp [this] at hf

theorem exponent_in_append (s r : List dimension_factor) (t : Tag) :
    exponent_in (s ++ r) t =
      if t ∈ s.map (fun f => f.tag) then exponent_in s t else exponent_in r t := by
  induction s with
  | nil => simp [exponent_in]
  | cons f rest ih =>
    simp only [List.cons_append, exponent_in, List.map_cons, List.mem_cons]
    by_cases e : f.tag = t
    · simp [e]
    · have e2 : ¬ t = f.tag := fun h => e h.symm
      simp [e, e2, ih]

theorem exponent_in_map_merge (s : List dimension_factor) (h : dimension_factor) (t : Tag) :
    exponent_in (s.map fun u => if impl.is_related u h then
        (⟨u.tag, rational_constant.ofRat (u.power.toRat + h.power.toRat)⟩ : dimension_factor)
        else u) t =
      if h.tag = t ∧ t ∈ s.map (fun f => f.tag) then
        rational_constant.ofRat ((exponent_in s t).toRat + h.power.toRat)
      else exponent_in s t := by
  induction s with
  | nil => simp [exponent_in]
  | cons f rest ih =>
    simp only [List.map_cons, exponent_in, List.mem_cons]
    by_cases e : f.tag = t
    · by_cases r : f.tag = h.tag
      · have : h.tag = t := r ▸ e
        simp [impl.is_related, e, r, this]
      · have hne : ¬ h.tag = t := fun x => r (e.trans x.symm)
        have hne2 : ¬ t = h.tag := fun x => hne x.symm
        simp [impl.is_related, e, hne, hne2]
    · have e2 : ¬ t = f.tag := fun x => e x.symm
      have e3 : (if impl.is_related f h = true then
          (⟨f.tag, rational_constant.ofRat (f.power.toRat + h.power.toRat)⟩ : dimension_factor)
          else f).tag = f.tag := by
        split <;> rfl
      rw [e3, if_neg e, if_neg e, ih]
      simp [e2]

theorem toRat_zero_one : (⟨0, 1⟩ : rational_constant).toRat = 0 := by
  simp [rational_constant.toRat]

theorem insert_spec {s : List dimension_factor} {h : dimension_factor}
    (hs : ∀ f ∈ s, f.power.valid) (hu : (s.map (fun f => f.tag)).Nodup)
    (hh : h.power.valid)
    (hfit : h.tag ∈ s.map (fun f => f.tag) → (exponent_in s h.tag).fits ∧ h.power.fits ∧
      (rational_constant.ofRat ((exponent_in s h.tag).toRat + h.power.toRat)).fits) :
    ∃ l, uset.insert s h impl.is_related impl.mul = some l ∧
      (∀ f ∈ l, f.power.valid) ∧ (l.map (fun f => f.tag)).Nodup ∧
      ∀ t, exponent_in l t = rational_constant.ofRat
        ((exponent_in s t).toRat + if h.tag = t then h.power.toRat else 0) := by
  have hhd : h.power.den ≠ 0 := ne_of_gt (rational_constant.valid_den_pos hh)
  have htr : seq.transform_if s (fun u => impl.is_related u h) (fun u => impl.mul u h) =
      some (s.map fun u => if impl.is_related u h then
        (⟨u.tag, rational_constant.ofRat (u.power.toRat + h.power.toRat)⟩ : dimension_factor)
        else u) :=
    seq.transform_if_eq_map s _ _ _ (fun x hx hr => by
      have ht : x.tag = h.tag := by simpa [impl.is_related] using hr
      have hm : h.tag ∈ s.map (fun f => f.tag) := ht ▸ List.mem_map_of_mem (fun f => f.tag) hx
      have hx2 : exponent_in s h.tag = x.power := ht ▸ exponent_in_mem hu hx
      obtain ⟨f1, f2, f3⟩ := hfit hm
      rw [hx2] at f1 f3
      exact impl.factor_mul_eq hr (ne_of_gt (rational_constant.valid_den_pos (hs x hx))) hhd
        f1 f2 f3)
  have hkeep : ∀ t, exponent_in s t =
      rational_constant.ofRat ((exponent_in s t).toRat + 0) := by
    intro t
    rw [add_zero, rational_constant.ofRat_toRat (exponent_in_valid hs t)]
  unfold uset.insert
  rw [htr, Option.some_bind]
  cases hc : seq.contains s (fun u => impl.is_related u h)
  · -- no related factor: `h` is appended
    have hnot : h.tag ∉ s.map (fun f => f.tag) := by
      rw [seq.contains_eq_false_iff] at hc
      intro hm
      obtain ⟨g, hg, hgt⟩ := List.mem_map.mp hm
      have := hc g hg
      simp [impl.is_related, hgt] at this
    simp only [Bool.false_eq_true, if_false]
    refine ⟨seq.append s h, rfl, ?_, ?_, ?_⟩
    · intro f hf
      rcases List.mem_append.mp hf with hf | hf
      · exact hs f hf
      · rw [List.mem_singleton.mp hf]; exact hh
    · unfold seq.append
      rw [List.map_append, List.nodup_append]
      refine ⟨hu, List.nodup_singleton _, ?_⟩
      intro a ha hb
      rw [List.map_singleton, List.mem_singleton] at hb
      exact hnot (hb ▸ ha)
    · intro t
      unfold seq.append
      rw [exponent_in_append]
      by_cases e : h.tag = t
      · have hnt : t ∉ s.map (fun f => f.tag) := e ▸ hnot
        rw [if_neg hnt, if_pos e, exponent_in_of_not_mem hnt, toRat_zero_one, zero_add]
        simp only [exponent_in, if_pos e]
        exact (rational_constant.ofRat_toRat hh).symm
      · rw [if_neg e, ← hkeep]
        split
        · rfl
        · next hnt =>
          rw [exponent_in_of_not_mem hnt]
          simp [exponent_in, e]
  · -- a related factor exists: its power is replaced by the sum
    have hmem : h.tag ∈ s.map (fun f => f.tag) := by
      obtain ⟨g, hg, hgr⟩ := (seq.contains_iff _ _).mp hc
      simp only [impl.is_related, decide_eq_true_eq] at hgr
      exact hgr ▸ List.mem_map_of_mem (fun f => f.tag) hg
    simp only [if_true]
    refine ⟨_, rfl, ?_, ?_, ?_⟩
    · intro f hf
      obtain ⟨u, hu', rfl⟩ := List.mem_map.mp hf
      split
      · exact rational_constant.valid_ofRat _
      · exact hs u hu'
    · have : (s.map fun u => if impl.is_related u h then
          (⟨u.tag, rational_constant.ofRat (u.power.toRat + h.power.toRat)⟩ : dimension_factor)
          else u).map (fun f => f.tag) = s.map (fun f => f.tag) := by
        rw [List.map_map]
        apply List.map_congr_left
        intro u _
        simp only [Function.comp]
        split <;> rfl
      rw [this]
      exact hu
    · intro t
      rw [exponent_in_map_merge]
      by_cases e : h.tag = t
      · rw [if_pos ⟨e, e ▸ hmem⟩, if_pos e]
      · rw [if_neg (fun x => e x.1), if_neg e]
        exact hkeep t

theorem multiply_spec {a b : List dimension_factor}
    (ha : ∀ f ∈ a, f.power.valid) (hua : (a.map (fun f => f.tag)).Nodup)
    (hza : ∀ f ∈ a, f.power.num ≠ 0)
    (hb : ∀ f ∈ b, f.power.valid) (hub : (b.map (fun f => f.tag)).Nodup)
    (hfit : ∀ f ∈ b, f.tag ∈ a.map (fun g => g.tag) → (exponent_in a f.tag).fits ∧
      f.power.fits ∧
      (rational_constant.ofRat ((exponent_in a f.tag).toRat + f.power.toRat)).fits) :
    ∃ r, impl.multiply a b = some r ∧
      (∀ f ∈ r, f.power.valid) ∧ (r.map (fun f => f.tag)).Nodup ∧
      (∀ f ∈ r, f.power.num ≠ 0) ∧
      ∀ t, exponent_in r t = rational_constant.ofRat
        ((exponent_in a t).toRat + (exponent_in b t).toRat) := by
  induction b with
  | nil =>
    refine ⟨a, rfl, ha, hua, hza, ?_⟩
    intro t
    simp only [exponent_in]
    rw [toRat_zero_one, add_zero, rational_constant.ofRat_toRat (exponent_in_valid ha t)]
  | cons h tl ih =>
    simp only [List.map_cons, List.nodup_cons] at hub
    obtain ⟨r, hr, hrv, hru, hrz, hre⟩ :=
      ih (fun f hf => hb f (List.mem_cons_of_mem _ hf)) hub.2
        (fun f hf => hfit f (List.mem_cons_of_mem _ hf))
    have hrh : exponent_in r h.tag = exponent_in a h.tag := by
      rw [hre, exponent_in_of_not_mem hub.1, toRat_zero_one, add_zero,
        rational_constant.ofRat_toRat (exponent_in_valid ha _)]
    have hmem : h.tag ∈ r.map (fun f => f.tag) → h.tag ∈ a.map (fun f => f.tag) := by
      intro hm
      rw [tag_mem_iff_exponent_in hru hrz, hrh] at hm
      exact exponent_in_num_ne_zero hm
    obtain ⟨l, hl, hlv, hlu, hle⟩ := insert_spec hrv hru (hb h (List.mem_cons_self _ _))
      (fun hm => by
        rw [hrh]
        exact hfit h (List.mem_cons_self _ _) (hmem hm))
    refine ⟨impl.remove_ones l, ?_, remove_ones_valid hlv, remove_ones_nodup hlu,
      remove_ones_no_zero hlv, ?_⟩
    · simp [impl.multiply, hr, hl]
    · intro t
      rw [exponent_in_remove_ones hlv hlu, hle, hre, rational_constant.toRat_ofRat]
      simp only [exponent_in]
      by_cases e : h.tag = t
      · have hz : exponent_in tl t = ⟨0, 1⟩ := exponent_in_of_not_mem (e ▸ hub.1)
        rw [if_pos e, if_pos e, hz, toRat_zero_one, add_zero]
      · rw [if_neg e, if_neg e, add_zero]

theorem nodup_of_unique_tags {s : List dimension_factor}
    (hu : (s.map (fun f => f.tag)).Nodup) : s.Nodup :=
  List.Nodup.of_map _ hu

theorem equal_of_exponent_in {r s : List dimension_factor}
    (hur : (r.map (fun f => f.tag)).Nodup) (hzr : ∀ f ∈ r, f.power.num ≠ 0)
    (hus : (s.map (fun f => f.tag)).Nodup) (hzs : ∀ f ∈ s, f.power.num ≠ 0)
    (he : ∀ t, exponent_in r t = exponent_in s t) :
    uset.equal r s = true := by
  rw [uset.equal_iff_perm (nodup_of_unique_tags hur),
    List.perm_ext_iff_of_nodup (nodup_of_unique_tags hur) (nodup_of_unique_tags hus)]
  intro f
  rw [mem_iff_exponent_in hur hzr, mem_iff_exponent_in hus hzs, he]

theorem pow_spec {a : dimension_product} {p : rational_constant}
    (ha : a.instantiated) (hp : p.valid)
    (hfit : ∀ d ∈ a.factors, d.power.fits ∧ p.fits ∧
      (rational_constant.ofRat (d.power.toRat * p.toRat)).fits) :
    a.pow p = some ⟨impl.remove_ones (a.factors.map fun d =>
      (⟨d.tag, rational_constant.ofRat (d.power.toRat * p.toRat)⟩ : dimension_factor))⟩ := by
  unfold dimension_product.pow
  rw [seq.transform_eq_map a.factors (impl.pow p) _ (fun d hd =>
    impl.factor_pow_eq (ne_of_gt (rational_constant.valid_den_pos (ha d hd)))
      (ne_of_gt (rational_constant.valid_den_pos hp)) (hfit d hd).1 (hfit d hd).2.1
      (hfit d hd).2.2)]
  rfl

theorem pow_canonical {a : dimension_product} {p : rational_constant}
    (ha : a.instantiated) (hu : a.unique_tags) (hp : p.valid)
    (hfit : ∀ d ∈ a.factors, d.power.fits ∧ p.fits ∧
      (rational_constant.ofRat (d.power.toRat * p.toRat)).fits) :
    ∃ r, a.pow p = some r ∧ r.instantiated ∧ r.canonical := by
  refine ⟨_, pow_spec ha hp hfit, ?_, ?_, ?_⟩
  · apply remove_ones_valid
    intro f hf
    obtain ⟨d, _, rfl⟩ := List.mem_map.mp hf
    exact rational_constant.valid_ofRat _
  · apply remove_ones_nodup
    rw [List.map_map]
    exact hu
  · apply remove_ones_no_zero
    intro f hf
    obtain ⟨d, _, rfl⟩ := List.mem_map.mp hf
    exact rational_constant.valid_ofRat _

theorem mul_canonical {a b : dimension_product}
    (ha : a.instantiated) (hb : b.instantiated) (hac : a.canonical) (hub : b.unique_tags)
    (hfit : ∀ t, a.has_tag t → b.has_tag t → (a.exponent t).fits ∧ (b.exponent t).fits ∧
      (rational_constant.ofRat ((a.exponent t).toRat + (b.exponent t).toRat)).fits) :
    ∃ r, a.mul b = some r ∧ r.instantiated ∧ r.canonical ∧
      ∀ t, r.exponent t = rational_constant.ofRat
        ((a.exponent t).toRat + (b.exponent t).toRat) := by
  obtain ⟨r, hr, hrv, hru, hrz, hre⟩ := multiply_spec ha hac.1 hac.2 hb hub
    (fun f hf hm => by
      have h := hfit f.tag hm (List.mem_map_of_mem (fun g => g.tag) hf)
      unfold dimension_product.exponent at h
      rw [exponent_in_mem hub hf] at h
      exact h)
  exact ⟨⟨r⟩, by simp [dimension_product.mul, hr], hrv, ⟨hru, hrz⟩, hre⟩


/-! ## Lemmas: `intmax_t` and payload types -/

namespace intmax_t

theorem mul_of_representable {x y : Int} (h : representable (x * y)) :
    mul x y = some (x * y) := by
  unfold mul
  rw [if_pos h]

theorem mul_of_not_representable {x y : Int} (h : ¬ representable (x * y)) :
    mul x y = none := by
  unfold mul
  rw [if_neg h]

theorem product_eq_some {x y z : Int} (h : mul x y = some z) : z = x * y ∧ representable (x * y) := by
  unfold mul at h
  by_cases hr : representable (x * y)
  · rw [if_pos hr, Option.some.injEq] at h
    exact ⟨h.symm, hr⟩
  · rw [if_neg hr] at h
    cases h

theorem div_of_pos (x : Int) {y : Int} (hy : 0 < y) : div x y = some (x.tdiv y) := by
  unfold div
  rw [if_neg]
  omega

theorem div_zero (x : Int) : div x 0 = none := by
  unfold div
  rw [if_pos (Or.inl rfl)]

end intmax_t

namespace payload_type

theorem size_int : (2147483647 : Int) - -2147483648 + 1 = 4294967296 := by norm_num

theorem size_intmax : (9223372036854775807 : Int) - -9223372036854775808 + 1 =
    18446744073709551616 := by norm_num

theorem cast_of_holds {T : payload_type} {x : Int} (h : T.holds x) : T.cast x = x := by
  unfold holds at h
  unfold cast
  cases T
  · simp only [min, max] at h ⊢
    rw [size_int]
    omega
  · simp only [min, max, intmax_min, intmax_max] at h ⊢
    rw [size_intmax]
    omega

theorem holds_cast (T : payload_type) (x : Int) : T.holds (T.cast x) := by
  unfold holds cast
  cases T
  · simp only [min, max]
    rw [size_int]
    omega
  · simp only [min, max, intmax_min, intmax_max]
    rw [size_intmax]
    omega

theorem representable_of_holds {T : payload_type} {x : Int} (h : T.holds x) :
    representable x := by
  unfold holds at h
  unfold representable intmax_min intmax_max
  cases T
  · simp only [min, max] at h
    omega
  · simp only [min, max, intmax_min, intmax_max] at h
    omega

theorem holds_intmax_iff (x : Int) : intmax_t.holds x ↔ representable x := Iff.rfl

theorem common_self (T : payload_type) : common T T = T := by
  cases T <;> rfl

theorem holds_common_left {TA : payload_type} (TB : payload_type) {x : Int} (h : TA.holds x) :
    (common TA TB).holds x := by
  cases TA <;> cases TB
  · exact h
  · exact representable_of_holds h
  · exact h
  · exact h

theorem holds_common_right (TA : payload_type) {TB : payload_type} {x : Int} (h : TB.holds x) :
    (common TA TB).holds x := by
  cases TA <;> cases TB
  · exact h
  · exact h
  · exact representable_of_holds h
  · exact h

theorem arith_of_holds {T : payload_type} {z : Int} (h : T.holds z) : T.arith z = some z := by
  unfold arith
  rw [if_pos h]

theorem arith_of_not_holds {T : payload_type} {z : Int} (h : ¬ T.holds z) : T.arith z = none := by
  unfold arith
  rw [if_neg h]

end payload_type

/-! ## Lemmas: heterogeneous operations -/

namespace impl

theorem gcd_eq {A B : Int} (hA : 0 ≤ A) (hB : 0 ≤ B) :
    gcd A B = some (Int.gcd A B : Int) := by
  simp [gcd, hA, hB, mjk.sgcd_of_nonneg hA hB]

theorem gcd_eq_none {A B : Int} (h : A < 0 ∨ B < 0) : gcd A B = none := by
  unfold gcd
  rw [if_neg]
  omega

theorem lcm_eq {A B : Int} (hA : 0 < A) (hB : 0 < B) :
    lcm A B = if representable (Int.lcm A B : Int) then some (Int.lcm A B : Int) else none := by
  have hg0 : (Int.gcd A B : Int) ≠ 0 := by
    have : Int.gcd A B ≠ 0 := by
      rw [Ne, Int.gcd_eq_zero_iff]
      omega
    exact_mod_cast this
  have hgpos : (0 : Int) < (Int.gcd A B : Int) := by
    have h0 : (0 : Int) ≤ (Int.gcd A B : Int) := Int.natCast_nonneg _
    omega
  have hprod : (Int.gcd A B : Int) * (Int.lcm A B : Int) = A * B := by
    have := Int.gcd_mul_lcm A B
    have h2 : ((Int.gcd A B * Int.lcm A B : Nat) : Int) = ((A * B).natAbs : Int) := by
      rw [this]
    rw [Int.natAbs_of_nonneg (le_of_lt (mul_pos hA hB))] at h2
    exact_mod_cast h2
  have key : ∀ x y : Int, x * y = A * B → (Int.gcd A B : Int) ∣ x →
      x.tdiv (Int.gcd A B : Int) * y = (Int.lcm A B : Int) := by
    intro x y hxy hdvd
    rw [Int.tdiv_eq_ediv_of_dvd hdvd]
    apply mul_left_cancel₀ hg0
    rw [hprod, ← mul_assoc, Int.mul_ediv_cancel' hdvd, hxy]
  have hval : (max A B).tdiv (Int.gcd A B : Int) * min A B = (Int.lcm A B : Int) := by
    unfold max min
    by_cases h1 : A > B
    · rw [if_pos h1, if_neg (by omega)]
      exact key A B rfl Int.gcd_dvd_left
    · rw [if_neg h1]
      by_cases h2 : A < B
      · rw [if_pos h2]
        exact key B A (mul_comm _ _) Int.gcd_dvd_right
      · rw [if_neg h2]
        have : A = B := by omega
        exact key B B (by rw [this]) Int.gcd_dvd_right
  unfold lcm
  rw [gcd_eq (le_of_lt hA) (le_of_lt hB), Option.some_bind, intmax_t.div_of_pos _ hgpos,
    Option.some_bind]
  unfold intmax_t.mul
  rw [hval]

theorem lcm_of_representable {A B : Int} (hA : 0 < A) (hB : 0 < B)
    (hr : representable (Int.lcm A B : Int)) : lcm A B = some (Int.lcm A B : Int) := by
  rw [lcm_eq hA hB, if_pos hr]

end impl

theorem common_scale_valid {x y : rational_constant} (hx : x.valid) (hy : y.valid) :
    (common_scale x y).valid := by
  obtain ⟨hxd, hxg⟩ := (rational_constant.valid_iff x).mp hx
  obtain ⟨hyd, hyg⟩ := (rational_constant.valid_iff y).mp hy
  rw [rational_constant.valid_iff]
  have hl : 0 < Int.lcm x.den y.den :=
    Nat.lcm_pos (Int.natAbs_pos.mpr (ne_of_gt hxd)) (Int.natAbs_pos.mpr (ne_of_gt hyd))
  refine ⟨?_, ?_⟩
  · show (0 : Int) < (Int.lcm x.den y.den : Int)
    exact_mod_cast hl
  show Int.gcd (Int.gcd x.num y.num : Int) (Int.lcm x.den y.den : Int) = 1
  rw [Int.gcd_natCast_natCast]
  have h1 : Nat.Coprime (Int.gcd x.num y.num) x.den.natAbs :=
    Nat.Coprime.coprime_dvd_left (Nat.gcd_dvd_left _ _) hxg
  have h2 : Nat.Coprime (Int.gcd x.num y.num) y.den.natAbs :=
    Nat.Coprime.coprime_dvd_left (Nat.gcd_dvd_right _ _) hyg
  exact Nat.Coprime.coprime_dvd_right (Nat.lcm_dvd_mul _ _) (Nat.Coprime.mul_right h1 h2)


theorem num_gcd_ne_zero {x y : rational_constant} (h : x.num ≠ 0 ∨ y.num ≠ 0) :
    (Int.gcd x.num y.num : Int) ≠ 0 := by
  have : Int.gcd x.num y.num ≠ 0 := by
    rw [Ne, Int.gcd_eq_zero_iff]
    rintro ⟨h1, h2⟩
    rcases h with h | h
    · exact h h1
    · exact h h2
  exact_mod_cast this

theorem den_gcd_ne_zero {x y : rational_constant} (hx : x.valid) :
    (Int.gcd x.den y.den : Int) ≠ 0 := by
  have : 0 < Int.gcd x.den y.den :=
    Int.gcd_pos_of_ne_zero_left _ (ne_of_gt (rational_constant.valid_den_pos hx))
  exact_mod_cast (ne_of_gt this)

theorem natAbs_ediv_of_dvd {a b : Int} (h : b ∣ a) : (a / b).natAbs = a.natAbs / b.natAbs := by
  by_cases hb : b = 0
  · subst hb; simp
  · obtain ⟨c, rfl⟩ := h
    rw [Int.mul_ediv_cancel_left _ hb, Int.natAbs_mul,
      Nat.mul_div_cancel_left _ (Int.natAbs_pos.mpr hb)]

theorem rescale_factor_coprime {x y : rational_constant} (hx : x.valid) (hy : y.valid)
    (h : x.num ≠ 0 ∨ y.num ≠ 0) :
    Int.gcd (rescale_factor x y) (rescale_factor y x) = 1 := by
  obtain ⟨hxd, hxg⟩ := (rational_constant.valid_iff x).mp hx
  obtain ⟨hyd, hyg⟩ := (rational_constant.valid_iff y).mp hy
  have hgn : 0 < Nat.gcd x.num.natAbs y.num.natAbs := by
    have := num_gcd_ne_zero h
    exact Nat.pos_of_ne_zero (by exact_mod_cast this)
  have hgd : 0 < Nat.gcd x.den.natAbs y.den.natAbs :=
    Nat.gcd_pos_of_pos_left _ (Int.natAbs_pos.mpr (ne_of_gt hxd))
  have e1 : (rescale_factor x y).natAbs =
      (x.num.natAbs / Nat.gcd x.num.natAbs y.num.natAbs) *
        (y.den.natAbs / Nat.gcd x.den.natAbs y.den.natAbs) := by
    unfold rescale_factor
    rw [Int.natAbs_mul, natAbs_ediv_of_dvd Int.gcd_dvd_left,
      natAbs_ediv_of_dvd Int.gcd_dvd_right]
    rfl
  have e2 : (rescale_factor y x).natAbs =
      (y.num.natAbs / Nat.gcd x.num.natAbs y.num.natAbs) *
        (x.den.natAbs / Nat.gcd x.den.natAbs y.den.natAbs) := by
    unfold rescale_factor
    rw [Int.natAbs_mul, natAbs_ediv_of_dvd Int.gcd_dvd_left,
      natAbs_ediv_of_dvd Int.gcd_dvd_right, Int.gcd_comm y.num, Int.gcd_comm y.den]
    rfl
  show Nat.gcd (rescale_factor x y).natAbs (rescale_factor y x).natAbs = 1
  rw [e1, e2]
  have c1 := Nat.coprime_div_gcd_div_gcd hgn
  have c2 := Nat.coprime_div_gcd_div_gcd hgd
  have d1 : x.num.natAbs / Nat.gcd x.num.natAbs y.num.natAbs ∣ x.num.natAbs :=
    Nat.div_dvd_of_dvd (Nat.gcd_dvd_left _ _)
  have d2 : y.num.natAbs / Nat.gcd x.num.natAbs y.num.natAbs ∣ y.num.natAbs :=
    Nat.div_dvd_of_dvd (Nat.gcd_dvd_right _ _)
  have d3 : x.den.natAbs / Nat.gcd x.den.natAbs y.den.natAbs ∣ x.den.natAbs :=
    Nat.div_dvd_of_dvd (Nat.gcd_dvd_left _ _)
  have d4 : y.den.natAbs / Nat.gcd x.den.natAbs y.den.natAbs ∣ y.den.natAbs :=
    Nat.div_dvd_of_dvd (Nat.gcd_dvd_right _ _)
  have c3 : Nat.Coprime (x.num.natAbs / Nat.gcd x.num.natAbs y.num.natAbs)
      (x.den.natAbs / Nat.gcd x.den.natAbs y.den.natAbs) :=
    Nat.Coprime.coprime_dvd_left d1 (Nat.Coprime.coprime_dvd_right d3 hxg)
  have c4 : Nat.Coprime (y.den.natAbs / Nat.gcd x.den.natAbs y.den.natAbs)
      (y.num.natAbs / Nat.gcd x.num.natAbs y.num.natAbs) :=
    (Nat.Coprime.coprime_dvd_left d2 (Nat.Coprime.coprime_dvd_right d4 hyg)).symm
  exact Nat.Coprime.mul (Nat.Coprime.mul_right c1 c3) (Nat.Coprime.mul_right c4 c2.symm)

theorem rescale_factor_mul_common_scale_of_ne {x y : rational_constant}
    (hx : x.valid) (hy : y.valid) (h : x.num ≠ 0 ∨ y.num ≠ 0) :
    (rescale_factor x y : ℚ) * (common_scale x y).toRat = x.toRat := by
  have hxd := rational_constant.valid_den_pos hx
  have hyd := rational_constant.valid_den_pos hy
  obtain ⟨u, hu⟩ : (Int.gcd x.num y.num : Int) ∣ x.num := Int.gcd_dvd_left
  obtain ⟨v, hv⟩ : (Int.gcd x.den y.den : Int) ∣ y.den := Int.gcd_dvd_right
  have hgn := num_gcd_ne_zero h
  have hgd : (Int.gcd x.den y.den : Int) ≠ 0 := den_gcd_ne_zero hx
  have hprod : (Int.gcd x.den y.den : Int) * (Int.lcm x.den y.den : Int) = x.den * y.den := by
    have h2 : ((Int.gcd x.den y.den * Int.lcm x.den y.den : Nat) : Int) =
        ((x.den * y.den).natAbs : Int) := by rw [Int.gcd_mul_lcm]
    rw [Int.natAbs_of_nonneg (le_of_lt (mul_pos hxd hyd))] at h2
    exact_mod_cast h2
  have hl : (Int.lcm x.den y.den : Int) = x.den * v := by
    apply mul_left_cancel₀ hgd
    rw [hprod]
    conv_lhs => rw [hv]
    ring
  have hv0 : v ≠ 0 := by
    intro h0; rw [h0, mul_zero] at hv; omega
  have hf : rescale_factor x y = u * v := by
    unfold rescale_factor
    rw [Int.ediv_eq_of_eq_mul_right hgn hu, Int.ediv_eq_of_eq_mul_right hgd hv]
  rw [hf]
  unfold common_scale rational_constant.toRat
  simp only
  rw [hl]
  conv_rhs => rw [hu]
  have hxd' : (x.den : ℚ) ≠ 0 := by exact_mod_cast (ne_of_gt hxd)
  have hv' : (v : ℚ) ≠ 0 := by exact_mod_cast hv0
  push_cast
  field_simp
  ring

theorem common_scale_comm (x y : rational_constant) : common_scale y x = common_scale x y := by
  unfold common_scale
  rw [Int.gcd_comm, Int.lcm_comm]

theorem common_scale_pos_of_ne {x y : rational_constant}
    (hx : x.valid) (hy : y.valid) (h : x.num ≠ 0 ∨ y.num ≠ 0) :
    0 < (common_scale x y).toRat := by
  have hl := rational_constant.valid_den_pos (common_scale_valid hx hy)
  have hg : 0 < (common_scale x y).num := by
    show (0 : Int) < (Int.gcd x.num y.num : Int)
    have := num_gcd_ne_zero h
    have h0 : (0 : Int) ≤ (Int.gcd x.num y.num : Int) := Int.natCast_nonneg _
    omega
  unfold rational_constant.toRat
  have h1 : (0 : ℚ) < (common_scale x y).num := by exact_mod_cast hg
  have h2 : (0 : ℚ) < (common_scale x y).den := by exact_mod_cast hl
  exact div_pos h1 h2

theorem multiple_scale_facts {x y : rational_constant} {k : Int}
    (hx : x.valid) (hy : y.valid) (hk : 0 < k) (hpy : 0 < y.num)
    (hs : x.toRat = (k : ℚ) * y.toRat) :
    0 < x.num ∧ common_scale x y = y ∧ rescale_factor x y = k ∧ rescale_factor y x = 1 := by
  obtain ⟨hxd, hxg⟩ := (rational_constant.valid_iff x).mp hx
  obtain ⟨hyd, hyg⟩ := (rational_constant.valid_iff y).mp hy
  have hxd' : (x.den : ℚ) ≠ 0 := by exact_mod_cast (ne_of_gt hxd)
  have hyd' : (y.den : ℚ) ≠ 0 := by exact_mod_cast (ne_of_gt hyd)
  -- cross-multiplied form of the hypothesis
  have hcross : x.num * y.den = k * y.num * x.den := by
    unfold rational_constant.toRat at hs
    field_simp at hs
    exact_mod_cast hs
  have hxn : 0 < x.num := by
    have h1 : 0 < k * y.num * x.den := mul_pos (mul_pos hk hpy) hxd
    rw [← hcross] at h1
    exact pos_of_mul_pos_left h1 (le_of_lt hyd)
  -- the denominator of `x` divides that of `y`, the numerator of `y` that of `x`
  have hdd : x.den ∣ y.den := by
    have h1 : x.den ∣ x.num * y.den := ⟨k * y.num, by rw [hcross]; ring⟩
    exact Int.dvd_of_dvd_mul_right_of_gcd_one h1 (by rw [Int.gcd_comm]; exact hxg)
  have hnn : y.num ∣ x.num := by
    have h1 : y.num ∣ x.num * y.den := ⟨k * x.den, by rw [hcross]; ring⟩
    exact Int.dvd_of_dvd_mul_left_of_gcd_one h1 hyg
  obtain ⟨u, hu⟩ := hnn
  obtain ⟨v, hv⟩ := hdd
  have hgn : (Int.gcd x.num y.num : Int) = y.num := by
    rw [Int.gcd_eq_right ⟨u, hu⟩, Int.natAbs_of_nonneg (le_of_lt hpy)]
  have hgd : (Int.gcd x.den y.den : Int) = x.den := by
    rw [Int.gcd_eq_left ⟨v, hv⟩, Int.natAbs_of_nonneg (le_of_lt hxd)]
  have hl : (Int.lcm x.den y.den : Int) = y.den := by
    have hprod : (Int.gcd x.den y.den : Int) * (Int.lcm x.den y.den : Int) = x.den * y.den := by
      have h2 : ((Int.gcd x.den y.den * Int.lcm x.den y.den : Nat) : Int) =
          ((x.den * y.den).natAbs : Int) := by rw [Int.gcd_mul_lcm]
      rw [Int.natAbs_of_nonneg (le_of_lt (mul_pos hxd hyd))] at h2
      exact_mod_cast h2
    rw [hgd] at hprod
    exact mul_left_cancel₀ (ne_of_gt hxd) hprod
  have huv : u * v = k := by
    have h1 : y.num * x.den * (u * v) = y.num * x.den * k := by
      calc y.num * x.den * (u * v) = (y.num * u) * (x.den * v) := by ring
        _ = x.num * y.den := by rw [← hu, ← hv]
        _ = y.num * x.den * k := by rw [hcross]; ring
    exact mul_left_cancel₀ (mul_ne_zero (ne_of_gt hpy) (ne_of_gt hxd)) h1
  refine ⟨hxn, ?_, ?_, ?_⟩
  · unfold common_scale
    rw [hgn, hl]
  · unfold rescale_factor
    rw [hgn, hgd, Int.ediv_eq_of_eq_mul_right (ne_of_gt hpy) hu,
      Int.ediv_eq_of_eq_mul_right (ne_of_gt hxd) hv, huv]
  · unfold rescale_factor
    rw [Int.gcd_comm y.num, Int.gcd_comm y.den, hgn, hgd,
      Int.ediv_self (ne_of_gt hpy), Int.ediv_self (ne_of_gt hxd)]
    rfl

theorem dimension_eq_symm {A B : dimension_product} (hA : A.unique_tags) (hB : B.unique_tags) :
    B.eq A = A.eq B :=
  uset.equal_comm (nodup_of_unique_tags hB) (nodup_of_unique_tags hA)

theorem dimension_eq_self (A : dimension_product) : A.eq A = true := by
  unfold dimension_product.eq
  rw [uset.equal_iff]
  exact ⟨rfl, fun _ h => h⟩

theorem common_scale_fits {x y : rational_constant}
    (hfx : x.fits) (hfy : y.fits) (h : x.num ≠ 0 ∨ y.num ≠ 0)
    (hl : representable (Int.lcm x.den y.den : Int)) : (common_scale x y).fits := by
  rw [rational_constant.fits_iff] at hfx hfy ⊢
  have hg0 : (0 : Int) ≤ (Int.gcd x.num y.num : Int) := Int.natCast_nonneg _
  have hl0 : (0 : Int) ≤ (Int.lcm x.den y.den : Int) := Int.natCast_nonneg _
  have hmax : (0 : Int) ≤ intmax_max := by decide
  have hg : (Int.gcd x.num y.num : Int) ≤ intmax_max := by
    rcases h with h | h
    · have h1 : Int.gcd x.num y.num ≤ x.num.natAbs :=
        Nat.le_of_dvd (Int.natAbs_pos.mpr h) (Nat.gcd_dvd_left _ _)
      have h2 : (x.num.natAbs : Int) ≤ intmax_max := by
        rw [← Int.abs_eq_natAbs, abs_le]
        exact ⟨hfx.1, hfx.2.1⟩
      have h3 : (Int.gcd x.num y.num : Int) ≤ (x.num.natAbs : Int) := by exact_mod_cast h1
      exact le_trans h3 h2
    · have h1 : Int.gcd x.num y.num ≤ y.num.natAbs :=
        Nat.le_of_dvd (Int.natAbs_pos.mpr h) (Nat.gcd_dvd_right _ _)
      have h2 : (y.num.natAbs : Int) ≤ intmax_max := by
        rw [← Int.abs_eq_natAbs, abs_le]
        exact ⟨hfy.1, hfy.2.1⟩
      have h3 : (Int.gcd x.num y.num : Int) ≤ (y.num.natAbs : Int) := by exact_mod_cast h1
      exact le_trans h3 h2
  unfold common_scale
  simp only
  exact ⟨by omega, hg, by omega, hl.2⟩

namespace impl

theorem heterop_raw_eq {β : Type} (op : payload_type → Int → Int → Option β) {a b : quantity}
    (hdim : a.unit.dimension.eq b.unit.dimension = true)
    (hva : a.unit.scale.valid) (hvb : b.unit.scale.valid)
    (hna : 0 ≤ a.unit.scale.num) (hnb : 0 ≤ b.unit.scale.num)
    (hnz : a.unit.scale.num ≠ 0 ∨ b.unit.scale.num ≠ 0) :
    heterop_raw op a b =
      (intmax_t.mul (a.unit.scale.num / (Int.gcd a.unit.scale.num b.unit.scale.num : Int))
          (b.unit.scale.den / (Int.gcd a.unit.scale.den b.unit.scale.den : Int))).bind
        fun a_scale =>
          (intmax_t.mul (b.unit.scale.num / (Int.gcd a.unit.scale.num b.unit.scale.num : Int))
              (a.unit.scale.den / (Int.gcd a.unit.scale.den b.unit.scale.den : Int))).bind
            fun b_scale =>
              (intmax_t.mul a.val a_scale).bind fun x =>
                (intmax_t.mul b.val b_scale).bind fun y =>
                  op (payload_type.common a.type b.type) (a.type.cast x) (b.type.cast y) := by
  have had := rational_constant.valid_den_pos hva
  have hbd := rational_constant.valid_den_pos hvb
  have hgn := num_gcd_ne_zero hnz
  have hgd : (Int.gcd a.unit.scale.den b.unit.scale.den : Int) ≠ 0 := den_gcd_ne_zero hva
  have hgn0 : (0 : Int) ≤ (Int.gcd a.unit.scale.num b.unit.scale.num : Int) :=
    Int.natCast_nonneg _
  have hgd0 : (0 : Int) ≤ (Int.gcd a.unit.scale.den b.unit.scale.den : Int) :=
    Int.natCast_nonneg _
  have hgnp : (0 : Int) < (Int.gcd a.unit.scale.num b.unit.scale.num : Int) := by omega
  have hgdp : (0 : Int) < (Int.gcd a.unit.scale.den b.unit.scale.den : Int) := by omega
  unfold heterop_raw
  rw [if_pos hdim, gcd_eq hna hnb, gcd_eq (le_of_lt had) (le_of_lt hbd)]
  simp only [Option.some_bind]
  rw [intmax_t.div_of_pos _ hgnp, intmax_t.div_of_pos _ hgdp, intmax_t.div_of_pos _ hgnp,
    intmax_t.div_of_pos _ hgdp]
  simp only [Option.some_bind]
  rw [Int.tdiv_eq_ediv_of_dvd (Int.gcd_dvd_left), Int.tdiv_eq_ediv_of_dvd (Int.gcd_dvd_right),
    Int.tdiv_eq_ediv_of_dvd (Int.gcd_dvd_right), Int.tdiv_eq_ediv_of_dvd (Int.gcd_dvd_left)]

theorem rescale_factor_swap (x y : rational_constant) :
    rescale_factor y x = (y.num / (Int.gcd x.num y.num : Int)) *
      (x.den / (Int.gcd x.den y.den : Int)) := by
  unfold rescale_factor
  rw [Int.gcd_comm y.num, Int.gcd_comm y.den]

theorem heterop_raw_of_representable {β : Type} (op : payload_type → Int → Int → Option β)
    {a b : quantity}
    (hdim : a.unit.dimension.eq b.unit.dimension = true)
    (hva : a.unit.scale.valid) (hvb : b.unit.scale.valid)
    (hna : 0 ≤ a.unit.scale.num) (hnb : 0 ≤ b.unit.scale.num)
    (hnz : a.unit.scale.num ≠ 0 ∨ b.unit.scale.num ≠ 0)
    (hfa : representable (rescale_factor a.unit.scale b.unit.scale))
    (hfb : representable (rescale_factor b.unit.scale a.unit.scale))
    (hx : representable (a.val * rescale_factor a.unit.scale b.unit.scale))
    (hy : representable (b.val * rescale_factor b.unit.scale a.unit.scale)) :
    heterop_raw op a b = op (payload_type.common a.type b.type)
      (a.type.cast (a.val * rescale_factor a.unit.scale b.unit.scale))
      (b.type.cast (b.val * rescale_factor b.unit.scale a.unit.scale)) := by
  rw [heterop_raw_eq op hdim hva hvb hna hnb hnz]
  rw [rescale_factor_swap a.unit.scale b.unit.scale] at hfb hy ⊢
  have e : rescale_factor a.unit.scale b.unit.scale =
      (a.unit.scale.num / (Int.gcd a.unit.scale.num b.unit.scale.num : Int)) *
        (b.unit.scale.den / (Int.gcd a.unit.scale.den b.unit.scale.den : Int)) := rfl
  rw [e] at hfa hx ⊢
  rw [intmax_t.mul_of_representable hfa, Option.some_bind, intmax_t.mul_of_representable hfb,
    Option.some_bind, intmax_t.mul_of_representable hx, Option.some_bind,
    intmax_t.mul_of_representable hy, Option.some_bind]

theorem heterop_raw_eq_none {β : Type} (op : payload_type → Int → Int → Option β)
    {a b : quantity} (hdim : a.unit.dimension.eq b.unit.dimension = false) :
    heterop_raw op a b = none := by
  simp [heterop_raw, hdim]

theorem scaled_unit_of {c : rational_constant} (hc : c.valid) (hf : c.fits)
    (d : dimension_product) : (unit_of d).scaled c = some ⟨d, c⟩ := by
  unfold unit.scaled unit_of
  simp only
  have h1 : (⟨1, 1⟩ : rational_constant).toRat = 1 := by simp [rational_constant.toRat]
  have e : rational_constant.ofRat (c.toRat * (⟨1, 1⟩ : rational_constant).toRat) = c := by
    rw [h1, mul_one, rational_constant.ofRat_toRat hc]
  rw [rational_constant.mul_eq (ne_of_gt (rational_constant.valid_den_pos hc)) (by decide) hf
    rational_constant.fits_one_one, e, rational_constant.checked_of_fits hf]
  rfl

theorem scaled_unit_of_not_fits {c : rational_constant} (hf : ¬ c.fits)
    (d : dimension_product) : (unit_of d).scaled c = none := by
  unfold unit.scaled unit_of
  simp only
  rw [rational_constant.mul_eq_none_of_not_fits (fun h => hf h.1)]
  rfl

theorem heterop_eq (op : payload_type → Int → Int → Option Int) {a b : quantity}
    (hva : a.unit.scale.valid) (hvb : b.unit.scale.valid)
    (hfa : a.unit.scale.fits) (hfb : b.unit.scale.fits)
    (hna : 0 ≤ a.unit.scale.num) (hnb : 0 ≤ b.unit.scale.num)
    (hnz : a.unit.scale.num ≠ 0 ∨ b.unit.scale.num ≠ 0)
    (hl : representable (Int.lcm a.unit.scale.den b.unit.scale.den : Int)) :
    heterop op a b = (heterop_raw op a b).map fun v =>
      ⟨payload_type.common a.type b.type, v,
        ⟨a.unit.dimension, common_scale a.unit.scale b.unit.scale⟩⟩ := by
  have had := rational_constant.valid_den_pos hva
  have hbd := rational_constant.valid_den_pos hvb
  have hcs := common_scale_valid hva hvb
  have hcf := common_scale_fits hfa hfb hnz hl
  unfold heterop
  rw [gcd_eq hna hnb, lcm_of_representable had hbd hl]
  simp only [Option.some_bind]
  have hi : rational_constant.instantiate (Int.gcd a.unit.scale.num b.unit.scale.num : Int)
      (Int.lcm a.unit.scale.den b.unit.scale.den : Int) =
      some (common_scale a.unit.scale b.unit.scale) :=
    rational_constant.instantiate_of_valid hcs
  rw [hi, Option.some_bind, scaled_unit_of hcs hcf, Option.some_bind]
  rfl

theorem heterop_eq_none_of_lcm (op : payload_type → Int → Int → Option Int) {a b : quantity}
    (hva : a.unit.scale.valid) (hvb : b.unit.scale.valid)
    (hl : ¬ representable (Int.lcm a.unit.scale.den b.unit.scale.den : Int)) :
    heterop op a b = none := by
  unfold heterop
  cases gcd a.unit.scale.num b.unit.scale.num with
  | none => rfl
  | some g =>
    rw [Option.some_bind, lcm_eq (rational_constant.valid_den_pos hva)
      (rational_constant.valid_den_pos hvb), if_neg hl]
    rfl

theorem heterop_eq_none (op : payload_type → Int → Int → Option Int) {a b : quantity}
    (hdim : a.unit.dimension.eq b.unit.dimension = false) :
    heterop op a b = none := by
  unfold heterop
  rw [heterop_raw_eq_none op hdim]
  simp

end impl


/-! ## Lemmas: `sgcd` on `intmax_t` -/

namespace mjk

theorem natAbs_tmod_le (a b : Int) : (a.tmod b).natAbs ≤ a.natAbs := by
  rw [natAbs_tmod]
  exact Nat.mod_le _ _

theorem tmod_nonpos {a : Int} (b : Int) (h : a ≤ 0) : a.tmod b ≤ 0 := by
  rcases lt_or_eq_of_le h with h1 | h1
  · obtain ⟨n, rfl⟩ := Int.eq_negSucc_of_lt_zero h1
    cases b with
    | ofNat m =>
      show -((n.succ % m : Nat) : Int) ≤ 0
      omega
    | negSucc m =>
      show -((n.succ % m.succ : Nat) : Int) ≤ 0
      omega
  · rw [h1, Int.zero_tmod]

theorem min_lt_tmod {a : Int} (b : Int) (ha : intmax_min < a) : intmax_min < a.tmod b := by
  have h := natAbs_tmod_le a b
  unfold intmax_min at ha ⊢
  rcases le_or_lt 0 a with h0 | h0
  · have := Int.tmod_nonneg b h0
    omega
  · omega

theorem min_lt_tmod_of_min_lt {b : Int} (a : Int) (hb : intmax_min < b)
    (hb2 : b ≤ intmax_max) (hb0 : b ≠ 0) : intmax_min < a.tmod b := by
  have h : (a.tmod b).natAbs < b.natAbs := by
    rw [natAbs_tmod]
    exact Nat.mod_lt _ (Int.natAbs_pos.mpr hb0)
  unfold intmax_min at hb ⊢
  unfold intmax_max at hb2
  omega

theorem sgcd_zero (a : Int) : sgcd a 0 = some a := by
  rw [sgcd, if_pos rfl]

theorem sgcd_min_neg_one : sgcd intmax_min (-1) = none := by
  rw [sgcd, if_neg (by decide), if_pos ⟨rfl, rfl⟩]

theorem sgcd_step {a b : Int} (hb : b ≠ 0) (h : ¬ (a = intmax_min ∧ b = -1)) :
    sgcd a b = sgcd b (a.tmod b) := by
  rw [sgcd, if_neg hb, if_neg h]

theorem sgcd_neg_one_min : sgcd (-1) intmax_min = none := by
  rw [sgcd_step (by decide) (by decide)]
  have e : (-1 : Int).tmod intmax_min = -1 := by decide
  rw [e, sgcd_min_neg_one]

theorem sgcd_isSome_of_min_lt {a b : Int} (ha : intmax_min < a) (hb : intmax_min < b) :
    (sgcd a b).isSome = true := by
  induction a, b using sgcd.induct with
  | case1 a => rw [sgcd_zero]; rfl
  | case2 a b hb0 hov =>
    exfalso
    rw [hov.1] at ha
    exact lt_irrefl _ ha
  | case3 a b hb0 hov ih =>
    rw [sgcd_step hb0 hov]
    exact ih hb (min_lt_tmod b ha)

theorem tmod_min_of_ne {a : Int} (ha : representable a) (h : a ≠ intmax_min) :
    a.tmod intmax_min = a := by
  have h1 := natAbs_tmod a intmax_min
  have h2 : intmax_min.natAbs = 9223372036854775808 := by decide
  rw [h2] at h1
  unfold representable intmax_max at ha
  unfold intmax_min at ha h h1 ⊢
  rcases le_or_lt 0 a with h0 | h0
  · have := Int.tmod_nonneg (-9223372036854775808) h0
    omega
  · have := tmod_nonpos (-9223372036854775808) (le_of_lt h0)
    omega

/-- On `intmax_t` arguments `sgcd` has a value except at the pairs
`(INTMAX_MIN, -1)` and `(-1, INTMAX_MIN)`. -/
theorem sgcd_eq_none_iff {a b : Int} (ha : representable a) (hb : representable b) :
    sgcd a b = none ↔ (a = intmax_min ∧ b = -1) ∨ (a = -1 ∧ b = intmax_min) := by
  constructor
  · intro h
    by_contra hne
    rw [not_or] at hne
    have hsome : (sgcd a b).isSome = true := by
      by_cases hb0 : b = 0
      · rw [hb0, sgcd_zero]; rfl
      by_cases ha1 : a = intmax_min
      · -- the dividend is `INTMAX_MIN`, the divisor is neither `0` nor `-1`
        have hb1 : b ≠ -1 := fun e => hne.1 ⟨ha1, e⟩
        rw [sgcd_step hb0 (fun e => hb1 e.2)]
        by_cases hb2 : b = intmax_min
        · rw [ha1, hb2]
          have e : intmax_min.tmod intmax_min = 0 := by decide
          rw [e, sgcd_zero]
          rfl
        · exact sgcd_isSome_of_min_lt (lt_of_le_of_ne hb.1 (Ne.symm hb2))
            (min_lt_tmod_of_min_lt a (lt_of_le_of_ne hb.1 (Ne.symm hb2)) hb.2 hb0)
      · by_cases hb2 : b = intmax_min
        · -- the divisor is `INTMAX_MIN`: the next dividend is `INTMAX_MIN`
          rw [sgcd_step hb0 (fun e => ha1 e.1), hb2, tmod_min_of_ne ha ha1]
          by_cases ha0 : a = 0
          · rw [ha0, sgcd_zero]; rfl
          have ha2 : a ≠ -1 := fun e => hne.2 ⟨e, hb2⟩
          rw [sgcd_step ha0 (fun e => ha2 e.2)]
          exact sgcd_isSome_of_min_lt (lt_of_le_of_ne ha.1 (Ne.symm ha1))
            (min_lt_tmod_of_min_lt _ (lt_of_le_of_ne ha.1 (Ne.symm ha1)) ha.2 ha0)
        · exact sgcd_isSome_of_min_lt (lt_of_le_of_ne ha.1 (Ne.symm ha1))
            (lt_of_le_of_ne hb.1 (Ne.symm hb2))
    rw [h] at hsome
    cases hsome
  · rintro (⟨h1, h2⟩ | ⟨h1, h2⟩)
    · rw [h1, h2, sgcd_min_neg_one]
    · rw [h1, h2, sgcd_neg_one_min]

theorem sgcd_of_ne {a b : Int} (ha : representable a) (hb : representable b)
    (h : ¬ ((a = intmax_min ∧ b = -1) ∨ (a = -1 ∧ b = intmax_min))) :
    ∃ g, sgcd a b = some g ∧ g.natAbs = Int.gcd a b := by
  cases hs : sgcd a b with
  | none => exact absurd ((sgcd_eq_none_iff ha hb).mp hs) h
  | some g => exact ⟨g, rfl, sgcd_eq_some hs⟩

end mjk


/-! ## Lemmas: rational functions -/

theorem sign_eq_int_sign {Den : Int} (h : Den ≠ 0) : impl.sign Den = Den.sign := by
  unfold impl.sign
  split
  · next hlt => rw [Int.sign_eq_neg_one_of_neg hlt]
  · next hge => rw [Int.sign_eq_one_of_pos (by omega)]

theorem gcd_min_of_odd {Num : Int} (h : Num.tmod 2 ≠ 0) : Int.gcd Num intmax_min = 1 := by
  have hodd : Num.natAbs % 2 = 1 := by
    have h1 := mjk.natAbs_tmod Num 2
    have h2 : (2 : Int).natAbs = 2 := rfl
    rw [h2] at h1
    have h3 : (Num.tmod 2).natAbs ≠ 0 := fun e => h (Int.natAbs_eq_zero.mp e)
    omega
  have hc : Nat.Coprime Num.natAbs 2 := by
    rw [Nat.coprime_comm, Nat.Prime.coprime_iff_not_dvd Nat.prime_two]
    omega
  have e : intmax_min.natAbs = 2 ^ 63 := by decide
  show Nat.gcd Num.natAbs intmax_min.natAbs = 1
  rw [e]
  exact Nat.Coprime.pow_right 63 hc

theorem two_dvd_gcd_min_of_even {Num : Int} (h : Num.tmod 2 = 0) :
    (2 : Int) ∣ (Int.gcd Num intmax_min : Int) := by
  have h1 : (2 : Int) ∣ Num := Int.dvd_of_tmod_eq_zero h
  have h2 : (2 : Int) ∣ intmax_min := by decide
  exact Int.dvd_gcd h1 h2

/-- The function `make_rational_constant` on `intmax_t` arguments with a non-zero
denominator returns the reduced constant, except when `-Num` or `abs(Den / gcd)`
overflows. -/
theorem make_rational_constant_eq (Num Den : Int) (hN : representable Num)
    (hD : representable Den) (h : Den ≠ 0)
    (h1 : ¬ (Num = intmax_min ∧ Den < 0))
    (h2 : ¬ (Den = intmax_min ∧ (Num = 0 ∨ Num.tmod 2 ≠ 0))) :
    make_rational_constant Num Den = some (rational_constant.ofRat (Rat.divInt Num Den)) := by
  have hg : (Int.gcd Num Den : Int) ≠ 0 := by
    have : Int.gcd Num Den ≠ 0 := by
      rw [Ne, Int.gcd_eq_zero_iff]
      exact fun h2 => h h2.2
    exact_mod_cast this
  have hg0 : (0 : Int) ≤ (Int.gcd Num Den : Int) := Int.natCast_nonneg _
  have hgpos : (0 : Int) < (Int.gcd Num Den : Int) := by omega
  have hdn : (Int.gcd Num Den : Int) ∣ impl.sign Den * Num := Dvd.dvd.mul_left Int.gcd_dvd_left _
  have hdd : (Int.gcd Num Den : Int) ∣ Den := Int.gcd_dvd_right
  have hsign := sign_eq_int_sign h
  -- the signed gcd has a value
  have hne : ¬ ((Num = intmax_min ∧ Den = -1) ∨ (Num = -1 ∧ Den = intmax_min)) := by
    rintro (⟨e1, e2⟩ | ⟨e1, e2⟩)
    · exact h1 ⟨e1, by rw [e2]; decide⟩
    · exact h2 ⟨e2, Or.inr (by rw [e1]; decide)⟩
  obtain ⟨s, hs, hsn⟩ := mjk.sgcd_of_ne hN hD hne
  -- its absolute value is the gcd
  have hsmin : s ≠ intmax_min := by
    intro e
    rw [e] at hsn
    have e2 : intmax_min.natAbs = 9223372036854775808 := by decide
    rw [e2] at hsn
    have hgD : (9223372036854775808 : Int) ∣ Den := by
      have := hdd
      rw [← hsn] at this
      exact_mod_cast this
    have hgN : (9223372036854775808 : Int) ∣ Num := by
      have : (Int.gcd Num Den : Int) ∣ Num := Int.gcd_dvd_left
      rw [← hsn] at this
      exact_mod_cast this
    obtain ⟨u, hu⟩ := hgD
    obtain ⟨v, hv⟩ := hgN
    unfold representable intmax_min intmax_max at hN hD
    have hD2 : Den = intmax_min := by
      unfold intmax_min
      omega
    apply h2
    refine ⟨hD2, ?_⟩
    by_cases hN0 : Num = 0
    · exact Or.inl hN0
    · exfalso
      apply h1
      unfold intmax_min at hD2 ⊢
      constructor <;> omega
  have habs : impl.abs s = some (Int.gcd Num Den : Int) := by
    rw [impl.abs_of_ne_min hsmin, hsn]
  -- `sign(den) * num` does not overflow
  have hsn2 : representable (impl.sign Den * Num) := by
    unfold impl.sign
    unfold representable intmax_min intmax_max at hN ⊢
    split
    · next hlt =>
      have : Num ≠ intmax_min := fun e => h1 ⟨e, hlt⟩
      unfold intmax_min at this
      omega
    · omega
  -- `abs(den / gcd)` does not overflow
  have hq : Den.tdiv (Int.gcd Num Den : Int) ≠ intmax_min := by
    intro e
    rw [Int.tdiv_eq_ediv_of_dvd hdd] at e
    have hDe : Den = (Int.gcd Num Den : Int) * intmax_min := by
      rw [← e, Int.mul_ediv_cancel' hdd]
    unfold representable at hD
    have hD2 : Den = intmax_min ∧ (Int.gcd Num Den : Int) = 1 := by
      unfold intmax_min at hD hDe ⊢
      unfold intmax_max at hD
      constructor <;> nlinarith
    apply h2
    refine ⟨hD2.1, ?_⟩
    by_cases hev : Num.tmod 2 = 0
    · exfalso
      have := two_dvd_gcd_min_of_even hev
      rw [← hD2.1, hD2.2] at this
      exact absurd this (by decide)
    · exact Or.inr hev
  unfold make_rational_constant
  rw [if_neg h, hs, Option.some_bind, habs, Option.some_bind,
    intmax_t.mul_of_representable hsn2, Option.some_bind, intmax_t.div_of_pos _ hgpos,
    Option.some_bind, intmax_t.div_of_pos _ hgpos, Option.some_bind, impl.abs_of_ne_min hq,
    Option.some_bind]
  have e1 : (impl.sign Den * Num).tdiv (Int.gcd Num Den : Int) = (Rat.divInt Num Den).num := by
    rw [Rat.num_mk, Int.tdiv_eq_ediv_of_dvd hdn, hsign]
  have e2 : ((Den.tdiv (Int.gcd Num Den : Int)).natAbs : Int) = ((Rat.divInt Num Den).den : Int) := by
    rw [Rat.den_mk, if_neg h, Int.tdiv_eq_ediv_of_dvd hdd, Int.natAbs_ediv _ _ hdd]
    simp
  rw [e1, e2]
  exact rational_constant.instantiate_ofRat _

theorem make_rational_constant_zero_den (Num : Int) : make_rational_constant Num 0 = none := by
  unfold make_rational_constant
  rw [if_pos rfl]

theorem make_rational_constant_eq_none (Num Den : Int)
    (h : (Num = intmax_min ∧ Den < 0) ∨ (Den = intmax_min ∧ (Num = 0 ∨ Num.tmod 2 ≠ 0))) :
    make_rational_constant Num Den = none := by
  unfold make_rational_constant
  by_cases hD : Den = 0
  · rw [if_pos hD]
  rw [if_neg hD]
  cases hs : mjk.sgcd Num Den with
  | none => rfl
  | some s =>
    rw [Option.some_bind]
    cases ha : impl.abs s with
    | none => rfl
    | some g =>
      rw [Option.some_bind]
      have hg : g = (Int.gcd Num Den : Int) := by
        rw [impl.abs_eq_some ha, mjk.sgcd_eq_some hs]
      by_cases hN : Num = intmax_min ∧ Den < 0
      · have hm : intmax_t.mul (impl.sign Den) Num = none := by
          apply intmax_t.mul_of_not_representable
          unfold impl.sign
          rw [if_pos hN.2, hN.1]
          decide
        rw [hm]
        rfl
      · have hD2 : Den = intmax_min ∧ (Num = 0 ∨ Num.tmod 2 ≠ 0) := by
          rcases h with h | h
          · exact absurd h hN
          · exact h
        rcases hD2.2 with hN0 | hodd
        · -- the gcd is `2^63`, whose sign `sgcd` makes negative
          exfalso
          rw [hN0, hD2.1] at hs
          rw [mjk.sgcd_step (by decide) (by decide)] at hs
          have e : (0 : Int).tmod intmax_min = 0 := by decide
          rw [e, mjk.sgcd_zero, Option.some.injEq] at hs
          rw [← hs] at ha
          have : impl.abs intmax_min = none := by decide
          rw [this] at ha
          cases ha
        · have hg1 : g = 1 := by
            rw [hg, hD2.1, gcd_min_of_odd hodd]
            rfl
          cases intmax_t.mul (impl.sign Den) Num with
          | none => rfl
          | some sn =>
            rw [Option.some_bind]
            cases intmax_t.div sn g with
            | none => rfl
            | some n =>
              rw [Option.some_bind, hg1, hD2.1]
              have e1 : intmax_t.div intmax_min 1 = some intmax_min := by decide
              have e2 : impl.abs intmax_min = none := by decide
              rw [e1, Option.some_bind, e2]
              rfl


namespace rational_constant

theorem ofRat_mul_self {y : rational_constant} (hy : y.valid) :
    ofRat (y.toRat * y.toRat) = ⟨y.num * y.num, y.den * y.den⟩ := by
  have h := ofRat_toRat hy
  have hn : y.toRat.num = y.num := congrArg rational_constant.num h
  have hd : (y.toRat.den : Int) = y.den := congrArg rational_constant.den h
  unfold ofRat
  rw [Rat.mul_self_num, Rat.mul_self_den, hn]
  push_cast
  rw [hd]

theorem ofRat_pow {y : rational_constant} (hy : y.valid) (n : Nat) :
    ofRat (y.toRat ^ n) = ⟨y.num ^ n, y.den ^ n⟩ := by
  have h := ofRat_toRat hy
  have hn : y.toRat.num = y.num := congrArg rational_constant.num h
  have hd : (y.toRat.den : Int) = y.den := congrArg rational_constant.den h
  unfold ofRat
  rw [Rat.num_pow, Rat.den_pow, hn]
  push_cast
  rw [hd]

theorem abs_pow_le_of_le {n : Int} {k m : Nat} (hkm : k ≤ m) (h : |n ^ m| ≤ intmax_max) :
    |n ^ k| ≤ intmax_max := by
  by_cases h0 : n = 0
  · rw [h0]
    rcases Nat.eq_zero_or_pos k with hk | hk
    · rw [hk, pow_zero]
      decide
    · rw [zero_pow (by omega)]
      decide
  · have h1 : (1 : Int) ≤ |n| := Int.one_le_abs h0
    rw [abs_pow] at h ⊢
    exact le_trans (pow_le_pow_right₀ h1 hkm) h

theorem fits_pow_of_le {y : rational_constant} {k m : Nat} (hkm : k ≤ m)
    (h : (⟨y.num ^ m, y.den ^ m⟩ : rational_constant).fits) :
    (⟨y.num ^ k, y.den ^ k⟩ : rational_constant).fits :=
  ⟨abs_pow_le_of_le hkm h.1, abs_pow_le_of_le hkm h.2⟩

theorem fits_of_pow_fits {y : rational_constant} {m : Nat} (hm : 1 ≤ m)
    (h : (⟨y.num ^ m, y.den ^ m⟩ : rational_constant).fits) : y.fits := by
  have := fits_pow_of_le hm h
  rw [pow_one, pow_one] at this
  exact this

theorem fits_of_sq_fits {y : rational_constant}
    (h : (⟨y.num * y.num, y.den * y.den⟩ : rational_constant).fits) : y.fits := by
  apply fits_of_pow_fits (m := 2) (by decide)
  rw [pow_two, pow_two]
  exact h

theorem square_eq {y : rational_constant} (hy : y.valid) (hf : y.fits) :
    mjk.square y = (⟨y.num * y.num, y.den * y.den⟩ : rational_constant).checked := by
  have hd : y.den ≠ 0 := ne_of_gt (valid_den_pos hy)
  rw [mjk.square, mul_eq hd hd hf hf, ofRat_mul_self hy]

theorem valid_mk_pow {y : rational_constant} (hy : y.valid) (n : Nat) :
    (⟨y.num ^ n, y.den ^ n⟩ : rational_constant).valid := by
  rw [← ofRat_pow hy n]
  exact valid_ofRat _

theorem valid_mk_mul_self {y : rational_constant} (hy : y.valid) :
    (⟨y.num * y.num, y.den * y.den⟩ : rational_constant).valid := by
  rw [← ofRat_mul_self hy]
  exact valid_ofRat _

theorem cube_eq {y : rational_constant} (hy : y.valid) (hf : y.fits) :
    mjk.cube y = (⟨y.num ^ 3, y.den ^ 3⟩ : rational_constant).checked := by
  have hd : y.den ≠ 0 := ne_of_gt (valid_den_pos hy)
  rw [mjk.cube, square_eq hy hf]
  by_cases h3 : (⟨y.num ^ 3, y.den ^ 3⟩ : rational_constant).fits
  · have h2 : (⟨y.num * y.num, y.den * y.den⟩ : rational_constant).fits := by
      have := fits_pow_of_le (k := 2) (by decide) h3
      rw [pow_two, pow_two] at this
      exact this
    have hv2 := valid_mk_mul_self hy
    rw [checked_of_fits h2, Option.some_bind, mul_eq (ne_of_gt (valid_den_pos hv2)) hd h2 hf]
    congr 1
    rw [← ofRat_mul_self hy, toRat_ofRat, ← ofRat_pow hy 3]
    congr 1
    ring
  · rw [checked_of_not_fits h3]
    by_cases h2 : (⟨y.num * y.num, y.den * y.den⟩ : rational_constant).fits
    · have hv2 := valid_mk_mul_self hy
      rw [checked_of_fits h2, Option.some_bind,
        mul_eq (ne_of_gt (valid_den_pos hv2)) hd h2 hf]
      apply checked_of_not_fits
      rw [← ofRat_mul_self hy, toRat_ofRat]
      have e : y.toRat * y.toRat * y.toRat = y.toRat ^ 3 := by ring
      rw [e, ofRat_pow hy 3]
      exact h3
    · rw [checked_of_not_fits h2]
      rfl

theorem instantiate_eq_some {n d : Int} {y : rational_constant}
    (h : instantiate n d = some y) : y = ⟨n, d⟩ ∧ y.valid := by
  unfold instantiate at h
  split at h
  · next hv =>
    rw [Option.some.injEq] at h
    exact ⟨h.symm, h ▸ hv⟩
  · cases h

theorem sqrt_with_eq_some {isqrt : Int → Option Int} {r y : rational_constant}
    (h : sqrt_with isqrt r = some y) :
    y.valid ∧ isqrt r.num = some y.num ∧ isqrt r.den = some y.den ∧
      r = ⟨y.num * y.num, y.den * y.den⟩ ∧ y.fits ∧ r.fits := by
  unfold sqrt_with at h
  simp only [Option.bind_eq_some] at h
  obtain ⟨n, hn, d, hd, root, hroot, sq, hsq, hif⟩ := h
  obtain ⟨hre, hrv⟩ := instantiate_eq_some hroot
  split at hif
  · next heq =>
    rw [Option.some.injEq] at hif
    subst hif
    have hd0 : root.den ≠ 0 := ne_of_gt (valid_den_pos hrv)
    obtain ⟨hsq1, hsq2, hrf, _⟩ := mul_eq_some hd0 hd0 hsq
    rw [ofRat_mul_self hrv] at hsq1
    have := (eq_iff _ _).mp heq
    rw [hsq1] at this
    refine ⟨hrv, ?_, ?_, this.symm, hrf, ?_⟩
    · rw [hn, hre]
    · rw [hd, hre]
    · rw [← this, ← hsq1]
      exact hsq2
  · cases hif

theorem cube_eq_some {y c : rational_constant} (hy : y.valid) (h : mjk.cube y = some c) :
    c = ⟨y.num ^ 3, y.den ^ 3⟩ ∧ c.fits ∧ y.fits := by
  have hd : y.den ≠ 0 := ne_of_gt (valid_den_pos hy)
  have hf : y.fits := by
    by_contra hn
    unfold mjk.cube mjk.square at h
    rw [mul_eq_none_of_not_fits (fun e => hn e.1)] at h
    cases h
  rw [cube_eq hy hf, checked_eq_some_iff] at h
  exact ⟨h.1, h.1 ▸ h.2, hf⟩

theorem cbrt_with_eq_some {icbrt : Int → Option Int} {r y : rational_constant}
    (h : cbrt_with icbrt r = some y) :
    y.valid ∧ icbrt r.num = some y.num ∧ icbrt r.den = some y.den ∧
      r = ⟨y.num ^ 3, y.den ^ 3⟩ ∧ y.fits ∧ r.fits := by
  unfold cbrt_with at h
  simp only [Option.bind_eq_some] at h
  obtain ⟨n, hn, d, hd, root, hroot, cb, hcb, hif⟩ := h
  obtain ⟨hre, hrv⟩ := instantiate_eq_some hroot
  split at hif
  · next heq =>
    rw [Option.some.injEq] at hif
    subst hif
    obtain ⟨hc1, hc2, hrf⟩ := cube_eq_some hrv hcb
    have := (eq_iff _ _).mp heq
    rw [hc1] at this
    refine ⟨hrv, ?_, ?_, this.symm, hrf, ?_⟩
    · rw [hn, hre]
    · rw [hd, hre]
    · rw [← this, ← hc1]
      exact hc2
  · cases hif

theorem sqrt_with_of_candidates {isqrt : Int → Option Int} {y : rational_constant}
    (hy : y.valid) (hf : (⟨y.num * y.num, y.den * y.den⟩ : rational_constant).fits)
    (hn : isqrt (y.num * y.num) = some y.num)
    (hd : isqrt (y.den * y.den) = some y.den) :
    sqrt_with isqrt ⟨y.num * y.num, y.den * y.den⟩ = some y := by
  unfold sqrt_with
  simp only [hn, hd, Option.some_bind, instantiate_of_valid hy,
    square_eq hy (fits_of_sq_fits hf), checked_of_fits hf]
  rw [if_pos ((eq_iff _ _).mpr rfl)]

theorem cbrt_with_of_candidates {icbrt : Int → Option Int} {y : rational_constant}
    (hy : y.valid) (hf : (⟨y.num ^ 3, y.den ^ 3⟩ : rational_constant).fits)
    (hn : icbrt (y.num ^ 3) = some y.num)
    (hd : icbrt (y.den ^ 3) = some y.den) :
    cbrt_with icbrt ⟨y.num ^ 3, y.den ^ 3⟩ = some y := by
  unfold cbrt_with
  simp only [hn, hd, Option.some_bind, instantiate_of_valid hy,
    cube_eq hy (fits_of_pow_fits (by decide) hf), checked_of_fits hf]
  rw [if_pos ((eq_iff _ _).mpr rfl)]

theorem sqrt_with_congr {f g : Int → Option Int} (h : ∀ k : Int, f (k * k) = g (k * k))
    (r : rational_constant) : sqrt_with f r = sqrt_with g r := by
  have key : ∀ (f g : Int → Option Int), (∀ k : Int, f (k * k) = g (k * k)) →
      ∀ y, sqrt_with f r = some y → sqrt_with g r = some y := by
    intro f g hfg y hy
    obtain ⟨hv, hn, hd, hr, _, hrf⟩ := sqrt_with_eq_some hy
    subst hr
    simp only at hn hd
    exact sqrt_with_of_candidates hv hrf (by rw [← hfg]; exact hn) (by rw [← hfg]; exact hd)
  cases hf : sqrt_with f r with
  | some y => exact (key f g h y hf).symm
  | none =>
    cases hg : sqrt_with g r with
    | none => rfl
    | some y =>
      have := key g f (fun k => (h k).symm) y hg
      rw [hf] at this
      cases this

theorem cbrt_with_congr {f g : Int → Option Int} (h : ∀ k : Int, f (k ^ 3) = g (k ^ 3))
    (r : rational_constant) : cbrt_with f r = cbrt_with g r := by
  have key : ∀ (f g : Int → Option Int), (∀ k : Int, f (k ^ 3) = g (k ^ 3)) →
      ∀ y, cbrt_with f r = some y → cbrt_with g r = some y := by
    intro f g hfg y hy
    obtain ⟨hv, hn, hd, hr, _, hrf⟩ := cbrt_with_eq_some hy
    subst hr
    simp only at hn hd
    exact cbrt_with_of_candidates hv hrf (by rw [← hfg]; exact hn) (by rw [← hfg]; exact hd)
  cases hf : cbrt_with f r with
  | some y => exact (key f g h y hf).symm
  | none =>
    cases hg : cbrt_with g r with
    | none => rfl
    | some y =>
      have := key g f (fun k => (h k).symm) y hg
      rw [hf] at this
      cases this

theorem toRat_mk_mul_self {y : rational_constant} (hy : y.valid) :
    (⟨y.num * y.num, y.den * y.den⟩ : rational_constant).toRat = y.toRat * y.toRat := by
  have hd : (y.den : ℚ) ≠ 0 := by exact_mod_cast (ne_of_gt (valid_den_pos hy))
  unfold toRat
  push_cast
  field_simp

theorem toRat_mk_pow (y : rational_constant) (n : Nat) :
    (⟨y.num ^ n, y.den ^ n⟩ : rational_constant).toRat = y.toRat ^ n := by
  unfold toRat
  push_cast
  rw [div_pow]

end rational_constant

namespace std

theorem sqrt_intmax_sq {k : Int} (hk : 0 ≤ k) : sqrt_intmax (k * k) = some k := by
  unfold sqrt_intmax
  rw [if_neg (not_lt.mpr (mul_nonneg hk hk))]
  congr 1
  obtain ⟨n, rfl⟩ := Int.eq_ofNat_of_zero_le hk
  have : ((n : Int) * (n : Int)).toNat = n * n := by
    rw [← Int.ofNat_mul]; rfl
  rw [this, Nat.sqrt_eq]

theorem findGreatest_cube (n : Nat) :
    Nat.findGreatest (fun k => k ^ 3 ≤ n ^ 3) (n ^ 3) = n := by
  rw [Nat.findGreatest_eq_iff]
  refine ⟨?_, fun _ => le_refl _, ?_⟩
  · rcases Nat.eq_zero_or_pos n with h | h
    · rw [h]; exact Nat.zero_le _
    · exact Nat.le_self_pow (by decide) n
  · intro m hm _ hle
    exact absurd (Nat.pow_lt_pow_left hm (by decide)) (not_lt.mpr hle)

theorem cbrt_intmax_cube (k : Int) : cbrt_intmax (k ^ 3) = some k := by
  unfold cbrt_intmax
  congr 1
  rw [Int.natAbs_pow, findGreatest_cube]
  have hs : Int.sign (k ^ 3) = Int.sign k := by
    rcases lt_trichotomy k 0 with h | h | h
    · rw [Int.sign_eq_neg_one_of_neg h, Int.sign_eq_neg_one_of_neg (Odd.pow_neg (by decide) h)]
    · rw [h]; rfl
    · rw [Int.sign_eq_one_of_pos h, Int.sign_eq_one_of_pos (pow_pos h 3)]
  rw [hs, Int.sign_mul_natAbs]

end std

namespace rational_constant

theorem sqrt_of_sq {r y : rational_constant} (hy : y.valid) (h0 : 0 ≤ y.num) (hf : r.fits)
    (hn : r.num = y.num * y.num) (hd : r.den = y.den * y.den) : sqrt r = some y := by
  have hr : r = ⟨y.num * y.num, y.den * y.den⟩ := by
    cases r
    simp only at hn hd
    rw [hn, hd]
  rw [hr] at hf ⊢
  exact sqrt_with_of_candidates hy hf (std.sqrt_intmax_sq h0)
    (std.sqrt_intmax_sq (le_of_lt (valid_den_pos hy)))

theorem cbrt_of_cube {r y : rational_constant} (hy : y.valid) (hf : r.fits)
    (hn : r.num = y.num ^ 3) (hd : r.den = y.den ^ 3) : cbrt r = some y := by
  have hr : r = ⟨y.num ^ 3, y.den ^ 3⟩ := by
    cases r
    simp only at hn hd
    rw [hn, hd]
  rw [hr] at hf ⊢
  exact cbrt_with_of_candidates hy hf (std.cbrt_intmax_cube _) (std.cbrt_intmax_cube _)

theorem ofRat_eq_of_toRat {q : ℚ} {y : rational_constant} (hy : y.valid) (h : q = y.toRat) :
    ofRat q = y := by
  rw [h, ofRat_toRat hy]

end rational_constant


namespace rational_constant

theorem ofRat_one : ofRat 1 = ⟨1, 1⟩ := rfl

theorem ofRat_inv {q : ℚ} (hq : q ≠ 0) :
    ofRat q⁻¹ = ⟨Int.sign q.num * q.den, |q.num|⟩ := by
  have hn : q.num ≠ 0 := Rat.num_ne_zero.mpr hq
  apply ofRat_eq_of_toRat
  · rw [valid_iff]
    refine ⟨abs_pos.mpr hn, ?_⟩
    show Int.gcd (Int.sign q.num * (q.den : Int)) |q.num| = 1
    have hc : Nat.Coprime q.num.natAbs q.den := q.reduced
    rcases lt_or_gt_of_ne hn with h | h
    · rw [Int.sign_eq_neg_one_of_neg h]
      simp only [Int.gcd, neg_mul, one_mul, Int.natAbs_neg, Int.natAbs_ofNat, Int.natAbs_abs]
      exact hc.symm
    · rw [Int.sign_eq_one_of_pos h]
      simp only [Int.gcd, one_mul, Int.natAbs_ofNat, Int.natAbs_abs]
      exact hc.symm
  · unfold toRat
    simp only
    have hn' : (q.num : ℚ) ≠ 0 := by exact_mod_cast hn
    have hd' : (q.den : ℚ) ≠ 0 := by exact_mod_cast q.den_nz
    have ha : ((|q.num| : Int) : ℚ) ≠ 0 := by exact_mod_cast (abs_pos.mpr hn).ne'
    have h1 : |q.num| = Int.sign q.num * q.num := by
      rcases lt_or_gt_of_ne hn with h | h
      · rw [Int.sign_eq_neg_one_of_neg h, abs_of_neg h]; ring
      · rw [Int.sign_eq_one_of_pos h, abs_of_pos h]; ring
    have hs : (Int.sign q.num : ℚ) ≠ 0 := by
      rcases lt_or_gt_of_ne hn with h | h
      · rw [Int.sign_eq_neg_one_of_neg h]; norm_num
      · rw [Int.sign_eq_one_of_pos h]; norm_num
    conv_lhs => rw [← Rat.num_div_den q]
    rw [inv_div, h1]
    push_cast
    field_simp
    ring

theorem fits_ofRat_inv {q : ℚ} (hq : q ≠ 0) (h : (ofRat q).fits) : (ofRat q⁻¹).fits := by
  rw [ofRat_inv hq]
  have hn : q.num ≠ 0 := Rat.num_ne_zero.mpr hq
  have h1 : |q.num| ≤ intmax_max := h.1
  have h2 : |(q.den : Int)| ≤ intmax_max := h.2
  refine ⟨?_, ?_⟩
  · show |Int.sign q.num * (q.den : Int)| ≤ intmax_max
    rw [abs_mul]
    have : |Int.sign q.num| = 1 := by
      rcases lt_or_gt_of_ne hn with h | h
      · rw [Int.sign_eq_neg_one_of_neg h]; rfl
      · rw [Int.sign_eq_one_of_pos h]; rfl
    rw [this, one_mul]
    exact h2
  · show |(|q.num|)| ≤ intmax_max
    rw [abs_abs]
    exact h1

theorem fits_ofRat_inv_iff {q : ℚ} (hq : q ≠ 0) : (ofRat q⁻¹).fits ↔ (ofRat q).fits := by
  constructor
  · intro h
    have := fits_ofRat_inv (inv_ne_zero hq) h
    rw [inv_inv] at this
    exact this
  · exact fits_ofRat_inv hq

theorem fits_ofRat_neg {q : ℚ} (h : (ofRat q).fits) : (ofRat (-q)).fits := by
  unfold fits ofRat at h ⊢
  simp only [Rat.neg_num, Rat.neg_den, abs_neg] at h ⊢
  exact h

theorem fits_ofRat_pow_of_le {x : rational_constant} (hx : x.valid) {k m : Nat} (hkm : k ≤ m)
    (h : (ofRat (x.toRat ^ m)).fits) : (ofRat (x.toRat ^ k)).fits := by
  rw [ofRat_pow hx] at h ⊢
  exact fits_pow_of_le hkm h

theorem checked_pow_bind_mul {x : rational_constant} (hx : x.valid) (hf : x.fits) (k : Nat) :
    ((ofRat (x.toRat ^ k)).checked.bind fun p => x.mul p) =
      (ofRat (x.toRat ^ (k + 1))).checked := by
  have hd : x.den ≠ 0 := ne_of_gt (valid_den_pos hx)
  have hden : (ofRat (x.toRat ^ k)).den ≠ 0 := ne_of_gt (valid_den_pos (valid_ofRat _))
  by_cases hk : (ofRat (x.toRat ^ k)).fits
  · rw [checked_of_fits hk, Option.some_bind, mul_eq hd hden hf hk, toRat_ofRat, ← pow_succ']
  · rw [checked_of_not_fits hk, checked_of_not_fits
      (fun h => hk (fits_ofRat_pow_of_le hx (Nat.le_succ k) h))]
    rfl

theorem checked_pow_bind_square {x : rational_constant} (hx : x.valid) (k : Nat) :
    ((ofRat (x.toRat ^ k)).checked.bind fun p => mjk.square p) =
      (ofRat (x.toRat ^ (k + k))).checked := by
  have hden : (ofRat (x.toRat ^ k)).den ≠ 0 := ne_of_gt (valid_den_pos (valid_ofRat _))
  by_cases hk : (ofRat (x.toRat ^ k)).fits
  · rw [checked_of_fits hk, Option.some_bind, mjk.square, mul_eq hden hden hk hk, toRat_ofRat,
      ← pow_add]
  · rw [checked_of_not_fits hk, checked_of_not_fits
      (fun h => hk (fits_ofRat_pow_of_le hx (Nat.le_add_right k k) h))]
    rfl

end rational_constant

theorem naive_power_eq {x : rational_constant} (hx : x.valid) (hf : x.fits) (n : Nat) :
    naive_power x n = (rational_constant.ofRat (x.toRat ^ n)).checked := by
  induction n with
  | zero => rfl
  | succ n ih => rw [naive_power, ih, rational_constant.checked_pow_bind_mul hx hf]

namespace mjk

theorem one_div_eq_none {x p : rational_constant} (hp : p.num = 0) :
    (make_one x).div p = none :=
  rational_constant.div_eq_none_of_num_zero _ hp

theorem power_one (x : rational_constant) : power 1 x = some x := by
  rw [power, if_pos rfl]

theorem power_zero (x : rational_constant) : power 0 x = some ⟨1, 1⟩ := by
  rw [power, if_neg (by decide), if_pos rfl]
  rfl

theorem power_min (x : rational_constant) : power intmax_min x = none := by
  rw [power, if_neg (by decide), if_neg (by decide), if_pos (by decide), if_pos rfl]

theorem power_nonneg {x : rational_constant} (hx : x.valid) (hf : x.fits) (N : Int)
    (hN : 0 ≤ N) :
    power N x = (rational_constant.ofRat (x.toRat ^ N.toNat)).checked := by
  induction N, x using power.induct with
  | case1 x =>
    rw [power_one]
    have e : rational_constant.ofRat (x.toRat ^ (1 : Int).toNat) = x := by
      simp [rational_constant.ofRat_toRat hx]
    rw [e, rational_constant.checked_of_fits hf]
  | case2 x _ =>
    rw [power_zero]
    rfl
  | case3 x h1 h0 hneg => exact absurd hN (by decide)
  | case4 N x h1 h0 hneg hmin ih => omega
  | case5 N x h1 h0 hneg hodd ih =>
    have hN1 : 0 ≤ N - 1 := by omega
    have e : (N - 1).toNat + 1 = N.toNat := by omega
    rw [power, if_neg h1, if_neg h0, if_neg hneg, if_pos hodd, ih hx hf hN1,
      rational_constant.checked_pow_bind_mul hx hf, e]
  | case6 N x h1 h0 hneg heven ih =>
    have hN2 : 0 ≤ N.tdiv 2 := Int.tdiv_nonneg hN (by decide)
    have hev : N.tmod 2 = 0 := by simpa using heven
    have hsum : (N.tdiv 2).toNat + (N.tdiv 2).toNat = N.toNat := by
      have := Int.tmod_add_tdiv N 2
      omega
    rw [power, if_neg h1, if_neg h0, if_neg hneg, if_neg heven, ih hx hf hN2,
      rational_constant.checked_pow_bind_square hx, hsum]

theorem power_neg (x : rational_constant) (N : Int) (hN : N < 0) (hmin : N ≠ intmax_min) :
    power N x = (power (-N) x).bind fun p => (make_one x).div p := by
  rw [power, if_neg (by omega), if_neg (by omega), if_pos hN, if_neg hmin]

theorem power_zpow {x : rational_constant} (hx : x.valid) (hf : x.fits) (N : Int)
    (h : 0 ≤ N ∨ (x.num ≠ 0 ∧ N ≠ intmax_min)) :
    power N x = (rational_constant.ofRat (x.toRat ^ N)).checked := by
  have hd : x.den ≠ 0 := ne_of_gt (rational_constant.valid_den_pos hx)
  rcases lt_or_le N 0 with hN | hN
  · have hx0 : x.num ≠ 0 ∧ N ≠ intmax_min := by
      rcases h with h | h
      · omega
      · exact h
    have hq : x.toRat ≠ 0 := fun hq => hx0.1 ((rational_constant.toRat_eq_zero_iff hd).mp hq)
    have hne : x.toRat ^ (-N).toNat ≠ 0 := pow_ne_zero _ hq
    have hnum : (rational_constant.ofRat (x.toRat ^ (-N).toNat)).num ≠ 0 :=
      fun h => hne ((rational_constant.ofRat_num_eq_zero_iff _).mp h)
    have hden : (rational_constant.ofRat (x.toRat ^ (-N).toNat)).den ≠ 0 :=
      ne_of_gt (rational_constant.valid_den_pos (rational_constant.valid_ofRat _))
    have e : x.toRat ^ N = (x.toRat ^ (-N).toNat)⁻¹ := by
      have e1 : N = -((-N).toNat : Int) := by omega
      conv_lhs => rw [e1, zpow_neg, zpow_natCast]
    rw [power_neg x N hN hx0.2, power_nonneg hx hf (-N) (by omega), e]
    by_cases hfit : (rational_constant.ofRat (x.toRat ^ (-N).toNat)).fits
    · rw [rational_constant.checked_of_fits hfit, Option.some_bind, make_one,
        rational_constant.div_eq (by decide) hden hnum rational_constant.fits_one_one hfit,
        rational_constant.toRat_ofRat]
      congr 2
      simp [rational_constant.toRat]
    · rw [rational_constant.checked_of_not_fits hfit, rational_constant.checked_of_not_fits
        (fun h => hfit ((rational_constant.fits_ofRat_inv_iff hne).mp h))]
      rfl
  · rw [power_nonneg hx hf N hN]
    congr 2
    conv_rhs => rw [← Int.toNat_of_nonneg hN, zpow_natCast]

theorem power_eq_none_of_not_fits {x : rational_constant} (hf : ¬ x.fits) (N : Int)
    (h0 : N ≠ 0) (h1 : N ≠ 1) : power N x = none := by
  induction N, x using power.induct with
  | case1 x => exact absurd rfl h1
  | case2 x _ => exact absurd rfl h0
  | case3 x _ _ hneg => exact power_min x
  | case4 N x _ _ hneg hmin ih =>
    rw [power_neg x N hneg hmin]
    by_cases hN1 : -N = 1
    · rw [hN1, power_one, Option.some_bind, make_one,
        rational_constant.div_eq_none_of_not_fits (fun h => hf h.2)]
    · rw [ih hf (by omega) hN1]
      rfl
  | case5 N x h1' h0' hneg hodd ih =>
    rw [power, if_neg h1', if_neg h0', if_neg hneg, if_pos hodd]
    cases power (N - 1) x with
    | none => rfl
    | some p =>
      rw [Option.some_bind, rational_constant.mul_eq_none_of_not_fits (fun h => hf h.1)]
  | case6 N x h1' h0' hneg heven ih =>
    rw [power, if_neg h1', if_neg h0', if_neg hneg, if_neg heven]
    have hev : N.tmod 2 = 0 := by simpa using heven
    have hdiv := Int.tmod_add_tdiv N 2
    by_cases hN2 : N.tdiv 2 = 1
    · rw [hN2, power_one, Option.some_bind, square,
        rational_constant.mul_eq_none_of_not_fits (fun h => hf h.1)]
    · rw [ih hf (by omega) hN2]
      rfl

theorem power_eq_some {x p : rational_constant} (hx : x.valid) {N : Int}
    (h : power N x = some p) : p.valid ∧ p.toRat = x.toRat ^ N := by
  have hd : x.den ≠ 0 := ne_of_gt (rational_constant.valid_den_pos hx)
  by_cases hf : x.fits
  · by_cases hc : 0 ≤ N ∨ (x.num ≠ 0 ∧ N ≠ intmax_min)
    · rw [power_zpow hx hf N hc, rational_constant.checked_eq_some_iff] at h
      rw [h.1]
      exact ⟨rational_constant.valid_ofRat _, rational_constant.toRat_ofRat _⟩
    · have hN : N < 0 := by
        by_contra hn
        exact hc (Or.inl (by omega))
      by_cases hmin : N = intmax_min
      · rw [hmin, power_min] at h
        cases h
      · have hx0 : x.num = 0 := by
          by_contra hn
          exact hc (Or.inr ⟨hn, hmin⟩)
        have hz : x.toRat ^ (-N).toNat = 0 := by
          rw [(rational_constant.toRat_eq_zero_iff hd).mpr hx0]
          exact zero_pow (by omega)
        rw [power_neg x N hN hmin, power_nonneg hx hf (-N) (by omega), hz,
          rational_constant.ofRat_zero,
          rational_constant.checked_of_fits rational_constant.fits_zero_one, Option.some_bind,
          one_div_eq_none rfl] at h
        cases h
  · by_cases h0 : N = 0
    · rw [h0, power_zero, Option.some.injEq] at h
      rw [← h, h0]
      exact ⟨by decide, by simp [rational_constant.toRat]⟩
    · by_cases h1 : N = 1
      · rw [h1, power_one, Option.some.injEq] at h
        rw [← h, h1]
        exact ⟨hx, by simp⟩
      · rw [power_eq_none_of_not_fits hf N h0 h1] at h
        cases h

end mjk


namespace mjk

theorem root_one (x : rational_constant) : root x 1 = some x := by
  rw [root, if_neg (by decide), if_pos rfl]

theorem root_zero (x : rational_constant) : root x 0 = none := by
  rw [root, if_pos rfl]

theorem root_even (x : rational_constant) {I : Int} (h0 : 0 < I) (h2 : I.tmod 2 = 0) :
    root x I = (root x (I.tdiv 2)).bind fun r => r.sqrt := by
  have h1 : I ≠ 1 := by
    intro h
    rw [h] at h2
    exact absurd h2 (by decide)
  rw [root, if_neg (by omega), if_neg h1, if_pos ⟨h0, h2⟩]

theorem root_three (x : rational_constant) {I : Int} (h0 : 0 < I) (h3 : I.tmod 3 = 0)
    (h2 : I.tmod 2 ≠ 0) :
    root x I = (root x (I.tdiv 3)).bind fun r => r.cbrt := by
  have h1 : I ≠ 1 := by
    intro h
    rw [h] at h3
    exact absurd h3 (by decide)
  rw [root, if_neg (by omega), if_neg h1, if_neg (fun h => h2 h.2), if_pos ⟨h0, h3, h2⟩]

theorem root_other (x : rational_constant) {I : Int} (h1 : 1 < I) (h2 : I.tmod 2 ≠ 0)
    (h3 : I.tmod 3 ≠ 0) : root x I = none := by
  rw [root, if_neg (by omega), if_neg (by omega), if_neg (fun h => h2 h.2),
    if_neg (fun h => h3 h.2.1), if_pos (by omega)]

theorem root_min (x : rational_constant) : root x intmax_min = none := by
  rw [root, if_neg (by decide), if_neg (by decide), if_neg (by decide), if_neg (by decide),
    if_neg (by decide), if_pos rfl]

theorem root_neg (x : rational_constant) {I : Int} (h : I < 0) (hmin : I ≠ intmax_min) :
    root x I = (root x (-I)).bind fun r => (make_one x).div r := by
  rw [root, if_neg (by omega), if_neg (by omega), if_neg (by omega), if_neg (by omega),
    if_neg (by omega), if_neg hmin]

theorem root_pos_spec {x : rational_constant} (hx : x.valid) (I : Int) :
    0 < I → ∀ y, root x I = some y → y.valid ∧ y.toRat ^ I.toNat = x.toRat := by
  induction I using root.induct x with
  | case1 => intro h; omega
  | case2 _ =>
    intro _ y hy
    rw [root_one, Option.some.injEq] at hy
    subst hy
    exact ⟨hx, by simp⟩
  | case3 I _ _ hc ih =>
    intro h0 y hy
    rw [root_even x hc.1 hc.2, Option.bind_eq_some] at hy
    obtain ⟨z, hz, hzy⟩ := hy
    have hpos : 0 < I.tdiv 2 := by
      have := Int.tmod_add_tdiv I 2
      omega
    obtain ⟨_, hze⟩ := ih hpos z hz
    obtain ⟨hyv, _, _, hr, _, _⟩ := rational_constant.sqrt_with_eq_some hzy
    refine ⟨hyv, ?_⟩
    rw [← hze, hr, rational_constant.toRat_mk_mul_self hyv, ← pow_two, ← pow_mul]
    congr 1
    have := Int.tmod_add_tdiv I 2
    omega
  | case4 I _ _ _ hc ih =>
    intro h0 y hy
    rw [root_three x hc.1 hc.2.1 hc.2.2, Option.bind_eq_some] at hy
    obtain ⟨z, hz, hzy⟩ := hy
    have hpos : 0 < I.tdiv 3 := by
      have := Int.tmod_add_tdiv I 3
      omega
    obtain ⟨_, hze⟩ := ih hpos z hz
    obtain ⟨hyv, _, _, hr, _, _⟩ := rational_constant.cbrt_with_eq_some hzy
    refine ⟨hyv, ?_⟩
    rw [← hze, hr, rational_constant.toRat_mk_pow, ← pow_mul]
    congr 1
    have := Int.tmod_add_tdiv I 3
    omega
  | case5 I h0' h1 h2 h3 hpos =>
    intro _ y hy
    rw [root, if_neg h0', if_neg h1, if_neg h2, if_neg h3, if_pos hpos] at hy
    cases hy
  | case6 _ _ _ _ _ =>
    intro h0
    exact absurd h0 (by decide)
  | case7 I _ _ _ _ hneg _ _ =>
    intro h0
    omega

end mjk

namespace rational_constant

theorem pow_eq_some {b e y : rational_constant} (hb : b.valid) (he : e.valid)
    (h : pow b e = some y) : y.valid ∧ y.toRat ^ e.den.toNat = b.toRat ^ e.num := by
  unfold pow mjk.pow at h
  rw [Option.bind_eq_some] at h
  obtain ⟨p, hp, hy⟩ := h
  obtain ⟨hpv, hpe⟩ := mjk.power_eq_some hb hp
  obtain ⟨hyv, hye⟩ := mjk.root_pos_spec hpv e.den (valid_den_pos he) y hy
  exact ⟨hyv, by rw [hye, hpe]⟩

theorem ofRat_one_div_int {i : Int} (hi : i ≠ 0) :
    ofRat (1 / (i : ℚ)) = ⟨Int.sign i, |i|⟩ := by
  have hq : (i : ℚ) ≠ 0 := by exact_mod_cast hi
  rw [one_div, ofRat_inv hq]
  simp

theorem valid_int (n : Int) : (⟨n, 1⟩ : rational_constant).valid := by
  rw [valid_iff]
  exact ⟨one_pos, by simp [Int.gcd]⟩

theorem toRat_int (n : Int) : (⟨n, 1⟩ : rational_constant).toRat = (n : ℚ) := by
  simp [toRat]

theorem ofRat_int (n : Int) : ofRat (n : ℚ) = ⟨n, 1⟩ :=
  ofRat_eq_of_toRat (valid_int n) (toRat_int n).symm

theorem fits_int_iff (i : Int) : (⟨i, 1⟩ : rational_constant).fits ↔ |i| ≤ intmax_max := by
  constructor
  · intro h
    exact h.1
  · intro h
    refine ⟨h, ?_⟩
    show |(1 : Int)| ≤ intmax_max
    decide

theorem one_div_int {i : Int} (hi : i ≠ 0) (hf : |i| ≤ intmax_max) :
    (⟨1, 1⟩ : rational_constant).div ⟨i, 1⟩ = some (ofRat (1 / (i : ℚ))) := by
  have h1 : (⟨1, 1⟩ : rational_constant).den ≠ 0 := one_ne_zero
  have h2 : (⟨i, 1⟩ : rational_constant).den ≠ 0 := one_ne_zero
  have hfi : (⟨i, 1⟩ : rational_constant).fits := (fits_int_iff i).mpr hf
  have e : (⟨1, 1⟩ : rational_constant).toRat / (⟨i, 1⟩ : rational_constant).toRat =
      1 / (i : ℚ) := by simp [toRat]
  rw [div_eq h1 h2 hi fits_one_one hfi, e, checked_of_fits]
  rw [ofRat_one_div_int hi]
  refine ⟨?_, ?_⟩
  · show |Int.sign i| ≤ intmax_max
    rcases lt_or_gt_of_ne hi with h | h
    · rw [Int.sign_eq_neg_one_of_neg h]; decide
    · rw [Int.sign_eq_one_of_pos h]; decide
  · show |(|i|)| ≤ intmax_max
    rw [abs_abs]
    exact hf

theorem one_div_int_none {i : Int} (hf : ¬ |i| ≤ intmax_max) :
    (⟨1, 1⟩ : rational_constant).div ⟨i, 1⟩ = none :=
  div_eq_none_of_not_fits (fun h => hf h.2.1)

theorem root_int_eq_some {b y : rational_constant} (hb : b.valid) {i : Int} (hi : i ≠ 0)
    (h : root b ⟨i, 1⟩ = some y) : y.valid ∧ y.toRat ^ i = b.toRat := by
  unfold root at h
  by_cases hf : |i| ≤ intmax_max
  · rw [one_div_int hi hf, Option.some_bind] at h
    obtain ⟨hyv, hye⟩ := pow_eq_some hb (valid_ofRat _) h
    refine ⟨hyv, ?_⟩
    rw [ofRat_one_div_int hi] at hye
    simp only at hye
    rcases lt_or_gt_of_ne hi with hneg | hpos
    · rw [Int.sign_eq_neg_one_of_neg hneg, abs_of_neg hneg, zpow_neg_one] at hye
      have e : i = -((-i).toNat : Int) := by omega
      rw [e, zpow_neg, zpow_natCast, hye, inv_inv]
    · rw [Int.sign_eq_one_of_pos hpos, abs_of_pos hpos, zpow_one] at hye
      have e : i = (i.toNat : Int) := by omega
      rw [e, zpow_natCast]
      exact hye
  · rw [one_div_int_none hf] at h
    cases h

end rational_constant

namespace rational_constant

theorem fits_ofRat_divInt {n d : Int} (hn : |n| ≤ intmax_max) (hd : |d| ≤ intmax_max) :
    (ofRat (Rat.divInt n d)).fits := by
  by_cases h0 : d = 0
  · subst h0
    rw [Rat.divInt_zero]
    exact fits_zero_one
  · refine ⟨?_, ?_⟩
    · show |(Rat.divInt n d).num| ≤ intmax_max
      rw [Rat.num_mk]
      refine le_trans ?_ hn
      rw [Int.abs_eq_natAbs, Int.abs_eq_natAbs]
      have h1 : (d.sign * n / (n.gcd d : Int)).natAbs ≤ (d.sign * n).natAbs :=
        Int.natAbs_div_le_natAbs _ _
      have h2 : (d.sign * n).natAbs = n.natAbs := by
        rw [Int.natAbs_mul, Int.natAbs_sign_of_nonzero h0, one_mul]
      omega
    · show |((Rat.divInt n d).den : Int)| ≤ intmax_max
      rw [Rat.den_mk, if_neg h0]
      refine le_trans ?_ hd
      rw [Int.abs_eq_natAbs, Int.abs_eq_natAbs, Int.natAbs_ofNat]
      exact_mod_cast Nat.div_le_self _ _

theorem fits_ofRat_div_int {n d : Int} (hn : |n| ≤ intmax_max) (hd : |d| ≤ intmax_max) :
    (ofRat ((n : ℚ) / (d : ℚ))).fits := by
  rw [← Rat.divInt_eq_div]
  exact fits_ofRat_divInt hn hd

theorem add_int {a b : Int} (ha : |a| ≤ intmax_max) (hb : |b| ≤ intmax_max) :
    (⟨a, 1⟩ : rational_constant).add ⟨b, 1⟩ = (⟨a + b, 1⟩ : rational_constant).checked := by
  rw [add_eq one_ne_zero one_ne_zero ((fits_int_iff a).mpr ha) ((fits_int_iff b).mpr hb),
    toRat_int, toRat_int, ← Int.cast_add, ofRat_int]

theorem mul_int {a b : Int} (ha : |a| ≤ intmax_max) (hb : |b| ≤ intmax_max) :
    (⟨a, 1⟩ : rational_constant).mul ⟨b, 1⟩ = (⟨a * b, 1⟩ : rational_constant).checked := by
  rw [mul_eq one_ne_zero one_ne_zero ((fits_int_iff a).mpr ha) ((fits_int_iff b).mpr hb),
    toRat_int, toRat_int, ← Int.cast_mul, ofRat_int]

theorem checked_int_of_le {a : Int} (h0 : 0 ≤ a) (h : a ≤ intmax_max) :
    (⟨a, 1⟩ : rational_constant).checked = some ⟨a, 1⟩ :=
  checked_of_fits ((fits_int_iff a).mpr (by rw [abs_of_nonneg h0]; exact h))

theorem checked_int_of_lt {a : Int} (h : intmax_max < a) :
    (⟨a, 1⟩ : rational_constant).checked = none :=
  checked_of_not_fits (fun hf => by
    have h1 := (fits_int_iff a).mp hf
    have h2 := le_abs_self a
    omega)

end rational_constant

namespace mjk

theorem power_int_nat {B : Int} (hB : |B| ≤ intmax_max) (P : Nat) :
    power (P : Int) ⟨B, 1⟩ = (⟨B ^ P, 1⟩ : rational_constant).checked := by
  rw [power_nonneg (rational_constant.valid_int B) ((rational_constant.fits_int_iff B).mpr hB)
    _ (Int.natCast_nonneg _), rational_constant.toRat_int, Int.toNat_ofNat, ← Int.cast_pow,
    rational_constant.ofRat_int]

end mjk

/-! ## Lemmas: conversions -/

namespace quantity

theorem to_scale_eq {q : quantity} {c : rational_constant}
    (hs : q.unit.scale.valid) (hc : c.valid) (hc0 : c.num ≠ 0)
    (hfs : q.unit.scale.fits) (hfc : c.fits)
    (hfr : (rational_constant.ofRat (q.unit.scale.toRat / c.toRat)).fits) :
    q.unit.scale.div c = some (rational_constant.ofRat (q.unit.scale.toRat / c.toRat)) ∧
    q.to_scale c =
      (intmax_t.mul q.val (rational_constant.ofRat (q.unit.scale.toRat / c.toRat)).num).map
        fun p => ⟨q.type, q.type.cast (p.tdiv
          (rational_constant.ofRat (q.unit.scale.toRat / c.toRat)).den),
          ⟨q.unit.dimension, c⟩⟩ := by
  have hd := rational_constant.div_of_fits (ne_of_gt (rational_constant.valid_den_pos hs))
    (ne_of_gt (rational_constant.valid_den_pos hc)) hc0 hfs hfc hfr
  refine ⟨hd, ?_⟩
  have hden : 0 < (rational_constant.ofRat (q.unit.scale.toRat / c.toRat)).den :=
    rational_constant.valid_den_pos (rational_constant.valid_ofRat _)
  rw [to_scale, hd, Option.some_bind, impl.scaled_unit_of hc hfc, Option.some_bind]
  cases intmax_t.mul q.val (rational_constant.ofRat (q.unit.scale.toRat / c.toRat)).num with
  | none => rfl
  | some p =>
    rw [Option.some_bind, intmax_t.div_of_pos _ hden]
    rfl

theorem to_scale_of_representable {q : quantity} {c : rational_constant}
    (hs : q.unit.scale.valid) (hc : c.valid) (hc0 : c.num ≠ 0)
    (hfs : q.unit.scale.fits) (hfc : c.fits)
    (hfr : (rational_constant.ofRat (q.unit.scale.toRat / c.toRat)).fits)
    (hp : representable
      (q.val * (rational_constant.ofRat (q.unit.scale.toRat / c.toRat)).num)) :
    q.to_scale c = some ⟨q.type, q.type.cast
      ((q.val * (rational_constant.ofRat (q.unit.scale.toRat / c.toRat)).num).tdiv
        (rational_constant.ofRat (q.unit.scale.toRat / c.toRat)).den),
      ⟨q.unit.dimension, c⟩⟩ := by
  rw [(to_scale_eq hs hc hc0 hfs hfc hfr).2, intmax_t.mul_of_representable hp]
  rfl

theorem to_scale_eq_none_of_not_fits {q : quantity} {c : rational_constant}
    (hs : q.unit.scale.valid) (hc : c.valid) (hc0 : c.num ≠ 0)
    (hfr : ¬ (rational_constant.ofRat (q.unit.scale.toRat / c.toRat)).fits) :
    q.to_scale c = none := by
  have hd : q.unit.scale.div c = none := by
    by_cases hf : q.unit.scale.fits ∧ c.fits
    · rw [rational_constant.div_eq (ne_of_gt (rational_constant.valid_den_pos hs))
        (ne_of_gt (rational_constant.valid_den_pos hc)) hc0 hf.1 hf.2,
        rational_constant.checked_of_not_fits hfr]
    · exact rational_constant.div_eq_none_of_not_fits hf
  rw [to_scale, hd]
  rfl

theorem to_scale_eq_none_of_not_representable {q : quantity} {c : rational_constant}
    (hs : q.unit.scale.valid) (hc : c.valid) (hc0 : c.num ≠ 0)
    (hfs : q.unit.scale.fits) (hfc : c.fits)
    (hfr : (rational_constant.ofRat (q.unit.scale.toRat / c.toRat)).fits)
    (hp : ¬ representable
      (q.val * (rational_constant.ofRat (q.unit.scale.toRat / c.toRat)).num)) :
    q.to_scale c = none := by
  rw [(to_scale_eq hs hc hc0 hfs hfc hfr).2, intmax_t.mul_of_not_representable hp]
  rfl

theorem convert_eq (T : payload_type) (target : Dimensional.unit) (rhs : quantity)
    (hdim : rhs.unit.dimension.eq target.dimension = true) :
    convert T target rhs =
      (rhs.to_scale target.scale).map fun r => ⟨T, T.cast r.val, target⟩ := by
  rw [convert, if_pos hdim]

theorem to_scale_int_ratio {q : quantity} {c : rational_constant} {k : Int}
    (hs : q.unit.scale.valid) (hc : c.valid) (hc0 : c.num ≠ 0)
    (hfs : q.unit.scale.fits) (hfc : c.fits) (hk : |k| ≤ intmax_max)
    (hq : q.unit.scale.toRat / c.toRat = (k : ℚ)) :
    q.to_scale c = (intmax_t.mul q.val k).map fun p =>
      ⟨q.type, q.type.cast p, ⟨q.unit.dimension, c⟩⟩ := by
  have hk1 : rational_constant.ofRat (q.unit.scale.toRat / c.toRat) = ⟨k, 1⟩ := by
    apply rational_constant.ofRat_eq_of_toRat (rational_constant.valid_int k)
    rw [hq]; simp [rational_constant.toRat]
  have hfr : (rational_constant.ofRat (q.unit.scale.toRat / c.toRat)).fits := by
    rw [hk1]
    exact (rational_constant.fits_int_iff k).mpr hk
  rw [(to_scale_eq hs hc hc0 hfs hfc hfr).2, hk1]
  simp

theorem to_scale_inv_int_ratio {q : quantity} {c : rational_constant} {k : Int}
    (hs : q.unit.scale.valid) (hc : c.valid) (hc0 : c.num ≠ 0)
    (hfs : q.unit.scale.fits) (hfc : c.fits) (hk : k ≠ 0) (hkf : |k| ≤ intmax_max)
    (hq : q.unit.scale.toRat / c.toRat = 1 / (k : ℚ)) :
    q.to_scale c = (intmax_t.mul q.val (Int.sign k)).map fun p =>
      ⟨q.type, q.type.cast (p.tdiv |k|), ⟨q.unit.dimension, c⟩⟩ := by
  have hfr : (rational_constant.ofRat (q.unit.scale.toRat / c.toRat)).fits := by
    rw [hq, rational_constant.ofRat_one_div_int hk]
    refine ⟨?_, ?_⟩
    · show |Int.sign k| ≤ intmax_max
      rcases lt_or_gt_of_ne hk with h | h
      · rw [Int.sign_eq_neg_one_of_neg h]; decide
      · rw [Int.sign_eq_one_of_pos h]; decide
    · show |(|k|)| ≤ intmax_max
      rw [abs_abs]
      exact hkf
  rw [(to_scale_eq hs hc hc0 hfs hfc hfr).2, hq, rational_constant.ofRat_one_div_int hk]

end quantity

/-! ## Lemmas: units -/

theorem exponent_in_map_pow (s : List dimension_factor) (p : rational_constant) (t : Tag) :
    exponent_in (s.map fun d =>
      (⟨d.tag, rational_constant.ofRat (d.power.toRat * p.toRat)⟩ : dimension_factor)) t =
      rational_constant.ofRat ((exponent_in s t).toRat * p.toRat) := by
  induction s with
  | nil =>
    simp only [List.map_nil, exponent_in]
    rw [toRat_zero_one, zero_mul, rational_constant.ofRat_zero]
  | cons f rest ih =>
    simp only [List.map_cons, exponent_in]
    by_cases h : f.tag = t
    · simp [h]
    · simp [h, ih]

theorem pow_exponent {a : dimension_product} {p : rational_constant}
    (ha : a.instantiated) (hu : a.unique_tags) (hp : p.valid)
    (hfit : ∀ d ∈ a.factors, d.power.fits ∧ p.fits ∧
      (rational_constant.ofRat (d.power.toRat * p.toRat)).fits) :
    ∃ r, a.pow p = some r ∧ r.instantiated ∧ r.canonical ∧
      ∀ t, r.exponent t = rational_constant.ofRat ((a.exponent t).toRat * p.toRat) := by
  obtain ⟨r, hr, hri, hrc⟩ := pow_canonical ha hu hp hfit
  refine ⟨r, hr, hri, hrc, fun t => ?_⟩
  rw [pow_spec ha hp hfit] at hr
  cases hr
  show exponent_in (impl.remove_ones _) t = _
  rw [exponent_in_remove_ones, exponent_in_map_pow]
  · rfl
  · intro f hf
    obtain ⟨d, _, rfl⟩ := List.mem_map.mp hf
    exact rational_constant.valid_ofRat _
  · rw [List.map_map]
    exact hu

namespace mjk

theorem root_two (x : rational_constant) : root x 2 = x.sqrt := by
  rw [root_even x (by decide) (by decide), show Int.tdiv 2 2 = 1 from by decide, root_one,
    Option.some_bind]

end mjk

namespace rational_constant

theorem pow_int {b : rational_constant} (hb : b.valid) (hf : b.fits) (n : Int)
    (h : 0 ≤ n ∨ (b.num ≠ 0 ∧ n ≠ intmax_min)) :
    pow b ⟨n, 1⟩ = (ofRat (b.toRat ^ n)).checked := by
  rw [pow, mjk.pow, mjk.power_zpow hb hf n h]
  cases (ofRat (b.toRat ^ n)).checked with
  | none => rfl
  | some p => rw [Option.some_bind, mjk.root_one]

theorem pow_half (b : rational_constant) : pow b ⟨1, 2⟩ = b.sqrt := by
  rw [pow, mjk.pow, mjk.power_one, Option.some_bind, mjk.root_two]

theorem sqrt_eq_none_of_not_square {r : rational_constant}
    (h : ¬ ∃ k : Int, k * k = r.num) : r.sqrt = none := by
  cases hs : r.sqrt with
  | none => rfl
  | some y =>
    obtain ⟨_, _, _, hr, _, _⟩ := sqrt_with_eq_some hs
    rw [hr] at h
    exact absurd ⟨y.num, rfl⟩ h

end rational_constant

namespace unit

theorem mul_eq_of_fits {a b : unit} {d : dimension_product}
    (hsa : a.scale.valid) (hsb : b.scale.valid) (hfa : a.scale.fits) (hfb : b.scale.fits)
    (hf : (rational_constant.ofRat (a.scale.toRat * b.scale.toRat)).fits)
    (hd : a.dimension.mul b.dimension = some d) :
    a.mul b = some ⟨d, rational_constant.ofRat (a.scale.toRat * b.scale.toRat)⟩ := by
  rw [mul, rational_constant.mul_of_fits (ne_of_gt (rational_constant.valid_den_pos hsa))
    (ne_of_gt (rational_constant.valid_den_pos hsb)) hfa hfb hf, Option.some_bind, hd,
    Option.some_bind, impl.scaled_unit_of (rational_constant.valid_ofRat _) hf]

theorem div_eq_of_fits {a b : unit} {d : dimension_product}
    (hsa : a.scale.valid) (hsb : b.scale.valid) (hn : b.scale.num ≠ 0)
    (hfa : a.scale.fits) (hfb : b.scale.fits)
    (hf : (rational_constant.ofRat (a.scale.toRat / b.scale.toRat)).fits)
    (hd : a.dimension.div b.dimension = some d) :
    a.div b = some ⟨d, rational_constant.ofRat (a.scale.toRat / b.scale.toRat)⟩ := by
  rw [div, rational_constant.div_of_fits (ne_of_gt (rational_constant.valid_den_pos hsa))
    (ne_of_gt (rational_constant.valid_den_pos hsb)) hn hfa hfb hf, Option.some_bind, hd,
    Option.some_bind, impl.scaled_unit_of (rational_constant.valid_ofRat _) hf]

theorem div_eq_none {a b : unit} (hn : b.scale.num = 0) : a.div b = none := by
  rw [div, rational_constant.div_eq_none_of_num_zero _ hn]
  rfl

theorem mul_unit_eq_some {a b r : unit} (hsa : a.scale.valid) (hsb : b.scale.valid)
    (h : a.mul b = some r) :
    a.dimension.mul b.dimension = some r.dimension ∧
      r.scale = rational_constant.ofRat (a.scale.toRat * b.scale.toRat) ∧
      a.scale.mul b.scale = some r.scale := by
  unfold mul at h
  rw [Option.bind_eq_some] at h
  obtain ⟨s, hs, h⟩ := h
  rw [Option.bind_eq_some] at h
  obtain ⟨d, hd, h⟩ := h
  obtain ⟨hse, hsf, -, -⟩ := rational_constant.mul_eq_some
    (ne_of_gt (rational_constant.valid_den_pos hsa))
    (ne_of_gt (rational_constant.valid_den_pos hsb)) hs
  have hsv : s.valid := hse ▸ rational_constant.valid_ofRat _
  rw [impl.scaled_unit_of hsv hsf, Option.some.injEq] at h
  subst h
  exact ⟨hd, hse, hs⟩

theorem div_unit_eq_some {a b r : unit} (hsa : a.scale.valid) (hsb : b.scale.valid)
    (h : a.div b = some r) :
    a.dimension.div b.dimension = some r.dimension ∧
      r.scale = rational_constant.ofRat (a.scale.toRat / b.scale.toRat) ∧
      a.scale.div b.scale = some r.scale := by
  unfold div at h
  rw [Option.bind_eq_some] at h
  obtain ⟨s, hs, h⟩ := h
  rw [Option.bind_eq_some] at h
  obtain ⟨d, hd, h⟩ := h
  obtain ⟨-, hse, hsf, -, -⟩ := rational_constant.div_eq_some
    (ne_of_gt (rational_constant.valid_den_pos hsa))
    (ne_of_gt (rational_constant.valid_den_pos hsb)) hs
  have hsv : s.valid := hse ▸ rational_constant.valid_ofRat _
  rw [impl.scaled_unit_of hsv hsf, Option.some.injEq] at h
  subst h
  exact ⟨hd, hse, hs⟩

theorem pow_eq_none_of_scale {u : unit} {p : rational_constant}
    (hs : rational_constant.pow u.scale p = none) : u.pow p = none := by
  rw [pow, hs]
  rfl

end unit

namespace mjk

theorem make_closed_integer_range_desc (a b : Nat) (h : b ≤ a) :
    impl.make_closed_integer_range a b = (List.range' b (a - b + 1)).reverse := by
  obtain ⟨n, hn⟩ : ∃ n, a - b = n := ⟨_, rfl⟩
  induction n using Nat.strong_induction_on generalizing a b with
  | _ n ih =>
    rw [impl.make_closed_integer_range]
    by_cases hab : a = b
    · subst hab
      simp
    · have hlt : ¬ a < b := by omega
      simp only [hab, hlt, if_false, impl.integer_sequence_cat]
      have e1 := ih (a - (b + 1 + (a - b) / 2)) (by omega) a (b + 1 + (a - b) / 2)
        (by omega) rfl
      have e2 := ih ((b + 1 + (a - b) / 2 - 1) - b) (by omega) (b + 1 + (a - b) / 2 - 1) b
        (by omega) rfl
      rw [e1, e2, ← List.reverse_append]
      congr 1
      have l1 : b + 1 + (a - b) / 2 - 1 - b + 1 = (a - b) / 2 + 1 := by omega
      have l2 : b + 1 + (a - b) / 2 = b + ((a - b) / 2 + 1) := by omega
      rw [l1, l2, List.range'_append_1]
      congr 1
      omega

theorem make_integer_range_zero (n : Nat) :
    make_integer_range n 0 = (List.range n).reverse := by
  unfold make_integer_range impl.make_halfopen_integer_range
  by_cases h : n = 0
  · subst h; rfl
  · have hlt : ¬ n < 0 := by omega
    simp only [h, hlt, if_false]
    rw [make_closed_integer_range_desc _ _ (Nat.zero_le _), List.range_eq_range']
    congr 2
    omega

end mjk

/-! ## Lemmas: literals -/

namespace seq

variable {α : Type}

theorem find_if_impl_true (s : List α) (pred : α → Bool) (fw : Option α) :
    (find_if_impl s pred true fw).value = !s.isEmpty ∧
      (find_if_impl s pred true fw).tail_size = s.length := by
  cases s with
  | nil => exact ⟨rfl, rfl⟩
  | cons h t => exact ⟨by simp [find_if_impl], by simp [find_if_impl, Nat.add_comm]⟩

theorem find_if_impl_tail_size (s : List α) (pred : α → Bool) (fw : Option α) :
    (find_if_impl s pred false fw).tail_size =
      ((s.dropWhile fun x => !pred x).drop 1).length := by
  induction s generalizing fw with
  | nil => rfl
  | cons h t ih =>
    rw [find_if_impl]
    cases hp : pred h
    · rw [ih]
      simp [List.dropWhile, hp]
    · rw [(find_if_impl_true t pred (some h)).2]
      simp [List.dropWhile, hp]

theorem find_if_impl_value (s : List α) (pred : α → Bool) (fw : Option α) :
    (find_if_impl s pred false fw).value = true ↔ ∃ x ∈ s.dropLast, pred x = true := by
  induction s generalizing fw with
  | nil => simp [find_if_impl]
  | cons h t ih =>
    rw [find_if_impl]
    cases t with
    | nil =>
      cases hp : pred h <;> simp [find_if_impl]
    | cons h2 t2 =>
      cases hp : pred h
      · rw [ih]
        simp [List.dropLast, hp]
      · rw [(find_if_impl_true (h2 :: t2) pred (some h)).1]
        simp [List.dropLast, hp]

theorem find_value_of_not_mem [DecidableEq α] {s : List α} {c : α} (h : c ∉ s) :
    (find s c).value = false := by
  cases hv : (find s c).value with
  | false => rfl
  | true =>
    obtain ⟨x, hx, hp⟩ := (find_if_impl_value s _ none).mp hv
    have : c = x := by simpa using hp
    exact absurd (List.mem_of_mem_dropLast (this ▸ hx)) h

theorem remove_eq_filter [DecidableEq α] (s : List α) (c : α) :
    remove s c = s.filter fun x => decide (x ≠ c) := by
  rw [remove, remove_if_eq_filter]
  apply List.filter_congr
  intro x _
  by_cases h : c = x
  · simp [h]
  · simp [h, Ne.symm h]

theorem find_tail_size [DecidableEq α] (s : List α) (c : α) :
    (find s c).tail_size = ((s.dropWhile fun x => decide (x ≠ c)).drop 1).length := by
  rw [find, find_if, find_if_impl_tail_size]
  congr 3
  funext x
  by_cases h : c = x
  · simp [h]
  · simp [h, Ne.symm h]

end seq

namespace mjk

theorem sum_int (i : Int) (ts : List Int) (hi : 0 ≤ i) (hif : i ≤ intmax_max)
    (ht : ∀ t ∈ ts, 0 ≤ t ∧ t ≤ intmax_max) :
    sum ⟨i, 1⟩ (ts.map fun t => (⟨t, 1⟩ : rational_constant)) =
      (⟨i + ts.sum, 1⟩ : rational_constant).checked := by
  induction ts generalizing i with
  | nil =>
    simp only [List.map_nil, sum, List.sum_nil, add_zero]
    exact (rational_constant.checked_int_of_le hi hif).symm
  | cons t rest ih =>
    obtain ⟨ht0, htf⟩ := ht t (List.mem_cons_self _ _)
    have hrest : ∀ x ∈ rest, 0 ≤ x ∧ x ≤ intmax_max :=
      fun x hx => ht x (List.mem_cons_of_mem _ hx)
    have hsum0 : 0 ≤ rest.sum := List.sum_nonneg fun x hx => (hrest x hx).1
    rw [List.map_cons, sum, rational_constant.add_int (by rw [abs_of_nonneg hi]; exact hif)
      (by rw [abs_of_nonneg ht0]; exact htf), List.sum_cons, ← add_assoc]
    by_cases hle : i + t ≤ intmax_max
    · rw [rational_constant.checked_int_of_le (by omega) hle, Option.some_bind,
        ih (i + t) (by omega) hle hrest]
    · rw [rational_constant.checked_int_of_lt (by omega),
        rational_constant.checked_int_of_lt (by omega)]
      rfl

end mjk

namespace impl

theorem code_values : code '0' = 48 ∧ code '9' = 57 ∧ code 'a' = 97 ∧ code 'z' = 122 ∧
    code 'A' = 65 ∧ code 'Z' = 90 ∧ code '.' = 46 ∧ code 'x' = 120 ∧ code 'b' = 98 ∧
    code 'e' = 101 ∧ code 'p' = 112 := by decide

theorem parse_digit_accepted {B : Nat} {d : Char} (hB : B ≤ 36) (h : accepted B d) :
    parse_digit d ⟨(B : Int), 1⟩ = some ⟨(digit_value d : Int), 1⟩ := by
  have hv : (if code d ≤ code '9' then code d - code '0' else code d - code 'a' + 10) =
      (digit_value d : Int) := by
    unfold accepted at h
    unfold digit_value
    obtain ⟨c0, c9, ca, -⟩ := code_values
    rw [c0, c9, ca] at h
    rw [c0, c9, ca]
    have e0 : '0'.toNat = 48 := rfl
    have e9 : '9'.toNat = 57 := rfl
    have ea : 'a'.toNat = 97 := rfl
    have ez : 'z'.toNat = 122 := rfl
    rw [e0, e9, ea, ez]
    unfold code at h ⊢
    split_ifs <;> omega
  unfold parse_digit rational_constant.to_intmax
  simp only [if_true, Option.some_bind, hv]
  have h2 := h
  unfold accepted at h2
  rw [if_pos h2]
  exact rational_constant.instantiate_of_valid (rational_constant.valid_int _)

theorem parse_digit_rejected {B : Nat} {d : Char} (h : ¬ accepted B d) :
    parse_digit d ⟨(B : Int), 1⟩ = none := by
  unfold parse_digit rational_constant.to_intmax
  simp only [if_true, Option.some_bind]
  unfold accepted at h
  exact if_neg h

theorem digit_value_le (d : Char) : digit_value d ≤ 35 := by
  unfold digit_value
  have e0 : '0'.toNat = 48 := rfl
  have e9 : '9'.toNat = 57 := rfl
  have ea : 'a'.toNat = 97 := rfl
  have ez : 'z'.toNat = 122 := rfl
  have eA : 'A'.toNat = 65 := rfl
  have eZ : 'Z'.toNat = 90 := rfl
  rw [e0, e9, ea, ez, eA, eZ]
  split_ifs <;> omega

theorem parse_digits_2_none {Digits : List Char} {Powers : List Nat}
    {base : rational_constant} {c : Char} (hc : c ∈ Digits) (hd : parse_digit c base = none) :
    parse_digits_2 Digits Powers base = none := by
  unfold parse_digits_2
  split
  · rename_i hlen
    have hm : (Digits.zip Powers).mapM (fun dp =>
        (parse_digit dp.1 base).bind fun v =>
          (mjk.power (dp.2 : Int) base).bind fun b => v.mul b) = none := by
      induction Digits generalizing Powers with
      | nil => exact absurd hc (List.not_mem_nil _)
      | cons d t ih =>
        cases Powers with
        | nil => simp at hlen
        | cons P Ps =>
          rw [List.zip_cons_cons, List.mapM_cons]
          rcases List.mem_cons.mp hc with rfl | hct
          · simp [hd]
          · rw [ih hct (by simpa using hlen)]
            cases (parse_digit d base).bind fun v =>
              (mjk.power ((d, P).2 : Int) base).bind fun b => v.mul b <;> rfl
    rw [hm]
    rfl
  · rfl

end impl

theorem spelled_cons (B : Nat) (d : Char) (t : List Char) :
    spelled B (d :: t) = digit_value d * B ^ t.length + spelled B t := by
  unfold spelled
  rw [List.reverse_cons, List.map_append, Nat.ofDigits_append]
  simp [Nat.ofDigits_singleton]
  ring

theorem spelled_nil (B : Nat) : spelled B [] = 0 := rfl

theorem spelled_zero_cons (B : Nat) (t : List Char) : spelled B ('0' :: t) = spelled B t := by
  rw [spelled_cons]
  have : digit_value '0' = 0 := by decide
  rw [this, zero_mul, zero_add]

/-- The weighted digit of a literal: the value of the digit times the base to the power
of its position. -/
theorem zip_positions_cons (d : Char) (t : List Char) :
    (d :: t).zip (List.range (d :: t).length).reverse =
      (d, t.length) :: t.zip (List.range t.length).reverse := by
  rw [List.length_cons, List.range_succ, List.reverse_append, List.reverse_singleton,
    List.singleton_append, List.zip_cons_cons]

theorem position_lt {ds : List Char} {dp : Char × Nat}
    (h : dp ∈ ds.zip (List.range ds.length).reverse) : dp.2 < ds.length := by
  have := (List.of_mem_zip (show (dp.1, dp.2) ∈ _ from h)).2
  simpa using this

theorem weighted_digit_le_spelled (B : Nat) {ds : List Char} {dp : Char × Nat}
    (h : dp ∈ ds.zip (List.range ds.length).reverse) :
    digit_value dp.1 * B ^ dp.2 ≤ spelled B ds := by
  induction ds with
  | nil => simp at h
  | cons d t ih =>
    rw [zip_positions_cons] at h
    rw [spelled_cons]
    rcases List.mem_cons.mp h with rfl | h
    · exact Nat.le_add_right _ _
    · exact le_trans (ih h) (Nat.le_add_left _ _)

theorem weighted_digits_sum (B : Nat) (ds : List Char) :
    ((ds.zip (List.range ds.length).reverse).map fun dp =>
      ((digit_value dp.1 : Int) * (B : Int) ^ dp.2)).sum = (spelled B ds : Int) := by
  induction ds with
  | nil => simp [spelled_nil]
  | cons d t ih =>
    rw [zip_positions_cons, List.map_cons, List.sum_cons, ih, spelled_cons]
    push_cast
    ring

namespace impl

theorem weighted_digit_eq {B : Nat} (hB : B ≤ 36) {d : Char} (h : accepted B d) (P : Nat) :
    ((parse_digit d ⟨(B : Int), 1⟩).bind fun v =>
      (mjk.power (P : Int) ⟨(B : Int), 1⟩).bind fun b => v.mul b) =
      if (B : Int) ^ P ≤ intmax_max ∧ (digit_value d : Int) * (B : Int) ^ P ≤ intmax_max then
        some ⟨(digit_value d : Int) * (B : Int) ^ P, 1⟩
      else none := by
  have hBf : |(B : Int)| ≤ intmax_max := by
    rw [abs_of_nonneg (Int.natCast_nonneg _)]
    unfold intmax_max
    omega
  have hv := digit_value_le d
  have hvf : |(digit_value d : Int)| ≤ intmax_max := by
    rw [abs_of_nonneg (Int.natCast_nonneg _)]
    unfold intmax_max
    omega
  have hp0 : (0 : Int) ≤ (B : Int) ^ P := pow_nonneg (Int.natCast_nonneg _) _
  have hm0 : (0 : Int) ≤ (digit_value d : Int) * (B : Int) ^ P :=
    mul_nonneg (Int.natCast_nonneg _) hp0
  rw [parse_digit_accepted hB h, Option.some_bind, mjk.power_int_nat hBf]
  by_cases hp : (B : Int) ^ P ≤ intmax_max
  · rw [rational_constant.checked_int_of_le hp0 hp, Option.some_bind,
      rational_constant.mul_int hvf (by rw [abs_of_nonneg hp0]; exact hp)]
    by_cases hm : (digit_value d : Int) * (B : Int) ^ P ≤ intmax_max
    · rw [rational_constant.checked_int_of_le hm0 hm, if_pos ⟨hp, hm⟩]
    · rw [rational_constant.checked_int_of_lt (by omega), if_neg (fun h => hm h.2)]
  · rw [rational_constant.checked_int_of_lt (by omega), if_neg (fun h => hp h.1)]
    rfl

theorem mapM_weighted_digits {B : Nat} (hB : B ≤ 36) (l : List (Char × Nat))
    (h : ∀ dp ∈ l, accepted B dp.1)
    (hr : ∀ dp ∈ l, (B : Int) ^ dp.2 ≤ intmax_max ∧
      (digit_value dp.1 : Int) * (B : Int) ^ dp.2 ≤ intmax_max) :
    l.mapM (fun dp => (parse_digit dp.1 ⟨(B : Int), 1⟩).bind fun v =>
      (mjk.power (dp.2 : Int) ⟨(B : Int), 1⟩).bind fun b => v.mul b) =
    some (l.map fun dp =>
      (⟨(digit_value dp.1 : Int) * (B : Int) ^ dp.2, 1⟩ : rational_constant)) := by
  induction l with
  | nil => rfl
  | cons dp t ih =>
    rw [List.mapM_cons, ih (fun x hx => h x (List.mem_cons_of_mem _ hx))
      (fun x hx => hr x (List.mem_cons_of_mem _ hx)),
      weighted_digit_eq hB (h dp (List.mem_cons_self _ _)),
      if_pos (hr dp (List.mem_cons_self _ _))]
    rfl

theorem mapM_weighted_digits_none {B : Nat} (hB : B ≤ 36) (l : List (Char × Nat))
    (h : ∀ dp ∈ l, accepted B dp.1)
    (hr : ∃ dp ∈ l, ¬ ((B : Int) ^ dp.2 ≤ intmax_max ∧
      (digit_value dp.1 : Int) * (B : Int) ^ dp.2 ≤ intmax_max)) :
    l.mapM (fun dp => (parse_digit dp.1 ⟨(B : Int), 1⟩).bind fun v =>
      (mjk.power (dp.2 : Int) ⟨(B : Int), 1⟩).bind fun b => v.mul b) = none := by
  induction l with
  | nil =>
    obtain ⟨dp, hdp, -⟩ := hr
    exact absurd hdp (List.not_mem_nil _)
  | cons dp t ih =>
    rw [List.mapM_cons]
    obtain ⟨x, hx, hbad⟩ := hr
    rcases List.mem_cons.mp hx with rfl | hxt
    · rw [weighted_digit_eq hB (h x (List.mem_cons_self _ _)), if_neg hbad]
      rfl
    · rw [ih (fun y hy => h y (List.mem_cons_of_mem _ hy)) ⟨x, hxt, hbad⟩]
      cases (parse_digit dp.1 ⟨(B : Int), 1⟩).bind fun v =>
        (mjk.power (dp.2 : Int) ⟨(B : Int), 1⟩).bind fun b => v.mul b <;> rfl

theorem parse_digits_eq {B : Nat} (hB1 : 1 ≤ B) (hB : B ≤ 36) (ds : List Char)
    (h : ∀ d ∈ ds, accepted B d) :
    parse_digits B ds =
      if (B : Int) ^ (ds.length - 1) ≤ intmax_max ∧ (spelled B ds : Int) ≤ intmax_max then
        some ⟨(spelled B ds : Int), 1⟩
      else none := by
  have hB1' : (1 : Int) ≤ (B : Int) := by exact_mod_cast hB1
  have hz : ∀ dp ∈ ds.zip (List.range ds.length).reverse, accepted B dp.1 :=
    fun dp hdp => h dp.1 (List.of_mem_zip hdp).1
  have hall_of : ((B : Int) ^ (ds.length - 1) ≤ intmax_max ∧
      (spelled B ds : Int) ≤ intmax_max) →
      ∀ dp ∈ ds.zip (List.range ds.length).reverse, (B : Int) ^ dp.2 ≤ intmax_max ∧
        (digit_value dp.1 : Int) * (B : Int) ^ dp.2 ≤ intmax_max := by
    rintro ⟨hp, hs⟩ dp hdp
    have hlt := position_lt hdp
    refine ⟨le_trans (pow_le_pow_right₀ hB1' (by omega)) hp, le_trans ?_ hs⟩
    exact_mod_cast weighted_digit_le_spelled B hdp
  have hpow_of : (∀ dp ∈ ds.zip (List.range ds.length).reverse,
      (B : Int) ^ dp.2 ≤ intmax_max ∧
        (digit_value dp.1 : Int) * (B : Int) ^ dp.2 ≤ intmax_max) →
      (B : Int) ^ (ds.length - 1) ≤ intmax_max := by
    intro hall
    cases ds with
    | nil =>
      show (B : Int) ^ 0 ≤ intmax_max
      rw [pow_zero]
      decide
    | cons d t =>
      have := (hall (d, t.length) (by rw [zip_positions_cons]; exact List.mem_cons_self _ _)).1
      simpa using this
  unfold parse_digits parse_digits_2
  rw [mjk.make_integer_range_zero, if_pos (by simp)]
  by_cases hall : ∀ dp ∈ ds.zip (List.range ds.length).reverse,
      (B : Int) ^ dp.2 ≤ intmax_max ∧
        (digit_value dp.1 : Int) * (B : Int) ^ dp.2 ≤ intmax_max
  · have hmap : ((ds.zip (List.range ds.length).reverse).map fun dp =>
        (⟨(digit_value dp.1 : Int) * (B : Int) ^ dp.2, 1⟩ : rational_constant)) =
        (((ds.zip (List.range ds.length).reverse).map fun dp =>
          ((digit_value dp.1 : Int) * (B : Int) ^ dp.2)).map fun t =>
            (⟨t, 1⟩ : rational_constant)) := by
      rw [List.map_map]
      rfl
    rw [mapM_weighted_digits hB _ hz hall, Option.some_bind, hmap,
      mjk.sum_int 0 _ (le_refl _) (by decide) (fun t ht => by
        obtain ⟨dp, hdp, rfl⟩ := List.mem_map.mp ht
        exact ⟨mul_nonneg (Int.natCast_nonneg _) (pow_nonneg (Int.natCast_nonneg _) _),
          (hall dp hdp).2⟩),
      weighted_digits_sum, zero_add]
    by_cases hs : (spelled B ds : Int) ≤ intmax_max
    · rw [rational_constant.checked_int_of_le (Int.natCast_nonneg _) hs,
        if_pos ⟨hpow_of hall, hs⟩]
    · rw [rational_constant.checked_int_of_lt (by omega), if_neg (fun h => hs h.2)]
  · rw [mapM_weighted_digits_none hB _ hz (by push_neg at hall ⊢; exact hall),
      if_neg (fun hc => hall (hall_of hc))]
    rfl

theorem parse_number_eq {B : Nat} (hB1 : 1 ≤ B) (hB : B ≤ 36) (number : List Char)
    (hp : (seq.find number 'p').value = false) (he : (seq.find number 'e').value = false)
    (h : ∀ c ∈ number, c ≠ '.' → accepted B c) :
    parse_number B number =
      if literal_representable B number then
        some (rational_constant.ofRat
          ((spelled B (without_points number) : ℚ) / (B : ℚ) ^ fraction_digits number))
      else none := by
  have hacc : ∀ d ∈ without_points number, accepted B d := by
    intro d hd
    obtain ⟨hm, hne⟩ := List.mem_filter.mp hd
    exact h d hm (by simpa using hne)
  have hBf : |(B : Int)| ≤ intmax_max := by
    rw [abs_of_nonneg (Int.natCast_nonneg _)]
    unfold intmax_max
    omega
  have hB0 : (B : Int) ≠ 0 := by omega
  have hp0 : (0 : Int) ≤ (B : Int) ^ fraction_digits number :=
    pow_nonneg (Int.natCast_nonneg _) _
  unfold parse_number
  simp only [hp, he, Bool.not_false, Bool.and_self, if_true]
  rw [seq.remove_eq_filter, seq.find_tail_size]
  change (parse_digits B (without_points number)).bind _ = _
  rw [parse_digits_eq hB1 hB _ hacc]
  unfold literal_representable
  by_cases hd : (B : Int) ^ ((without_points number).length - 1) ≤ intmax_max ∧
      (spelled B (without_points number) : Int) ≤ intmax_max
  · rw [if_pos hd, Option.some_bind, mjk.pow, mjk.power_int_nat hBf]
    change ((⟨(B : Int) ^ fraction_digits number, 1⟩ : rational_constant).checked.bind _) = _
    by_cases hs : (B : Int) ^ fraction_digits number ≤ intmax_max
    · have hM : |(spelled B (without_points number) : Int)| ≤ intmax_max := by
        rw [abs_of_nonneg (Int.natCast_nonneg _)]
        exact hd.2
      have hS : |(B : Int) ^ fraction_digits number| ≤ intmax_max := by
        rw [abs_of_nonneg hp0]
        exact hs
      rw [rational_constant.checked_int_of_le hp0 hs, Option.some_bind,
        rational_constant.div_eq one_ne_zero one_ne_zero (pow_ne_zero _ hB0)
          ((rational_constant.fits_int_iff _).mpr hM) ((rational_constant.fits_int_iff _).mpr hS),
        rational_constant.toRat_int, rational_constant.toRat_int,
        rational_constant.checked_of_fits (rational_constant.fits_ofRat_div_int hM hS),
        if_pos ⟨hd.1, hd.2, hs⟩]
      push_cast
      rfl
    · rw [rational_constant.checked_int_of_lt (by omega), if_neg (fun h => hs h.2.2)]
      rfl
  · rw [if_neg hd, if_neg (fun h => hd ⟨h.1, h.2.1⟩)]
    rfl

theorem parse_number_none {B : Nat} {number : List Char} {c : Char}
    (hc : c ∈ number) (hdot : c ≠ '.') (h : ¬ accepted B c) :
    parse_number B number = none := by
  unfold parse_number
  split
  · have hm : c ∈ seq.remove number '.' := by
      rw [seq.remove_eq_filter]
      exact List.mem_filter.mpr ⟨hc, by simpa using hdot⟩
    simp only [parse_digits, parse_digits_2_none hm (parse_digit_rejected h)]
    rfl
  · rfl

end impl

theorem char_eq_of_toNat {c d : Char} (h : c.toNat = d.toNat) : c = d := by
  rw [← Char.ofNat_toNat c, ← Char.ofNat_toNat d, h]

namespace impl

theorem lower_of_upper {c : Char} (h : 65 ≤ c.toNat ∧ c.toNat ≤ 90) :
    (lower c).toNat = c.toNat + 32 := by
  have hc : c = Char.ofNat c.toNat := (Char.ofNat_toNat c).symm
  obtain ⟨n, hn⟩ : ∃ n, c.toNat = n := ⟨_, rfl⟩
  rw [hn] at hc h ⊢
  subst hc
  obtain ⟨h1, h2⟩ := h
  interval_cases n <;> decide

theorem lower_of_not_upper {c : Char} (h : ¬ (65 ≤ c.toNat ∧ c.toNat ≤ 90)) : lower c = c := by
  unfold lower
  obtain ⟨-, -, -, -, cA, cZ, -⟩ := code_values
  rw [cA, cZ]
  unfold code
  rw [if_neg]
  omega

theorem accepted_mono {B B2 : Nat} {c : Char} (hle : B ≤ B2) (h : accepted B c) :
    accepted B2 c := by
  unfold accepted at h ⊢
  rcases h with h | h
  · exact Or.inl h
  · exact Or.inr ⟨h.1, by omega⟩

theorem accepted_iff (B : Nat) (c : Char) :
    accepted B c ↔ (48 ≤ c.toNat ∧ c.toNat ≤ 57) ∨ (97 ≤ c.toNat ∧ c.toNat + 10 < 97 + B) := by
  unfold accepted
  obtain ⟨c0, c9, ca, -⟩ := code_values
  rw [c0, c9, ca]
  unfold code
  constructor <;> (intro h; rcases h with h | h) <;> first | (left; omega) | (right; omega)

theorem toNat_values : '0'.toNat = 48 ∧ '9'.toNat = 57 ∧ 'a'.toNat = 97 ∧ 'z'.toNat = 122 ∧
    'A'.toNat = 65 ∧ 'Z'.toNat = 90 ∧ '.'.toNat = 46 ∧ 'x'.toNat = 120 ∧ 'b'.toNat = 98 ∧
    'e'.toNat = 101 ∧ 'p'.toNat = 112 ∧ apostrophe.toNat = 39 ∧ 'X'.toNat = 88 ∧
    'E'.toNat = 69 ∧ 'P'.toNat = 80 ∧ '_'.toNat = 95 := by decide

end impl

theorem parse_ratio_eq (Head : Char) (Tail : List Char) :
    parse_ratio Head Tail = impl.parse_literal Head
      ((Tail.filter fun c => decide (c ≠ apostrophe)).map impl.lower) := by
  unfold parse_ratio
  rw [seq.remove_eq_filter, seq.transform_eq_map _ _ impl.lower (fun _ _ => rfl)]
  rfl

namespace impl

theorem parse_literal_none {Head : Char} {tail : List Char} {c : Char}
    (hc : c ∈ Head :: tail) (h10 : ¬ accepted 10 c) (hdot : c ≠ '.') (hx : c ≠ 'x')
    (hb : c ≠ 'b')
    (h16 : Head = '0' → tail.head? = some 'x' → ¬ accepted 16 c) :
    parse_literal Head tail = none := by
  have h8 : ¬ accepted 8 c := fun h => h10 (accepted_mono (by decide) h)
  have h2 : ¬ accepted 2 c := fun h => h10 (accepted_mono (by decide) h)
  have hzero : c ≠ '0' := by
    intro h
    rw [h] at h10
    exact h10 (by decide)
  unfold parse_literal
  by_cases hH : Head = '0'
  · rw [if_pos hH]
    have hct : c ∈ tail := by
      rcases List.mem_cons.mp hc with h | h
      · exact absurd (h.trans hH) hzero
      · exact h
    cases tail with
    | nil => exact absurd hct (List.not_mem_nil _)
    | cons h t =>
      cases t with
      | nil => exact parse_number_none hct hdot h8
      | cons h' t' =>
        show parse_literal_2 h (h' :: t') = none
        unfold parse_literal_2
        have hrest : c ≠ h → c ∈ h' :: t' := by
          intro hne
          rcases List.mem_cons.mp hct with e | e
          · exact absurd e hne
          · exact e
        split_ifs with e1 e2 e3
        · exact parse_number_none (e1 ▸ hct) hdot h10
        · exact parse_number_none (hrest (e2 ▸ hx)) hdot (h16 hH (by rw [e2]; rfl))
        · exact parse_number_none (hrest (e3 ▸ hb)) hdot h2
        · exact parse_number_none hct hdot h8
  · rw [if_neg hH]
    exact parse_number_none hc hdot h10

end impl

theorem is_digit_le_ten {B : Nat} (hB : B ≤ 10) {c : Char} (h : is_digit B c) :
    48 ≤ c.toNat ∧ c.toNat ≤ 57 ∧ c.toNat < 48 + B := by
  obtain ⟨ha, hv⟩ := h
  unfold is_alphanumeric at ha
  unfold digit_value at hv
  obtain ⟨e0, e9, ea, ez, eA, eZ, -⟩ := impl.toNat_values
  rw [e0, e9, ea, ez, eA, eZ] at ha hv
  split_ifs at hv <;> omega

theorem without_points_cons_digit {c : Char} (h : c ≠ '.') (cs : List Char) :
    without_points (c :: cs) = c :: without_points cs := by
  unfold without_points
  rw [List.filter_cons_of_pos (by simpa using h)]

theorem fraction_digits_cons_digit {c : Char} (h : c ≠ '.') (cs : List Char) :
    fraction_digits (c :: cs) = fraction_digits cs := by
  unfold fraction_digits
  rw [List.dropWhile_cons_of_pos (by simpa using h)]

namespace impl

/-- A character that is a point or one of `'0'..'9'`. -/
theorem plain_facts {c : Char} (h : c.toNat = 46 ∨ (48 ≤ c.toNat ∧ c.toNat ≤ 57)) :
    c ≠ apostrophe ∧ lower c = c ∧ c ≠ 'p' ∧ c ≠ 'e' ∧ c ≠ 'x' ∧ c ≠ 'b' ∧
      (c ≠ '.' → ∀ B : Nat, accepted B c) := by
  obtain ⟨-, -, -, -, -, -, edot, ex, eb, ee, ep, eap, -⟩ := toNat_values
  refine ⟨?_, lower_of_not_upper (by omega), ?_, ?_, ?_, ?_, ?_⟩
  · rintro rfl; omega
  · rintro rfl; omega
  · rintro rfl; omega
  · rintro rfl; omega
  · rintro rfl; omega
  · intro hne B
    rw [accepted_iff]
    left
    rcases h with h | h
    · exact absurd (char_eq_of_toNat (h.trans edot.symm)) hne
    · exact h

theorem normalise_plain {cs : List Char}
    (h : ∀ c ∈ cs, c.toNat = 46 ∨ (48 ≤ c.toNat ∧ c.toNat ≤ 57)) :
    (cs.filter fun c => decide (c ≠ apostrophe)).map lower = cs := by
  rw [List.filter_eq_self.mpr (fun c hc => by simpa using (plain_facts (h c hc)).1)]
  conv_rhs => rw [← List.map_id cs]
  exact List.map_congr_left fun c hc => (plain_facts (h c hc)).2.1

theorem parse_number_plain {B : Nat} (hB1 : 1 ≤ B) (hB : B ≤ 36) {number : List Char}
    (h : ∀ c ∈ number, c.toNat = 46 ∨ (48 ≤ c.toNat ∧ c.toNat ≤ 57)) :
    parse_number B number =
      if literal_representable B number then
        some (rational_constant.ofRat
          ((spelled B (without_points number) : ℚ) / (B : ℚ) ^ fraction_digits number))
      else none :=
  parse_number_eq hB1 hB number
    (seq.find_value_of_not_mem fun hm => (plain_facts (h _ hm)).2.2.1 rfl)
    (seq.find_value_of_not_mem fun hm => (plain_facts (h _ hm)).2.2.2.1 rfl)
    (fun c hc hne => (plain_facts (h c hc)).2.2.2.2.2.2 hne B)

end impl

theorem without_points_length_le (cs : List Char) : (without_points cs).length ≤ cs.length :=
  List.length_filter_le _ _

theorem fraction_digits_point_cons (cs : List Char) :
    fraction_digits ('.' :: cs) = cs.length := by
  unfold fraction_digits
  rw [List.dropWhile_cons_of_neg (by simp)]
  rfl

theorem without_points_point_cons (cs : List Char) :
    without_points ('.' :: cs) = without_points cs := by
  unfold without_points
  rw [List.filter_cons_of_neg (by simp)]

theorem literal_representable_zero_point (B : Nat) (hB : 1 ≤ B) (rest : List Char) :
    literal_representable B ('0' :: '.' :: rest) ↔ literal_representable B ('.' :: rest) := by
  have h0 : ('0' : Char) ≠ '.' := by decide
  have hB1 : (1 : Int) ≤ (B : Int) := by exact_mod_cast hB
  unfold literal_representable
  rw [without_points_cons_digit h0, fraction_digits_cons_digit h0, spelled_zero_cons,
    fraction_digits_point_cons, without_points_point_cons]
  have hlen := without_points_length_le rest
  constructor
  · rintro ⟨h1, h2, h3⟩
    exact ⟨le_trans (pow_le_pow_right₀ hB1 (by simp)) h1, h2, h3⟩
  · rintro ⟨h1, h2, h3⟩
    exact ⟨le_trans (pow_le_pow_right₀ hB1 (by simpa using hlen)) h3, h2, h3⟩

theorem decimal_literal_eq (hd : Char) (tl : List Char)
    (h : ∀ c ∈ hd :: tl, c = '.' ∨ is_digit 10 c)
    (hstart : hd ≠ '0' ∨ tl.head? = some '.') :
    rational_constant_literals.literal_operator (hd :: tl) =
      if literal_representable 10 (hd :: tl) then
        some (rational_constant.ofRat ((spelled 10 (without_points (hd :: tl)) : ℚ) /
          (10 : ℚ) ^ fraction_digits (hd :: tl)))
      else none := by
  have hpl : ∀ c ∈ hd :: tl, c.toNat = 46 ∨ (48 ≤ c.toNat ∧ c.toNat ≤ 57) := by
    intro c hc
    rcases h c hc with rfl | hdg
    · exact Or.inl impl.toNat_values.2.2.2.2.2.2.1
    · exact Or.inr ⟨(is_digit_le_ten (le_refl _) hdg).1, (is_digit_le_ten (le_refl _) hdg).2.1⟩
  have hpt : ∀ c ∈ tl, c.toNat = 46 ∨ (48 ≤ c.toNat ∧ c.toNat ≤ 57) :=
    fun c hc => hpl c (List.mem_cons_of_mem _ hc)
  have h0 : ('0' : Char) ≠ '.' := by decide
  show parse_ratio hd tl = _
  rw [parse_ratio_eq, impl.normalise_plain hpt]
  unfold impl.parse_literal
  by_cases hH : hd = '0'
  · rw [if_pos hH]
    subst hH
    rcases hstart with hs | hs
    · exact absurd rfl hs
    · cases tl with
      | nil => simp at hs
      | cons p rest =>
        have hp : p = '.' := by simpa using hs
        subst hp
        rw [without_points_cons_digit h0, fraction_digits_cons_digit h0, spelled_zero_cons]
        cases rest with
        | nil =>
          show impl.parse_number 8 ['.'] = _
          rw [impl.parse_number_plain (by decide) (by decide) (fun c hc => by
            rw [List.mem_singleton.mp hc]; exact Or.inl impl.toNat_values.2.2.2.2.2.2.1)]
          have e1 : without_points ['.'] = [] := by decide
          have e2 : fraction_digits ['.'] = 0 := by decide
          have l1 : literal_representable 8 ['.'] := by
            unfold literal_representable
            rw [e1, e2]
            decide
          have l2 : literal_representable 10 ['0', '.'] := by
            unfold literal_representable
            rw [without_points_cons_digit h0, fraction_digits_cons_digit h0, e1, e2]
            decide
          rw [if_pos l1, if_pos l2, e1, e2, spelled_nil, spelled_nil]
          simp
        | cons h2 t2 =>
          show impl.parse_number 10 ('.' :: h2 :: t2) = _
          have := impl.parse_number_plain (B := 10) (by decide) (by decide) hpt
          rw [this]
          simp only [literal_representable_zero_point 10 (by decide)]
          simp
  · rw [if_neg hH]
    have := impl.parse_number_plain (B := 10) (by decide) (by decide) hpl
    rw [this]
    simp

theorem octal_literal_eq (d : Char) (tl : List Char) (hd8 : is_digit 8 d)
    (h : ∀ c ∈ tl, c = '.' ∨ is_digit 8 c) :
    rational_constant_literals.literal_operator ('0' :: d :: tl) =
      if literal_representable 8 (d :: tl) then
        some (rational_constant.ofRat ((spelled 8 (without_points ('0' :: d :: tl)) : ℚ) /
          (8 : ℚ) ^ fraction_digits ('0' :: d :: tl)))
      else none := by
  have hd' := is_digit_le_ten (by decide : 8 ≤ 10) hd8
  have hpl : ∀ c ∈ d :: tl, c.toNat = 46 ∨ (48 ≤ c.toNat ∧ c.toNat ≤ 57) := by
    intro c hc
    rcases List.mem_cons.mp hc with rfl | hc
    · exact Or.inr ⟨hd'.1, hd'.2.1⟩
    · rcases h c hc with rfl | hdg
      · exact Or.inl impl.toNat_values.2.2.2.2.2.2.1
      · exact Or.inr ⟨(is_digit_le_ten (by decide : 8 ≤ 10) hdg).1,
          (is_digit_le_ten (by decide : 8 ≤ 10) hdg).2.1⟩
  have h0 : ('0' : Char) ≠ '.' := by decide
  obtain ⟨-, -, -, -, -, -, edot, ex, eb, -⟩ := impl.toNat_values
  have hdd : d ≠ '.' := by rintro rfl; omega
  have hdx : d ≠ 'x' := by rintro rfl; omega
  have hdb : d ≠ 'b' := by rintro rfl; omega
  show parse_ratio '0' (d :: tl) = _
  rw [parse_ratio_eq, impl.normalise_plain hpl]
  unfold impl.parse_literal
  rw [if_pos rfl, without_points_cons_digit h0, fraction_digits_cons_digit h0,
    spelled_zero_cons]
  have hnum := impl.parse_number_plain (B := 8) (by decide) (by decide) hpl
  cases tl with
  | nil =>
    show impl.parse_number 8 [d] = _
    rw [hnum]; simp
  | cons h2 t2 =>
    show impl.parse_literal_2 d (h2 :: t2) = _
    rw [impl.parse_literal_2, if_neg hdd, if_neg hdx, if_neg hdb, hnum]
    simp

theorem not_mem_after_first {c : Char} {l : List Char} (h : l.count c ≤ 1) :
    c ∉ (l.dropWhile fun x => decide (x ≠ c)).drop 1 := by
  induction l with
  | nil => simp
  | cons x t ih =>
    by_cases hx : x = c
    · subst hx
      rw [List.dropWhile_cons_of_neg (by simp)]
      simp only [List.drop_succ_cons, List.drop_zero]
      rw [List.count_cons_self] at h
      exact fun hm => absurd (List.count_pos_iff.mpr hm) (by omega)
    · rw [List.dropWhile_cons_of_pos (by simpa using hx)]
      apply ih
      rw [List.count_cons_of_ne (Ne.symm hx)] at h
      exact h

theorem mem_of_mem_after_first {c x : Char} {l : List Char}
    (h : x ∈ (l.dropWhile fun x => decide (x ≠ c)).drop 1) : x ∈ l :=
  (List.dropWhile_sublist _).subset ((List.drop_sublist _ _).subset h)

theorem literal_eq_of_toRat {cs : List Char} {q : ℚ} {y : rational_constant}
    (h : rational_constant_literals.literal_operator cs = some (rational_constant.ofRat q))
    (hy : y.valid) (hq : q = y.toRat) :
    rational_constant_literals.literal_operator cs = some y := by
  rw [h, rational_constant.ofRat_eq_of_toRat hy hq]

theorem some_eq_of_toRat {o : Option rational_constant} {q : ℚ} {y : rational_constant}
    (h : ∃ r, o = some r ∧ r.valid ∧ r.toRat = q) (hy : y.valid) (hq : q = y.toRat) :
    o = some y := by
  obtain ⟨r, hr, hv, ht⟩ := h
  rw [hr, rational_constant.toRat_injective hv hy (ht.trans hq)]

theorem without_points_of_no_point {cs : List Char} (h : '.' ∉ cs) : without_points cs = cs := by
  unfold without_points
  rw [List.filter_eq_self]
  intro c hc
  have : c ≠ '.' := fun e => h (e ▸ hc)
  simpa using this

theorem fraction_digits_of_no_point {cs : List Char} (h : '.' ∉ cs) :
    fraction_digits cs = 0 := by
  unfold fraction_digits
  have : (cs.dropWhile fun c => decide (c ≠ '.')) = [] := by
    rw [List.dropWhile_eq_nil_iff]
    intro c hc
    have : c ≠ '.' := fun e => h (e ▸ hc)
    simpa using this
  rw [this]
  rfl

theorem is_digit_sixteen {c : Char} (h : is_digit 16 c) :
    (48 ≤ c.toNat ∧ c.toNat ≤ 57) ∨ (97 ≤ c.toNat ∧ c.toNat ≤ 102) ∨
      (65 ≤ c.toNat ∧ c.toNat ≤ 70) := by
  obtain ⟨ha, hv⟩ := h
  unfold is_alphanumeric at ha
  unfold digit_value at hv
  obtain ⟨e0, e9, ea, ez, eA, eZ, -⟩ := impl.toNat_values
  rw [e0, e9, ea, ez, eA, eZ] at ha hv
  split_ifs at hv <;> omega

namespace impl

theorem hex_facts {c : Char} (h : is_digit 16 c) :
    c ≠ apostrophe ∧ accepted 16 (lower c) ∧ digit_value (lower c) = digit_value c ∧
      lower c ≠ '.' ∧ lower c ≠ 'p' ∧ (lower c = 'e' ↔ c = 'e' ∨ c = 'E') := by
  obtain ⟨e0, e9, ea, ez, eA, eZ, edot, ex, eb, ee, ep, eap, eX, eE, eP, eu⟩ := toNat_values
  have hr := is_digit_sixteen h
  have hne : ∀ {d : Char} {n : Nat}, d.toNat = n → (lower c).toNat ≠ n → lower c ≠ d :=
    fun hd hn e => hn (e ▸ hd)
  by_cases hu : 65 ≤ c.toNat ∧ c.toNat ≤ 90
  · have hl := lower_of_upper hu
    refine ⟨?_, ?_, ?_, hne edot (by omega), hne ep (by omega), ?_⟩
    · rintro rfl; omega
    · rw [accepted_iff]; omega
    · unfold digit_value
      rw [e0, e9, ea, ez, eA, eZ, hl]
      split_ifs <;> omega
    · constructor
      · intro e
        right
        apply char_eq_of_toNat
        have := congrArg Char.toNat e
        omega
      · rintro (rfl | rfl)
        · omega
        · decide
  · have hl := lower_of_not_upper hu
    rw [hl]
    refine ⟨?_, ?_, rfl, ?_, ?_, ?_⟩
    · rintro rfl; omega
    · rw [accepted_iff]; omega
    · rintro rfl; omega
    · rintro rfl; omega
    · constructor
      · exact Or.inl
      · rintro (rfl | rfl)
        · rfl
        · omega

end impl

theorem literal_representable_of_no_point {B : Nat} {cs : List Char} (h : '.' ∉ cs) :
    literal_representable B cs ↔
      (B : Int) ^ (cs.length - 1) ≤ intmax_max ∧ (spelled B cs : Int) ≤ intmax_max := by
  unfold literal_representable
  rw [without_points_of_no_point h, fraction_digits_of_no_point h, pow_zero]
  constructor
  · rintro ⟨h1, h2, -⟩
    exact ⟨h1, h2⟩
  · rintro ⟨h1, h2⟩
    exact ⟨h1, h2, by decide⟩

theorem hex_literal_eq (X : Char) (ds : List Char) (hX : X = 'x' ∨ X = 'X') (hne : ds ≠ [])
    (h : ∀ c ∈ ds, is_digit 16 c) :
    rational_constant_literals.literal_operator ('0' :: X :: ds) =
      if 'e' ∈ ds.dropLast ∨ 'E' ∈ ds.dropLast then none
      else if literal_representable 16 ds then some ⟨(spelled 16 ds : Int), 1⟩
      else none := by
  have hXap : X ≠ apostrophe := by rcases hX with rfl | rfl <;> decide
  have hXl : impl.lower X = 'x' := by rcases hX with rfl | rfl <;> decide
  have hfil : ((X :: ds).filter fun c => decide (c ≠ apostrophe)) = X :: ds := by
    rw [List.filter_eq_self]
    intro c hc
    rcases List.mem_cons.mp hc with rfl | hc
    · simpa using hXap
    · simpa using (impl.hex_facts (h c hc)).1
  have hmne : ds.map impl.lower ≠ [] := by simpa using hne
  have hlit : rational_constant_literals.literal_operator ('0' :: X :: ds) =
      impl.parse_number 16 (ds.map impl.lower) := by
    show parse_ratio '0' (X :: ds) = _
    rw [parse_ratio_eq, hfil, List.map_cons, hXl]
    unfold impl.parse_literal
    rw [if_pos rfl]
    cases hm : ds.map impl.lower with
    | nil => exact absurd hm hmne
    | cons d t =>
      show impl.parse_literal_2 'x' (d :: t) = _
      rw [impl.parse_literal_2, if_neg (by decide), if_pos rfl]
  have hmem : ∀ {c : Char}, c ∈ ds.map impl.lower → ∃ d ∈ ds, impl.lower d = c :=
    fun hc => List.mem_map.mp hc
  have hdot : '.' ∉ ds.map impl.lower := by
    intro hm
    obtain ⟨d, hd, e⟩ := hmem hm
    exact (impl.hex_facts (h d hd)).2.2.2.1 e
  have hdot2 : '.' ∉ ds := by
    intro hm
    have := is_digit_sixteen (h _ hm)
    have edot := impl.toNat_values.2.2.2.2.2.2.1
    omega
  have hp : 'p' ∉ ds.map impl.lower := by
    intro hm
    obtain ⟨d, hd, e⟩ := hmem hm
    exact (impl.hex_facts (h d hd)).2.2.2.2.1 e
  have he : (seq.find (ds.map impl.lower) 'e').value = true ↔
      ('e' ∈ ds.dropLast ∨ 'E' ∈ ds.dropLast) := by
    rw [seq.find, seq.find_if, seq.find_if_impl_value, ← List.map_dropLast]
    constructor
    · rintro ⟨x, hx, hpx⟩
      have hxe : 'e' = x := by simpa using hpx
      obtain ⟨d, hd, e⟩ := List.mem_map.mp hx
      rcases (impl.hex_facts (h d (List.mem_of_mem_dropLast hd))).2.2.2.2.2.mp
        (e.trans hxe.symm) with rfl | rfl
      · exact Or.inl hd
      · exact Or.inr hd
    · rintro (hm | hm)
      · exact ⟨'e', List.mem_map.mpr ⟨'e', hm, by decide⟩, by simp⟩
      · exact ⟨'e', List.mem_map.mpr ⟨'E', hm, by decide⟩, by simp⟩
  rw [hlit]
  by_cases hE : 'e' ∈ ds.dropLast ∨ 'E' ∈ ds.dropLast
  · rw [if_pos hE]
    unfold impl.parse_number
    rw [he.mpr hE]
    simp
  · rw [if_neg hE]
    have hev : (seq.find (ds.map impl.lower) 'e').value = false := by
      cases hv : (seq.find (ds.map impl.lower) 'e').value with
      | false => rfl
      | true => exact absurd (he.mp hv) hE
    have hsp : spelled 16 (ds.map impl.lower) = spelled 16 ds := by
      unfold spelled
      rw [← List.map_reverse, List.map_map]
      congr 1
      apply List.map_congr_left
      intro c hc
      exact (impl.hex_facts (h c (List.mem_reverse.mp hc))).2.2.1
    have hlr : literal_representable 16 (ds.map impl.lower) ↔ literal_representable 16 ds := by
      rw [literal_representable_of_no_point hdot, literal_representable_of_no_point hdot2, hsp,
        List.length_map]
    rw [impl.parse_number_eq (by decide) (by decide) _ (seq.find_value_of_not_mem hp) hev
      (fun c hc _ => by
        obtain ⟨d, hd, rfl⟩ := hmem hc
        exact (impl.hex_facts (h d hd)).2.1),
      without_points_of_no_point hdot, fraction_digits_of_no_point hdot]
    simp only [hlr]
    rw [hsp]
    by_cases hl : literal_representable 16 ds
    · rw [if_pos hl, if_pos hl]
      exact congrArg some (rational_constant.ofRat_eq_of_toRat (rational_constant.valid_int _)
        (by simp [rational_constant.toRat]))
    · rw [if_neg hl, if_neg hl]

theorem mem_after_first_of_two_le {c : Char} {l : List Char} (h : 2 ≤ l.count c) :
    c ∈ (l.dropWhile fun x => decide (x ≠ c)).drop 1 := by
  induction l with
  | nil => simp at h
  | cons x t ih =>
    by_cases hx : x = c
    · subst hx
      rw [List.dropWhile_cons_of_neg (by simp)]
      simp only [List.drop_succ_cons, List.drop_zero]
      rw [List.count_cons_self] at h
      exact List.count_pos_iff.mp (by omega)
    · rw [List.dropWhile_cons_of_pos (by simpa using hx)]
      apply ih
      rw [List.count_cons_of_ne (Ne.symm hx)] at h
      exact h

namespace impl

theorem lower_eq_x {c : Char} (h : lower c = 'x') : c = 'x' ∨ c = 'X' := by
  by_cases hu : 65 ≤ c.toNat ∧ c.toNat ≤ 90
  · right
    apply char_eq_of_toNat
    have h1 := lower_of_upper hu
    rw [h] at h1
    have ex := toNat_values.2.2.2.2.2.2.2.1
    have eX := toNat_values.2.2.2.2.2.2.2.2.2.2.2.2.1
    omega
  · left
    rw [lower_of_not_upper hu] at h
    exact h

theorem mem_normalised {c : Char} {tl : List Char} (hc : c ∈ tl) (hap : c ≠ apostrophe) :
    lower c ∈ (tl.filter fun c => decide (c ≠ apostrophe)).map lower :=
  List.mem_map.mpr ⟨c, List.mem_filter.mpr ⟨hc, by simpa using hap⟩, rfl⟩

theorem normalised_head_x {hd : Char} {tl : List Char} (hH : hd = '0')
    (hx : ((tl.filter fun c => decide (c ≠ apostrophe)).map lower).head? = some 'x') :
    hex_prefixed (hd :: tl) := by
  refine ⟨hH, ?_⟩
  cases hf : tl.filter fun c => decide (c ≠ apostrophe) with
  | nil => rw [hf] at hx; simp at hx
  | cons a t =>
    rw [hf] at hx
    have : lower a = 'x' := by simpa using hx
    rcases lower_eq_x this with rfl | rfl
    · exact Or.inl rfl
    · exact Or.inr rfl

end impl

/-! ## Lemmas: sets without duplicates, exact roots -/

namespace seq

theorem is_uset_iff_nodup {α : Type} [DecidableEq α] (s : List α) :
    is_uset s = true ↔ s.Nodup := by
  induction s with
  | nil => simp [is_uset]
  | cons h t ih =>
    rw [is_uset, Bool.and_eq_true, ih, List.nodup_cons, Bool.not_eq_true',
      contains_eq_false_iff]
    constructor
    · rintro ⟨h1, h2⟩
      exact ⟨fun hm => by simpa using h1 h hm, h2⟩
    · rintro ⟨h1, h2⟩
      refine ⟨fun x hx => ?_, h2⟩
      have : h ≠ x := fun e => h1 (e ▸ hx)
      simpa using this

end seq

namespace rational_constant

theorem toRat_nonneg_iff {r : rational_constant} (h : r.valid) : 0 ≤ r.toRat ↔ 0 ≤ r.num := by
  have hd : (0 : ℚ) < (r.den : ℚ) := by exact_mod_cast valid_den_pos h
  unfold toRat
  rw [div_nonneg_iff]
  constructor
  · rintro (⟨h1, _⟩ | ⟨_, h2⟩)
    · exact_mod_cast h1
    · exact absurd h2 (not_le.mpr hd)
  · intro h1
    exact Or.inl ⟨by exact_mod_cast h1, le_of_lt hd⟩

theorem fits_of_toRat_pow {z x : rational_constant} (hz : z.valid) (hx : x.valid) {m : Nat}
    (hm : 1 ≤ m) (h : z.toRat ^ m = x.toRat) (hf : x.fits) : z.fits := by
  have e : x = ⟨z.num ^ m, z.den ^ m⟩ := by
    rw [← ofRat_toRat hx, ← h, ofRat_pow hz m]
  rw [e] at hf
  exact fits_of_pow_fits hm hf

theorem sqrt_fits {r y : rational_constant} (h : sqrt r = some y) : r.fits :=
  (sqrt_with_eq_some h).2.2.2.2.2

theorem cbrt_fits {r y : rational_constant} (h : cbrt r = some y) : r.fits :=
  (cbrt_with_eq_some h).2.2.2.2.2

theorem sqrt_eq_some_iff {r y : rational_constant} (hr : r.valid) (hf : r.fits) :
    sqrt r = some y ↔ y.valid ∧ 0 ≤ y.toRat ∧ y.toRat ^ 2 = r.toRat := by
  constructor
  · intro h
    obtain ⟨hy, hn, _, he, _, _⟩ := sqrt_with_eq_some h
    refine ⟨hy, ?_, ?_⟩
    · rw [toRat_nonneg_iff hy]
      unfold std.sqrt_intmax at hn
      split at hn
      · cases hn
      · rw [Option.some.injEq] at hn
        rw [← hn]
        exact Int.natCast_nonneg _
    · rw [he, toRat_mk_mul_self hy, pow_two]
  · rintro ⟨hy, h0, he⟩
    have e : r = ⟨y.num * y.num, y.den * y.den⟩ := by
      rw [← ofRat_toRat hr, ← he, pow_two, ofRat_mul_self hy]
    exact sqrt_of_sq hy ((toRat_nonneg_iff hy).mp h0) hf (congrArg num e) (congrArg den e)

theorem cbrt_eq_some_iff {r y : rational_constant} (hr : r.valid) (hf : r.fits) :
    cbrt r = some y ↔ y.valid ∧ y.toRat ^ 3 = r.toRat := by
  constructor
  · intro h
    obtain ⟨hy, _, _, he, _, _⟩ := cbrt_with_eq_some h
    exact ⟨hy, by rw [he, toRat_mk_pow]⟩
  · rintro ⟨hy, he⟩
    have e : r = ⟨y.num ^ 3, y.den ^ 3⟩ := by
      rw [← ofRat_toRat hr, ← he, ofRat_pow hy 3]
    exact cbrt_of_cube hy hf (congrArg num e) (congrArg den e)

end rational_constant

namespace mjk

theorem root_two_mul (x : rational_constant) {n : Int} (hn : 0 < n) :
    root x (2 * n) = (root x n).bind fun r => r.sqrt := by
  have h2 : (2 * n).tmod 2 = 0 := by
    rw [Int.tmod_eq_emod (by omega) (by decide)]
    omega
  have hd : (2 * n).tdiv 2 = n := by
    rw [Int.tdiv_eq_ediv (by omega) (by decide)]
    omega
  rw [root_even x (by omega) h2, hd]

theorem three_pow_tmod_two (b : Nat) : ((3 : Int) ^ b).tmod 2 ≠ 0 := by
  have hpos : (0 : Int) < 3 ^ b := by positivity
  rw [Int.tmod_eq_emod (le_of_lt hpos) (by decide)]
  have hodd : Odd ((3 : Int) ^ b) := Odd.pow (by decide)
  rw [Int.odd_iff] at hodd
  omega

theorem root_three_pow_succ (x : rational_constant) (b : Nat) :
    root x ((3 : Int) ^ (b + 1)) = (root x ((3 : Int) ^ b)).bind fun r => r.cbrt := by
  have hpos : (0 : Int) < 3 ^ b := by positivity
  have hpos1 : (0 : Int) < 3 ^ (b + 1) := by positivity
  have e : (3 : Int) ^ (b + 1) = 3 * 3 ^ b := by ring
  have h3 : ((3 : Int) ^ (b + 1)).tmod 3 = 0 := by
    rw [Int.tmod_eq_emod (le_of_lt hpos1) (by decide), e]
    omega
  have hd : ((3 : Int) ^ (b + 1)).tdiv 3 = 3 ^ b := by
    rw [Int.tdiv_eq_ediv (le_of_lt hpos1) (by decide), e]
    omega
  rw [root_three x hpos1 h3 (three_pow_tmod_two _), hd]

theorem root_three_pow_iff {x : rational_constant} (hx : x.valid) (hf : x.fits) (b : Nat)
    (y : rational_constant) :
    root x ((3 : Int) ^ b) = some y ↔ y.valid ∧ y.toRat ^ (3 ^ b) = x.toRat := by
  induction b generalizing y with
  | zero =>
    rw [pow_zero, root_one, Option.some.injEq, pow_zero, pow_one]
    constructor
    · intro h
      rw [← h]
      exact ⟨hx, rfl⟩
    · rintro ⟨hy, h⟩
      exact (rational_constant.toRat_injective hy hx h).symm
  | succ b ih =>
    rw [root_three_pow_succ, Option.bind_eq_some]
    constructor
    · rintro ⟨z, hz, hzy⟩
      obtain ⟨hzv, hze⟩ := (ih z).mp hz
      obtain ⟨hyv, hye⟩ :=
        (rational_constant.cbrt_eq_some_iff hzv (rational_constant.cbrt_fits hzy)).mp hzy
      refine ⟨hyv, ?_⟩
      rw [pow_succ, mul_comm, pow_mul, hye, hze]
    · rintro ⟨hyv, hye⟩
      have hz : (rational_constant.ofRat (y.toRat ^ 3)).toRat ^ 3 ^ b = x.toRat := by
        rw [rational_constant.toRat_ofRat, ← pow_mul, ← hye, pow_succ, mul_comm]
      have hzf : (rational_constant.ofRat (y.toRat ^ 3)).fits :=
        rational_constant.fits_of_toRat_pow (rational_constant.valid_ofRat _) hx
          (Nat.one_le_pow _ _ (by decide)) hz hf
      refine ⟨rational_constant.ofRat (y.toRat ^ 3), ?_, ?_⟩
      · rw [ih]
        exact ⟨rational_constant.valid_ofRat _, hz⟩
      · rw [rational_constant.cbrt_eq_some_iff (rational_constant.valid_ofRat _) hzf]
        exact ⟨hyv, (rational_constant.toRat_ofRat _).symm⟩

theorem root_smooth_succ (x : rational_constant) (a b : Nat) :
    root x ((2 : Int) ^ (a + 1) * 3 ^ b) =
      (root x ((2 : Int) ^ a * 3 ^ b)).bind fun r => r.sqrt := by
  have hpos : (0 : Int) < 2 ^ a * 3 ^ b := by positivity
  have e : (2 : Int) ^ (a + 1) * 3 ^ b = 2 * (2 ^ a * 3 ^ b) := by ring
  rw [e, root_two_mul x hpos]

theorem root_smooth_iff {x : rational_constant} (hx : x.valid) (hf : x.fits) (a b : Nat)
    (y : rational_constant) :
    root x ((2 : Int) ^ a * 3 ^ b) = some y ↔
      y.valid ∧ (0 < a → 0 ≤ y.toRat) ∧ y.toRat ^ (2 ^ a * 3 ^ b) = x.toRat := by
  induction a generalizing y with
  | zero =>
    rw [pow_zero, one_mul, pow_zero, one_mul, root_three_pow_iff hx hf]
    constructor
    · rintro ⟨h1, h2⟩
      exact ⟨h1, fun h => absurd h (lt_irrefl _), h2⟩
    · rintro ⟨h1, _, h2⟩
      exact ⟨h1, h2⟩
  | succ a ih =>
    rw [root_smooth_succ, Option.bind_eq_some]
    constructor
    · rintro ⟨z, hz, hzy⟩
      obtain ⟨hzv, _, hze⟩ := (ih z).mp hz
      obtain ⟨hyv, hy0, hye⟩ :=
        (rational_constant.sqrt_eq_some_iff hzv (rational_constant.sqrt_fits hzy)).mp hzy
      refine ⟨hyv, fun _ => hy0, ?_⟩
      rw [pow_succ, mul_comm (2 ^ a) 2, mul_assoc, pow_mul, hye, hze]
    · rintro ⟨hyv, hy0, hye⟩
      have hz : (rational_constant.ofRat (y.toRat ^ 2)).toRat ^ (2 ^ a * 3 ^ b) = x.toRat := by
        rw [rational_constant.toRat_ofRat, ← pow_mul, ← hye, pow_succ, mul_comm (2 ^ a) 2,
          mul_assoc]
      have hzf : (rational_constant.ofRat (y.toRat ^ 2)).fits :=
        rational_constant.fits_of_toRat_pow (rational_constant.valid_ofRat _) hx
          (Nat.one_le_iff_ne_zero.mpr (by positivity)) hz hf
      refine ⟨rational_constant.ofRat (y.toRat ^ 2), ?_, ?_⟩
      · rw [ih]
        refine ⟨rational_constant.valid_ofRat _, fun _ => ?_, hz⟩
        rw [rational_constant.toRat_ofRat]
        positivity
      · rw [rational_constant.sqrt_eq_some_iff (rational_constant.valid_ofRat _) hzf]
        exact ⟨hyv, hy0 (Nat.succ_pos _), (rational_constant.toRat_ofRat _).symm⟩

theorem root_smooth_iterate (x : rational_constant) (a b : Nat) :
    root x ((2 : Int) ^ a * 3 ^ b) =
      (fun o : Option rational_constant => o.bind fun r => r.sqrt)^[a]
        ((fun o : Option rational_constant => o.bind fun r => r.cbrt)^[b] (some x)) := by
  induction a with
  | zero =>
    rw [pow_zero, one_mul, Function.iterate_zero, id]
    induction b with
    | zero => rw [pow_zero, root_one, Function.iterate_zero, id]
    | succ b ih => rw [root_three_pow_succ, Function.iterate_succ_apply', ih]
  | succ a ih => rw [root_smooth_succ, Function.iterate_succ_apply', ih]

theorem root_smooth_isSome {x : rational_constant} (hx : x.valid) (hf : x.fits) (a b : Nat) :
    (root x ((2 : Int) ^ a * 3 ^ b)).isSome = true ↔
      ∃ q : ℚ, q ^ (2 ^ a * 3 ^ b) = x.toRat := by
  rw [Option.isSome_iff_exists]
  constructor
  · rintro ⟨y, hy⟩
    exact ⟨y.toRat, ((root_smooth_iff hx hf a b y).mp hy).2.2⟩
  · rintro ⟨q, hq⟩
    rcases Nat.eq_zero_or_pos a with ha | ha
    · refine ⟨rational_constant.ofRat q, (root_smooth_iff hx hf a b _).mpr
        ⟨rational_constant.valid_ofRat _, fun h => ?_, ?_⟩⟩
      · omega
      · rw [rational_constant.toRat_ofRat, hq]
    · have hev : Even (2 ^ a * 3 ^ b) :=
        Even.mul_right ((Nat.even_pow.mpr ⟨even_two, by omega⟩)) _
      refine ⟨rational_constant.ofRat |q|, (root_smooth_iff hx hf a b _).mpr
        ⟨rational_constant.valid_ofRat _, fun _ => ?_, ?_⟩⟩
      · rw [rational_constant.toRat_ofRat]
        exact abs_nonneg q
      · rw [rational_constant.toRat_ofRat, Even.pow_abs hev, hq]

theorem root_pos_smooth (x : rational_constant) (I : Int) :
    0 < I → root x I ≠ none → ∃ a b : Nat, I = (2 : Int) ^ a * 3 ^ b := by
  induction I using root.induct x with
  | case1 => intro h; omega
  | case2 _ => intro _ _; exact ⟨0, 0, rfl⟩
  | case3 I _ _ hc ih =>
    intro h0 hne
    rw [root_even x hc.1 hc.2] at hne
    have hmd := Int.tmod_add_tdiv I 2
    have hpos : 0 < I.tdiv 2 := by omega
    have hsub : root x (I.tdiv 2) ≠ none := by
      intro h
      rw [h] at hne
      exact hne rfl
    obtain ⟨a, b, hab⟩ := ih hpos hsub
    refine ⟨a + 1, b, ?_⟩
    have e : I = 2 * I.tdiv 2 := by omega
    rw [e, hab]
    ring
  | case4 I _ _ _ hc ih =>
    intro h0 hne
    rw [root_three x hc.1 hc.2.1 hc.2.2] at hne
    have hmd := Int.tmod_add_tdiv I 3
    have hpos : 0 < I.tdiv 3 := by omega
    have hsub : root x (I.tdiv 3) ≠ none := by
      intro h
      rw [h] at hne
      exact hne rfl
    obtain ⟨a, b, hab⟩ := ih hpos hsub
    refine ⟨a, b + 1, ?_⟩
    have e : I = 3 * I.tdiv 3 := by omega
    rw [e, hab]
    ring
  | case5 I h0 h1 h2 h3 hp =>
    intro _ hne
    exact absurd (by rw [root, if_neg h0, if_neg h1, if_neg h2, if_neg h3, if_pos hp]) hne
  | case6 _ _ _ _ _ => intro h; exact absurd h (by decide)
  | case7 I _ _ _ _ hp _ _ => intro h; exact absurd h hp

end mjk

/-! ## Lemmas: when the dimension algebra is defined -/

namespace seq

variable {α : Type}

theorem transform_if_some {s l : List α} {pred : α → Bool} {transf : α → Option α}
    (h : transform_if s pred transf = some l) :
    ∀ x ∈ s, pred x = true → ∃ y, transf x = some y := by
  unfold transform_if at h
  induction s generalizing l with
  | nil =>
    intro x hx
    exact absurd hx (List.not_mem_nil _)
  | cons a t ih =>
    rw [List.mapM_cons] at h
    simp only [Option.pure_def, Option.bind_eq_bind, Option.bind_eq_some] at h
    obtain ⟨b, hb, bs, hbs, -⟩ := h
    intro x hx hp
    rcases List.mem_cons.mp hx with rfl | hxt
    · rw [if_pos hp] at hb
      exact ⟨b, hb⟩
    · exact ih hbs x hxt hp

end seq

namespace rational_constant

theorem add_isSome_iff {x y : rational_constant} (hx : x.valid) (hy : y.valid) :
    (x.add y).isSome = true ↔ x.fits ∧ y.fits ∧ (ofRat (x.toRat + y.toRat)).fits := by
  have hxd := ne_of_gt (valid_den_pos hx)
  have hyd := ne_of_gt (valid_den_pos hy)
  constructor
  · intro h
    obtain ⟨r, hr⟩ := Option.isSome_iff_exists.mp h
    obtain ⟨hre, hrf, hxf, hyf⟩ := add_eq_some hxd hyd hr
    exact ⟨hxf, hyf, hre ▸ hrf⟩
  · rintro ⟨hxf, hyf, hf⟩
    rw [add_of_fits hxd hyd hxf hyf hf]
    rfl

theorem mul_isSome_iff {x y : rational_constant} (hx : x.valid) (hy : y.valid) :
    (x.mul y).isSome = true ↔ x.fits ∧ y.fits ∧ (ofRat (x.toRat * y.toRat)).fits := by
  have hxd := ne_of_gt (valid_den_pos hx)
  have hyd := ne_of_gt (valid_den_pos hy)
  constructor
  · intro h
    obtain ⟨r, hr⟩ := Option.isSome_iff_exists.mp h
    obtain ⟨hre, hrf, hxf, hyf⟩ := mul_eq_some hxd hyd hr
    exact ⟨hxf, hyf, hre ▸ hrf⟩
  · rintro ⟨hxf, hyf, hf⟩
    rw [mul_of_fits hxd hyd hxf hyf hf]
    rfl

end rational_constant

theorem mul_in_range_iff {a b : dimension_product}
    (ha : a.instantiated) (hb : b.instantiated) :
    a.mul_in_range b ↔ ∀ f ∈ b.factors, f.tag ∈ a.factors.map (fun g => g.tag) →
      (exponent_in a.factors f.tag).fits ∧ f.power.fits ∧
        (rational_constant.ofRat ((exponent_in a.factors f.tag).toRat + f.power.toRat)).fits := by
  unfold dimension_product.mul_in_range dimension_product.exponent
  constructor
  · intro h f hf hm
    exact (rational_constant.add_isSome_iff (exponent_in_valid ha _) (hb f hf)).mp (h f hf hm)
  · intro h f hf hm
    exact (rational_constant.add_isSome_iff (exponent_in_valid ha _) (hb f hf)).mpr (h f hf hm)

theorem pow_in_range_iff {a : dimension_product} {p : rational_constant}
    (ha : a.instantiated) (hp : p.valid) :
    a.pow_in_range p ↔ ∀ d ∈ a.factors, d.power.fits ∧ p.fits ∧
      (rational_constant.ofRat (d.power.toRat * p.toRat)).fits := by
  unfold dimension_product.pow_in_range
  constructor
  · intro h d hd
    exact (rational_constant.mul_isSome_iff (ha d hd) hp).mp (h d hd)
  · intro h d hd
    exact (rational_constant.mul_isSome_iff (ha d hd) hp).mpr (h d hd)

theorem insert_some_fit {s l : List dimension_factor} {h : dimension_factor}
    (hs : ∀ f ∈ s, f.power.valid) (hu : (s.map (fun f => f.tag)).Nodup)
    (hh : h.power.valid)
    (hsome : uset.insert s h impl.is_related impl.mul = some l) :
    h.tag ∈ s.map (fun f => f.tag) → (exponent_in s h.tag).fits ∧ h.power.fits ∧
      (rational_constant.ofRat ((exponent_in s h.tag).toRat + h.power.toRat)).fits := by
  intro hm
  unfold uset.insert at hsome
  rw [Option.bind_eq_some] at hsome
  obtain ⟨assigned, htr, -⟩ := hsome
  obtain ⟨x, hx, hxt⟩ := List.mem_map.mp hm
  have hr : impl.is_related x h = true := by simp [impl.is_related, hxt]
  obtain ⟨y, hy⟩ := seq.transform_if_some htr x hx hr
  unfold impl.mul at hy
  rw [if_pos hr, Option.map_eq_some'] at hy
  obtain ⟨p, hp, -⟩ := hy
  obtain ⟨hpe, hpf, hxf, hhf⟩ := rational_constant.add_eq_some
    (ne_of_gt (rational_constant.valid_den_pos (hs x hx)))
    (ne_of_gt (rational_constant.valid_den_pos hh)) hp
  have hx2 : exponent_in s h.tag = x.power := hxt ▸ exponent_in_mem hu hx
  rw [hx2]
  exact ⟨hxf, hhf, hpe ▸ hpf⟩

theorem multiply_some_fit {a b r : List dimension_factor}
    (ha : ∀ f ∈ a, f.power.valid) (hua : (a.map (fun f => f.tag)).Nodup)
    (hza : ∀ f ∈ a, f.power.num ≠ 0)
    (hb : ∀ f ∈ b, f.power.valid) (hub : (b.map (fun f => f.tag)).Nodup)
    (h : impl.multiply a b = some r) :
    ∀ f ∈ b, f.tag ∈ a.map (fun g => g.tag) → (exponent_in a f.tag).fits ∧
      f.power.fits ∧
      (rational_constant.ofRat ((exponent_in a f.tag).toRat + f.power.toRat)).fits := by
  induction b generalizing r with
  | nil =>
    intro f hf
    exact absurd hf (List.not_mem_nil _)
  | cons hd tl ih =>
    rw [impl.multiply, Option.bind_eq_some] at h
    obtain ⟨tp, htp, h⟩ := h
    rw [Option.bind_eq_some] at h
    obtain ⟨m, hm, -⟩ := h
    simp only [List.map_cons, List.nodup_cons] at hub
    have hbt : ∀ f ∈ tl, f.power.valid := fun f hf => hb f (List.mem_cons_of_mem _ hf)
    have hfit_tl := ih hbt hub.2 htp
    obtain ⟨r', hr', hrv, hru, hrz, hre⟩ := multiply_spec ha hua hza hbt hub.2 hfit_tl
    rw [htp, Option.some.injEq] at hr'
    subst hr'
    have hrh : exponent_in tp hd.tag = exponent_in a hd.tag := by
      rw [hre, exponent_in_of_not_mem hub.1, toRat_zero_one, add_zero,
        rational_constant.ofRat_toRat (exponent_in_valid ha _)]
    intro f hf hfa
    rcases List.mem_cons.mp hf with rfl | hft
    · have hmem : f.tag ∈ tp.map (fun g => g.tag) := by
        rw [tag_mem_iff_exponent_in hru hrz, hrh]
        exact (tag_mem_iff_exponent_in hua hza f.tag).mp hfa
      have := insert_some_fit hrv hru (hb f (List.mem_cons_self _ _)) hm hmem
      rw [hrh] at this
      exact this
    · exact hfit_tl f hft hfa

theorem mul_some_canonical {a b r : dimension_product}
    (ha : a.instantiated) (hb : b.instantiated) (hac : a.canonical) (hub : b.unique_tags)
    (h : a.mul b = some r) :
    a.mul_in_range b ∧ r.instantiated ∧ r.canonical ∧
      ∀ t, r.exponent t = rational_constant.ofRat
        ((a.exponent t).toRat + (b.exponent t).toRat) := by
  unfold dimension_product.mul at h
  rw [Option.map_eq_some'] at h
  obtain ⟨l, hl, hlr⟩ := h
  have hfit := multiply_some_fit ha hac.1 hac.2 hb hub hl
  obtain ⟨r', hr', hrv, hru, hrz, hre⟩ := multiply_spec ha hac.1 hac.2 hb hub hfit
  rw [hl, Option.some.injEq] at hr'
  subst hr'
  subst hlr
  exact ⟨(mul_in_range_iff ha hb).mpr hfit, hrv, ⟨hru, hrz⟩, hre⟩

theorem mul_of_in_range {a b : dimension_product}
    (ha : a.instantiated) (hb : b.instantiated) (hac : a.canonical) (hub : b.unique_tags)
    (h : a.mul_in_range b) :
    ∃ r, a.mul b = some r ∧ r.instantiated ∧ r.canonical ∧
      ∀ t, r.exponent t = rational_constant.ofRat
        ((a.exponent t).toRat + (b.exponent t).toRat) := by
  obtain ⟨r, hr, hrv, hru, hrz, hre⟩ := multiply_spec ha hac.1 hac.2 hb hub
    ((mul_in_range_iff ha hb).mp h)
  exact ⟨⟨r⟩, by simp [dimension_product.mul, hr], hrv, ⟨hru, hrz⟩, hre⟩

theorem mul_eq_none_of_not_in_range {a b : dimension_product}
    (ha : a.instantiated) (hb : b.instantiated) (hac : a.canonical) (hub : b.unique_tags)
    (h : ¬ a.mul_in_range b) : a.mul b = none := by
  cases hm : a.mul b with
  | none => rfl
  | some r => exact absurd (mul_some_canonical ha hb hac hub hm).1 h

theorem mul_in_range_symm {a b : dimension_product}
    (ha : a.instantiated) (hb : b.instantiated)
    (hua : a.unique_tags) (hub : b.unique_tags) (h : a.mul_in_range b) :
    b.mul_in_range a := by
  rw [mul_in_range_iff ha hb] at h
  rw [mul_in_range_iff hb ha]
  intro g hg hgb
  obtain ⟨f, hf, hft⟩ := List.mem_map.mp hgb
  have hfa : f.tag ∈ a.factors.map (fun g => g.tag) :=
    hft ▸ List.mem_map_of_mem (fun g => g.tag) hg
  obtain ⟨h1, h2, h3⟩ := h f hf hfa
  have e1 : exponent_in a.factors f.tag = g.power := by
    rw [hft]
    exact exponent_in_mem hua hg
  have e2 : exponent_in b.factors g.tag = f.power := by
    rw [← hft]
    exact exponent_in_mem hub hf
  rw [e1] at h1 h3
  rw [e2, add_comm]
  exact ⟨h2, h1, h3⟩

theorem pow_some_fit {a r : dimension_product} {p : rational_constant}
    (ha : a.instantiated) (hp : p.valid) (h : a.pow p = some r) : a.pow_in_range p := by
  rw [pow_in_range_iff ha hp]
  unfold dimension_product.pow at h
  rw [Option.map_eq_some'] at h
  obtain ⟨l, hl, -⟩ := h
  intro d hd
  obtain ⟨y, hy⟩ := seq.transform_if_some hl d hd rfl
  unfold impl.pow at hy
  rw [Option.map_eq_some'] at hy
  obtain ⟨q, hq, -⟩ := hy
  obtain ⟨hqe, hqf, hdf, hpf⟩ := rational_constant.mul_eq_some
    (ne_of_gt (rational_constant.valid_den_pos (ha d hd)))
    (ne_of_gt (rational_constant.valid_den_pos hp)) hq
  exact ⟨hdf, hpf, hqe ▸ hqf⟩

theorem pow_eq_none_of_not_in_range {a : dimension_product} {p : rational_constant}
    (ha : a.instantiated) (hp : p.valid) (h : ¬ a.pow_in_range p) : a.pow p = none := by
  cases hm : a.pow p with
  | none => rfl
  | some r => exact absurd (pow_some_fit ha hp hm) h

theorem pow_some_canonical {a r : dimension_product} {p : rational_constant}
    (ha : a.instantiated) (hu : a.unique_tags) (hp : p.valid) (h : a.pow p = some r) :
    r.instantiated ∧ r.canonical ∧
      ∀ t, r.exponent t = rational_constant.ofRat ((a.exponent t).toRat * p.toRat) := by
  obtain ⟨r', hr', hri, hrc, hre⟩ := pow_exponent ha hu hp
    ((pow_in_range_iff ha hp).mp (pow_some_fit ha hp h))
  rw [h, Option.some.injEq] at hr'
  subst hr'
  exact ⟨hri, hrc, hre⟩

theorem div_some_canonical {a b r : dimension_product}
    (ha : a.instantiated) (hb : b.instantiated) (hac : a.canonical) (hub : b.unique_tags)
    (h : a.div b = some r) :
    r.instantiated ∧ r.canonical ∧
      ∀ t, r.exponent t = rational_constant.ofRat
        ((a.exponent t).toRat - (b.exponent t).toRat) := by
  unfold dimension_product.div at h
  rw [Option.bind_eq_some] at h
  obtain ⟨i, hi, hr⟩ := h
  obtain ⟨hii, hic, hie⟩ := pow_some_canonical hb hub (by decide) hi
  obtain ⟨-, hri, hrc, hre⟩ := mul_some_canonical ha hii hac hic.1 hr
  refine ⟨hri, hrc, fun t => ?_⟩
  rw [hre t, hie t, rational_constant.toRat_ofRat]
  congr 1
  simp [rational_constant.toRat]
  ring

theorem pow_of_in_range {a : dimension_product} {p : rational_constant}
    (ha : a.instantiated) (hu : a.unique_tags) (hp : p.valid) (h : a.pow_in_range p) :
    ∃ r, a.pow p = some r ∧ r.instantiated ∧ r.canonical ∧
      ∀ t, r.exponent t = rational_constant.ofRat ((a.exponent t).toRat * p.toRat) :=
  pow_exponent ha hu hp ((pow_in_range_iff ha hp).mp h)

/-! ## Lemmas: the results of `make_rational_constant` -/

theorem tdiv_sign_of_nonneg_divisor {a g : Int} (hg : 0 ≤ g) :
    (0 ≤ a → 0 ≤ a.tdiv g) ∧ (a ≤ 0 → a.tdiv g ≤ 0) := by
  constructor
  · intro h0
    exact Int.tdiv_nonneg h0 hg
  · intro h0
    have := Int.tdiv_nonneg (by omega : (0 : Int) ≤ -a) hg
    rw [Int.neg_tdiv] at this
    omega

theorem make_rational_constant_some {N D : Int} {r : rational_constant}
    (hD : representable D) (h : make_rational_constant N D = some r) :
    representable r.num ∧ representable r.den ∧ r.valid := by
  unfold make_rational_constant at h
  by_cases hD0 : D = 0
  · rw [if_pos hD0] at h
    cases h
  rw [if_neg hD0] at h
  simp only [Option.bind_eq_some] at h
  obtain ⟨s, -, g, hg, sn, hsn, n, hn, dq, hdq, d, hd, hinst⟩ := h
  obtain ⟨hre, hrv⟩ := rational_constant.instantiate_eq_some hinst
  obtain ⟨hsn', hsnr⟩ := intmax_t.product_eq_some hsn
  rw [← hsn'] at hsnr
  have hg0 : 0 ≤ g := by
    rw [impl.abs_eq_some hg]
    exact Int.natCast_nonneg _
  have hn' : n = sn.tdiv g := by
    unfold intmax_t.div at hn
    split at hn
    · cases hn
    · exact (Option.some.inj hn).symm
  have hdq' : dq = D.tdiv g := by
    unfold intmax_t.div at hdq
    split at hdq
    · cases hdq
    · exact (Option.some.inj hdq).symm
  have hnle : n.natAbs ≤ sn.natAbs := by
    rw [hn', Int.natAbs_tdiv]
    exact Nat.div_le_self _ _
  have hdle : dq.natAbs ≤ D.natAbs := by
    rw [hdq', Int.natAbs_tdiv]
    exact Nat.div_le_self _ _
  have hdv : d = (dq.natAbs : Int) := impl.abs_eq_some hd
  have hnsign := tdiv_sign_of_nonneg_divisor (a := sn) hg0
  rw [← hn'] at hnsign
  have hdsign := tdiv_sign_of_nonneg_divisor (a := D) hg0
  rw [← hdq'] at hdsign
  have hD1 := hD.1
  have hD2 := hD.2
  have hs1 := hsnr.1
  have hs2 := hsnr.2
  have hnum : r.num = n := by rw [hre]
  have hden : r.den = d := by rw [hre]
  refine ⟨?_, ?_, hrv⟩
  · rw [hnum]
    unfold representable
    unfold intmax_min intmax_max at *
    rcases le_total 0 sn with h0 | h0
    · have := hnsign.1 h0
      omega
    · have := hnsign.2 h0
      omega
  · rw [hden, hdv]
    unfold representable
    by_cases hneg : dq < 0
    · have hmin : dq ≠ intmax_min := by
        intro hmin
        unfold impl.abs intmax_t.neg at hd
        rw [if_pos hneg, if_pos hmin] at hd
        cases hd
      unfold intmax_min intmax_max at *
      omega
    · rcases le_total 0 D with h0 | h0
      · unfold intmax_min intmax_max at *
        omega
      · have := hdsign.2 h0
        unfold intmax_min intmax_max at *
        omega

/-! ## Lemmas: results of heterogeneous operations and conversions -/

namespace impl

theorem heterop_some_unit {op : payload_type → Int → Int → Option Int} {a b r : quantity}
    (h : heterop op a b = some r) :
    r.unit.dimension = a.unit.dimension ∧ r.type = payload_type.common a.type b.type := by
  unfold heterop at h
  simp only [Option.bind_eq_some, Option.map_eq_some'] at h
  obtain ⟨g, -, l, -, cs, -, cu, hcu, v, -, hr⟩ := h
  unfold unit.scaled unit_of at hcu
  simp only [Option.map_eq_some'] at hcu
  obtain ⟨s, -, hs⟩ := hcu
  subst hr
  subst hs
  exact ⟨rfl, rfl⟩

end impl

namespace payload_type

theorem holds_tdiv {T : payload_type} {z f : Int} (h : T.holds z) (hf : 0 < f) :
    T.holds (z.tdiv f) := by
  have hle : (z.tdiv f).natAbs ≤ z.natAbs := by
    rw [Int.natAbs_tdiv]
    exact Nat.div_le_self _ _
  have hsign := tdiv_sign_of_nonneg_divisor (a := z) (le_of_lt hf)
  have h1 := h.1
  have h2 := h.2
  unfold holds
  cases T
  · unfold min max at *
    simp only at h1 h2 ⊢
    rcases le_total 0 z with h0 | h0
    · have := hsign.1 h0
      omega
    · have := hsign.2 h0
      omega
  · unfold min max at *
    simp only at h1 h2 ⊢
    unfold intmax_min intmax_max at *
    rcases le_total 0 z with h0 | h0
    · have := hsign.1 h0
      omega
    · have := hsign.2 h0
      omega

theorem cast_cast (T : payload_type) (x : Int) : T.cast (T.cast x) = T.cast x :=
  cast_of_holds (holds_cast T x)

end payload_type

namespace quantity

theorem convert_some_unit {T : payload_type} {target : Dimensional.unit} {rhs r : quantity}
    (h : convert T target rhs = some r) : r.unit = target ∧ r.type = T := by
  unfold convert at h
  split at h
  · rw [Option.map_eq_some'] at h
    obtain ⟨x, -, hx⟩ := h
    subst hx
    exact ⟨rfl, rfl⟩
  · cases h

end quantity

/-! ## Lemmas: units componentwise -/

namespace unit

theorem mul_eq_bind {a b : unit} (hsa : a.scale.valid) (hsb : b.scale.valid) :
    a.mul b = (a.scale.mul b.scale).bind fun s =>
      (a.dimension.mul b.dimension).map fun d => (⟨d, s⟩ : unit) := by
  unfold mul
  cases hs : a.scale.mul b.scale with
  | none => rfl
  | some s =>
    obtain ⟨hse, hsf, -, -⟩ := rational_constant.mul_eq_some
      (ne_of_gt (rational_constant.valid_den_pos hsa))
      (ne_of_gt (rational_constant.valid_den_pos hsb)) hs
    have hsv : s.valid := hse ▸ rational_constant.valid_ofRat _
    cases hd : a.dimension.mul b.dimension with
    | none => rfl
    | some d =>
      rw [Option.some_bind, Option.some_bind, impl.scaled_unit_of hsv hsf]
      rfl

theorem div_eq_bind {a b : unit} (hsa : a.scale.valid) (hsb : b.scale.valid) :
    a.div b = (a.scale.div b.scale).bind fun s =>
      (a.dimension.div b.dimension).map fun d => (⟨d, s⟩ : unit) := by
  unfold div
  cases hs : a.scale.div b.scale with
  | none => rfl
  | some s =>
    obtain ⟨-, hse, hsf, -, -⟩ := rational_constant.div_eq_some
      (ne_of_gt (rational_constant.valid_den_pos hsa))
      (ne_of_gt (rational_constant.valid_den_pos hsb)) hs
    have hsv : s.valid := hse ▸ rational_constant.valid_ofRat _
    cases hd : a.dimension.div b.dimension with
    | none => rfl
    | some d =>
      rw [Option.some_bind, Option.some_bind, impl.scaled_unit_of hsv hsf]
      rfl

theorem pow_eq_bind {u : unit} {p : rational_constant} (hs : u.scale.valid) (hp : p.valid) :
    u.pow p = (rational_constant.pow u.scale p).bind fun s =>
      if s.fits then (u.dimension.pow p).map fun d => (⟨d, s⟩ : unit) else none := by
  unfold pow
  cases hsc : rational_constant.pow u.scale p with
  | none => rfl
  | some s =>
    have hsv := (rational_constant.pow_eq_some hs hp hsc).1
    rw [Option.some_bind, Option.some_bind]
    by_cases hf : s.fits
    · rw [if_pos hf]
      cases hd : u.dimension.pow p with
      | none => rfl
      | some d =>
        rw [Option.some_bind, impl.scaled_unit_of hsv hf]
        rfl
    · rw [if_neg hf]
      cases hd : u.dimension.pow p with
      | none => rfl
      | some d => rw [Option.some_bind, impl.scaled_unit_of_not_fits hf]

end unit

/-! ## Lemmas: roots outside the range of `std::ratio` -/

namespace mjk

theorem iterate_bind_none (f : rational_constant → Option rational_constant) (n : Nat) :
    (fun o : Option rational_constant => o.bind f)^[n] none = none := by
  induction n with
  | zero => rfl
  | succ n ih => rw [Function.iterate_succ_apply]; exact ih

theorem sqrt_eq_none_of_not_fits {x : rational_constant} (hf : ¬ x.fits) : x.sqrt = none := by
  cases h : x.sqrt with
  | none => rfl
  | some y => exact absurd (rational_constant.sqrt_fits h) hf

theorem cbrt_eq_none_of_not_fits {x : rational_constant} (hf : ¬ x.fits) : x.cbrt = none := by
  cases h : x.cbrt with
  | none => rfl
  | some y => exact absurd (rational_constant.cbrt_fits h) hf

theorem root_smooth_eq_none_of_not_fits {x : rational_constant} (hf : ¬ x.fits) (a b : Nat)
    (hab : 0 < a + b) : root x ((2 : Int) ^ a * 3 ^ b) = none := by
  rw [root_smooth_iterate]
  cases b with
  | zero =>
    cases a with
    | zero => omega
    | succ a =>
      rw [Function.iterate_zero, id, Function.iterate_succ_apply, Option.some_bind,
        sqrt_eq_none_of_not_fits hf]
      exact iterate_bind_none _ a
  | succ b =>
    rw [Function.iterate_succ_apply, Option.some_bind, cbrt_eq_none_of_not_fits hf,
      iterate_bind_none]
    exact iterate_bind_none _ a

end mjk

/-! ## The claims -/

/-- C1 (amended): for quantities `a` and `b` of equal dimension whose scales are positive
constants within the range of `std::ratio`, let `C = gcd(an, bn) / lcm(ad, bd)`,
`fa = (an / gcd(an, bn)) * (bd / gcd(ad, bd))` and
`fb = (bn / gcd(an, bn)) * (ad / gcd(ad, bd))`. Then `fa * C = a.scale` and
`fb * C = b.scale`, hence `(a.count * fa ± b.count * fb) * C =
a.count * a.scale ± b.count * b.scale` exactly; and when `lcm(ad, bd)`, `fa` and `fb`
are representable in `intmax_t` and the rescaled payloads `a.count * fa`,
`b.count * fb` are values of the payload types, `a + b` (resp. `a - b`) has the
dimension of `a`, the unit scale `C` and the payload `a.count * fa + b.count * fb`
(resp. minus), provided that sum (resp. difference) is a value of the common payload
type. -/
theorem quantity_add_sub_common_scale (a b : quantity)
    (hdim : a.unit.dimension.eq b.unit.dimension = true)
    (hva : a.unit.scale.valid) (hvb : b.unit.scale.valid)
    (hfa : a.unit.scale.fits) (hfb : b.unit.scale.fits)
    (hpa : 0 < a.unit.scale.num) (hpb : 0 < b.unit.scale.num)
    (hl : representable (Int.lcm a.unit.scale.den b.unit.scale.den : Int))
    (hra : representable (rescale_factor a.unit.scale b.unit.scale))
    (hrb : representable (rescale_factor b.unit.scale a.unit.scale))
    (hx : a.type.holds (a.val * rescale_factor a.unit.scale b.unit.scale))
    (hy : b.type.holds (b.val * rescale_factor b.unit.scale a.unit.scale)) :
    ∃ (fa fb : Int) (C : rational_constant),
      fa = (a.unit.scale.num / (Int.gcd a.unit.scale.num b.unit.scale.num : Int)) *
        (b.unit.scale.den / (Int.gcd a.unit.scale.den b.unit.scale.den : Int)) ∧
      fb = (b.unit.scale.num / (Int.gcd a.unit.scale.num b.unit.scale.num : Int)) *
        (a.unit.scale.den / (Int.gcd a.unit.scale.den b.unit.scale.den : Int)) ∧
      C = ⟨(Int.gcd a.unit.scale.num b.unit.scale.num : Int),
        (Int.lcm a.unit.scale.den b.unit.scale.den : Int)⟩ ∧
      (fa : ℚ) * C.toRat = a.unit.scale.toRat ∧
      (fb : ℚ) * C.toRat = b.unit.scale.toRat ∧
      ((payload_type.common a.type b.type).holds (a.val * fa + b.val * fb) →
        a.add b = some ⟨payload_type.common a.type b.type, a.val * fa + b.val * fb,
          ⟨a.unit.dimension, C⟩⟩) ∧
      ((payload_type.common a.type b.type).holds (a.val * fa - b.val * fb) →
        a.sub b = some ⟨payload_type.common a.type b.type, a.val * fa - b.val * fb,
          ⟨a.unit.dimension, C⟩⟩) ∧
      ((a.val * fa + b.val * fb : Int) : ℚ) * C.toRat =
        (a.val : ℚ) * a.unit.scale.toRat + (b.val : ℚ) * b.unit.scale.toRat ∧
      ((a.val * fa - b.val * fb : Int) : ℚ) * C.toRat =
        (a.val : ℚ) * a.unit.scale.toRat - (b.val : ℚ) * b.unit.scale.toRat := by
  have hnz : a.unit.scale.num ≠ 0 ∨ b.unit.scale.num ≠ 0 := Or.inl (ne_of_gt hpa)
  have hnz' : b.unit.scale.num ≠ 0 ∨ a.unit.scale.num ≠ 0 := Or.inl (ne_of_gt hpb)
  have hfa' := rescale_factor_mul_common_scale_of_ne hva hvb hnz
  have hfb' := rescale_factor_mul_common_scale_of_ne hvb hva hnz'
  rw [common_scale_comm] at hfb'
  have hraw : ∀ {β : Type} (op : payload_type → Int → Int → Option β),
      impl.heterop_raw op a b = op (payload_type.common a.type b.type)
        (a.val * rescale_factor a.unit.scale b.unit.scale)
        (b.val * rescale_factor b.unit.scale a.unit.scale) := by
    intro β op
    rw [impl.heterop_raw_of_representable op hdim hva hvb (le_of_lt hpa) (le_of_lt hpb) hnz
      hra hrb (payload_type.representable_of_holds hx) (payload_type.representable_of_holds hy),
      payload_type.cast_of_holds hx, payload_type.cast_of_holds hy]
  refine ⟨rescale_factor a.unit.scale b.unit.scale, rescale_factor b.unit.scale a.unit.scale,
    common_scale a.unit.scale b.unit.scale, rfl,
    impl.rescale_factor_swap a.unit.scale b.unit.scale, rfl, hfa', hfb', ?_, ?_, ?_, ?_⟩
  · intro hs
    rw [quantity.add, impl.heterop_eq mjk.plus hva hvb hfa hfb (le_of_lt hpa) (le_of_lt hpb)
      hnz hl, hraw, mjk.plus, payload_type.arith_of_holds hs]
    rfl
  · intro hd
    rw [quantity.sub, impl.heterop_eq mjk.minus hva hvb hfa hfb (le_of_lt hpa) (le_of_lt hpb)
      hnz hl, hraw, mjk.minus, payload_type.arith_of_holds hd]
    rfl
  · push_cast
    rw [add_mul, mul_assoc, mul_assoc, hfa', hfb']
  · push_cast
    rw [sub_mul, mul_assoc, mul_assoc, hfa', hfb']

/-- Witness for C1 at the repository's test `1*mm + 1*in` (scales `1/1000` and
`127/5000` of one length dimension, `int` payloads): the sum is `132` in the unit
`1/5 mm`, the difference `-122`. -/
theorem quantity_add_sub_common_scale_witness :
    (dimension 0).eq (dimension 0) = true ∧
    (⟨1, 1000⟩ : rational_constant).valid ∧ (⟨127, 5000⟩ : rational_constant).valid ∧
    quantity.add ⟨.int, 1, ⟨dimension 0, ⟨1, 1000⟩⟩⟩ ⟨.int, 1, ⟨dimension 0, ⟨127, 5000⟩⟩⟩ =
      some ⟨.int, 132, ⟨dimension 0, ⟨1, 5000⟩⟩⟩ ∧
    quantity.sub ⟨.int, 1, ⟨dimension 0, ⟨1, 1000⟩⟩⟩ ⟨.int, 1, ⟨dimension 0, ⟨127, 5000⟩⟩⟩ =
      some ⟨.int, -122, ⟨dimension 0, ⟨1, 5000⟩⟩⟩ := by
  obtain ⟨fa, fb, C, hfa, hfb, hC, -, -, hadd, hsub, -, -⟩ :=
    quantity_add_sub_common_scale ⟨.int, 1, ⟨dimension 0, ⟨1, 1000⟩⟩⟩
      ⟨.int, 1, ⟨dimension 0, ⟨127, 5000⟩⟩⟩ (by decide) (by decide) (by decide) (by decide)
      (by decide) (by decide) (by decide) (by decide) (by decide) (by decide) (by decide)
      (by decide)
  have e1 : fa = 5 := by rw [hfa]; decide
  have e2 : fb = 127 := by rw [hfb]; decide
  have e3 : C = ⟨1, 5000⟩ := by rw [hC]; decide
  subst e1 e2 e3
  exact ⟨by decide, by decide, by decide, hadd (by decide), hsub (by decide)⟩

/-- Counterexample to C1 as stated. With `int` payloads, `3 s + 5 ns` (scales `1/1` and
`1/10^9`) rescales `3` by `fa = 10^9`; the product `3 * 10^9` is converted to `int` and
wraps to `-1294967296`, so the sum has the payload `-1294967291`, which does not
stand for `3 s + 5 ns`. With the scales `1/2^32` and `1/(2^32 + 1)` the denominator
`lcm(ad, bd)` of the common scale is not representable in `intmax_t` and the sum is
rejected. -/
theorem quantity_add_overflow_counterexample :
    (dimension 0).eq (dimension 0) = true ∧
    (⟨1, 1⟩ : rational_constant).valid ∧ (⟨1, 1000000000⟩ : rational_constant).valid ∧
    quantity.add ⟨.int, 3, ⟨dimension 0, ⟨1, 1⟩⟩⟩ ⟨.int, 5, ⟨dimension 0, ⟨1, 1000000000⟩⟩⟩ =
      some ⟨.int, -1294967291, ⟨dimension 0, ⟨1, 1000000000⟩⟩⟩ ∧
    ((-1294967291 : Int) : ℚ) * (⟨1, 1000000000⟩ : rational_constant).toRat ≠
      ((3 : Int) : ℚ) * (⟨1, 1⟩ : rational_constant).toRat +
        ((5 : Int) : ℚ) * (⟨1, 1000000000⟩ : rational_constant).toRat ∧
    (⟨1, 4294967296⟩ : rational_constant).valid ∧
    (⟨1, 4294967297⟩ : rational_constant).valid ∧
    quantity.add ⟨.intmax_t, 1, ⟨dimension 0, ⟨1, 4294967296⟩⟩⟩
      ⟨.intmax_t, 1, ⟨dimension 0, ⟨1, 4294967297⟩⟩⟩ = none := by
  refine ⟨by decide, by decide, by decide, ?_, ?_, by decide, by decide, ?_⟩
  · rw [quantity.add, impl.heterop_eq mjk.plus (by decide) (by decide) (by decide) (by decide)
      (by decide) (by decide) (by decide) (by decide),
      impl.heterop_raw_of_representable mjk.plus (by decide) (by decide) (by decide)
        (by decide) (by decide) (by decide) (by decide) (by decide) (by decide) (by decide)]
    decide
  · norm_num [rational_constant.toRat]
  · exact impl.heterop_eq_none_of_lcm mjk.plus (by decide) (by decide) (by decide)

/-- C2: if the dimension vectors (sets of factors with unique tags) of two
quantities `a` and `b` are not equal, then `a + b`, `a - b`, `a < b`, `a <= b`,
`a == b`, `a.to(b.unit)` and the converting construction of the type of `a` from `b`
are all rejected, whatever the payloads: none of them yields a value. -/
theorem dimension_mismatch_rejected (a b : quantity)
    (hua : a.unit.dimension.unique_tags) (hub : b.unit.dimension.unique_tags)
    (hne : a.unit.dimension.eq b.unit.dimension = false) :
    a.add b = none ∧ a.sub b = none ∧ a.lt b = none ∧ a.le b = none ∧ a.eq b = none ∧
    a.to_unit b.unit = none ∧ quantity.convert a.type a.unit b = none := by
  have hne' : b.unit.dimension.eq a.unit.dimension = false := by
    rw [dimension_eq_symm hua hub]; exact hne
  refine ⟨impl.heterop_eq_none _ hne, impl.heterop_eq_none _ hne,
    impl.heterop_raw_eq_none _ hne, ?_, impl.heterop_raw_eq_none _ hne, ?_, ?_⟩
  · unfold quantity.le quantity.lt
    rw [impl.heterop_raw_eq_none _ hne']
    rfl
  · simp [quantity.to_unit, hne']
  · simp [quantity.convert, hne']

/-- Witness for C2: one gram (mass, scale `1/1000`) against one metre (length). -/
theorem dimension_mismatch_rejected_witness :
    (dimension 1).eq (dimension 0) = false ∧
    quantity.add ⟨.int, 1, ⟨dimension 1, ⟨1, 1000⟩⟩⟩ ⟨.int, 1, ⟨dimension 0, ⟨1, 1⟩⟩⟩ = none ∧
    quantity.sub ⟨.int, 1, ⟨dimension 1, ⟨1, 1000⟩⟩⟩ ⟨.int, 1, ⟨dimension 0, ⟨1, 1⟩⟩⟩ = none ∧
    quantity.lt ⟨.int, 1, ⟨dimension 1, ⟨1, 1000⟩⟩⟩ ⟨.int, 1, ⟨dimension 0, ⟨1, 1⟩⟩⟩ = none ∧
    quantity.le ⟨.int, 1, ⟨dimension 1, ⟨1, 1000⟩⟩⟩ ⟨.int, 1, ⟨dimension 0, ⟨1, 1⟩⟩⟩ = none ∧
    quantity.eq ⟨.int, 1, ⟨dimension 1, ⟨1, 1000⟩⟩⟩ ⟨.int, 1, ⟨dimension 0, ⟨1, 1⟩⟩⟩ = none ∧
    quantity.to_unit ⟨.int, 1, ⟨dimension 1, ⟨1, 1000⟩⟩⟩ ⟨dimension 0, ⟨1, 1⟩⟩ = none ∧
    quantity.convert .int ⟨dimension 1, ⟨1, 1000⟩⟩ ⟨.int, 1, ⟨dimension 0, ⟨1, 1⟩⟩⟩ = none :=
  ⟨by decide,
    dimension_mismatch_rejected ⟨.int, 1, ⟨dimension 1, ⟨1, 1000⟩⟩⟩
      ⟨.int, 1, ⟨dimension 0, ⟨1, 1⟩⟩⟩ (by decide) (by decide) (by decide)⟩


/-- C3 (amended): for quantities `a` and `b` of equal dimension (sets of factors with
unique tags) and positive unit scales, whenever the rescale factors
`fa = (an / gcd(an, bn)) * (bd / gcd(ad, bd))` and
`fb = (bn / gcd(an, bn)) * (ad / gcd(ad, bd))` are representable in `intmax_t` and the
rescaled payloads `a.count * fa`, `b.count * fb` are values of the payload types, the
comparisons are defined and agree with the represented values: `a == b` iff
`a.count * a.scale = b.count * b.scale`, `a < b` iff
`a.count * a.scale < b.count * b.scale`, `a <= b` iff
`a.count * a.scale <= b.count * b.scale`. -/
theorem quantity_compare_values (a b : quantity)
    (hua : a.unit.dimension.unique_tags) (hub : b.unit.dimension.unique_tags)
    (hdim : a.unit.dimension.eq b.unit.dimension = true)
    (hva : a.unit.scale.valid) (hvb : b.unit.scale.valid)
    (hpa : 0 < a.unit.scale.num) (hpb : 0 < b.unit.scale.num)
    (hra : representable (rescale_factor a.unit.scale b.unit.scale))
    (hrb : representable (rescale_factor b.unit.scale a.unit.scale))
    (hx : a.type.holds (a.val * rescale_factor a.unit.scale b.unit.scale))
    (hy : b.type.holds (b.val * rescale_factor b.unit.scale a.unit.scale)) :
    (∃ r, a.eq b = some r ∧ (r = true ↔
      (a.val : ℚ) * a.unit.scale.toRat = (b.val : ℚ) * b.unit.scale.toRat)) ∧
    (∃ r, a.lt b = some r ∧ (r = true ↔
      (a.val : ℚ) * a.unit.scale.toRat < (b.val : ℚ) * b.unit.scale.toRat)) ∧
    (∃ r, a.le b = some r ∧ (r = true ↔
      (a.val : ℚ) * a.unit.scale.toRat ≤ (b.val : ℚ) * b.unit.scale.toRat)) := by
  have hdim' : b.unit.dimension.eq a.unit.dimension = true := by
    rw [dimension_eq_symm hua hub]; exact hdim
  have hnz : a.unit.scale.num ≠ 0 ∨ b.unit.scale.num ≠ 0 := Or.inl (ne_of_gt hpa)
  have hnz' : b.unit.scale.num ≠ 0 ∨ a.unit.scale.num ≠ 0 := Or.inl (ne_of_gt hpb)
  have hfa := rescale_factor_mul_common_scale_of_ne hva hvb hnz
  have hfb := rescale_factor_mul_common_scale_of_ne hvb hva hnz'
  rw [common_scale_comm] at hfb
  have hpos := common_scale_pos_of_ne hva hvb hnz
  have hA : (a.val : ℚ) * a.unit.scale.toRat =
      ((a.val * rescale_factor a.unit.scale b.unit.scale : Int) : ℚ) *
        (common_scale a.unit.scale b.unit.scale).toRat := by
    push_cast; rw [mul_assoc, hfa]
  have hB : (b.val : ℚ) * b.unit.scale.toRat =
      ((b.val * rescale_factor b.unit.scale a.unit.scale : Int) : ℚ) *
        (common_scale a.unit.scale b.unit.scale).toRat := by
    push_cast; rw [mul_assoc, hfb]
  have hraw : ∀ {β : Type} (op : payload_type → Int → Int → Option β),
      impl.heterop_raw op a b = op (payload_type.common a.type b.type)
        (a.val * rescale_factor a.unit.scale b.unit.scale)
        (b.val * rescale_factor b.unit.scale a.unit.scale) := by
    intro β op
    rw [impl.heterop_raw_of_representable op hdim hva hvb (le_of_lt hpa) (le_of_lt hpb) hnz
      hra hrb (payload_type.representable_of_holds hx) (payload_type.representable_of_holds hy),
      payload_type.cast_of_holds hx, payload_type.cast_of_holds hy]
  have hraw' : impl.heterop_raw mjk.less b a = mjk.less (payload_type.common b.type a.type)
        (b.val * rescale_factor b.unit.scale a.unit.scale)
        (a.val * rescale_factor a.unit.scale b.unit.scale) := by
    rw [impl.heterop_raw_of_representable mjk.less hdim' hvb hva (le_of_lt hpb) (le_of_lt hpa)
      hnz' hrb hra (payload_type.representable_of_holds hy)
      (payload_type.representable_of_holds hx),
      payload_type.cast_of_holds hx, payload_type.cast_of_holds hy]
  rw [hA, hB]
  refine ⟨⟨_, by rw [quantity.eq, hraw, mjk.equal_to], ?_⟩,
    ⟨_, by rw [quantity.lt, hraw, mjk.less], ?_⟩,
    ⟨_, by rw [quantity.le, quantity.lt, hraw', mjk.less, Option.map_some'], ?_⟩⟩
  · rw [decide_eq_true_iff, mul_left_inj' (ne_of_gt hpos)]
    norm_cast
  · rw [decide_eq_true_iff, mul_lt_mul_right hpos]
    norm_cast
  · rw [Bool.not_eq_true', decide_eq_false_iff_not, not_lt, mul_le_mul_right hpos]
    norm_cast

/-- Witness for C3 at the repository's test `1*kg == 1000*g`: equal, not less, and
less-or-equal. -/
theorem quantity_compare_values_witness :
    (dimension 1).unique_tags ∧ (dimension 1).eq (dimension 1) = true ∧
    (⟨1, 1⟩ : rational_constant).valid ∧ (⟨1, 1000⟩ : rational_constant).valid ∧
    quantity.eq ⟨.int, 1, ⟨dimension 1, ⟨1, 1⟩⟩⟩ ⟨.int, 1000, ⟨dimension 1, ⟨1, 1000⟩⟩⟩ =
      some true ∧
    quantity.lt ⟨.int, 1, ⟨dimension 1, ⟨1, 1⟩⟩⟩ ⟨.int, 1000, ⟨dimension 1, ⟨1, 1000⟩⟩⟩ =
      some false ∧
    quantity.le ⟨.int, 1, ⟨dimension 1, ⟨1, 1⟩⟩⟩ ⟨.int, 1000, ⟨dimension 1, ⟨1, 1000⟩⟩⟩ =
      some true := by
  obtain ⟨⟨r1, h1, i1⟩, ⟨r2, h2, i2⟩, ⟨r3, h3, i3⟩⟩ :=
    quantity_compare_values ⟨.int, 1, ⟨dimension 1, ⟨1, 1⟩⟩⟩
      ⟨.int, 1000, ⟨dimension 1, ⟨1, 1000⟩⟩⟩
      (by decide) (by decide) (by decide) (by decide) (by decide) (by decide) (by decide)
      (by decide) (by decide) (by decide) (by decide)
  have hl : ((1 : Int) : ℚ) * (⟨1, 1⟩ : rational_constant).toRat = 1 := by
    norm_num [rational_constant.toRat]
  have hr : ((1000 : Int) : ℚ) * (⟨1, 1000⟩ : rational_constant).toRat = 1 := by
    norm_num [rational_constant.toRat]
  simp only at i1 i2 i3
  rw [hl, hr] at i1 i2 i3
  have e1 : r1 = true := i1.mpr rfl
  have e2 : r2 = false := by
    cases r2
    · rfl
    · exact absurd (i2.mp rfl) (lt_irrefl _)
  have e3 : r3 = true := i3.mpr (le_refl _)
  rw [h1, h2, h3, e1, e2, e3]
  exact ⟨by decide, by decide, by decide, by decide, rfl, rfl, rfl⟩

/-- Counterexample to C3 as stated. With `int` payloads, `3 s < 5 ns` is `true`: the
payload `3` is rescaled by `10^9`, the product `3 * 10^9` wraps to `-1294967296` in
`int`, and `-1294967296 < 5`; the represented values are `3 > 5/10^9`. With the
scales `2^40/1` and `1/2^40` the rescale factor `2^80` is not representable in
`intmax_t` and the comparison is rejected. -/
theorem quantity_compare_overflow_counterexample :
    (dimension 0).unique_tags ∧ (dimension 0).eq (dimension 0) = true ∧
    (⟨1, 1⟩ : rational_constant).valid ∧ (⟨1, 1000000000⟩ : rational_constant).valid ∧
    quantity.lt ⟨.int, 3, ⟨dimension 0, ⟨1, 1⟩⟩⟩ ⟨.int, 5, ⟨dimension 0, ⟨1, 1000000000⟩⟩⟩ =
      some true ∧
    ¬ (((3 : Int) : ℚ) * (⟨1, 1⟩ : rational_constant).toRat <
      ((5 : Int) : ℚ) * (⟨1, 1000000000⟩ : rational_constant).toRat) ∧
    (⟨1099511627776, 1⟩ : rational_constant).valid ∧
    (⟨1, 1099511627776⟩ : rational_constant).valid ∧
    quantity.eq ⟨.intmax_t, 0, ⟨dimension 0, ⟨1099511627776, 1⟩⟩⟩
      ⟨.intmax_t, 0, ⟨dimension 0, ⟨1, 1099511627776⟩⟩⟩ = none := by
  refine ⟨by decide, by decide, by decide, by decide, ?_, ?_, by decide, by decide, ?_⟩
  · rw [quantity.lt, impl.heterop_raw_of_representable mjk.less (by decide) (by decide)
      (by decide) (by decide) (by decide) (by decide) (by decide) (by decide) (by decide)
      (by decide)]
    decide
  · norm_num [rational_constant.toRat]
  · rw [quantity.eq, impl.heterop_raw_eq mjk.equal_to (by decide) (by decide) (by decide)
      (by decide) (by decide) (by decide)]
    decide

/-- C4 (amended): for quantities `a` and `b` of equal dimension with
`a.scale = k * b.scale` for a positive integer `k` representable in `intmax_t` and
`b.scale > 0`, when `k * a.count` is a value of the payload type of `a`, `a - b` and
`a + b` have a unit with the scale of `b` that is `==` to the unit of `b`, and their
payloads are `k * a.count - b.count` and `k * a.count + b.count`, provided that
difference (resp. sum) is a value of the common payload type. -/
theorem quantity_sub_add_integer_multiple (a b : quantity) (k : Int)
    (hdim : a.unit.dimension.eq b.unit.dimension = true)
    (hva : a.unit.scale.valid) (hvb : b.unit.scale.valid)
    (hfa : a.unit.scale.fits) (hfb : b.unit.scale.fits)
    (hk : 0 < k) (hpb : 0 < b.unit.scale.num)
    (hs : a.unit.scale.toRat = (k : ℚ) * b.unit.scale.toRat)
    (hkr : representable k)
    (hx : a.type.holds (k * a.val)) (hy : b.type.holds b.val) :
    ((payload_type.common a.type b.type).holds (k * a.val - b.val) →
      a.sub b = some ⟨payload_type.common a.type b.type, k * a.val - b.val,
        ⟨a.unit.dimension, b.unit.scale⟩⟩) ∧
    ((payload_type.common a.type b.type).holds (k * a.val + b.val) →
      a.add b = some ⟨payload_type.common a.type b.type, k * a.val + b.val,
        ⟨a.unit.dimension, b.unit.scale⟩⟩) ∧
    unit.eq ⟨a.unit.dimension, b.unit.scale⟩ b.unit = true := by
  obtain ⟨hpa, hC, hfa', hfb'⟩ := multiple_scale_facts hva hvb hk hpb hs
  have hnz : a.unit.scale.num ≠ 0 ∨ b.unit.scale.num ≠ 0 := Or.inl (ne_of_gt hpa)
  have hl : representable (Int.lcm a.unit.scale.den b.unit.scale.den : Int) := by
    have e : (Int.lcm a.unit.scale.den b.unit.scale.den : Int) = b.unit.scale.den :=
      congrArg rational_constant.den hC
    rw [e]
    have h1 := (rational_constant.fits_iff.mp hfb).2.2
    unfold representable
    unfold intmax_min intmax_max at *
    omega
  have hx' : a.type.holds (a.val * rescale_factor a.unit.scale b.unit.scale) := by
    rw [hfa', mul_comm]; exact hx
  have hy' : b.type.holds (b.val * rescale_factor b.unit.scale a.unit.scale) := by
    rw [hfb', mul_one]; exact hy
  have hraw : ∀ {β : Type} (op : payload_type → Int → Int → Option β),
      impl.heterop_raw op a b = op (payload_type.common a.type b.type) (k * a.val) b.val := by
    intro β op
    rw [impl.heterop_raw_of_representable op hdim hva hvb (le_of_lt hpa) (le_of_lt hpb) hnz
      (by rw [hfa']; exact hkr) (by rw [hfb']; decide)
      (payload_type.representable_of_holds hx') (payload_type.representable_of_holds hy'),
      payload_type.cast_of_holds hx', payload_type.cast_of_holds hy', hfa', hfb', mul_one,
      mul_comm]
  refine ⟨?_, ?_, ?_⟩
  · intro hd
    rw [quantity.sub, impl.heterop_eq mjk.minus hva hvb hfa hfb (le_of_lt hpa) (le_of_lt hpb)
      hnz hl, hraw, hC, mjk.minus, payload_type.arith_of_holds hd]
    rfl
  · intro hd
    rw [quantity.add, impl.heterop_eq mjk.plus hva hvb hfa hfb (le_of_lt hpa) (le_of_lt hpb)
      hnz hl, hraw, hC, mjk.plus, payload_type.arith_of_holds hd]
    rfl
  · simp only [unit.eq, Bool.and_eq_true]
    exact ⟨hdim, (rational_constant.eq_iff _ _).mpr rfl⟩

/-- Witness for C4 at the repository's test `1*kg - 1*g`: payload `999` in unit `g`. -/
theorem quantity_sub_add_integer_multiple_witness :
    quantity.sub ⟨.int, 1, ⟨dimension 1, ⟨1, 1⟩⟩⟩ ⟨.int, 1, ⟨dimension 1, ⟨1, 1000⟩⟩⟩ =
      some ⟨.int, 999, ⟨dimension 1, ⟨1, 1000⟩⟩⟩ ∧
    quantity.add ⟨.int, 1, ⟨dimension 1, ⟨1, 1⟩⟩⟩ ⟨.int, 1, ⟨dimension 1, ⟨1, 1000⟩⟩⟩ =
      some ⟨.int, 1001, ⟨dimension 1, ⟨1, 1000⟩⟩⟩ ∧
    unit.eq ⟨dimension 1, ⟨1, 1000⟩⟩ ⟨dimension 1, ⟨1, 1000⟩⟩ = true := by
  obtain ⟨h1, h2, h3⟩ := quantity_sub_add_integer_multiple
    ⟨.int, 1, ⟨dimension 1, ⟨1, 1⟩⟩⟩ ⟨.int, 1, ⟨dimension 1, ⟨1, 1000⟩⟩⟩ 1000
    (by decide) (by decide) (by decide) (by decide) (by decide) (by decide) (by decide)
    (by norm_num [rational_constant.toRat]) (by decide) (by decide) (by decide)
  exact ⟨h1 (by decide), h2 (by decide), h3⟩

/-- Counterexample to C4 as stated. With `int` payloads, `3000000 kg - 1 g`
(`k = 1000`) is not `2999999999 g`: the product `3000000 * 1000` wraps to
`-1294967296` in `int` and the difference is `-1294967297`. With the scales `2^40/1`
and `1/2^40` the factor `k = 2^80` is not representable in `intmax_t` and the
difference is rejected. -/
theorem quantity_sub_overflow_counterexample :
    (dimension 1).eq (dimension 1) = true ∧
    (⟨1, 1⟩ : rational_constant).valid ∧ (⟨1, 1000⟩ : rational_constant).valid ∧
    (⟨1, 1⟩ : rational_constant).toRat =
      ((1000 : Int) : ℚ) * (⟨1, 1000⟩ : rational_constant).toRat ∧
    quantity.sub ⟨.int, 3000000, ⟨dimension 1, ⟨1, 1⟩⟩⟩ ⟨.int, 1, ⟨dimension 1, ⟨1, 1000⟩⟩⟩ =
      some ⟨.int, -1294967297, ⟨dimension 1, ⟨1, 1000⟩⟩⟩ ∧
    (-1294967297 : Int) ≠ 1000 * 3000000 - 1 ∧
    (⟨1099511627776, 1⟩ : rational_constant).toRat =
      ((1208925819614629174706176 : Int) : ℚ) *
        (⟨1, 1099511627776⟩ : rational_constant).toRat ∧
    quantity.sub ⟨.intmax_t, 0, ⟨dimension 1, ⟨1099511627776, 1⟩⟩⟩
      ⟨.intmax_t, 0, ⟨dimension 1, ⟨1, 1099511627776⟩⟩⟩ = none := by
  refine ⟨by decide, by decide, by decide, by norm_num [rational_constant.toRat], ?_,
    by decide, by norm_num [rational_constant.toRat], ?_⟩
  · rw [quantity.sub, impl.heterop_eq mjk.minus (by decide) (by decide) (by decide)
      (by decide) (by decide) (by decide) (by decide) (by decide),
      impl.heterop_raw_of_representable mjk.minus (by decide) (by decide) (by decide)
        (by decide) (by decide) (by decide) (by decide) (by decide) (by decide) (by decide)]
    decide
  · rw [quantity.sub, impl.heterop_eq mjk.minus (by decide) (by decide) (by decide)
      (by decide) (by decide) (by decide) (by decide) (by decide),
      impl.heterop_raw_eq mjk.minus (by decide) (by decide) (by decide) (by decide)
        (by decide) (by decide)]
    decide

/-- C5 (amended): for every unit `u` whose scale is a positive constant within the
range of `std::ratio`, and any two quantities `a` and `b` that both have unit `u`,
`a + b` has the unit `u` and the payload `a.count + b.count`, computed in the common
payload type: when the sum is a value of that type it is the payload, otherwise
there is no value; likewise `a - b` with `a.count - b.count`. -/
theorem quantity_same_unit_add_sub (u : unit) (a b : quantity)
    (hau : a.unit = u) (hbu : b.unit = u)
    (hv : u.scale.valid) (hf : u.scale.fits) (hp : 0 < u.scale.num)
    (hta : a.type.holds a.val) (htb : b.type.holds b.val) :
    ((payload_type.common a.type b.type).holds (a.val + b.val) →
      a.add b = some ⟨payload_type.common a.type b.type, a.val + b.val, u⟩) ∧
    ((payload_type.common a.type b.type).holds (a.val - b.val) →
      a.sub b = some ⟨payload_type.common a.type b.type, a.val - b.val, u⟩) ∧
    (¬ (payload_type.common a.type b.type).holds (a.val + b.val) → a.add b = none) ∧
    (¬ (payload_type.common a.type b.type).holds (a.val - b.val) → a.sub b = none) := by
  have hva : a.unit.scale.valid := hau ▸ hv
  have hvb : b.unit.scale.valid := hbu ▸ hv
  have hfa : a.unit.scale.fits := hau ▸ hf
  have hfb : b.unit.scale.fits := hbu ▸ hf
  have hpa : 0 < a.unit.scale.num := hau ▸ hp
  have hpb : 0 < b.unit.scale.num := hbu ▸ hp
  have hdim : a.unit.dimension.eq b.unit.dimension = true := by
    rw [hau, hbu]; exact dimension_eq_self _
  have hs : a.unit.scale.toRat = ((1 : Int) : ℚ) * b.unit.scale.toRat := by
    rw [hau, hbu]; simp
  obtain ⟨_, hC, hfa', hfb'⟩ := multiple_scale_facts hva hvb one_pos hpb hs
  have hu : (⟨a.unit.dimension, b.unit.scale⟩ : unit) = u := by
    rw [hau, hbu]
  have hnz : a.unit.scale.num ≠ 0 ∨ b.unit.scale.num ≠ 0 := Or.inl (ne_of_gt hpa)
  have hl : representable (Int.lcm a.unit.scale.den b.unit.scale.den : Int) := by
    have e : (Int.lcm a.unit.scale.den b.unit.scale.den : Int) = b.unit.scale.den :=
      congrArg rational_constant.den hC
    rw [e]
    have h1 := (rational_constant.fits_iff.mp hfb).2.2
    unfold representable
    unfold intmax_min intmax_max at *
    omega
  have hx' : a.type.holds (a.val * rescale_factor a.unit.scale b.unit.scale) := by
    rw [hfa', mul_one]; exact hta
  have hy' : b.type.holds (b.val * rescale_factor b.unit.scale a.unit.scale) := by
    rw [hfb', mul_one]; exact htb
  have hraw : ∀ {β : Type} (op : payload_type → Int → Int → Option β),
      impl.heterop_raw op a b = op (payload_type.common a.type b.type) a.val b.val := by
    intro β op
    rw [impl.heterop_raw_of_representable op hdim hva hvb (le_of_lt hpa) (le_of_lt hpb) hnz
      (by rw [hfa']; decide) (by rw [hfb']; decide)
      (payload_type.representable_of_holds hx') (payload_type.representable_of_holds hy'),
      payload_type.cast_of_holds hx', payload_type.cast_of_holds hy', hfa', hfb', mul_one,
      mul_one]
  have hadd : a.add b = ((payload_type.common a.type b.type).arith (a.val + b.val)).map
      fun v => ⟨payload_type.common a.type b.type, v, u⟩ := by
    rw [quantity.add, impl.heterop_eq mjk.plus hva hvb hfa hfb (le_of_lt hpa) (le_of_lt hpb)
      hnz hl, hraw, hC, hu, mjk.plus]
  have hsub : a.sub b = ((payload_type.common a.type b.type).arith (a.val - b.val)).map
      fun v => ⟨payload_type.common a.type b.type, v, u⟩ := by
    rw [quantity.sub, impl.heterop_eq mjk.minus hva hvb hfa hfb (le_of_lt hpa) (le_of_lt hpb)
      hnz hl, hraw, hC, hu, mjk.minus]
  refine ⟨fun h => ?_, fun h => ?_, fun h => ?_, fun h => ?_⟩
  · rw [hadd, payload_type.arith_of_holds h]; rfl
  · rw [hsub, payload_type.arith_of_holds h]; rfl
  · rw [hadd, payload_type.arith_of_not_holds h]; rfl
  · rw [hsub, payload_type.arith_of_not_holds h]; rfl

/-- Witness for C5 (amended) at the repository's tests `1*kg + 1*kg` and `1*kg - 1*kg`. -/
theorem quantity_same_unit_add_sub_witness :
    quantity.add ⟨.int, 1, ⟨dimension 1, ⟨1, 1⟩⟩⟩ ⟨.int, 1, ⟨dimension 1, ⟨1, 1⟩⟩⟩ =
      some ⟨.int, 2, ⟨dimension 1, ⟨1, 1⟩⟩⟩ ∧
    quantity.sub ⟨.int, 1, ⟨dimension 1, ⟨1, 1⟩⟩⟩ ⟨.int, 1, ⟨dimension 1, ⟨1, 1⟩⟩⟩ =
      some ⟨.int, 0, ⟨dimension 1, ⟨1, 1⟩⟩⟩ := by
  obtain ⟨h1, h2, -, -⟩ := quantity_same_unit_add_sub ⟨dimension 1, ⟨1, 1⟩⟩
    ⟨.int, 1, ⟨dimension 1, ⟨1, 1⟩⟩⟩ ⟨.int, 1, ⟨dimension 1, ⟨1, 1⟩⟩⟩ rfl rfl (by decide)
    (by decide) (by decide) (by decide) (by decide)
  exact ⟨h1 (by decide), h2 (by decide)⟩

/-- Counterexample to C5 as stated: the unit `-1 * kg` (scale `-1/1`, an instantiated
rational constant) is a unit, yet the sum and the difference of two quantities of
that unit are rejected by the assertion `A >= 0 && B >= 0` of `impl::gcd`; and for the
unit `kg` and `int` payloads, `INT_MAX + 1` has no value. -/
theorem quantity_same_unit_negative_scale_counterexample :
    (⟨-1, 1⟩ : rational_constant).valid ∧
    quantity.add ⟨.int, 1, ⟨dimension 1, ⟨-1, 1⟩⟩⟩ ⟨.int, 1, ⟨dimension 1, ⟨-1, 1⟩⟩⟩ = none ∧
    quantity.sub ⟨.int, 1, ⟨dimension 1, ⟨-1, 1⟩⟩⟩ ⟨.int, 1, ⟨dimension 1, ⟨-1, 1⟩⟩⟩ = none ∧
    quantity.add ⟨.int, 2147483647, ⟨dimension 1, ⟨1, 1⟩⟩⟩ ⟨.int, 1, ⟨dimension 1, ⟨1, 1⟩⟩⟩ =
      none := by
  refine ⟨by decide, ?_, ?_, ?_⟩
  · rw [quantity.add, impl.heterop, impl.gcd_eq_none (Or.inl (by decide))]
    rfl
  · rw [quantity.sub, impl.heterop, impl.gcd_eq_none (Or.inl (by decide))]
    rfl
  · rw [quantity.add, impl.heterop_eq mjk.plus (by decide) (by decide) (by decide)
      (by decide) (by decide) (by decide) (by decide) (by decide),
      impl.heterop_raw_of_representable mjk.plus (by decide) (by decide) (by decide)
        (by decide) (by decide) (by decide) (by decide) (by decide) (by decide) (by decide)]
    decide


/-- C6 (amended): for dimension vectors `A` and `B` with unique tags and no zero
exponents, when the exponents of the tags present in both and their sums are within
the range of `std::ratio`, `A * B` is defined, stores every tag at most once, and for
every tag `t` the exponent of `t` in `A * B` is the rational sum
`exp_A(t) + exp_B(t)` (an absent tag counting as `0`), and `t` is present in `A * B`
iff that sum is non-zero; otherwise `A * B` is rejected. -/
theorem dimension_mul_exponent (A B : dimension_product)
    (hA : A.instantiated) (hB : B.instantiated)
    (hAc : A.canonical) (hBc : B.canonical) :
    (A.mul_in_range B → ∃ R, A.mul B = some R ∧ R.unique_tags ∧ ∀ t : Tag,
      (R.exponent t).valid ∧
      (R.exponent t).toRat = (A.exponent t).toRat + (B.exponent t).toRat ∧
      (R.has_tag t ↔ (R.exponent t).num ≠ 0)) ∧
    (¬ A.mul_in_range B → A.mul B = none) := by
  refine ⟨fun h => ?_, mul_eq_none_of_not_in_range hA hB hAc hBc.1⟩
  obtain ⟨R, hR, hRi, hRc, hRe⟩ := mul_of_in_range hA hB hAc hBc.1 h
  refine ⟨R, hR, hRc.1, fun t => ⟨exponent_in_valid hRi t, ?_, ?_⟩⟩
  · rw [hRe t, rational_constant.toRat_ofRat]
  · exact tag_mem_iff_exponent_in hRc.1 hRc.2 t

/-- Witness for C6 at `length * mass` times `mass^-1 * time^-2`: the hypotheses hold
there and the multiplication has the stated exponents. -/
theorem dimension_mul_exponent_witness :
    (⟨[⟨0, ⟨1, 1⟩⟩, ⟨1, ⟨1, 1⟩⟩]⟩ : dimension_product).canonical ∧
    (⟨[⟨1, ⟨-1, 1⟩⟩, ⟨2, ⟨-2, 1⟩⟩]⟩ : dimension_product).canonical ∧
    ∃ R, (⟨[⟨0, ⟨1, 1⟩⟩, ⟨1, ⟨1, 1⟩⟩]⟩ : dimension_product).mul
        ⟨[⟨1, ⟨-1, 1⟩⟩, ⟨2, ⟨-2, 1⟩⟩]⟩ = some R ∧ R.unique_tags ∧ ∀ t : Tag,
      (R.exponent t).valid ∧
      (R.exponent t).toRat =
        ((⟨[⟨0, ⟨1, 1⟩⟩, ⟨1, ⟨1, 1⟩⟩]⟩ : dimension_product).exponent t).toRat +
        ((⟨[⟨1, ⟨-1, 1⟩⟩, ⟨2, ⟨-2, 1⟩⟩]⟩ : dimension_product).exponent t).toRat ∧
      (R.has_tag t ↔ (R.exponent t).num ≠ 0) :=
  ⟨by decide, by decide,
    (dimension_mul_exponent _ _ (by decide) (by decide) (by decide) (by decide)).1
      (by decide)⟩

/-- Counterexample to C6 as stated: `A` with the single factor `(0, INTMAX_MAX/1)` and
`B = dimension<0>` have unique tags and no zero exponent, yet `A * B` is rejected:
the exponent sum `INTMAX_MAX + 1` is not representable. -/
theorem dimension_mul_overflow_counterexample :
    (⟨[⟨0, ⟨9223372036854775807, 1⟩⟩]⟩ : dimension_product).instantiated ∧
    (⟨[⟨0, ⟨9223372036854775807, 1⟩⟩]⟩ : dimension_product).canonical ∧
    (dimension 0).instantiated ∧ (dimension 0).canonical ∧
    (⟨[⟨0, ⟨9223372036854775807, 1⟩⟩]⟩ : dimension_product).mul (dimension 0) = none := by
  refine ⟨by decide, by decide, by decide, by decide, ?_⟩
  exact mul_eq_none_of_not_in_range (by decide) (by decide) (by decide) (by decide)
    (by decide)

/-- C7: for dimension vectors `A` and `B` with unique tags, `A == B` is true iff `A`
and `B` contain exactly the same (tag, exponent) pairs; the relation is symmetric,
and every permutation of the factors of `A` is equal to `A`. -/
theorem dimension_eq_iff_same_factors (A B : dimension_product)
    (hA : A.unique_tags) (hB : B.unique_tags) :
    (A.eq B = true ↔ ∀ f : dimension_factor, f ∈ A.factors ↔ f ∈ B.factors) ∧
    A.eq B = B.eq A ∧
    ∀ P : dimension_product, P.factors.Perm A.factors → P.eq A = true ∧ A.eq P = true := by
  have hnA := nodup_of_unique_tags hA
  have hnB := nodup_of_unique_tags hB
  refine ⟨?_, uset.equal_comm hnA hnB, ?_⟩
  · unfold dimension_product.eq
    rw [uset.equal_iff_perm hnA, List.perm_ext_iff_of_nodup hnA hnB]
  · intro P hP
    have hnP : P.factors.Nodup := hP.nodup_iff.mpr hnA
    exact ⟨(uset.equal_iff_perm hnP).mpr hP, (uset.equal_iff_perm hnA).mpr hP.symm⟩

/-- Witness for C7 at `mass * length` against `length * mass`. -/
theorem dimension_eq_iff_same_factors_witness :
    (⟨[⟨1, ⟨1, 1⟩⟩, ⟨0, ⟨1, 1⟩⟩]⟩ : dimension_product).unique_tags ∧
    (⟨[⟨0, ⟨1, 1⟩⟩, ⟨1, ⟨1, 1⟩⟩]⟩ : dimension_product).unique_tags ∧
    (((⟨[⟨1, ⟨1, 1⟩⟩, ⟨0, ⟨1, 1⟩⟩]⟩ : dimension_product).eq
        ⟨[⟨0, ⟨1, 1⟩⟩, ⟨1, ⟨1, 1⟩⟩]⟩ = true ↔
      ∀ f : dimension_factor,
        f ∈ (⟨[⟨1, ⟨1, 1⟩⟩, ⟨0, ⟨1, 1⟩⟩]⟩ : dimension_product).factors ↔
        f ∈ (⟨[⟨0, ⟨1, 1⟩⟩, ⟨1, ⟨1, 1⟩⟩]⟩ : dimension_product).factors) ∧
     (⟨[⟨1, ⟨1, 1⟩⟩, ⟨0, ⟨1, 1⟩⟩]⟩ : dimension_product).eq ⟨[⟨0, ⟨1, 1⟩⟩, ⟨1, ⟨1, 1⟩⟩]⟩ =
       (⟨[⟨0, ⟨1, 1⟩⟩, ⟨1, ⟨1, 1⟩⟩]⟩ : dimension_product).eq ⟨[⟨1, ⟨1, 1⟩⟩, ⟨0, ⟨1, 1⟩⟩]⟩ ∧
     ∀ P : dimension_product,
       P.factors.Perm (⟨[⟨1, ⟨1, 1⟩⟩, ⟨0, ⟨1, 1⟩⟩]⟩ : dimension_product).factors →
       P.eq ⟨[⟨1, ⟨1, 1⟩⟩, ⟨0, ⟨1, 1⟩⟩]⟩ = true ∧
       (⟨[⟨1, ⟨1, 1⟩⟩, ⟨0, ⟨1, 1⟩⟩]⟩ : dimension_product).eq P = true) :=
  ⟨by decide, by decide, dimension_eq_iff_same_factors _ _ (by decide) (by decide)⟩

/-- C10 (amended): dimension multiplication is commutative up to dimension equality:
for dimension vectors `A` and `B` with unique tags and no zero exponents, when the
exponent sums are within the range of `std::ratio`, `A * B` and `B * A` are defined
and `A * B == B * A` is true; otherwise both products are rejected. -/
theorem dimension_mul_comm (A B : dimension_product)
    (hA : A.instantiated) (hB : B.instantiated)
    (hAc : A.canonical) (hBc : B.canonical) :
    (A.mul_in_range B → ∃ R S, A.mul B = some R ∧ B.mul A = some S ∧ R.eq S = true) ∧
    (¬ A.mul_in_range B → A.mul B = none ∧ B.mul A = none) := by
  refine ⟨fun h => ?_, fun h => ⟨mul_eq_none_of_not_in_range hA hB hAc hBc.1 h,
    mul_eq_none_of_not_in_range hB hA hBc hAc.1
      (fun h2 => h (mul_in_range_symm hB hA hBc.1 hAc.1 h2))⟩⟩
  obtain ⟨R, hR, _, hRc, hRe⟩ := mul_of_in_range hA hB hAc hBc.1 h
  obtain ⟨S, hS, _, hSc, hSe⟩ := mul_of_in_range hB hA hBc hAc.1
    (mul_in_range_symm hA hB hAc.1 hBc.1 h)
  refine ⟨R, S, hR, hS, ?_⟩
  apply equal_of_exponent_in hRc.1 hRc.2 hSc.1 hSc.2
  intro t
  have h1 := hRe t
  have h2 := hSe t
  unfold dimension_product.exponent at h1 h2
  rw [h1, h2, add_comm]

/-- Witness for C10 at `length` and `mass`: the two products are `==` although
their factors are stored in different orders. -/
theorem dimension_mul_comm_witness :
    (dimension 0).canonical ∧ (dimension 1).canonical ∧
    (dimension 0).mul (dimension 1) ≠ (dimension 1).mul (dimension 0) ∧
    ∃ R S, (dimension 0).mul (dimension 1) = some R ∧
      (dimension 1).mul (dimension 0) = some S ∧ R.eq S = true :=
  ⟨by decide, by decide, by decide,
    (dimension_mul_comm _ _ (by decide) (by decide) (by decide) (by decide)).1 (by decide)⟩

/-- Counterexample to C10 as stated: `A` with the single factor `(0, INTMAX_MAX/1)`
and `B = dimension<0>` have unique tags and no zero exponent, yet neither `A * B` nor
`B * A` is defined, so `A * B == B * A` is not true: it is rejected. -/
theorem dimension_mul_comm_overflow_counterexample :
    (⟨[⟨0, ⟨9223372036854775807, 1⟩⟩]⟩ : dimension_product).instantiated ∧
    (⟨[⟨0, ⟨9223372036854775807, 1⟩⟩]⟩ : dimension_product).canonical ∧
    (dimension 0).instantiated ∧ (dimension 0).canonical ∧
    (⟨[⟨0, ⟨9223372036854775807, 1⟩⟩]⟩ : dimension_product).mul (dimension 0) = none ∧
    (dimension 0).mul ⟨[⟨0, ⟨9223372036854775807, 1⟩⟩]⟩ = none := by
  refine ⟨by decide, by decide, by decide, by decide, ?_, ?_⟩
  · exact mul_eq_none_of_not_in_range (by decide) (by decide) (by decide) (by decide)
      (by decide)
  · exact mul_eq_none_of_not_in_range (by decide) (by decide) (by decide) (by decide)
      (by decide)

/-- C11 (amended): dimension multiplication is associative up to dimension equality
wherever both bracketings are defined: for dimension vectors `A`, `B`, `C` with unique
tags and no zero exponents, when `(A * B) * C` and `A * (B * C)` are both defined,
`(A * B) * C == A * (B * C)` is true; each product is defined when its exponent sums
are within the range of `std::ratio`. -/
theorem dimension_mul_assoc (A B C : dimension_product)
    (hA : A.instantiated) (hB : B.instantiated) (hC : C.instantiated)
    (hAc : A.canonical) (hBc : B.canonical) (hCc : C.canonical) :
    (∀ AB BC L R, A.mul B = some AB → AB.mul C = some L →
      B.mul C = some BC → A.mul BC = some R → L.eq R = true) ∧
    (A.mul_in_range B → ∃ AB, A.mul B = some AB ∧
      (AB.mul_in_range C → ∃ L, AB.mul C = some L)) ∧
    (B.mul_in_range C → ∃ BC, B.mul C = some BC ∧
      (A.mul_in_range BC → ∃ R, A.mul BC = some R)) := by
  refine ⟨?_, ?_, ?_⟩
  · intro AB BC L R hAB hL hBC hR
    obtain ⟨-, hABi, hABc, hABe⟩ := mul_some_canonical hA hB hAc hBc.1 hAB
    obtain ⟨-, -, hLc, hLe⟩ := mul_some_canonical hABi hC hABc hCc.1 hL
    obtain ⟨-, hBCi, hBCc, hBCe⟩ := mul_some_canonical hB hC hBc hCc.1 hBC
    obtain ⟨-, -, hRc, hRe⟩ := mul_some_canonical hA hBCi hAc hBCc.1 hR
    apply equal_of_exponent_in hLc.1 hLc.2 hRc.1 hRc.2
    intro t
    have h1 := hLe t
    have h2 := hRe t
    unfold dimension_product.exponent at h1 h2
    rw [h1, h2]
    have h3 := hABe t
    have h4 := hBCe t
    unfold dimension_product.exponent at h3 h4
    rw [h3, h4, rational_constant.toRat_ofRat, rational_constant.toRat_ofRat, add_assoc]
  · intro h
    obtain ⟨AB, hAB, hABi, hABc, -⟩ := mul_of_in_range hA hB hAc hBc.1 h
    refine ⟨AB, hAB, fun h2 => ?_⟩
    obtain ⟨L, hL, -⟩ := mul_of_in_range hABi hC hABc hCc.1 h2
    exact ⟨L, hL⟩
  · intro h
    obtain ⟨BC, hBC, hBCi, hBCc, -⟩ := mul_of_in_range hB hC hBc hCc.1 h
    refine ⟨BC, hBC, fun h2 => ?_⟩
    obtain ⟨R, hR, -⟩ := mul_of_in_range hA hBCi hAc hBCc.1 h2
    exact ⟨R, hR⟩

/-- Witness for C11 at `length`, `mass * time^-1` and `time`, where the time factor
cancels in both bracketings. -/
theorem dimension_mul_assoc_witness :
    (dimension 0).canonical ∧
    (⟨[⟨1, ⟨1, 1⟩⟩, ⟨2, ⟨-1, 1⟩⟩]⟩ : dimension_product).canonical ∧
    (dimension 2).canonical ∧
    (dimension 0).mul ⟨[⟨1, ⟨1, 1⟩⟩, ⟨2, ⟨-1, 1⟩⟩]⟩ =
      some ⟨[⟨0, ⟨1, 1⟩⟩, ⟨2, ⟨-1, 1⟩⟩, ⟨1, ⟨1, 1⟩⟩]⟩ ∧
    (⟨[⟨0, ⟨1, 1⟩⟩, ⟨2, ⟨-1, 1⟩⟩, ⟨1, ⟨1, 1⟩⟩]⟩ : dimension_product).mul (dimension 2) =
      some ⟨[⟨0, ⟨1, 1⟩⟩, ⟨1, ⟨1, 1⟩⟩]⟩ ∧
    (⟨[⟨1, ⟨1, 1⟩⟩, ⟨2, ⟨-1, 1⟩⟩]⟩ : dimension_product).mul (dimension 2) =
      some ⟨[⟨1, ⟨1, 1⟩⟩]⟩ ∧
    (dimension 0).mul ⟨[⟨1, ⟨1, 1⟩⟩]⟩ = some ⟨[⟨0, ⟨1, 1⟩⟩, ⟨1, ⟨1, 1⟩⟩]⟩ ∧
    (⟨[⟨0, ⟨1, 1⟩⟩, ⟨1, ⟨1, 1⟩⟩]⟩ : dimension_product).eq
      ⟨[⟨0, ⟨1, 1⟩⟩, ⟨1, ⟨1, 1⟩⟩]⟩ = true :=
  ⟨by decide, by decide, by decide, by decide, by decide, by decide, by decide,
    (dimension_mul_assoc (dimension 0) ⟨[⟨1, ⟨1, 1⟩⟩, ⟨2, ⟨-1, 1⟩⟩]⟩ (dimension 2)
      (by decide) (by decide) (by decide) (by decide) (by decide) (by decide)).1
      ⟨[⟨0, ⟨1, 1⟩⟩, ⟨2, ⟨-1, 1⟩⟩, ⟨1, ⟨1, 1⟩⟩]⟩ ⟨[⟨1, ⟨1, 1⟩⟩]⟩
      ⟨[⟨0, ⟨1, 1⟩⟩, ⟨1, ⟨1, 1⟩⟩]⟩ ⟨[⟨0, ⟨1, 1⟩⟩, ⟨1, ⟨1, 1⟩⟩]⟩
      (by decide) (by decide) (by decide) (by decide)⟩

/-- Counterexample to C11 as stated: with `A` the single factor `(0, INTMAX_MAX/1)`,
`B = dimension<0>` and `C` the single factor `(0, -1/1)`, the product `A * B` is
rejected (the exponent `INTMAX_MAX + 1` is not representable), so `(A * B) * C` is
not defined, while `B * C` is dimensionless and `A * (B * C)` is `A`. -/
theorem dimension_mul_assoc_overflow_counterexample :
    (⟨[⟨0, ⟨9223372036854775807, 1⟩⟩]⟩ : dimension_product).instantiated ∧
    (⟨[⟨0, ⟨9223372036854775807, 1⟩⟩]⟩ : dimension_product).canonical ∧
    (dimension 0).instantiated ∧ (dimension 0).canonical ∧
    (⟨[⟨0, ⟨-1, 1⟩⟩]⟩ : dimension_product).instantiated ∧
    (⟨[⟨0, ⟨-1, 1⟩⟩]⟩ : dimension_product).canonical ∧
    (⟨[⟨0, ⟨9223372036854775807, 1⟩⟩]⟩ : dimension_product).mul (dimension 0) = none ∧
    (dimension 0).mul ⟨[⟨0, ⟨-1, 1⟩⟩]⟩ = some dimensionless ∧
    (⟨[⟨0, ⟨9223372036854775807, 1⟩⟩]⟩ : dimension_product).mul dimensionless =
      some ⟨[⟨0, ⟨9223372036854775807, 1⟩⟩]⟩ := by
  refine ⟨by decide, by decide, by decide, by decide, by decide, by decide, ?_, by decide,
    by decide⟩
  exact mul_eq_none_of_not_in_range (by decide) (by decide) (by decide) (by decide)
    (by decide)


/-- C12 (amended): for all `intmax_t` values `num` and `den` with `den != 0`, except
when `num = INTMAX_MIN` and `den < 0`, or `den = INTMAX_MIN` and `num` is zero or odd,
`make_rational_constant(num, den)` yields a pair `(n, d)` with `d > 0`,
`gcd(|n|, d) = 1` and `n * den = num * d`; a zero numerator yields `(0, 1)`; and
applying it again to `(n, d)` returns `(n, d)`. In the excepted cases it is rejected:
`sgcd`, `sign(den) * num` or `abs(den / gcd)` has no value in `intmax_t`. -/
theorem make_rational_constant_reduces (num den : Int)
    (hN : representable num) (hD : representable den) (hden : den ≠ 0) :
    (¬ (num = intmax_min ∧ den < 0) →
      ¬ (den = intmax_min ∧ (num = 0 ∨ num.tmod 2 ≠ 0)) →
      ∃ r : rational_constant, make_rational_constant num den = some r ∧
        0 < r.den ∧ Nat.gcd r.num.natAbs r.den.natAbs = 1 ∧ r.num * den = num * r.den ∧
        (num = 0 → r = ⟨0, 1⟩) ∧
        make_rational_constant r.num r.den = some r) ∧
    (((num = intmax_min ∧ den < 0) ∨ (den = intmax_min ∧ (num = 0 ∨ num.tmod 2 ≠ 0))) →
      make_rational_constant num den = none) := by
  refine ⟨fun h1 h2 => ?_, make_rational_constant_eq_none num den⟩
  have hv := rational_constant.valid_ofRat (Rat.divInt num den)
  obtain ⟨hd, hg⟩ := (rational_constant.valid_iff _).mp hv
  have hmk := make_rational_constant_eq num den hN hD hden h1 h2
  obtain ⟨hrn, hrd, -⟩ := make_rational_constant_some hD hmk
  refine ⟨_, hmk, hd, hg, ?_, ?_, ?_⟩
  · have hq : ((Rat.divInt num den).num : ℚ) / ((Rat.divInt num den).den : ℚ) =
        (num : ℚ) / (den : ℚ) := by
      rw [Rat.num_div_den, Rat.divInt_eq_div]
    have h1 : ((Rat.divInt num den).den : ℚ) ≠ 0 := by
      exact_mod_cast (Rat.divInt num den).den_nz
    have h2 : (den : ℚ) ≠ 0 := by exact_mod_cast hden
    rw [div_eq_div_iff h1 h2] at hq
    show (Rat.divInt num den).num * den = num * ((Rat.divInt num den).den : Int)
    exact_mod_cast hq
  · intro h0
    rw [h0, Rat.zero_divInt]
    rfl
  · have hdmin : (rational_constant.ofRat (Rat.divInt num den)).den ≠ intmax_min := by
      intro hc
      rw [hc] at hd
      exact absurd hd (by decide)
    rw [make_rational_constant_eq _ _ hrn hrd (ne_of_gt hd) (fun hc => by omega)
      (fun hc => hdmin hc.1)]
    show some (rational_constant.ofRat (Rat.divInt (Rat.divInt num den).num
      ((Rat.divInt num den).den : Int))) = _
    rw [Rat.divInt_self]

/-- Witness for C12 at `(6, -4)`, which reduces to `(-3, 2)`. -/
theorem make_rational_constant_reduces_witness :
    make_rational_constant 6 (-4) = some ⟨-3, 2⟩ ∧
    ∃ r : rational_constant, make_rational_constant 6 (-4) = some r ∧
      0 < r.den ∧ Nat.gcd r.num.natAbs r.den.natAbs = 1 ∧ r.num * (-4) = 6 * r.den ∧
      ((6 : Int) = 0 → r = ⟨0, 1⟩) ∧
      make_rational_constant r.num r.den = some r :=
  ⟨by rw [make_rational_constant_eq _ _ (by decide) (by decide) (by decide) (by decide)
      (by decide)]; decide,
    (make_rational_constant_reduces 6 (-4) (by decide) (by decide) (by decide)).1 (by decide)
      (by decide)⟩

/-- Counterexample to C12 as stated: `make_rational_constant<INTMAX_MIN, -2>` is
rejected although the denominator is not zero: `sign(den) * num` is `-INTMAX_MIN`,
which is not representable; and so is `make_rational_constant<1, INTMAX_MIN>`, where
`abs(den / gcd)` is `-INTMAX_MIN`. -/
theorem make_rational_constant_overflow_counterexample :
    representable (-9223372036854775808) ∧ representable (-2) ∧ (-2 : Int) ≠ 0 ∧
    make_rational_constant (-9223372036854775808) (-2) = none ∧
    make_rational_constant 1 (-9223372036854775808) = none :=
  ⟨by decide, by decide, by decide,
    make_rational_constant_eq_none _ _ (Or.inl ⟨rfl, by decide⟩),
    make_rational_constant_eq_none _ _ (Or.inr ⟨rfl, Or.inr (by decide)⟩)⟩

/-- C13: `sqrt` and `cbrt` of a rational `n/d` never approximate, whatever the
floating-point library root returns: each either fails or returns an instantiated
rational `y`, built from the integer candidates for `n` and for `d` independently,
whose square (resp. cube) is exactly `n/d`; `sqrt` fails whenever `n` or `d` is not a
perfect square and `cbrt` fails whenever `n` or `d` is not a perfect cube. -/
theorem sqrt_cbrt_exact (isqrt icbrt : Int → Option Int) (r : rational_constant) :
    (∀ y, rational_constant.sqrt_with isqrt r = some y →
      y.valid ∧ isqrt r.num = some y.num ∧ isqrt r.den = some y.den ∧
      mjk.square y = some r ∧ y.toRat * y.toRat = r.toRat) ∧
    ((¬ (∃ k : Int, k * k = r.num) ∨ ¬ (∃ k : Int, k * k = r.den)) →
      rational_constant.sqrt_with isqrt r = none) ∧
    (∀ y, rational_constant.cbrt_with icbrt r = some y →
      y.valid ∧ icbrt r.num = some y.num ∧ icbrt r.den = some y.den ∧
      mjk.cube y = some r ∧ y.toRat ^ 3 = r.toRat) ∧
    ((¬ (∃ k : Int, k ^ 3 = r.num) ∨ ¬ (∃ k : Int, k ^ 3 = r.den)) →
      rational_constant.cbrt_with icbrt r = none) := by
  refine ⟨?_, ?_, ?_, ?_⟩
  · intro y hy
    obtain ⟨hv, hn, hd, hr, hyf, hrf⟩ := rational_constant.sqrt_with_eq_some hy
    refine ⟨hv, hn, hd, ?_, ?_⟩
    · rw [rational_constant.square_eq hv hyf, ← hr, rational_constant.checked_of_fits hrf]
    · rw [hr, rational_constant.toRat_mk_mul_self hv]
  · intro hnot
    cases h : rational_constant.sqrt_with isqrt r with
    | none => rfl
    | some y =>
      obtain ⟨_, _, _, hr, _, _⟩ := rational_constant.sqrt_with_eq_some h
      rw [hr] at hnot
      rcases hnot with hn | hd
      · exact absurd ⟨y.num, rfl⟩ hn
      · exact absurd ⟨y.den, rfl⟩ hd
  · intro y hy
    obtain ⟨hv, hn, hd, hr, hyf, hrf⟩ := rational_constant.cbrt_with_eq_some hy
    refine ⟨hv, hn, hd, ?_, ?_⟩
    · rw [rational_constant.cube_eq hv hyf, ← hr, rational_constant.checked_of_fits hrf]
    · rw [hr, rational_constant.toRat_mk_pow]
  · intro hnot
    cases h : rational_constant.cbrt_with icbrt r with
    | none => rfl
    | some y =>
      obtain ⟨_, _, _, hr, _, _⟩ := rational_constant.cbrt_with_eq_some h
      rw [hr] at hnot
      rcases hnot with hn | hd
      · exact absurd ⟨y.num, rfl⟩ hn
      · exact absurd ⟨y.den, rfl⟩ hd

/-- Witness for C13 with the library roots of the model: `sqrt(2)` and `cbrt(4)` are
rejected, `sqrt(9/4)` is `3/2` and `cbrt(-8/27)` is `-2/3`. -/
theorem sqrt_cbrt_exact_witness :
    rational_constant.sqrt ⟨2, 1⟩ = none ∧ rational_constant.cbrt ⟨4, 1⟩ = none ∧
    rational_constant.sqrt ⟨9, 4⟩ = some ⟨3, 2⟩ ∧
    rational_constant.cbrt ⟨-8, 27⟩ = some ⟨-2, 3⟩ := by
  have h := sqrt_cbrt_exact std.sqrt_intmax std.cbrt_intmax ⟨2, 1⟩
  have h' := sqrt_cbrt_exact std.sqrt_intmax std.cbrt_intmax ⟨4, 1⟩
  refine ⟨h.2.1 (Or.inl ?_), h'.2.2.2 (Or.inl ?_),
    rational_constant.sqrt_of_sq (by decide) (by decide) (by decide) (by decide) (by decide),
    rational_constant.cbrt_of_cube (by decide) (by decide) (by decide) (by decide)⟩
  · rintro ⟨k, hk⟩
    simp only at hk
    have h1 : k ≤ 1 := by nlinarith
    have h2 : -1 ≤ k := by nlinarith
    interval_cases k <;> omega
  · rintro ⟨k, hk⟩
    simp only at hk
    have h1 : k ≤ 1 := by nlinarith [sq_nonneg k, sq_nonneg (k - 1)]
    have h2 : 0 ≤ k := by
      by_contra hneg
      have : k ^ 3 < 0 := Odd.pow_neg (by decide) (by omega)
      omega
    interval_cases k <;> omega

/-- C14 (amended): for an instantiated rational `r` whose square is within the range
of `std::ratio`, `sqrt(square(r))` is exact and is `|r|`, hence `r` itself when `r`
is non-negative; consequently `sqrt(square(a) + square(b))` is `c` whenever
`a*a + b*b = c*c`, `c` is non-negative and the three squares are within the range.
A square that is not within the range is rejected. -/
theorem sqrt_square_abs (r a b c : rational_constant)
    (hr : r.valid) (ha : a.valid) (hb : b.valid) (hc : c.valid) :
    ((⟨r.num * r.num, r.den * r.den⟩ : rational_constant).fits →
      ∃ s, mjk.square r = some s ∧ s.sqrt = some ⟨|r.num|, r.den⟩) ∧
    ((⟨r.num * r.num, r.den * r.den⟩ : rational_constant).fits → 0 ≤ r.num →
      ∃ s, mjk.square r = some s ∧ s.sqrt = some r) ∧
    ((⟨a.num * a.num, a.den * a.den⟩ : rational_constant).fits →
      (⟨b.num * b.num, b.den * b.den⟩ : rational_constant).fits →
      (⟨c.num * c.num, c.den * c.den⟩ : rational_constant).fits →
      0 ≤ c.num → a.toRat * a.toRat + b.toRat * b.toRat = c.toRat * c.toRat →
      ∃ sa sb sum, mjk.square a = some sa ∧ mjk.square b = some sb ∧
        sa.add sb = some sum ∧ sum.sqrt = some c) ∧
    (¬ (⟨r.num * r.num, r.den * r.den⟩ : rational_constant).fits →
      mjk.square r = none) := by
  have habs : (⟨|r.num|, r.den⟩ : rational_constant).valid := by
    obtain ⟨hd, hg⟩ := (rational_constant.valid_iff r).mp hr
    rw [rational_constant.valid_iff]
    refine ⟨hd, ?_⟩
    show Int.gcd |r.num| r.den = 1
    rw [Int.gcd, Int.natAbs_abs]
    exact hg
  have hsq : ∀ {x : rational_constant}, x.valid →
      (⟨x.num * x.num, x.den * x.den⟩ : rational_constant).fits →
      mjk.square x = some ⟨x.num * x.num, x.den * x.den⟩ := by
    intro x hx hf
    rw [rational_constant.square_eq hx (rational_constant.fits_of_sq_fits hf),
      rational_constant.checked_of_fits hf]
  refine ⟨fun hf => ⟨_, hsq hr hf, ?_⟩, fun hf h0 => ⟨_, hsq hr hf, ?_⟩, ?_, ?_⟩
  · exact rational_constant.sqrt_of_sq habs (abs_nonneg _) hf (abs_mul_abs_self _).symm rfl
  · exact rational_constant.sqrt_of_sq hr h0 hf rfl rfl
  · intro hfa hfb hfc h0 hp
    have hda : (⟨a.num * a.num, a.den * a.den⟩ : rational_constant).den ≠ 0 :=
      ne_of_gt (mul_pos (rational_constant.valid_den_pos ha) (rational_constant.valid_den_pos ha))
    have hdb : (⟨b.num * b.num, b.den * b.den⟩ : rational_constant).den ≠ 0 :=
      ne_of_gt (mul_pos (rational_constant.valid_den_pos hb) (rational_constant.valid_den_pos hb))
    have hsum : rational_constant.ofRat
        ((⟨a.num * a.num, a.den * a.den⟩ : rational_constant).toRat +
          (⟨b.num * b.num, b.den * b.den⟩ : rational_constant).toRat) =
        ⟨c.num * c.num, c.den * c.den⟩ := by
      rw [rational_constant.toRat_mk_mul_self ha, rational_constant.toRat_mk_mul_self hb, hp,
        rational_constant.ofRat_mul_self hc]
    refine ⟨_, _, _, hsq ha hfa, hsq hb hfb,
      rational_constant.add_of_fits hda hdb hfa hfb (by rw [hsum]; exact hfc), ?_⟩
    rw [hsum]
    exact rational_constant.sqrt_of_sq hc h0 hfc rfl rfl
  · intro hf
    by_cases hrf : r.fits
    · rw [rational_constant.square_eq hr hrf, rational_constant.checked_of_not_fits hf]
    · exact rational_constant.mul_eq_none_of_not_fits (fun h => hrf h.1)

/-- Witness for C14 (amended) at the repository's tests `sqrt(square(3) + square(4))
== 5` and `sqrt(square(1/3) + square(1/4)) == 5/12`. -/
theorem sqrt_square_abs_witness :
    (∃ s, mjk.square ⟨3, 1⟩ = some s ∧ s.sqrt = some ⟨3, 1⟩) ∧
    (∃ sa sb sum, mjk.square ⟨3, 1⟩ = some sa ∧ mjk.square ⟨4, 1⟩ = some sb ∧
      sa.add sb = some sum ∧ sum.sqrt = some ⟨5, 1⟩) ∧
    (∃ sa sb sum, mjk.square ⟨1, 3⟩ = some sa ∧ mjk.square ⟨1, 4⟩ = some sb ∧
      sa.add sb = some sum ∧ sum.sqrt = some ⟨5, 12⟩) :=
  ⟨(sqrt_square_abs ⟨3, 1⟩ ⟨3, 1⟩ ⟨4, 1⟩ ⟨5, 1⟩ (by decide) (by decide) (by decide)
      (by decide)).2.1 (by decide) (by decide),
    (sqrt_square_abs ⟨3, 1⟩ ⟨3, 1⟩ ⟨4, 1⟩ ⟨5, 1⟩ (by decide) (by decide) (by decide)
      (by decide)).2.2.1 (by decide) (by decide) (by decide) (by decide)
      (by norm_num [rational_constant.toRat]),
    (sqrt_square_abs ⟨3, 1⟩ ⟨1, 3⟩ ⟨1, 4⟩ ⟨5, 12⟩ (by decide) (by decide) (by decide)
      (by decide)).2.2.1 (by decide) (by decide) (by decide) (by decide)
      (by norm_num [rational_constant.toRat])⟩

/-- Counterexample to C14 as stated: `r = -3/1` is an instantiated rational, and
`sqrt(square(r))` is `3/1`, which is not `r`; and `square(2^32/1)` is rejected, the
square `2^64` is not representable, so `sqrt(square(r))` has no value there. -/
theorem sqrt_square_negative_counterexample :
    (⟨-3, 1⟩ : rational_constant).valid ∧
    mjk.square ⟨-3, 1⟩ = some ⟨9, 1⟩ ∧
    rational_constant.sqrt ⟨9, 1⟩ = some ⟨3, 1⟩ ∧
    rational_constant.eq ⟨3, 1⟩ ⟨-3, 1⟩ = false ∧
    (⟨4294967296, 1⟩ : rational_constant).valid ∧
    mjk.square ⟨4294967296, 1⟩ = none :=
  ⟨by decide, by decide,
    rational_constant.sqrt_of_sq (by decide) (by decide) (by decide) (by decide) (by decide),
    by decide, by decide, by decide⟩

/-- C16 (amended): the exponentiation by squaring `power<N>` agrees with naive repeated
multiplication. For an instantiated rational `x` within the range of `std::ratio`
and `N >= 0`, `power<N>(x)` is the naive power: both are `x^N` when the numerator and
the denominator of `x^N` are within the range, and both are rejected otherwise;
`power<0>(x)` is `1`, also for `x = 0`; for `N < 0` other than `INTMAX_MIN` and
`x != 0` it is `1` divided by the naive power `x^(-N)`, that is `1 / x^(-N)` when that
is within the range and rejected otherwise; for `N < 0` and `x = 0` it fails
(division by zero). The recursion is well-founded: `power` is a total function. -/
theorem power_agrees_with_naive (x : rational_constant) (N : Int) (hx : x.valid)
    (hf : x.fits) :
    (0 ≤ N → mjk.power N x = naive_power x N.toNat ∧
      mjk.power N x = (rational_constant.ofRat (x.toRat ^ N.toNat)).checked) ∧
    mjk.power 0 x = some ⟨1, 1⟩ ∧
    (N < 0 → N ≠ intmax_min → x.num ≠ 0 →
      mjk.power N x =
        (naive_power x (-N).toNat).bind (fun p => (⟨1, 1⟩ : rational_constant).div p) ∧
      mjk.power N x = (rational_constant.ofRat (1 / x.toRat ^ (-N).toNat)).checked) ∧
    (N < 0 → x.num = 0 → mjk.power N x = none) := by
  have hd : x.den ≠ 0 := ne_of_gt (rational_constant.valid_den_pos hx)
  have hq0 : x.toRat = 0 ↔ x.num = 0 := rational_constant.toRat_eq_zero_iff hd
  refine ⟨?_, mjk.power_zero x, ?_, ?_⟩
  · intro hN
    rw [naive_power_eq hx hf]
    exact ⟨mjk.power_nonneg hx hf N hN, mjk.power_nonneg hx hf N hN⟩
  · intro hN hmin hx0
    refine ⟨?_, ?_⟩
    · rw [mjk.power_neg x N hN hmin, mjk.power_nonneg hx hf (-N) (by omega),
        naive_power_eq hx hf]
      rfl
    · rw [mjk.power_zpow hx hf N (Or.inr ⟨hx0, hmin⟩)]
      congr 2
      have e1 : N = -((-N).toNat : Int) := by omega
      conv_lhs => rw [e1, zpow_neg, zpow_natCast]
      rw [one_div]
  · intro hN hx0
    by_cases hmin : N = intmax_min
    · rw [hmin]
      exact mjk.power_min x
    · have hz : x.toRat ^ (-N).toNat = 0 := by
        rw [hq0.mpr hx0]
        exact zero_pow (by omega)
      rw [mjk.power_neg x N hN hmin, mjk.power_nonneg hx hf (-N) (by omega), hz,
        rational_constant.ofRat_zero,
        rational_constant.checked_of_fits rational_constant.fits_zero_one, Option.some_bind]
      exact mjk.one_div_eq_none rfl

/-- Witness for C16 at the repository's tests `pow(1, +1337)` and `pow(1, -1337)`,
both `1`, and at `2^10 = 1024`, `2^-3 = 1/8`. -/
theorem power_agrees_with_naive_witness :
    mjk.pow ⟨1, 1⟩ 1337 = some ⟨1, 1⟩ ∧ mjk.pow ⟨1, 1⟩ (-1337) = some ⟨1, 1⟩ ∧
    mjk.pow ⟨2, 1⟩ 10 = some ⟨1024, 1⟩ ∧ mjk.pow ⟨2, 1⟩ (-3) = some ⟨1, 8⟩ ∧
    mjk.pow ⟨0, 1⟩ (-3) = none := by
  have h1 := (power_agrees_with_naive ⟨1, 1⟩ 1337 (by decide) (by decide)).1 (by decide)
  have h2 := (power_agrees_with_naive ⟨1, 1⟩ (-1337) (by decide) (by decide)).2.2.1
    (by decide) (by decide) (by decide)
  have h3 := (power_agrees_with_naive ⟨2, 1⟩ 10 (by decide) (by decide)).1 (by decide)
  have h4 := (power_agrees_with_naive ⟨2, 1⟩ (-3) (by decide) (by decide)).2.2.1
    (by decide) (by decide) (by decide)
  have h5 := (power_agrees_with_naive ⟨0, 1⟩ (-3) (by decide) (by decide)).2.2.2
    (by decide) rfl
  refine ⟨?_, ?_, ?_, ?_, h5⟩
  · rw [mjk.pow, h1.2, rational_constant.ofRat_eq_of_toRat (y := ⟨1, 1⟩) (by decide)
      (by norm_num [rational_constant.toRat])]
    rfl
  · rw [mjk.pow, h2.2, rational_constant.ofRat_eq_of_toRat (y := ⟨1, 1⟩) (by decide)
      (by norm_num [rational_constant.toRat])]
    rfl
  · have e : Int.toNat 10 = 10 := rfl
    rw [mjk.pow, h3.2, e, rational_constant.ofRat_eq_of_toRat (y := ⟨1024, 1⟩) (by decide)
      (by norm_num [rational_constant.toRat])]
    rfl
  · have e : Int.toNat (- -3) = 3 := rfl
    rw [mjk.pow, h4.2, e, rational_constant.ofRat_eq_of_toRat (y := ⟨1, 8⟩) (by decide)
      (by norm_num [rational_constant.toRat])]
    rfl

/-- Counterexample to C16 as stated: `power<64>(2)` is not `2^64`, it is rejected, as
is the naive power: `2^64` is not representable in `intmax_t`. -/
theorem power_overflow_counterexample :
    (⟨2, 1⟩ : rational_constant).valid ∧ mjk.power 64 ⟨2, 1⟩ = none ∧
    naive_power ⟨2, 1⟩ 64 = none := by
  have e : rational_constant.ofRat ((⟨2, 1⟩ : rational_constant).toRat ^ 64) =
      ⟨18446744073709551616, 1⟩ :=
    rational_constant.ofRat_eq_of_toRat (by decide) (by norm_num [rational_constant.toRat])
  refine ⟨by decide, ?_, ?_⟩
  · rw [mjk.power_nonneg (by decide) (by decide) 64 (by decide),
      show Int.toNat 64 = 64 from rfl, e]
    decide
  · rw [naive_power_eq (by decide) (by decide), e]
    decide

/-- C15: for an instantiated base `b` and exponent `e = p/q` (reduced, `q > 0`),
`pow(b, p/q)` is the `q`-th root (`mjk::root`) of the integer power `power<p>(b)`, and
whenever it succeeds its result `y` is instantiated and satisfies `y^q = b^p` exactly;
`root(b, i)` is `pow(b, 1/i)`, where `1/i` is a rational constant for every non-zero
integer `i` within the range of `std::ratio`, and for a non-zero integer `i`,
positive or negative, a result `y` of `root(b, i)` satisfies `y^i = b`. -/
theorem pow_root_exact (b e : rational_constant) (i : Int)
    (hb : b.valid) (he : e.valid) (hi : i ≠ 0) :
    rational_constant.pow b e = (mjk.power e.num b).bind (fun p => mjk.root p e.den) ∧
    (∀ y, rational_constant.pow b e = some y →
      y.valid ∧ y.toRat ^ e.den.toNat = b.toRat ^ e.num) ∧
    rational_constant.root b ⟨i, 1⟩ =
      ((⟨1, 1⟩ : rational_constant).div ⟨i, 1⟩).bind (fun x => rational_constant.pow b x) ∧
    (|i| ≤ intmax_max →
      (⟨1, 1⟩ : rational_constant).div ⟨i, 1⟩ =
        some (rational_constant.ofRat (1 / (i : ℚ)))) ∧
    (∀ y, rational_constant.root b ⟨i, 1⟩ = some y → y.valid ∧ y.toRat ^ i = b.toRat) :=
  ⟨rfl, fun _ h => rational_constant.pow_eq_some hb he h, rfl,
    fun hf => rational_constant.one_div_int hi hf,
    fun _ h => rational_constant.root_int_eq_some hb hi h⟩

/-- Witness for C15 at the repository's tests `pow(0x10, 3/4) == 8`,
`root(10, 1/2) == 100` and `root(4, -2) == 1/2`, with the exactness the theorem gives
for the first and the last. -/
theorem pow_root_exact_witness :
    rational_constant.pow ⟨16, 1⟩ ⟨3, 4⟩ = some ⟨8, 1⟩ ∧
    rational_constant.root ⟨10, 1⟩ ⟨1, 2⟩ = some ⟨100, 1⟩ ∧
    rational_constant.root ⟨4, 1⟩ ⟨-2, 1⟩ = some ⟨1, 2⟩ ∧
    (⟨8, 1⟩ : rational_constant).toRat ^ (4 : Int).toNat =
      (⟨16, 1⟩ : rational_constant).toRat ^ (3 : Int) ∧
    (⟨1, 2⟩ : rational_constant).toRat ^ (-2 : Int) = (⟨4, 1⟩ : rational_constant).toRat := by
  have hv16 : (⟨16, 1⟩ : rational_constant).valid := by decide
  have hv10 : (⟨10, 1⟩ : rational_constant).valid := by decide
  have hv4 : (⟨4, 1⟩ : rational_constant).valid := by decide
  -- pow(16, 3/4): power<3>(16) = 4096, then two square roots
  have p1 : mjk.power 3 ⟨16, 1⟩ = some ⟨4096, 1⟩ := by
    rw [mjk.power_zpow hv16 (by decide) 3 (Or.inl (by decide)),
      rational_constant.ofRat_eq_of_toRat (y := ⟨4096, 1⟩) (by decide)
        (by norm_num [rational_constant.toRat])]
    rfl
  have r2 : ∀ x : rational_constant, mjk.root x 2 = x.sqrt := by
    intro x
    rw [mjk.root_even x (by decide) (by decide), show Int.tdiv 2 2 = 1 from by decide,
      mjk.root_one, Option.some_bind]
  have r4 : ∀ x : rational_constant, mjk.root x 4 = x.sqrt.bind fun r => r.sqrt := by
    intro x
    rw [mjk.root_even x (by decide) (by decide), show Int.tdiv 4 2 = 2 from by decide, r2]
  have s1 : rational_constant.sqrt ⟨4096, 1⟩ = some ⟨64, 1⟩ :=
    rational_constant.sqrt_of_sq (by decide) (by decide) (by decide) (by decide) (by decide)
  have s2 : rational_constant.sqrt ⟨64, 1⟩ = some ⟨8, 1⟩ :=
    rational_constant.sqrt_of_sq (by decide) (by decide) (by decide) (by decide) (by decide)
  have e1 : rational_constant.pow ⟨16, 1⟩ ⟨3, 4⟩ = some ⟨8, 1⟩ := by
    rw [rational_constant.pow, mjk.pow, p1, Option.some_bind, r4, s1, Option.some_bind, s2]
  -- root(10, 1/2) = pow(10, 2) = 100
  have p2 : mjk.power 2 ⟨10, 1⟩ = some ⟨100, 1⟩ := by
    rw [mjk.power_zpow hv10 (by decide) 2 (Or.inl (by decide)),
      rational_constant.ofRat_eq_of_toRat (y := ⟨100, 1⟩) (by decide)
        (by norm_num [rational_constant.toRat])]
    rfl
  have d2 : (⟨1, 1⟩ : rational_constant).div ⟨1, 2⟩ = some ⟨2, 1⟩ := by decide
  have e2 : rational_constant.root ⟨10, 1⟩ ⟨1, 2⟩ = some ⟨100, 1⟩ := by
    rw [rational_constant.root, d2, Option.some_bind, rational_constant.pow, mjk.pow, p2,
      Option.some_bind, mjk.root_one]
  -- root(4, -2) = pow(4, -1/2) = sqrt(1/4) = 1/2
  have p3 : mjk.power (-1) ⟨4, 1⟩ = some ⟨1, 4⟩ := by
    rw [mjk.power_zpow hv4 (by decide) (-1) (Or.inr ⟨by decide, by decide⟩),
      rational_constant.ofRat_eq_of_toRat (y := ⟨1, 4⟩) (by decide)
        (by norm_num [rational_constant.toRat])]
    rfl
  have d3 : (⟨1, 1⟩ : rational_constant).div ⟨-2, 1⟩ = some ⟨-1, 2⟩ := by decide
  have s3 : rational_constant.sqrt ⟨1, 4⟩ = some ⟨1, 2⟩ :=
    rational_constant.sqrt_of_sq (by decide) (by decide) (by decide) (by decide) (by decide)
  have e3 : rational_constant.root ⟨4, 1⟩ ⟨-2, 1⟩ = some ⟨1, 2⟩ := by
    rw [rational_constant.root, d3, Option.some_bind, rational_constant.pow, mjk.pow, p3,
      Option.some_bind, r2, s3]
  exact ⟨e1, e2, e3,
    ((pow_root_exact ⟨16, 1⟩ ⟨3, 4⟩ 1 (by decide) (by decide) (by decide)).2.1 _ e1).2,
    ((pow_root_exact ⟨4, 1⟩ ⟨1, 1⟩ (-2) (by decide) (by decide) (by decide)).2.2.2.2 _ e3).2⟩


/-- C17 (amended): for a quantity `q` whose unit scale `s` is a well-formed constant and a
well-formed non-zero constant `c`, when `s`, `c` and the reduced form `n/d` of `s / c`
are within the range of `std::ratio`, the product `q.count * n` is representable in
`intmax_t` and the truncated quotient `(q.count * n) / d` is a value of the payload
type, `q.to(c)` succeeds with the payload type and the dimension of `q`, unit scale
exactly `c`, and payload `(q.count * n) / d`. The exact relation
`p' * c = q.count * s` holds precisely when `d` divides `q.count * n`. -/
theorem to_scale_exact_iff_divides (q : quantity) (c : rational_constant)
    (hs : q.unit.scale.valid) (hc : c.valid) (hc0 : c.num ≠ 0)
    (hfs : q.unit.scale.fits) (hfc : c.fits)
    (hfr : (rational_constant.ofRat (q.unit.scale.toRat / c.toRat)).fits)
    (hp : representable
      (q.val * (rational_constant.ofRat (q.unit.scale.toRat / c.toRat)).num))
    (hh : q.type.holds
      ((q.val * (rational_constant.ofRat (q.unit.scale.toRat / c.toRat)).num).tdiv
        (rational_constant.ofRat (q.unit.scale.toRat / c.toRat)).den)) :
    ∃ r s, q.unit.scale.div c = some s ∧ s.valid ∧
      s.toRat = q.unit.scale.toRat / c.toRat ∧
      q.to_scale c = some r ∧ r.type = q.type ∧
      r.unit.dimension = q.unit.dimension ∧ r.unit.scale = c ∧
      r.val = (q.val * s.num).tdiv s.den ∧
      ((r.val : ℚ) * c.toRat = (q.val : ℚ) * q.unit.scale.toRat ↔
        s.den ∣ q.val * s.num) := by
  obtain ⟨hd, -⟩ := quantity.to_scale_eq (q := q) hs hc hc0 hfs hfc hfr
  have ht := quantity.to_scale_of_representable (q := q) hs hc hc0 hfs hfc hfr hp
  rw [payload_type.cast_of_holds hh] at ht
  have hsv := rational_constant.valid_ofRat (q.unit.scale.toRat / c.toRat)
  have hsr := rational_constant.toRat_ofRat (q.unit.scale.toRat / c.toRat)
  refine ⟨_, _, hd, hsv, hsr, ht, rfl, rfl, rfl, rfl, ?_⟩
  generalize rational_constant.ofRat (q.unit.scale.toRat / c.toRat) = s at hsv hsr
  have hdpos : (0 : Int) < s.den := rational_constant.valid_den_pos hsv
  have hdq : (s.den : ℚ) ≠ 0 := by exact_mod_cast ne_of_gt hdpos
  have hcq : c.toRat ≠ 0 := by
    intro h
    exact hc0 ((rational_constant.toRat_eq_zero_iff (ne_of_gt (rational_constant.valid_den_pos hc))).1 h)
  have hS : q.unit.scale.toRat = (s.num : ℚ) / s.den * c.toRat := by
    have : s.toRat = (s.num : ℚ) / s.den := rfl
    rw [← this, hsr]
    field_simp
  show (((q.val * s.num).tdiv s.den : Int) : ℚ) * c.toRat = _ ↔ _
  rw [hS]
  constructor
  · intro h
    have h1 : (((q.val * s.num).tdiv s.den : Int) : ℚ) = (q.val : ℚ) * ((s.num : ℚ) / s.den) := by
      apply mul_right_cancel₀ hcq
      rw [h]; ring
    have h2 : (((q.val * s.num).tdiv s.den : Int) : ℚ) * s.den = (q.val : ℚ) * s.num := by
      rw [h1]; field_simp
    have h3 : (q.val * s.num).tdiv s.den * s.den = q.val * s.num := by exact_mod_cast h2
    exact ⟨_, by rw [← h3]; ring⟩
  · intro h
    have h3 : (q.val * s.num).tdiv s.den * s.den = q.val * s.num :=
      Int.tdiv_mul_cancel h
    have h2 : (((q.val * s.num).tdiv s.den : Int) : ℚ) * s.den = (q.val : ℚ) * s.num := by
      exact_mod_cast h3
    have h1 : (((q.val * s.num).tdiv s.den : Int) : ℚ) = (q.val : ℚ) * ((s.num : ℚ) / s.den) := by
      field_simp
      exact h2
    rw [h1]; ring

/-- Witness for C17 (amended): 120 seconds converted to minutes (scale 60) is 2 minutes,
an exact conversion. -/
theorem to_scale_exact_iff_divides_witness :
    (⟨1, 1⟩ : rational_constant).valid ∧ (⟨60, 1⟩ : rational_constant).valid ∧
    (60 : Int) ≠ 0 ∧
    ∃ r s, (⟨1, 1⟩ : rational_constant).div ⟨60, 1⟩ = some s ∧ s.valid ∧
      s.toRat = (⟨1, 1⟩ : rational_constant).toRat / (⟨60, 1⟩ : rational_constant).toRat ∧
      quantity.to_scale ⟨.int, 120, ⟨dimension 2, ⟨1, 1⟩⟩⟩ ⟨60, 1⟩ = some r ∧
      r.type = .int ∧
      r.unit.dimension = dimension 2 ∧ r.unit.scale = ⟨60, 1⟩ ∧
      r.val = ((120 : Int) * s.num).tdiv s.den ∧
      ((r.val : ℚ) * (⟨60, 1⟩ : rational_constant).toRat =
          ((120 : Int) : ℚ) * (⟨1, 1⟩ : rational_constant).toRat ↔
        s.den ∣ (120 : Int) * s.num) := by
  have e : rational_constant.ofRat ((⟨1, 1⟩ : rational_constant).toRat /
      (⟨60, 1⟩ : rational_constant).toRat) = ⟨1, 60⟩ :=
    rational_constant.ofRat_eq_of_toRat (by decide) (by norm_num [rational_constant.toRat])
  exact ⟨by decide, by decide, by decide,
    to_scale_exact_iff_divides ⟨.int, 120, ⟨dimension 2, ⟨1, 1⟩⟩⟩ ⟨60, 1⟩
      (by decide) (by decide) (by decide) (by decide) (by decide)
      (by rw [e]; decide) (by rw [e]; decide) (by rw [e]; decide)⟩

/-- Counterexample for C17 as stated: 61 seconds (scale 1) converted to scale 60 has
payload 1, and `1 * 60 ≠ 61 * 1`: with an integer payload the conversion truncates.
With an `int` payload, 3 seconds converted to nanoseconds has the payload
`-1294967296`: the product `3 * 10^9` wraps in the conversion to `int`. And a quantity
of scale `2^62/1` cannot be converted to the scale `1/4`: the ratio `2^64/1` of the
scales is not a `std::ratio`. -/
theorem to_scale_not_exact_counterexample :
    quantity.to_scale ⟨.int, 61, ⟨dimension 2, ⟨1, 1⟩⟩⟩ ⟨60, 1⟩ =
        some ⟨.int, 1, ⟨dimension 2, ⟨60, 1⟩⟩⟩ ∧
    ((1 : Int) : ℚ) * (⟨60, 1⟩ : rational_constant).toRat ≠
        ((61 : Int) : ℚ) * (⟨1, 1⟩ : rational_constant).toRat ∧
    quantity.to_scale ⟨.int, 3, ⟨dimension 2, ⟨1, 1⟩⟩⟩ ⟨1, 1000000000⟩ =
        some ⟨.int, -1294967296, ⟨dimension 2, ⟨1, 1000000000⟩⟩⟩ ∧
    ((-1294967296 : Int) : ℚ) * (⟨1, 1000000000⟩ : rational_constant).toRat ≠
        ((3 : Int) : ℚ) * (⟨1, 1⟩ : rational_constant).toRat ∧
    (⟨4611686018427387904, 1⟩ : rational_constant).valid ∧
    (⟨1, 4⟩ : rational_constant).valid ∧
    quantity.to_scale ⟨.intmax_t, 0, ⟨dimension 2, ⟨4611686018427387904, 1⟩⟩⟩ ⟨1, 4⟩ =
      none := by
  refine ⟨by decide, ?_, by decide, ?_, by decide, by decide, by decide⟩
  · norm_num [rational_constant.toRat]
  · norm_num [rational_constant.toRat]

/-- C18 (amended): for an integer payload, `q.to(c).count` is `(q.count * n) / d` with
the multiplication done first and the division truncating toward zero, where `n/d` is
the reduced form of `q.scale / c`; the conversion succeeds with that payload for
well-formed scales and non-zero `c` when the scales and `n/d` are within the range of
`std::ratio`, the product `q.count * n` is representable in `intmax_t` and the
quotient is a value of the payload type. -/
theorem to_scale_truncates (q : quantity) (c : rational_constant)
    (hs : q.unit.scale.valid) (hc : c.valid) (hc0 : c.num ≠ 0)
    (hfs : q.unit.scale.fits) (hfc : c.fits)
    (hfr : (rational_constant.ofRat (q.unit.scale.toRat / c.toRat)).fits)
    (hp : representable
      (q.val * (rational_constant.ofRat (q.unit.scale.toRat / c.toRat)).num))
    (hh : q.type.holds
      ((q.val * (rational_constant.ofRat (q.unit.scale.toRat / c.toRat)).num).tdiv
        (rational_constant.ofRat (q.unit.scale.toRat / c.toRat)).den)) :
    ∃ r s, q.unit.scale.div c = some s ∧ s.valid ∧
      s.toRat = q.unit.scale.toRat / c.toRat ∧
      q.to_scale c = some r ∧
      r.val = (q.val * s.num).tdiv s.den ∧
      r.val = Int.sign (q.val * s.num) * ((q.val * s.num).natAbs / s.den.natAbs : Nat) := by
  obtain ⟨hd, -⟩ := quantity.to_scale_eq (q := q) hs hc hc0 hfs hfc hfr
  have ht := quantity.to_scale_of_representable (q := q) hs hc hc0 hfs hfc hfr hp
  rw [payload_type.cast_of_holds hh] at ht
  have hsv := rational_constant.valid_ofRat (q.unit.scale.toRat / c.toRat)
  refine ⟨_, _, hd, hsv, rational_constant.toRat_ofRat _, ht, rfl, ?_⟩
  generalize rational_constant.ofRat (q.unit.scale.toRat / c.toRat) = s at hsv
  have hdpos : (0 : Int) < s.den := rational_constant.valid_den_pos hsv
  show (q.val * s.num).tdiv s.den = _
  generalize q.val * s.num = m
  obtain ⟨d, hd⟩ : ∃ d : Nat, s.den = (d : Int) := ⟨s.den.toNat, by omega⟩
  rw [hd]
  rcases Int.natAbs_eq m with h | h
  · rw [h]
    generalize m.natAbs = k
    rcases Nat.eq_zero_or_pos k with hk | hk
    · subst hk; simp
    · have : Int.sign (k : Int) = 1 := Int.sign_eq_one_of_pos (by exact_mod_cast hk)
      simp [this, Int.tdiv]
  · rw [h]
    generalize m.natAbs = k
    rcases Nat.eq_zero_or_pos k with hk | hk
    · subst hk; simp
    · have : Int.sign (-(k : Int)) = -1 := Int.sign_eq_neg_one_of_neg (by omega)
      rw [this, Int.neg_tdiv]
      simp
      rfl

/-- Witness for C18: 61 seconds to minutes is 1, 2*10^9 nanoseconds to seconds is 2,
2 seconds to nanoseconds is 2*10^9, and -61 seconds to minutes is -1. -/
theorem to_scale_truncates_witness :
    quantity.to_scale ⟨.int, 61, ⟨dimension 2, ⟨1, 1⟩⟩⟩ ⟨60, 1⟩ =
        some ⟨.int, 1, ⟨dimension 2, ⟨60, 1⟩⟩⟩ ∧
    quantity.to_scale ⟨.int, 2000000000, ⟨dimension 2, ⟨1, 1000000000⟩⟩⟩ ⟨1, 1⟩ =
        some ⟨.int, 2, ⟨dimension 2, ⟨1, 1⟩⟩⟩ ∧
    quantity.to_scale ⟨.int, 2, ⟨dimension 2, ⟨1, 1⟩⟩⟩ ⟨1, 1000000000⟩ =
        some ⟨.int, 2000000000, ⟨dimension 2, ⟨1, 1000000000⟩⟩⟩ ∧
    quantity.to_scale ⟨.int, -61, ⟨dimension 2, ⟨1, 1⟩⟩⟩ ⟨60, 1⟩ =
        some ⟨.int, -1, ⟨dimension 2, ⟨60, 1⟩⟩⟩ ∧
    (⟨1, 1⟩ : rational_constant).valid ∧ (⟨60, 1⟩ : rational_constant).valid ∧
    (60 : Int) ≠ 0 ∧
    ∃ r s, (⟨1, 1⟩ : rational_constant).div ⟨60, 1⟩ = some s ∧ s.valid ∧
      s.toRat = (⟨1, 1⟩ : rational_constant).toRat / (⟨60, 1⟩ : rational_constant).toRat ∧
      quantity.to_scale ⟨.int, 61, ⟨dimension 2, ⟨1, 1⟩⟩⟩ ⟨60, 1⟩ = some r ∧
      r.val = ((61 : Int) * s.num).tdiv s.den ∧
      r.val = Int.sign ((61 : Int) * s.num) *
        ((((61 : Int) * s.num).natAbs / s.den.natAbs : Nat) : Int) := by
  have e : rational_constant.ofRat ((⟨1, 1⟩ : rational_constant).toRat /
      (⟨60, 1⟩ : rational_constant).toRat) = ⟨1, 60⟩ :=
    rational_constant.ofRat_eq_of_toRat (by decide) (by norm_num [rational_constant.toRat])
  exact ⟨by decide, by decide, by decide, by decide, by decide, by decide, by decide,
    to_scale_truncates ⟨.int, 61, ⟨dimension 2, ⟨1, 1⟩⟩⟩ ⟨60, 1⟩
      (by decide) (by decide) (by decide) (by decide) (by decide)
      (by rw [e]; decide) (by rw [e]; decide) (by rw [e]; decide)⟩

/-- Counterexample to C18 as stated: with an `int` payload, 3 seconds converted to
nanoseconds (`n/d = 10^9/1`) has the payload `-1294967296`, not
`(3 * 10^9) / 1 = 3000000000`: the quotient is converted to `int` and wraps. With an
`intmax_t` payload, `2^62` seconds cannot be converted to quarters of a second
(`n/d = 4/1`): the product `2^62 * 4` is not representable. -/
theorem to_scale_wraps_counterexample :
    (⟨1, 1⟩ : rational_constant).div ⟨1, 1000000000⟩ = some ⟨1000000000, 1⟩ ∧
    quantity.to_scale ⟨.int, 3, ⟨dimension 2, ⟨1, 1⟩⟩⟩ ⟨1, 1000000000⟩ =
        some ⟨.int, -1294967296, ⟨dimension 2, ⟨1, 1000000000⟩⟩⟩ ∧
    (-1294967296 : Int) ≠ ((3 : Int) * 1000000000).tdiv 1 ∧
    (⟨1, 1⟩ : rational_constant).div ⟨1, 4⟩ = some ⟨4, 1⟩ ∧
    quantity.to_scale ⟨.intmax_t, 4611686018427387904, ⟨dimension 2, ⟨1, 1⟩⟩⟩ ⟨1, 4⟩ =
      none := by
  decide

/-- C19 (amended): round trip for an integer payload. If `q.scale / c` is a non-zero
integer `k`, the scales are within the range of `std::ratio`, `q.count * k` is a value
of the payload type and its product with the sign of `k` is representable in
`intmax_t`, then `q.to(c)` has payload `q.count * k`, and converting it back to the
scale of `q`, by `to` or by the converting constructor of the type of `q`, gives `q`
again. In particular, at a non-zero matching scale `q.to(q.scale)` is `q` itself; and
converting a time quantity to a duration of the same period and back gives `q` again
when `q.count` is a value of the representation type of the duration. -/
theorem to_scale_round_trip (q : quantity) (c : rational_constant) (k : Int)
    (Rep : payload_type)
    (hs : q.unit.scale.valid) (hc : c.valid) (hc0 : c.num ≠ 0)
    (hfs : q.unit.scale.fits) (hfc : c.fits) (hk : k ≠ 0) (hkr : |k| ≤ intmax_max)
    (hq : q.unit.scale.toRat / c.toRat = (k : ℚ))
    (hv : q.type.holds q.val) (hx : q.type.holds (q.val * k))
    (hb : representable (q.val * k * Int.sign k)) :
    (∃ r, q.to_scale c = some r ∧ r.val = q.val * k ∧
      r.to_scale q.unit.scale = some q ∧ quantity.convert q.type q.unit r = some q) ∧
    q.to_scale q.unit.scale = some q ∧ quantity.convert q.type q.unit q = some q ∧
    (q.unit.dimension = si.time → Rep.holds q.val →
      ∃ d, mjk.quantity_to_duration Rep q.unit.scale q = some d ∧ d.count = q.val ∧
        d.period = q.unit.scale ∧
        mjk.duration_to_quantity q.type q.unit.scale d = some q) := by
  have hkq : (k : ℚ) ≠ 0 := by exact_mod_cast hk
  have hcq : c.toRat ≠ 0 := fun h => hc0
    ((rational_constant.toRat_eq_zero_iff (ne_of_gt (rational_constant.valid_den_pos hc))).1 h)
  have hsq : q.unit.scale.toRat ≠ 0 := by
    intro h
    rw [h, zero_div] at hq
    exact hkq hq.symm
  have hs0 : q.unit.scale.num ≠ 0 := fun h => hsq
    ((rational_constant.toRat_eq_zero_iff
      (ne_of_gt (rational_constant.valid_den_pos hs))).2 h)
  have h1 : q.unit.scale.toRat / q.unit.scale.toRat = ((1 : Int) : ℚ) := by
    rw [div_self hsq]; simp
  have hself_of : ∀ (T : payload_type) (v : Int), T.holds v →
      quantity.to_scale ⟨T, v, q.unit⟩ q.unit.scale = some ⟨T, v, q.unit⟩ := by
    intro T v hTv
    have hr : representable (v * 1) := by
      rw [mul_one]; exact payload_type.representable_of_holds hTv
    rw [quantity.to_scale_int_ratio (q := ⟨T, v, q.unit⟩) hs hs hs0 hfs hfs (by decide) h1,
      intmax_t.mul_of_representable hr, Option.map_some', mul_one,
      payload_type.cast_of_holds hTv]
  have hself : q.to_scale q.unit.scale = some q := hself_of q.type q.val hv
  have hfwd : q.to_scale c = some ⟨q.type, q.val * k, ⟨q.unit.dimension, c⟩⟩ := by
    rw [quantity.to_scale_int_ratio hs hc hc0 hfs hfc hkr hq,
      intmax_t.mul_of_representable (payload_type.representable_of_holds hx), Option.map_some',
      payload_type.cast_of_holds hx]
  have hback : (⟨q.type, q.val * k, ⟨q.unit.dimension, c⟩⟩ : quantity).to_scale
      q.unit.scale = some q := by
    have h1 : c.toRat / q.unit.scale.toRat = 1 / (k : ℚ) := by
      rw [← hq]; field_simp
    rw [quantity.to_scale_inv_int_ratio (q := ⟨q.type, q.val * k, ⟨q.unit.dimension, c⟩⟩)
      hc hs hs0 hfc hfs hk hkr h1]
    have h2 : (q.val * k * Int.sign k).tdiv |k| = q.val := by
      have : k * Int.sign k = |k| := by
        rcases lt_or_gt_of_ne hk with h | h
        · rw [Int.sign_eq_neg_one_of_neg h, abs_of_neg h]; ring
        · rw [Int.sign_eq_one_of_pos h, abs_of_pos h]; ring
      rw [mul_assoc, this]
      exact Int.mul_tdiv_cancel _ (abs_pos.mpr hk).ne'
    simp only
    rw [intmax_t.mul_of_representable hb, Option.map_some', h2,
      payload_type.cast_of_holds hv]
  refine ⟨⟨_, hfwd, rfl, hback, ?_⟩, hself, ?_, ?_⟩
  · rw [quantity.convert_eq q.type q.unit ⟨q.type, q.val * k, ⟨q.unit.dimension, c⟩⟩
      (dimension_eq_self _), hback, Option.map_some', payload_type.cast_of_holds hv]
  · rw [quantity.convert_eq q.type q.unit q (dimension_eq_self _), hself, Option.map_some',
      payload_type.cast_of_holds hv]
  · intro htime hrep
    have hqu : q.unit = ⟨si.time, q.unit.scale⟩ := by
      rw [← htime]
    refine ⟨⟨Rep, q.val, q.unit.scale⟩, ?_, rfl, rfl, ?_⟩
    · rw [mjk.quantity_to_duration, if_pos htime, rational_constant.instantiate_of_valid hs,
        Option.some_bind, hself, Option.map_some', payload_type.cast_of_holds hrep]
    · have hsc : unit.scaled q.unit.scale si.second = some q.unit := by
        have := impl.scaled_unit_of hs hfs si.time
        rw [← hqu] at this
        exact this
      rw [mjk.duration_to_quantity, rational_constant.instantiate_of_valid hs,
        Option.some_bind, hsc, Option.some_bind, make_quantity, ← hqu,
        quantity.convert_eq q.type q.unit ⟨Rep, q.val, q.unit⟩ (dimension_eq_self _),
        hself_of Rep q.val hrep, Option.map_some', payload_type.cast_of_holds hv]

/-- Witness for C19: 2 seconds to nanoseconds and back, 1729 nanoseconds at the
matching scale, and 1729 nanoseconds to `std::chrono::nanoseconds` and back. -/
theorem to_scale_round_trip_witness :
    (quantity.to_scale ⟨.int, 2, ⟨dimension 2, ⟨1, 1⟩⟩⟩ ⟨1, 1000000000⟩).bind
        (fun r => r.to_scale ⟨1, 1⟩) = some ⟨.int, 2, ⟨dimension 2, ⟨1, 1⟩⟩⟩ ∧
    (∃ r, quantity.to_scale ⟨.int, 1729, ⟨si.time, ⟨1, 1000000000⟩⟩⟩ ⟨1, 1000000000⟩ =
        some r ∧
      r.val = 1729 * 1 ∧
      r.to_scale ⟨1, 1000000000⟩ = some ⟨.int, 1729, ⟨si.time, ⟨1, 1000000000⟩⟩⟩ ∧
      quantity.convert .int ⟨si.time, ⟨1, 1000000000⟩⟩ r =
        some ⟨.int, 1729, ⟨si.time, ⟨1, 1000000000⟩⟩⟩) ∧
    (∃ d, mjk.quantity_to_duration .intmax_t ⟨1, 1000000000⟩
        ⟨.int, 1729, ⟨si.time, ⟨1, 1000000000⟩⟩⟩ = some d ∧ d.count = 1729 ∧
      d.period = ⟨1, 1000000000⟩ ∧
      mjk.duration_to_quantity .int ⟨1, 1000000000⟩ d =
        some ⟨.int, 1729, ⟨si.time, ⟨1, 1000000000⟩⟩⟩) := by
  obtain ⟨h1, -, -, h4⟩ := to_scale_round_trip ⟨.int, 1729, ⟨si.time, ⟨1, 1000000000⟩⟩⟩
    ⟨1, 1000000000⟩ 1 .intmax_t
    (by decide) (by decide) (by decide) (by decide) (by decide) (by decide) (by decide)
    (by norm_num [rational_constant.toRat]) (by decide) (by decide) (by decide)
  exact ⟨by decide, h1, h4 rfl (by decide)⟩

/-- Counterexample to C19 as stated. With an `int` payload, 3 seconds converted to
nanoseconds (`q.scale / c = 10^9`) and back is `-1` second: the payload `3 * 10^9`
wraps to `-1294967296`. And `2^31` seconds with an `intmax_t` payload, converted to a
duration of the same period with the representation type `int` and back, is `-2^31`
seconds. -/
theorem to_scale_round_trip_counterexample :
    (⟨1, 1⟩ : rational_constant).toRat / (⟨1, 1000000000⟩ : rational_constant).toRat =
      ((1000000000 : Int) : ℚ) ∧
    (quantity.to_scale ⟨.int, 3, ⟨si.time, ⟨1, 1⟩⟩⟩ ⟨1, 1000000000⟩).bind
        (fun r => r.to_scale ⟨1, 1⟩) = some ⟨.int, -1, ⟨si.time, ⟨1, 1⟩⟩⟩ ∧
    (mjk.quantity_to_duration .int ⟨1, 1⟩ ⟨.intmax_t, 2147483648, ⟨si.time, ⟨1, 1⟩⟩⟩).bind
        (fun d => mjk.duration_to_quantity .intmax_t ⟨1, 1⟩ d) =
      some ⟨.intmax_t, -2147483648, ⟨si.time, ⟨1, 1⟩⟩⟩ := by
  refine ⟨by norm_num [rational_constant.toRat], by decide, by decide⟩


/-- C20 (amended): compound assignment is the pure binary operation followed by the
conversion back. `a -= b` (resp. `a += b`) is defined exactly when `a - b` and its
conversion `(a - b).to(a.scale)` are; it leaves the payload type and the unit of `a`
unchanged, and the new payload is `((a - b).to(a.scale)).count` converted to the
payload type of `a`: the same value when it is a value of that type, as it always is
when `b` has the payload type of `a`. For operands of equal dimension with positive
scales within the range of `std::ratio`, representable rescale factors and rescaled
payloads that are values of the payload types, the new payload is the truncated
quotient of the payload at the common scale by the rescale factor of `a`. -/
theorem compound_assign_converts_back (a b : quantity) :
    a.add_assign b = (a.add b).bind (fun sum => (sum.to_scale a.unit.scale).map fun rs =>
      ⟨a.type, a.type.cast rs.val, a.unit⟩) ∧
    a.sub_assign b = (a.sub b).bind (fun diff => (diff.to_scale a.unit.scale).map fun rd =>
      ⟨a.type, a.type.cast rd.val, a.unit⟩) ∧
    (∀ a1, a.add_assign b = some a1 → a1.unit = a.unit ∧ a1.type = a.type) ∧
    (∀ a2, a.sub_assign b = some a2 → a2.unit = a.unit ∧ a2.type = a.type) ∧
    (b.type = a.type → ∀ diff rd, a.sub b = some diff →
      diff.to_scale a.unit.scale = some rd → a.type.cast rd.val = rd.val) ∧
    (a.unit.dimension.eq b.unit.dimension = true →
      a.unit.scale.valid → b.unit.scale.valid → a.unit.scale.fits → b.unit.scale.fits →
      0 < a.unit.scale.num → 0 < b.unit.scale.num →
      representable (Int.lcm a.unit.scale.den b.unit.scale.den : Int) →
      representable (rescale_factor a.unit.scale b.unit.scale) →
      representable (rescale_factor b.unit.scale a.unit.scale) →
      a.type.holds (a.val * rescale_factor a.unit.scale b.unit.scale) →
      b.type.holds (b.val * rescale_factor b.unit.scale a.unit.scale) →
      ((payload_type.common a.type b.type).holds
          (a.val * rescale_factor a.unit.scale b.unit.scale -
            b.val * rescale_factor b.unit.scale a.unit.scale) →
        a.type.holds ((a.val * rescale_factor a.unit.scale b.unit.scale -
            b.val * rescale_factor b.unit.scale a.unit.scale).tdiv
          (rescale_factor a.unit.scale b.unit.scale)) →
        a.sub_assign b = some ⟨a.type, (a.val * rescale_factor a.unit.scale b.unit.scale -
            b.val * rescale_factor b.unit.scale a.unit.scale).tdiv
          (rescale_factor a.unit.scale b.unit.scale), a.unit⟩) ∧
      ((payload_type.common a.type b.type).holds
          (a.val * rescale_factor a.unit.scale b.unit.scale +
            b.val * rescale_factor b.unit.scale a.unit.scale) →
        a.type.holds ((a.val * rescale_factor a.unit.scale b.unit.scale +
            b.val * rescale_factor b.unit.scale a.unit.scale).tdiv
          (rescale_factor a.unit.scale b.unit.scale)) →
        a.add_assign b = some ⟨a.type, (a.val * rescale_factor a.unit.scale b.unit.scale +
            b.val * rescale_factor b.unit.scale a.unit.scale).tdiv
          (rescale_factor a.unit.scale b.unit.scale), a.unit⟩)) := by
  have hassign : ∀ (op : payload_type → Int → Int → Option Int),
      ((impl.heterop op a b).bind fun r => quantity.convert a.type a.unit r) =
      (impl.heterop op a b).bind (fun r => (r.to_scale a.unit.scale).map fun rs =>
        ⟨a.type, a.type.cast rs.val, a.unit⟩) := by
    intro op
    cases h : impl.heterop op a b with
    | none => rfl
    | some r =>
      rw [Option.some_bind, Option.some_bind, quantity.convert_eq a.type a.unit r
        (by rw [(impl.heterop_some_unit h).1]; exact dimension_eq_self _)]
  have hunit : ∀ (op : payload_type → Int → Int → Option Int) (a1 : quantity),
      ((impl.heterop op a b).bind fun r => quantity.convert a.type a.unit r) = some a1 →
      a1.unit = a.unit ∧ a1.type = a.type := by
    intro op a1 h
    rw [Option.bind_eq_some] at h
    obtain ⟨r, -, hr⟩ := h
    exact quantity.convert_some_unit hr
  refine ⟨hassign mjk.plus, hassign mjk.minus, hunit mjk.plus, hunit mjk.minus, ?_, ?_⟩
  · intro hty diff rd hdiff hrd
    have hdt : diff.type = a.type := by
      rw [(impl.heterop_some_unit hdiff).2, hty, payload_type.common_self]
    unfold quantity.to_scale at hrd
    simp only [Option.bind_eq_some, Option.map_eq_some'] at hrd
    obtain ⟨s, -, u, -, p, -, v, -, hv⟩ := hrd
    subst hv
    show a.type.cast (diff.type.cast v) = diff.type.cast v
    rw [hdt]
    exact payload_type.cast_cast _ _
  · intro hdim hva hvb hfa hfb hpa hpb hl hra hrb hx hy
    have hnz : a.unit.scale.num ≠ 0 ∨ b.unit.scale.num ≠ 0 := Or.inl (ne_of_gt hpa)
    have hC := common_scale_valid hva hvb
    have hCf := common_scale_fits hfa hfb hnz hl
    have hCpos := common_scale_pos_of_ne hva hvb hnz
    have hmul := rescale_factor_mul_common_scale_of_ne hva hvb hnz
    have had := rational_constant.valid_den_pos hva
    have hsa : 0 < a.unit.scale.toRat := by
      unfold rational_constant.toRat
      exact div_pos (by exact_mod_cast hpa) (by exact_mod_cast had)
    have hfq : (0 : ℚ) < (rescale_factor a.unit.scale b.unit.scale : ℚ) := by
      by_contra h
      have h1 : (rescale_factor a.unit.scale b.unit.scale : ℚ) ≤ 0 := not_lt.mp h
      have h2 := mul_nonpos_of_nonpos_of_nonneg h1 (le_of_lt hCpos)
      rw [hmul] at h2
      exact absurd hsa (not_lt.mpr h2)
    have hf : 0 < rescale_factor a.unit.scale b.unit.scale := by exact_mod_cast hfq
    have hfr : |rescale_factor a.unit.scale b.unit.scale| ≤ intmax_max := by
      rw [abs_of_pos hf]
      exact hra.2
    have hratio : (common_scale a.unit.scale b.unit.scale).toRat / a.unit.scale.toRat =
        1 / (rescale_factor a.unit.scale b.unit.scale : ℚ) := by
      rw [← hmul]
      field_simp
      ring
    have hraw : ∀ (op : payload_type → Int → Int → Option Int),
        impl.heterop_raw op a b = op (payload_type.common a.type b.type)
          (a.val * rescale_factor a.unit.scale b.unit.scale)
          (b.val * rescale_factor b.unit.scale a.unit.scale) := by
      intro op
      rw [impl.heterop_raw_of_representable op hdim hva hvb (le_of_lt hpa) (le_of_lt hpb) hnz
        hra hrb (payload_type.representable_of_holds hx)
        (payload_type.representable_of_holds hy),
        payload_type.cast_of_holds hx, payload_type.cast_of_holds hy]
    have hto : ∀ v : Int, (payload_type.common a.type b.type).holds v →
        a.type.holds (v.tdiv (rescale_factor a.unit.scale b.unit.scale)) →
        ((quantity.to_scale ⟨payload_type.common a.type b.type, v,
            ⟨a.unit.dimension, common_scale a.unit.scale b.unit.scale⟩⟩ a.unit.scale).map
          fun rs => (⟨a.type, a.type.cast rs.val, a.unit⟩ : quantity)) =
        some ⟨a.type, v.tdiv (rescale_factor a.unit.scale b.unit.scale), a.unit⟩ := by
      intro v hv hres
      have hrep : representable (v * Int.sign (rescale_factor a.unit.scale b.unit.scale)) := by
        rw [Int.sign_eq_one_of_pos hf, mul_one]
        exact payload_type.representable_of_holds hv
      rw [quantity.to_scale_inv_int_ratio
        (q := ⟨payload_type.common a.type b.type, v,
          ⟨a.unit.dimension, common_scale a.unit.scale b.unit.scale⟩⟩)
        hC hva (ne_of_gt hpa) hCf hfa (ne_of_gt hf) hfr hratio]
      simp only
      rw [intmax_t.mul_of_representable hrep, Option.map_some', Option.map_some',
        Int.sign_eq_one_of_pos hf, abs_of_pos hf, mul_one,
        payload_type.cast_of_holds (payload_type.holds_tdiv hv hf),
        payload_type.cast_of_holds hres]
    refine ⟨fun hd hres => ?_, fun hsum hres => ?_⟩
    · have e : a.sub_assign b = (impl.heterop mjk.minus a b).bind (fun r =>
          (r.to_scale a.unit.scale).map fun rs =>
            (⟨a.type, a.type.cast rs.val, a.unit⟩ : quantity)) := hassign mjk.minus
      rw [e, impl.heterop_eq mjk.minus hva hvb hfa hfb (le_of_lt hpa)
        (le_of_lt hpb) hnz hl, hraw, mjk.minus, payload_type.arith_of_holds hd,
        Option.map_some', Option.some_bind]
      exact hto _ hd hres
    · have e : a.add_assign b = (impl.heterop mjk.plus a b).bind (fun r =>
          (r.to_scale a.unit.scale).map fun rs =>
            (⟨a.type, a.type.cast rs.val, a.unit⟩ : quantity)) := hassign mjk.plus
      rw [e, impl.heterop_eq mjk.plus hva hvb hfa hfb (le_of_lt hpa)
        (le_of_lt hpb) hnz hl, hraw, mjk.plus, payload_type.arith_of_holds hsum,
        Option.map_some', Option.some_bind]
      exact hto _ hsum hres

/-- Witness for C20: `1*kg -= 1*g` (scales `1/1` and `1/1000`) leaves payload 0 in unit
kg, and `1*kg += 1*g` leaves payload 1 in unit kg. -/
theorem compound_assign_converts_back_witness :
    quantity.sub_assign ⟨.int, 1, ⟨dimension 1, ⟨1, 1⟩⟩⟩ ⟨.int, 1, ⟨dimension 1, ⟨1, 1000⟩⟩⟩ =
      some ⟨.int, 0, ⟨dimension 1, ⟨1, 1⟩⟩⟩ ∧
    quantity.add_assign ⟨.int, 1, ⟨dimension 1, ⟨1, 1⟩⟩⟩ ⟨.int, 1, ⟨dimension 1, ⟨1, 1000⟩⟩⟩ =
      some ⟨.int, 1, ⟨dimension 1, ⟨1, 1⟩⟩⟩ := by
  obtain ⟨h1, h2⟩ := (compound_assign_converts_back ⟨.int, 1, ⟨dimension 1, ⟨1, 1⟩⟩⟩
      ⟨.int, 1, ⟨dimension 1, ⟨1, 1000⟩⟩⟩).2.2.2.2.2 (by decide) (by decide) (by decide)
      (by decide) (by decide) (by decide) (by decide) (by decide) (by decide) (by decide)
      (by decide) (by decide)
  exact ⟨h1 (by decide) (by decide), h2 (by decide) (by decide)⟩

/-- Counterexample to C20 as stated: for `a = 0 kg` with an `int` payload and
`b = 2^31 kg` with an `intmax_t` payload, `(a + b).to(a.scale)` has the payload `2^31`,
while after `a += b` the payload of `a` is `-2^31`: the converting constructor
converts the payload to `int`. -/
theorem compound_assign_narrows_counterexample :
    ((quantity.add ⟨.int, 0, ⟨dimension 1, ⟨1, 1⟩⟩⟩
        ⟨.intmax_t, 2147483648, ⟨dimension 1, ⟨1, 1⟩⟩⟩).bind
      fun sum => sum.to_scale ⟨1, 1⟩) =
      some ⟨.intmax_t, 2147483648, ⟨dimension 1, ⟨1, 1⟩⟩⟩ ∧
    quantity.add_assign ⟨.int, 0, ⟨dimension 1, ⟨1, 1⟩⟩⟩
        ⟨.intmax_t, 2147483648, ⟨dimension 1, ⟨1, 1⟩⟩⟩ =
      some ⟨.int, -2147483648, ⟨dimension 1, ⟨1, 1⟩⟩⟩ := by
  have hadd : quantity.add ⟨.int, 0, ⟨dimension 1, ⟨1, 1⟩⟩⟩
      ⟨.intmax_t, 2147483648, ⟨dimension 1, ⟨1, 1⟩⟩⟩ =
      some ⟨.intmax_t, 2147483648, ⟨dimension 1, ⟨1, 1⟩⟩⟩ := by
    rw [quantity.add, impl.heterop_eq mjk.plus (by decide) (by decide) (by decide) (by decide)
      (by decide) (by decide) (by decide) (by decide),
      impl.heterop_raw_of_representable mjk.plus (by decide) (by decide) (by decide)
        (by decide) (by decide) (by decide) (by decide) (by decide) (by decide) (by decide)]
    decide
  refine ⟨?_, ?_⟩
  · rw [hadd]
    decide
  · rw [quantity.add_assign, hadd]
    decide


/-- C24 (amended): decimal literals. For every literal made of decimal digits with at
most one `'.'` that starts with a non-zero digit, with `'.'` or with `"0."`, and whose
digit weights, mantissa and divisor are representable (the weight `10^(n-1)` of the
first of its `n` digits, the integer `M` spelled by the digits with the point removed
and `10^f`, for `f` digits after the point, are at most `INTMAX_MAX`), the literal
operator returns the reduced rational `M / 10^f`; a literal of that form that is not
representable is rejected. -/
theorem decimal_literal_value (hd : Char) (tl : List Char)
    (hchars : ∀ c ∈ hd :: tl, c = '.' ∨ is_digit 10 c)
    (hone : (hd :: tl).count '.' ≤ 1)
    (hstart : hd ≠ '0' ∨ tl.head? = some '.') :
    (literal_representable 10 (hd :: tl) →
      ∃ r, rational_constant_literals.literal_operator (hd :: tl) = some r ∧ r.valid ∧
        r.toRat = (spelled 10 (without_points (hd :: tl)) : ℚ) /
          (10 : ℚ) ^ fraction_digits (hd :: tl)) ∧
    (¬ literal_representable 10 (hd :: tl) →
      rational_constant_literals.literal_operator (hd :: tl) = none) ∧
    (∀ c ∈ without_points (hd :: tl), is_digit 10 c) ∧
    (∀ c ∈ ((hd :: tl).dropWhile fun c => decide (c ≠ '.')).drop 1, is_digit 10 c) := by
  have hl := decimal_literal_eq hd tl hchars hstart
  refine ⟨fun hr => ⟨_, by rw [hl, if_pos hr], rational_constant.valid_ofRat _,
    rational_constant.toRat_ofRat _⟩, fun hr => by rw [hl, if_neg hr], ?_, ?_⟩
  · intro c hc
    obtain ⟨hm, hne⟩ := List.mem_filter.mp hc
    rcases hchars c hm with h | h
    · exact absurd h (by simpa using hne)
    · exact h
  · intro c hc
    rcases hchars c (mem_of_mem_after_first hc) with h | h
    · exact absurd (h ▸ hc) (not_mem_after_first hone)
    · exact h

/-- Witness for C24 at the repository's tests `0.1_`, `0.11_`, `19_`, `0._` and `.0_`. -/
theorem decimal_literal_value_witness :
    rational_constant_literals.literal_operator ['0', '.', '1'] = some ⟨1, 10⟩ ∧
    rational_constant_literals.literal_operator ['0', '.', '1', '1'] = some ⟨11, 100⟩ ∧
    rational_constant_literals.literal_operator ['1', '9'] = some ⟨19, 1⟩ ∧
    rational_constant_literals.literal_operator ['0', '.'] = some ⟨0, 1⟩ ∧
    rational_constant_literals.literal_operator ['.', '0'] = some ⟨0, 1⟩ := by
  refine ⟨
    some_eq_of_toRat ((decimal_literal_value '0' ['.', '1'] (by decide) (by decide)
      (by decide)).1 (by decide)) (by decide) ?_,
    some_eq_of_toRat ((decimal_literal_value '0' ['.', '1', '1'] (by decide) (by decide)
      (by decide)).1 (by decide)) (by decide) ?_,
    some_eq_of_toRat ((decimal_literal_value '1' ['9'] (by decide) (by decide)
      (by decide)).1 (by decide)) (by decide) ?_,
    some_eq_of_toRat ((decimal_literal_value '0' ['.'] (by decide) (by decide)
      (by decide)).1 (by decide)) (by decide) ?_,
    some_eq_of_toRat ((decimal_literal_value '.' ['0'] (by decide) (by decide)
      (by decide)).1 (by decide)) (by decide) ?_⟩
  · rw [show spelled 10 (without_points ['0', '.', '1']) = 1 from by decide,
      show fraction_digits ['0', '.', '1'] = 1 from by decide]
    norm_num [rational_constant.toRat]
  · rw [show spelled 10 (without_points ['0', '.', '1', '1']) = 11 from by decide,
      show fraction_digits ['0', '.', '1', '1'] = 2 from by decide]
    norm_num [rational_constant.toRat]
  · rw [show spelled 10 (without_points ['1', '9']) = 19 from by decide,
      show fraction_digits ['1', '9'] = 0 from by decide]
    norm_num [rational_constant.toRat]
  · rw [show spelled 10 (without_points ['0', '.']) = 0 from by decide,
      show fraction_digits ['0', '.'] = 0 from by decide]
    norm_num [rational_constant.toRat]
  · rw [show spelled 10 (without_points ['.', '0']) = 0 from by decide,
      show fraction_digits ['.', '0'] = 1 from by decide]
    norm_num [rational_constant.toRat]

/-- Counterexample to C24 as stated: the literals `99999999999999999999_` (twenty
nines) and `.00000000000000000000_` (a point and twenty zeros) are made of decimal
digits with at most one point and start with a non-zero digit, resp. with the point,
and both are rejected: `10^19` is not representable. -/
theorem decimal_literal_overflow_counterexample :
    rational_constant_literals.literal_operator
      ['9', '9', '9', '9', '9', '9', '9', '9', '9', '9',
        '9', '9', '9', '9', '9', '9', '9', '9', '9', '9'] = none ∧
    rational_constant_literals.literal_operator
      ['.', '0', '0', '0', '0', '0', '0', '0', '0', '0', '0',
        '0', '0', '0', '0', '0', '0', '0', '0', '0', '0'] = none := by
  constructor
  · rw [decimal_literal_eq _ _ (by decide) (by decide)]
    exact if_neg (by decide)
  · rw [decimal_literal_eq _ _ (by decide) (by decide)]
    exact if_neg (by decide)

/-- C25 (what the code does at hexadecimal literals): for `"0x"` or `"0X"` followed by
one or more hexadecimal digits `0-9`, `a-f`, `A-F`, the literal operator returns the
integer the digits denote in base 16, over the denominator 1, as the claim says,
provided no digit `e` or `E` stands before the last position and the weight
`16^(n-1)` of the first of the `n` digits and the integer are at most `INTMAX_MAX`; a
literal with such a digit `e` is rejected, by the search of `parse_number` for the
exponent marker `'e'`, and so is one that is not representable. -/
theorem hex_literal_value (X : Char) (ds : List Char) (hX : X = 'x' ∨ X = 'X')
    (hne : ds ≠ []) (h : ∀ c ∈ ds, is_digit 16 c) :
    (¬ ('e' ∈ ds.dropLast ∨ 'E' ∈ ds.dropLast) → literal_representable 16 ds →
      rational_constant_literals.literal_operator ('0' :: X :: ds) =
        some ⟨(spelled 16 ds : Int), 1⟩) ∧
    (('e' ∈ ds.dropLast ∨ 'E' ∈ ds.dropLast) →
      rational_constant_literals.literal_operator ('0' :: X :: ds) = none) ∧
    (¬ literal_representable 16 ds →
      rational_constant_literals.literal_operator ('0' :: X :: ds) = none) := by
  have hl := hex_literal_eq X ds hX hne h
  refine ⟨?_, ?_, ?_⟩
  · intro hn hr
    rw [hl, if_neg hn, if_pos hr]
  · intro hy
    rw [hl, if_pos hy]
  · intro hr
    rw [hl, if_neg hr]
    split <;> rfl

/-- Witness for C25: `0xe0` is rejected although `e` and `0` are hexadecimal digits,
while `0xfe`, `0x10`, `0xf` and `0X7fFfFfFfFfFfFfFf` have the values 254, 16, 15 and
`INT64_MAX`, and `0x00000000000000000` (seventeen zeros) is rejected, `16^16` being
too large. -/
theorem hex_literal_value_witness :
    rational_constant_literals.literal_operator ['0', 'x', 'e', '0'] = none ∧
    rational_constant_literals.literal_operator ['0', 'x', 'f', 'e'] = some ⟨254, 1⟩ ∧
    rational_constant_literals.literal_operator ['0', 'x', '1', '0'] = some ⟨16, 1⟩ ∧
    rational_constant_literals.literal_operator ['0', 'x', 'f'] = some ⟨15, 1⟩ ∧
    rational_constant_literals.literal_operator
      ['0', 'X', '7', 'f', 'F', 'f', 'F', 'f', 'F', 'f', 'F', 'f', 'F', 'f', 'F', 'f', 'F',
        'f'] = some ⟨9223372036854775807, 1⟩ ∧
    rational_constant_literals.literal_operator
      ['0', 'x', '0', '0', '0', '0', '0', '0', '0', '0', '0', '0', '0', '0', '0', '0', '0',
        '0', '0'] = none :=
  ⟨(hex_literal_value 'x' ['e', '0'] (by decide) (by decide) (by decide)).2.1 (by decide),
    ((hex_literal_value 'x' ['f', 'e'] (by decide) (by decide) (by decide)).1
      (by decide) (by decide)).trans (by decide),
    ((hex_literal_value 'x' ['1', '0'] (by decide) (by decide) (by decide)).1
      (by decide) (by decide)).trans (by decide),
    ((hex_literal_value 'x' ['f'] (by decide) (by decide) (by decide)).1
      (by decide) (by decide)).trans (by decide),
    ((hex_literal_value 'X'
      ['7', 'f', 'F', 'f', 'F', 'f', 'F', 'f', 'F', 'f', 'F', 'f', 'F', 'f', 'F', 'f']
      (by decide) (by decide) (by decide)).1 (by decide) (by decide)).trans (by decide),
    (hex_literal_value 'x'
      ['0', '0', '0', '0', '0', '0', '0', '0', '0', '0', '0', '0', '0', '0', '0', '0', '0']
      (by decide) (by decide) (by decide)).2.2 (by decide)⟩

/-- C27 (amended): a second decimal point is not rejected. For every sequence of decimal
digits and two or more `'.'` that starts with a non-zero digit, with `'.'` or with
`"0."`, the literal operator succeeds whenever the digits are representable (the
weight `10^(n-1)` of the first of the `n` digits, the integer `M` they spell and
`10^k` are at most `INTMAX_MAX`) and fails otherwise: every point is removed from the
digits, and the result is the reduced rational `M / 10^k`, where `k` is the number of
characters after the first point, the later points among them. -/
theorem second_point_not_rejected (hd : Char) (tl : List Char)
    (hchars : ∀ c ∈ hd :: tl, c = '.' ∨ is_digit 10 c)
    (htwo : 2 ≤ (hd :: tl).count '.')
    (hstart : hd ≠ '0' ∨ tl.head? = some '.') :
    (literal_representable 10 (hd :: tl) →
      rational_constant_literals.literal_operator (hd :: tl) ≠ none ∧
      ∃ r, rational_constant_literals.literal_operator (hd :: tl) = some r ∧ r.valid ∧
        r.toRat = (spelled 10 (without_points (hd :: tl)) : ℚ) /
          (10 : ℚ) ^ fraction_digits (hd :: tl)) ∧
    (¬ literal_representable 10 (hd :: tl) →
      rational_constant_literals.literal_operator (hd :: tl) = none) ∧
    '.' ∈ ((hd :: tl).dropWhile fun c => decide (c ≠ '.')).drop 1 := by
  have hl := decimal_literal_eq hd tl hchars hstart
  refine ⟨fun hr => ⟨?_, _, by rw [hl, if_pos hr], rational_constant.valid_ofRat _,
    rational_constant.toRat_ofRat _⟩, fun hr => by rw [hl, if_neg hr],
    mem_after_first_of_two_le htwo⟩
  rw [hl, if_pos hr]
  exact Option.some_ne_none _

/-- Witness for C27 (amended): `"1.2.3"` has two points and parses as `123 / 10^3`, and
`"1.2.34567890123456789012"`, with twenty-two digits, is rejected: `10^21` is not
representable. -/
theorem second_point_not_rejected_witness :
    (∀ c ∈ ['1', '.', '2', '.', '3'], c = '.' ∨ is_digit 10 c) ∧
    2 ≤ ['1', '.', '2', '.', '3'].count '.' ∧
    rational_constant_literals.literal_operator ['1', '.', '2', '.', '3'] =
      some ⟨123, 1000⟩ ∧
    rational_constant_literals.literal_operator
      ['1', '.', '2', '.', '3', '4', '5', '6', '7', '8', '9', '0', '1', '2', '3', '4', '5',
        '6', '7', '8', '9', '0', '1', '2'] = none := by
  refine ⟨by decide, by decide,
    some_eq_of_toRat
      ((second_point_not_rejected '1' ['.', '2', '.', '3'] (by decide) (by decide)
          (by decide)).1 (by decide)).2 (by decide) ?_,
    (second_point_not_rejected '1'
      ['.', '2', '.', '3', '4', '5', '6', '7', '8', '9', '0', '1', '2', '3', '4', '5',
        '6', '7', '8', '9', '0', '1', '2'] (by decide) (by decide) (by decide)).2.1
      (by decide)⟩
  rw [show spelled 10 (without_points ['1', '.', '2', '.', '3']) = 123 from by decide,
    show fraction_digits ['1', '.', '2', '.', '3'] = 3 from by decide]
  norm_num [rational_constant.toRat]

/-- Counterexample to C27 as stated: `"0.1.2"` has a second decimal point, and
`parse_ratio` returns `12 / 10^3 = 3/250` for it instead of failing. -/
theorem second_point_counterexample :
    2 ≤ ['0', '.', '1', '.', '2'].count '.' ∧
    parse_ratio '0' ['.', '1', '.', '2'] = some ⟨3, 250⟩ ∧
    rational_constant_literals.literal_operator ['0', '.', '1', '.', '2'] ≠ none := by
  have h : rational_constant_literals.literal_operator ['0', '.', '1', '.', '2'] =
      some ⟨3, 250⟩ := by
    apply literal_eq_of_toRat ((decimal_literal_eq '0' ['.', '1', '.', '2'] (by decide)
      (by decide)).trans (if_pos (by decide))) (by decide)
    rw [show spelled 10 (without_points ['0', '.', '1', '.', '2']) = 12 from by decide,
      show fraction_digits ['0', '.', '1', '.', '2'] = 3 from by decide]
    norm_num [rational_constant.toRat]
  exact ⟨by decide, h, by rw [h]; exact Option.some_ne_none _⟩


/-- C28 (the code at digits outside the base's range): the assertion of `parse_digit`
accepts each of `'0'..'9'` in every base, so `"09"` parses as `9/1` in base 8, `"0b2"`
as `2/1` in base 2 and `"09.5"` as `77/8`, where the claim says that parsing fails;
only letters are bounded by the base: `"0xg"` and `"0b1a"` are rejected. -/
theorem digit_out_of_range_accepted :
    impl.accepted 8 '9' ∧ impl.accepted 2 '2' ∧ ¬ impl.accepted 16 'g' ∧
    parse_ratio '0' ['9'] = some ⟨9, 1⟩ ∧
    parse_ratio '0' ['b', '2'] = some ⟨2, 1⟩ ∧
    parse_ratio '0' ['9', '.', '5'] = some ⟨77, 8⟩ ∧
    parse_ratio '0' ['x', 'g'] = none ∧
    parse_ratio '0' ['b', '1', 'a'] = none := by
  have n1 : parse_ratio '0' ['9'] = impl.parse_number 8 ['9'] := by
    rw [parse_ratio_eq]; rfl
  have n2 : parse_ratio '0' ['b', '2'] = impl.parse_number 2 ['2'] := by
    rw [parse_ratio_eq]; rfl
  have n3 : parse_ratio '0' ['9', '.', '5'] = impl.parse_number 8 ['9', '.', '5'] := by
    rw [parse_ratio_eq]; rfl
  have n4 : parse_ratio '0' ['x', 'g'] = impl.parse_number 16 ['g'] := by
    rw [parse_ratio_eq]; rfl
  have n5 : parse_ratio '0' ['b', '1', 'a'] = impl.parse_number 2 ['1', 'a'] := by
    rw [parse_ratio_eq]; rfl
  refine ⟨by decide, by decide, by decide, ?_, ?_, ?_, ?_, ?_⟩
  · rw [n1, impl.parse_number_plain (by decide) (by decide) (by decide), if_pos (by decide),
      show spelled 8 (without_points ['9']) = 9 from by decide,
      show fraction_digits ['9'] = 0 from by decide]
    exact congrArg some (rational_constant.ofRat_eq_of_toRat (by decide)
      (by norm_num [rational_constant.toRat]))
  · rw [n2, impl.parse_number_plain (by decide) (by decide) (by decide), if_pos (by decide),
      show spelled 2 (without_points ['2']) = 2 from by decide,
      show fraction_digits ['2'] = 0 from by decide]
    exact congrArg some (rational_constant.ofRat_eq_of_toRat (by decide)
      (by norm_num [rational_constant.toRat]))
  · rw [n3, impl.parse_number_plain (by decide) (by decide) (by decide), if_pos (by decide),
      show spelled 8 (without_points ['9', '.', '5']) = 77 from by decide,
      show fraction_digits ['9', '.', '5'] = 1 from by decide]
    exact congrArg some (rational_constant.ofRat_eq_of_toRat (by decide)
      (by norm_num [rational_constant.toRat]))
  · rw [n4]
    exact impl.parse_number_none (c := 'g') (by decide) (by decide) (by decide)
  · rw [n5]
    exact impl.parse_number_none (c := 'a') (by decide) (by decide) (by decide)

/-- C29: scientific notation always fails parsing. Every sequence of characters that
contains `'p'` or `'P'` is rejected, whatever its base; and every sequence that
contains the exponent marker `'e'` or `'E'` and has no hexadecimal prefix (a decimal,
octal or binary literal) is rejected, at any position of the marker, the last one
included. -/
theorem exponent_marker_rejected (hd : Char) (tl : List Char) :
    (('p' ∈ hd :: tl ∨ 'P' ∈ hd :: tl) →
      rational_constant_literals.literal_operator (hd :: tl) = none) ∧
    (('e' ∈ hd :: tl ∨ 'E' ∈ hd :: tl) → ¬ hex_prefixed (hd :: tl) →
      rational_constant_literals.literal_operator (hd :: tl) = none) := by
  have hlit : rational_constant_literals.literal_operator (hd :: tl) =
      impl.parse_literal hd ((tl.filter fun c => decide (c ≠ apostrophe)).map impl.lower) :=
    parse_ratio_eq hd tl
  have hP : impl.lower 'P' = 'p' := by decide
  have hp : impl.lower 'p' = 'p' := by decide
  have hE : impl.lower 'E' = 'e' := by decide
  have he : impl.lower 'e' = 'e' := by decide
  -- the marker `'p'`, in the head or in the normalised tail
  have hpn : ∀ {c : Char}, (c = 'p' ∨ c = 'P') →
      c ∈ hd :: (tl.filter fun c => decide (c ≠ apostrophe)).map impl.lower →
      impl.parse_literal hd ((tl.filter fun c => decide (c ≠ apostrophe)).map impl.lower) =
        none := by
    intro c hc hm
    rcases hc with rfl | rfl
    · exact impl.parse_literal_none hm (by decide) (by decide) (by decide) (by decide)
        (fun _ _ => by decide)
    · exact impl.parse_literal_none hm (by decide) (by decide) (by decide) (by decide)
        (fun _ _ => by decide)
  refine ⟨?_, ?_⟩
  · intro h
    rw [hlit]
    rcases h with h | h
    · rcases List.mem_cons.mp h with e | hm
      · exact hpn (Or.inl rfl) (e ▸ List.mem_cons_self _ _)
      · exact hpn (Or.inl rfl)
          (List.mem_cons_of_mem _ (hp ▸ impl.mem_normalised hm (by decide)))
    · rcases List.mem_cons.mp h with e | hm
      · exact hpn (Or.inr rfl) (e ▸ List.mem_cons_self _ _)
      · exact hpn (Or.inl rfl)
          (List.mem_cons_of_mem _ (hP ▸ impl.mem_normalised hm (by decide)))
  · intro h hnh
    rw [hlit]
    have hen : 'e' ∈ hd :: (tl.filter fun c => decide (c ≠ apostrophe)).map impl.lower →
        impl.parse_literal hd
          ((tl.filter fun c => decide (c ≠ apostrophe)).map impl.lower) = none :=
      fun hm => impl.parse_literal_none hm (by decide) (by decide) (by decide) (by decide)
        (fun hH hx => absurd (impl.normalised_head_x hH hx) hnh)
    rcases h with h | h
    · rcases List.mem_cons.mp h with e | hm
      · exact hen (e ▸ List.mem_cons_self _ _)
      · exact hen (List.mem_cons_of_mem _ (he ▸ impl.mem_normalised hm (by decide)))
    · rcases List.mem_cons.mp h with e | hm
      · exact impl.parse_literal_none (c := 'E') (e ▸ List.mem_cons_self _ _) (by decide)
          (by decide) (by decide) (by decide) (fun _ _ => by decide)
      · exact hen (List.mem_cons_of_mem _ (hE ▸ impl.mem_normalised hm (by decide)))

/-- Witness for C29: `1e3`, `1e` and `017E` (marker in the last position), `0b1e1`,
`0.1e0`, and the hexadecimal `0x1p` and `0x0.1p0` are all rejected. -/
theorem exponent_marker_rejected_witness :
    rational_constant_literals.literal_operator ['1', 'e', '3'] = none ∧
    rational_constant_literals.literal_operator ['1', 'e'] = none ∧
    rational_constant_literals.literal_operator ['0', '1', '7', 'E'] = none ∧
    rational_constant_literals.literal_operator ['0', 'b', '1', 'e', '1'] = none ∧
    rational_constant_literals.literal_operator ['0', '.', '1', 'e', '0'] = none ∧
    rational_constant_literals.literal_operator ['0', 'x', '1', 'p'] = none ∧
    rational_constant_literals.literal_operator ['0', 'x', '0', '.', '1', 'p', '0'] = none :=
  ⟨(exponent_marker_rejected '1' ['e', '3']).2 (by decide) (by decide),
    (exponent_marker_rejected '1' ['e']).2 (by decide) (by decide),
    (exponent_marker_rejected '0' ['1', '7', 'E']).2 (by decide) (by decide),
    (exponent_marker_rejected '0' ['b', '1', 'e', '1']).2 (by decide) (by decide),
    (exponent_marker_rejected '0' ['.', '1', 'e', '0']).2 (by decide) (by decide),
    (exponent_marker_rejected '0' ['x', '1', 'p']).1 (by decide),
    (exponent_marker_rejected '0' ['x', '0', '.', '1', 'p', '0']).1 (by decide)⟩

/-- C30 (amended): apostrophes are ignored as digit separators, underscores are not
separators. For every literal, an apostrophe inserted anywhere after its first
character does not change the result of the literal operator, which is the result for
the literal with all those apostrophes removed; a sequence that contains `'_'` is
rejected. -/
theorem apostrophes_ignored (hd : Char) (xs ys tl : List Char) :
    rational_constant_literals.literal_operator (hd :: (xs ++ apostrophe :: ys)) =
      rational_constant_literals.literal_operator (hd :: (xs ++ ys)) ∧
    rational_constant_literals.literal_operator (hd :: tl) =
      rational_constant_literals.literal_operator
        (hd :: tl.filter fun c => decide (c ≠ apostrophe)) ∧
    ('_' ∈ hd :: tl → rational_constant_literals.literal_operator (hd :: tl) = none) := by
  have hlit : ∀ t : List Char, rational_constant_literals.literal_operator (hd :: t) =
      impl.parse_literal hd ((t.filter fun c => decide (c ≠ apostrophe)).map impl.lower) :=
    fun t => parse_ratio_eq hd t
  refine ⟨?_, ?_, ?_⟩
  · rw [hlit, hlit]
    congr 2
    rw [List.filter_append, List.filter_append, List.filter_cons_of_neg (by simp)]
  · rw [hlit, hlit, List.filter_filter]
    congr 2
    apply List.filter_congr
    intro c _
    simp
  · intro h
    rw [hlit]
    have hu : impl.lower '_' = '_' := by decide
    have hm : '_' ∈ hd :: (tl.filter fun c => decide (c ≠ apostrophe)).map impl.lower := by
      rcases List.mem_cons.mp h with e | hm
      · exact e ▸ List.mem_cons_self _ _
      · exact List.mem_cons_of_mem _ (hu ▸ impl.mem_normalised hm (by decide))
    exact impl.parse_literal_none hm (by decide) (by decide) (by decide) (by decide)
      (fun _ _ => by decide)

/-- Witness for C30 (amended) at the repository's test `2'147'395'600_`, which is
`2147395600`. -/
theorem apostrophes_ignored_witness :
    rational_constant_literals.literal_operator
      ['2', apostrophe, '1', '4', '7', apostrophe, '3', '9', '5', apostrophe, '6', '0', '0'] =
      rational_constant_literals.literal_operator
        ['2', '1', '4', '7', '3', '9', '5', '6', '0', '0'] ∧
    rational_constant_literals.literal_operator
      ['2', '1', '4', '7', '3', '9', '5', '6', '0', '0'] = some ⟨2147395600, 1⟩ := by
  refine ⟨(apostrophes_ignored '2'
      [] [] [apostrophe, '1', '4', '7', apostrophe, '3', '9', '5', apostrophe, '6', '0',
        '0']).2.1, ?_⟩
  apply literal_eq_of_toRat ((decimal_literal_eq '2' ['1', '4', '7', '3', '9', '5', '6', '0',
    '0'] (by decide) (by decide)).trans (if_pos (by decide))) (by decide)
  rw [show spelled 10 (without_points ['2', '1', '4', '7', '3', '9', '5', '6', '0', '0']) =
      2147395600 from by decide,
    show fraction_digits ['2', '1', '4', '7', '3', '9', '5', '6', '0', '0'] = 0 from by decide]
  norm_num [rational_constant.toRat]

/-- Counterexample to C30 as stated: with underscores as separators, `2_147` is rejected
while `2147` parses as `2147/1`. -/
theorem underscore_separator_counterexample :
    parse_ratio '2' ['_', '1', '4', '7'] = none ∧
    parse_ratio '2' ['1', '4', '7'] = some ⟨2147, 1⟩ := by
  constructor
  · rw [parse_ratio_eq]
    exact impl.parse_literal_none (c := '_') (by decide) (by decide) (by decide) (by decide)
      (by decide) (fun _ _ => by decide)
  · apply literal_eq_of_toRat ((decimal_literal_eq '2' ['1', '4', '7'] (by decide)
      (by decide)).trans (if_pos (by decide))) (by decide)
    rw [show spelled 10 (without_points ['2', '1', '4', '7']) = 2147 from by decide,
      show fraction_digits ['2', '1', '4', '7'] = 0 from by decide]
    norm_num [rational_constant.toRat]

/-- C31: for any tag `T`, `dimension<T>` has exactly one factor, with tag `T` and
exponent 1, and `dimension<T> * dimension<T>` is defined and has exactly one factor,
with tag `T` and exponent 2. -/
theorem dimension_single_factor (T : Tag) :
    (dimension T).factors = [⟨T, ⟨1, 1⟩⟩] ∧
    (dimension T).factors.length = 1 ∧
    ∃ R, (dimension T).mul (dimension T) = some R ∧ R.factors = [⟨T, ⟨2, 1⟩⟩] ∧
      R.factors.length = 1 := by
  have hadd : (⟨1, 1⟩ : rational_constant).add ⟨1, 1⟩ = some ⟨2, 1⟩ := by decide
  have hone : impl.is_one ⟨T, ⟨2, 1⟩⟩ = false := rfl
  have hins : uset.insert [(⟨T, ⟨1, 1⟩⟩ : dimension_factor)] ⟨T, ⟨1, 1⟩⟩ impl.is_related
      impl.mul = some [⟨T, ⟨2, 1⟩⟩] := by
    unfold uset.insert
    rw [seq.transform_if_eq_map _ _ _ (fun _ => (⟨T, ⟨2, 1⟩⟩ : dimension_factor))]
    · simp [seq.contains, impl.is_related]
    · intro x hx _
      rw [List.mem_singleton.mp hx]
      simp [impl.mul, impl.is_related, hadd]
  refine ⟨rfl, rfl, ⟨[⟨T, ⟨2, 1⟩⟩]⟩, ?_, rfl, rfl⟩
  show (impl.multiply [⟨T, ⟨1, 1⟩⟩] [⟨T, ⟨1, 1⟩⟩]).map _ = _
  rw [impl.multiply, impl.multiply, Option.some_bind, hins, Option.some_bind,
    impl.remove_ones_eq_filter]
  simp [hone]

/-- Witness for C31 at the tag 7. -/
theorem dimension_single_factor_witness :
    (dimension 7).factors = [⟨7, ⟨1, 1⟩⟩] ∧
    (dimension 7).mul (dimension 7) = some ⟨[⟨7, ⟨2, 1⟩⟩]⟩ := by
  obtain ⟨h1, -, R, hR, hf, -⟩ := dimension_single_factor 7
  refine ⟨h1, ?_⟩
  rw [hR]
  cases R
  simp only at hf
  rw [hf]

/-- C32: constructing a rational directly is accepted iff the pair is canonical:
`rational_constant<Num, Den>` is accepted exactly when `Den > 0` and
`gcd(|Num|, Den) = 1`, and rejected otherwise; the only accepted representation of
zero is `(0, 1)`; and two accepted rationals are equal in value iff their pairs are
identical, which is what `==` tests. -/
theorem rational_constant_accepted_iff (Num Den : Int) :
    (rational_constant.instantiate Num Den = some ⟨Num, Den⟩ ↔
      0 < Den ∧ Nat.gcd Num.natAbs Den.natAbs = 1) ∧
    (rational_constant.instantiate Num Den = none ↔
      ¬ (0 < Den ∧ Nat.gcd Num.natAbs Den.natAbs = 1)) ∧
    (rational_constant.instantiate 0 Den ≠ none ↔ Den = 1) ∧
    (∀ a b : rational_constant, a.valid → b.valid →
      ((a.toRat = b.toRat ↔ a = b) ∧ (a.eq b = true ↔ a.toRat = b.toRat))) := by
  have hv : ∀ n d : Int, (⟨n, d⟩ : rational_constant).valid ↔
      0 < d ∧ Nat.gcd n.natAbs d.natAbs = 1 := fun n d => rational_constant.valid_iff _
  refine ⟨?_, ?_, ?_, ?_⟩
  · unfold rational_constant.instantiate
    rw [← hv]
    by_cases h : (⟨Num, Den⟩ : rational_constant).valid
    · simp [h]
    · simp [h]
  · unfold rational_constant.instantiate
    rw [← hv]
    by_cases h : (⟨Num, Den⟩ : rational_constant).valid
    · simp [h]
    · simp [h]
  · unfold rational_constant.instantiate
    have h0 : (⟨0, Den⟩ : rational_constant).valid ↔ Den = 1 := by
      rw [hv]
      simp only [Int.natAbs_zero, Nat.gcd_zero_left]
      omega
    by_cases h : (⟨0, Den⟩ : rational_constant).valid
    · rw [if_pos h]
      exact ⟨fun _ => h0.mp h, fun _ => Option.some_ne_none _⟩
    · rw [if_neg h]
      exact ⟨fun hn => absurd rfl hn, fun e => absurd (h0.mpr e) h⟩
  · intro a b ha hb
    have h1 : a.toRat = b.toRat ↔ a = b :=
      ⟨rational_constant.toRat_injective ha hb, fun e => e ▸ rfl⟩
    exact ⟨h1, (rational_constant.eq_iff a b).trans h1.symm⟩

/-- Witness for C32: `(1, 2)` is accepted, `(2, 4)`, `(1, -2)`, `(1, 0)` and `(0, 2)` are
rejected, `(0, 1)` is accepted. -/
theorem rational_constant_accepted_iff_witness :
    rational_constant.instantiate 1 2 = some ⟨1, 2⟩ ∧
    rational_constant.instantiate 2 4 = none ∧
    rational_constant.instantiate 1 (-2) = none ∧
    rational_constant.instantiate 1 0 = none ∧
    rational_constant.instantiate 0 2 = none ∧
    rational_constant.instantiate 0 1 = some ⟨0, 1⟩ :=
  ⟨(rational_constant_accepted_iff 1 2).1.mpr (by decide),
    (rational_constant_accepted_iff 2 4).2.1.mpr (by decide),
    (rational_constant_accepted_iff 1 (-2)).2.1.mpr (by decide),
    (rational_constant_accepted_iff 1 0).2.1.mpr (by decide),
    (rational_constant_accepted_iff 0 2).2.1.mpr (by decide),
    (rational_constant_accepted_iff 0 1).1.mpr (by decide)⟩


/-- C34: the common scale keeps the rescaled payloads as small as possible. For canonical
scales `a = an/ad` and `b = bn/bd` with `an, bn >= 0` not both zero, the integer rescale
factors `fa = (an/gcd(an,bn)) * (bd/gcd(ad,bd))` and `fb = (bn/gcd(an,bn)) *
(ad/gcd(ad,bd))` are coprime; they are what `heterop_raw` multiplies the payloads by
whenever both are representable in `intmax_t` (otherwise `heterop_raw` has no value);
the common scale `C = gcd(an,bn)/lcm(ad,bd)` satisfies `fa * C = a` and `fb * C = b`,
and every rational `c` of which both scales are integer multiples divides `C` by an
integer and is at most `C`. -/
theorem common_scale_maximal (a b : rational_constant) (d : dimension_product)
    (ha : a.valid) (hb : b.valid) (hna : 0 ≤ a.num) (hnb : 0 ≤ b.num)
    (hnz : a.num ≠ 0 ∨ b.num ≠ 0) :
    (representable
        ((a.num / (Int.gcd a.num b.num : Int)) * (b.den / (Int.gcd a.den b.den : Int))) →
      representable
        ((b.num / (Int.gcd a.num b.num : Int)) * (a.den / (Int.gcd a.den b.den : Int))) →
      impl.heterop_raw (fun _ x y => some (x, y)) ⟨.intmax_t, 1, ⟨d, a⟩⟩
          ⟨.intmax_t, 1, ⟨d, b⟩⟩ =
        some ((a.num / (Int.gcd a.num b.num : Int)) * (b.den / (Int.gcd a.den b.den : Int)),
          (b.num / (Int.gcd a.num b.num : Int)) * (a.den / (Int.gcd a.den b.den : Int)))) ∧
    (¬ (representable
          ((a.num / (Int.gcd a.num b.num : Int)) * (b.den / (Int.gcd a.den b.den : Int))) ∧
        representable
          ((b.num / (Int.gcd a.num b.num : Int)) * (a.den / (Int.gcd a.den b.den : Int)))) →
      impl.heterop_raw (fun _ x y => some (x, y)) ⟨.intmax_t, 1, ⟨d, a⟩⟩
          ⟨.intmax_t, 1, ⟨d, b⟩⟩ = none) ∧
    Int.gcd ((a.num / (Int.gcd a.num b.num : Int)) * (b.den / (Int.gcd a.den b.den : Int)))
      ((b.num / (Int.gcd a.num b.num : Int)) * (a.den / (Int.gcd a.den b.den : Int))) = 1 ∧
    (((a.num / (Int.gcd a.num b.num : Int)) * (b.den / (Int.gcd a.den b.den : Int)) : Int) : ℚ)
      * (common_scale a b).toRat = a.toRat ∧
    (((b.num / (Int.gcd a.num b.num : Int)) * (a.den / (Int.gcd a.den b.den : Int)) : Int) : ℚ)
      * (common_scale a b).toRat = b.toRat ∧
    0 < (common_scale a b).toRat ∧
    ∀ c : ℚ, (∃ m n : Int, a.toRat = (m : ℚ) * c ∧ b.toRat = (n : ℚ) * c) →
      (∃ k : Int, (common_scale a b).toRat = (k : ℚ) * c) ∧ c ≤ (common_scale a b).toRat := by
  have hfb : rescale_factor b a =
      (b.num / (Int.gcd a.num b.num : Int)) * (a.den / (Int.gcd a.den b.den : Int)) :=
    impl.rescale_factor_swap a b
  have hcop := rescale_factor_coprime ha hb hnz
  have hA := rescale_factor_mul_common_scale_of_ne ha hb hnz
  have hB := rescale_factor_mul_common_scale_of_ne hb ha hnz.symm
  rw [common_scale_comm] at hB
  have hpos := common_scale_pos_of_ne ha hb hnz
  have hraw := impl.heterop_raw_eq (fun _ x y => some (x, y))
    (a := ⟨.intmax_t, 1, ⟨d, a⟩⟩) (b := ⟨.intmax_t, 1, ⟨d, b⟩⟩) (dimension_eq_self d) ha hb
    hna hnb hnz
  simp only at hraw
  have hfa : rescale_factor a b =
      (a.num / (Int.gcd a.num b.num : Int)) * (b.den / (Int.gcd a.den b.den : Int)) := rfl
  rw [hfb] at hcop hB
  rw [hfa] at hcop hA
  refine ⟨?_, ?_, hcop, hA, hB, hpos, ?_⟩
  · intro h1 h2
    rw [hraw, intmax_t.mul_of_representable h1, Option.some_bind,
      intmax_t.mul_of_representable h2, Option.some_bind,
      intmax_t.mul_of_representable (by rw [one_mul]; exact h1), Option.some_bind,
      intmax_t.mul_of_representable (by rw [one_mul]; exact h2), Option.some_bind,
      one_mul, one_mul,
      payload_type.cast_of_holds (T := .intmax_t) ((payload_type.holds_intmax_iff _).mpr h1),
      payload_type.cast_of_holds (T := .intmax_t) ((payload_type.holds_intmax_iff _).mpr h2)]
  · intro hn
    rw [hraw]
    by_cases h1 : representable
        ((a.num / (Int.gcd a.num b.num : Int)) * (b.den / (Int.gcd a.den b.den : Int)))
    · have h2 : ¬ representable
          ((b.num / (Int.gcd a.num b.num : Int)) * (a.den / (Int.gcd a.den b.den : Int))) :=
        fun h2 => hn ⟨h1, h2⟩
      rw [intmax_t.mul_of_representable h1, Option.some_bind,
        intmax_t.mul_of_not_representable h2]
      rfl
    · rw [intmax_t.mul_of_not_representable h1]
      rfl
  rintro c ⟨m, n, hm, hn⟩
  have hbez := Int.gcd_eq_gcd_ab
    ((a.num / (Int.gcd a.num b.num : Int)) * (b.den / (Int.gcd a.den b.den : Int)))
    ((b.num / (Int.gcd a.num b.num : Int)) * (a.den / (Int.gcd a.den b.den : Int)))
  rw [hcop] at hbez
  generalize (a.num / (Int.gcd a.num b.num : Int)) * (b.den / (Int.gcd a.den b.den : Int)) = fa
    at hA hbez
  generalize (b.num / (Int.gcd a.num b.num : Int)) * (a.den / (Int.gcd a.den b.den : Int)) = fb
    at hB hbez
  generalize Int.gcdA fa fb = s at hbez
  generalize Int.gcdB fa fb = t at hbez
  have hq : ((fa : ℚ) * s + (fb : ℚ) * t) = 1 := by exact_mod_cast hbez.symm
  have hk : (common_scale a b).toRat = ((m * s + n * t : Int) : ℚ) * c := by
    have h1 : (common_scale a b).toRat =
        ((fa : ℚ) * (common_scale a b).toRat) * s + ((fb : ℚ) * (common_scale a b).toRat) * t := by
      have : (common_scale a b).toRat = (common_scale a b).toRat * ((fa : ℚ) * s + (fb : ℚ) * t) := by
        rw [hq, mul_one]
      linear_combination this
    rw [hA, hB, hm, hn] at h1
    push_cast
    linear_combination h1
  refine ⟨⟨_, hk⟩, ?_⟩
  by_cases hc : c ≤ 0
  · exact le_trans hc (le_of_lt hpos)
  · have hc0 : 0 < c := not_le.mp hc
    have hkpos : (0 : ℚ) < ((m * s + n * t : Int) : ℚ) := by
      by_contra hle
      have := mul_nonpos_of_nonpos_of_nonneg (not_lt.mp hle) (le_of_lt hc0)
      rw [← hk] at this
      exact absurd hpos (not_lt.mpr this)
    have hk1 : (1 : ℚ) ≤ ((m * s + n * t : Int) : ℚ) := by
      have : (0 : Int) < m * s + n * t := by exact_mod_cast hkpos
      exact_mod_cast (by omega : (1 : Int) ≤ m * s + n * t)
    rw [hk]
    nlinarith

/-- Witness for C34 at kilograms and grams (scales `1/1` and `1/1000`): the factors are
1000 and 1, coprime, and the common scale is `1/1000`; and at the scales `2^40/1` and
`1/2^40`, whose factor `2^80` is not representable. -/
theorem common_scale_maximal_witness :
    impl.heterop_raw (fun _ x y => some (x, y)) ⟨.intmax_t, 1, ⟨dimension 1, ⟨1, 1⟩⟩⟩
      ⟨.intmax_t, 1, ⟨dimension 1, ⟨1, 1000⟩⟩⟩ = some (1000, 1) ∧
    Int.gcd 1000 1 = 1 ∧ common_scale ⟨1, 1⟩ ⟨1, 1000⟩ = ⟨1, 1000⟩ ∧
    impl.heterop_raw (fun _ x y => some (x, y))
      ⟨.intmax_t, 1, ⟨dimension 1, ⟨1099511627776, 1⟩⟩⟩
      ⟨.intmax_t, 1, ⟨dimension 1, ⟨1, 1099511627776⟩⟩⟩ = none := by
  have h := (common_scale_maximal ⟨1, 1⟩ ⟨1, 1000⟩ (dimension 1) (by decide) (by decide)
    (by decide) (by decide) (by decide)).1 (by decide) (by decide)
  have h2 := (common_scale_maximal ⟨1099511627776, 1⟩ ⟨1, 1099511627776⟩ (dimension 1)
    (by decide) (by decide) (by decide) (by decide) (by decide)).2.1 (by decide)
  exact ⟨h, by decide, by decide, h2⟩

/-- C35: `seq::is_uset<Seq>` is true iff no element occurs twice in `Seq`: it is true
for the empty sequence and for every duplicate-free sequence, and false as soon as two
positions hold the same type, wherever they are in the sequence. -/
theorem is_uset_iff_no_duplicate (s : List Nat) :
    (seq.is_uset s = true ↔ s.Nodup) ∧
    seq.is_uset ([] : List Nat) = true ∧
    ((∃ i j : Fin s.length, i < j ∧ s.get i = s.get j) → seq.is_uset s = false) ∧
    (seq.is_uset s = false → ∃ i j : Fin s.length, i < j ∧ s.get i = s.get j) := by
  have hdup : ¬ s.Nodup ↔ ∃ i j : Fin s.length, i < j ∧ s.get i = s.get j := by
    rw [List.nodup_iff_injective_get]
    constructor
    · intro hni
      unfold Function.Injective at hni
      push_neg at hni
      obtain ⟨i, j, he, hne⟩ := hni
      rcases lt_or_gt_of_ne hne with h | h
      · exact ⟨i, j, h, he⟩
      · exact ⟨j, i, h, he.symm⟩
    · rintro ⟨i, j, hlt, he⟩ hinj
      exact absurd (hinj he) (ne_of_lt hlt)
  have hfalse : seq.is_uset s = false ↔ ¬ s.Nodup := by
    rw [← seq.is_uset_iff_nodup, Bool.not_eq_true]
  exact ⟨seq.is_uset_iff_nodup s, rfl, fun h => hfalse.mpr (hdup.mpr h),
    fun h => hdup.mp (hfalse.mp h)⟩

/-- Witness for C35 at the repository's tests, the types `int`, `long`, `void` and
`volatile char *const &` standing as 0, 1, 2 and 3. -/
theorem is_uset_iff_no_duplicate_witness :
    seq.is_uset [0] = true ∧ seq.is_uset [0, 0] = false ∧
    seq.is_uset [0, 1, 2, 3] = true ∧ seq.is_uset [0, 1, 2, 0, 3] = false :=
  ⟨(is_uset_iff_no_duplicate [0]).1.mpr (by decide),
    (is_uset_iff_no_duplicate [0, 0]).2.2.1 ⟨⟨0, by decide⟩, ⟨1, by decide⟩, by decide, rfl⟩,
    (is_uset_iff_no_duplicate [0, 1, 2, 3]).1.mpr (by decide),
    (is_uset_iff_no_duplicate [0, 1, 2, 0, 3]).2.2.1
      ⟨⟨0, by decide⟩, ⟨3, by decide⟩, by decide, rfl⟩⟩

/-- C36 (amended): the common scale built by `heterop` is in canonical form whenever it
is computed. For quantities of equal dimension whose scales `an/ad` and `bn/bd` are
canonical, within the range of `std::ratio`, with `an, bn >= 0` not both zero:
`impl::gcd(an, bn)` is the gcd `g`; `impl::lcm(ad, bd)`, computed as `max / gcd * min`,
is the positive least common multiple `l` when `l` is representable in `intmax_t`, and
has no value otherwise, and then `a + b` and `a - b` are rejected; `g` is coprime to
`l`, so `constant<g, l>` passes the reduced-form check; and when `l` is representable,
`a + b` and `a - b` are the sum and the difference of the rescaled payloads with the
scale `g/l`, a value whenever the rescaled payloads and their sum are representable. -/
theorem common_scale_canonical (a b : quantity)
    (hdim : a.unit.dimension.eq b.unit.dimension = true)
    (hva : a.unit.scale.valid) (hvb : b.unit.scale.valid)
    (hfa : a.unit.scale.fits) (hfb : b.unit.scale.fits)
    (hna : 0 ≤ a.unit.scale.num) (hnb : 0 ≤ b.unit.scale.num)
    (hnz : a.unit.scale.num ≠ 0 ∨ b.unit.scale.num ≠ 0) :
    ∃ g l : Int,
      impl.gcd a.unit.scale.num b.unit.scale.num = some g ∧
      g = (Int.gcd a.unit.scale.num b.unit.scale.num : Int) ∧
      (representable l → impl.lcm a.unit.scale.den b.unit.scale.den = some l) ∧
      (¬ representable l → impl.lcm a.unit.scale.den b.unit.scale.den = none ∧
        a.add b = none ∧ a.sub b = none) ∧
      0 < l ∧ a.unit.scale.den ∣ l ∧ b.unit.scale.den ∣ l ∧
      (∀ m : Int, a.unit.scale.den ∣ m → b.unit.scale.den ∣ m → l ∣ m) ∧
      Int.gcd g l = 1 ∧
      rational_constant.instantiate g l = some ⟨g, l⟩ ∧
      (representable l →
        a.add b = (impl.heterop_raw mjk.plus a b).map (fun v =>
          (⟨payload_type.common a.type b.type, v, ⟨a.unit.dimension, ⟨g, l⟩⟩⟩ : quantity)) ∧
        a.sub b = (impl.heterop_raw mjk.minus a b).map (fun v =>
          (⟨payload_type.common a.type b.type, v, ⟨a.unit.dimension, ⟨g, l⟩⟩⟩ : quantity))) ∧
      (∀ s, a.add b = some s ∨ a.sub b = some s → s.unit.scale = ⟨g, l⟩) ∧
      (representable l →
        representable (rescale_factor a.unit.scale b.unit.scale) →
        representable (rescale_factor b.unit.scale a.unit.scale) →
        representable (a.val * rescale_factor a.unit.scale b.unit.scale) →
        representable (b.val * rescale_factor b.unit.scale a.unit.scale) →
        (payload_type.common a.type b.type).holds
          (a.type.cast (a.val * rescale_factor a.unit.scale b.unit.scale) +
            b.type.cast (b.val * rescale_factor b.unit.scale a.unit.scale)) →
        a.add b = some ⟨payload_type.common a.type b.type,
          a.type.cast (a.val * rescale_factor a.unit.scale b.unit.scale) +
            b.type.cast (b.val * rescale_factor b.unit.scale a.unit.scale),
          ⟨a.unit.dimension, ⟨g, l⟩⟩⟩) := by
  have had := rational_constant.valid_den_pos hva
  have hbd := rational_constant.valid_den_pos hvb
  have hcs := common_scale_valid hva hvb
  obtain ⟨hlpos, hcop⟩ := (rational_constant.valid_iff _).mp hcs
  have hadd : representable (Int.lcm a.unit.scale.den b.unit.scale.den : Int) →
      a.add b = (impl.heterop_raw mjk.plus a b).map (fun v =>
        (⟨payload_type.common a.type b.type, v, ⟨a.unit.dimension,
          ⟨(Int.gcd a.unit.scale.num b.unit.scale.num : Int),
            (Int.lcm a.unit.scale.den b.unit.scale.den : Int)⟩⟩⟩ : quantity)) :=
    fun hl => impl.heterop_eq mjk.plus hva hvb hfa hfb hna hnb hnz hl
  have hsub : representable (Int.lcm a.unit.scale.den b.unit.scale.den : Int) →
      a.sub b = (impl.heterop_raw mjk.minus a b).map (fun v =>
        (⟨payload_type.common a.type b.type, v, ⟨a.unit.dimension,
          ⟨(Int.gcd a.unit.scale.num b.unit.scale.num : Int),
            (Int.lcm a.unit.scale.den b.unit.scale.den : Int)⟩⟩⟩ : quantity)) :=
    fun hl => impl.heterop_eq mjk.minus hva hvb hfa hfb hna hnb hnz hl
  have hnone : ¬ representable (Int.lcm a.unit.scale.den b.unit.scale.den : Int) →
      a.add b = none ∧ a.sub b = none :=
    fun hl => ⟨impl.heterop_eq_none_of_lcm mjk.plus hva hvb hl,
      impl.heterop_eq_none_of_lcm mjk.minus hva hvb hl⟩
  refine ⟨(Int.gcd a.unit.scale.num b.unit.scale.num : Int),
    (Int.lcm a.unit.scale.den b.unit.scale.den : Int), impl.gcd_eq hna hnb, rfl,
    impl.lcm_of_representable had hbd, ?_, hlpos, Int.dvd_lcm_left, Int.dvd_lcm_right,
    fun m h1 h2 => Int.lcm_dvd h1 h2, hcop, rational_constant.instantiate_of_valid hcs,
    fun hl => ⟨hadd hl, hsub hl⟩, ?_, ?_⟩
  · intro hl
    refine ⟨?_, hnone hl⟩
    rw [impl.lcm_eq had hbd, if_neg hl]
  · intro s hs
    by_cases hl : representable (Int.lcm a.unit.scale.den b.unit.scale.den : Int)
    · rcases hs with hs | hs
      · rw [hadd hl, Option.map_eq_some'] at hs
        obtain ⟨v, -, hv⟩ := hs
        rw [← hv]
      · rw [hsub hl, Option.map_eq_some'] at hs
        obtain ⟨v, -, hv⟩ := hs
        rw [← hv]
    · rcases hs with hs | hs
      · rw [(hnone hl).1] at hs
        cases hs
      · rw [(hnone hl).2] at hs
        cases hs
  · intro hl h1 h2 h3 h4 hh
    rw [hadd hl, impl.heterop_raw_of_representable mjk.plus hdim hva hvb hna hnb hnz h1 h2 h3
      h4, mjk.plus, payload_type.arith_of_holds hh]
    rfl

/-- Witness for C36 at the scales `3/4` and `5/6`: the common scale is `1/12`; and at the
scales `0/1` and `1/2`, one of them zero. -/
theorem common_scale_canonical_witness :
    quantity.add ⟨.int, 1, ⟨dimension 0, ⟨3, 4⟩⟩⟩ ⟨.int, 1, ⟨dimension 0, ⟨5, 6⟩⟩⟩ =
      some ⟨.int, 19, ⟨dimension 0, ⟨1, 12⟩⟩⟩ ∧
    quantity.add ⟨.int, 7, ⟨dimension 0, ⟨0, 1⟩⟩⟩ ⟨.int, 3, ⟨dimension 0, ⟨1, 2⟩⟩⟩ =
      some ⟨.int, 3, ⟨dimension 0, ⟨1, 2⟩⟩⟩ ∧
    ∃ g l : Int, impl.gcd 3 5 = some g ∧ impl.lcm 4 6 = some l ∧ g = 1 ∧ l = 12 := by
  obtain ⟨g, l, hg, hge, -, -, -, -, -, -, -, -, -, -, -⟩ :=
    common_scale_canonical ⟨.int, 1, ⟨dimension 0, ⟨3, 4⟩⟩⟩ ⟨.int, 1, ⟨dimension 0, ⟨5, 6⟩⟩⟩
      (by decide) (by decide) (by decide) (by decide) (by decide) (by decide) (by decide)
      (by decide)
  have hl12 : impl.lcm 4 6 = some 12 := by
    rw [impl.lcm_eq (by decide) (by decide)]
    rfl
  have hg1 : g = 1 := by rw [hge]; decide
  refine ⟨?_, ?_, 1, 12, by rw [← hg1]; exact hg, hl12, rfl, rfl⟩
  · rw [quantity.add, impl.heterop_eq mjk.plus (by decide) (by decide) (by decide)
      (by decide) (by decide) (by decide) (by decide) (by decide),
      impl.heterop_raw_of_representable mjk.plus (by decide) (by decide) (by decide)
        (by decide) (by decide) (by decide) (by decide) (by decide) (by decide)
        (by decide)]
    decide
  · rw [quantity.add, impl.heterop_eq mjk.plus (by decide) (by decide) (by decide)
      (by decide) (by decide) (by decide) (by decide) (by decide),
      impl.heterop_raw_of_representable mjk.plus (by decide) (by decide) (by decide)
        (by decide) (by decide) (by decide) (by decide) (by decide) (by decide)
        (by decide)]
    decide

/-- Counterexample to C36 as stated: the scales `1/2^32` and `1/(2^32+1)` are canonical
with positive numerators, and `impl::lcm(2^32, 2^32 + 1)`, computed as
`(2^32 + 1) / 1 * 2^32`, overflows `intmax_t`: the sum and the difference of quantities
of the two units are rejected. -/
theorem common_scale_lcm_overflow_counterexample :
    (⟨1, 4294967296⟩ : rational_constant).valid ∧
    (⟨1, 4294967297⟩ : rational_constant).valid ∧
    impl.lcm 4294967296 4294967297 = none ∧
    quantity.add ⟨.int, 1, ⟨dimension 0, ⟨1, 4294967296⟩⟩⟩
      ⟨.int, 1, ⟨dimension 0, ⟨1, 4294967297⟩⟩⟩ = none ∧
    quantity.sub ⟨.int, 1, ⟨dimension 0, ⟨1, 4294967296⟩⟩⟩
      ⟨.int, 1, ⟨dimension 0, ⟨1, 4294967297⟩⟩⟩ = none := by
  refine ⟨by decide, by decide, ?_,
    impl.heterop_eq_none_of_lcm mjk.plus (by decide) (by decide) (by decide),
    impl.heterop_eq_none_of_lcm mjk.minus (by decide) (by decide) (by decide)⟩
  rw [impl.lcm_eq (by decide) (by decide)]
  exact if_neg (by decide)

/-- C37: units with a negative scale cannot take part in additive or comparison
operations. If the scale numerator of either operand's unit is negative, the
non-negativity assertion of `impl::gcd` fails, and each of `a + b`, `a - b`, `a < b`,
`a <= b` and `a == b` is rejected, also when `a` and `b` have the identical unit. -/
theorem negative_scale_rejected (a b : quantity)
    (h : a.unit.scale.num < 0 ∨ b.unit.scale.num < 0) :
    impl.gcd a.unit.scale.num b.unit.scale.num = none ∧
    impl.gcd b.unit.scale.num a.unit.scale.num = none ∧
    a.add b = none ∧ a.sub b = none ∧ a.lt b = none ∧ a.le b = none ∧ a.eq b = none := by
  have g1 := impl.gcd_eq_none h
  have g2 := impl.gcd_eq_none h.symm
  have hraw : ∀ {β : Type} (op : payload_type → Int → Int → Option β),
      impl.heterop_raw op a b = none := by
    intro β op
    unfold impl.heterop_raw
    rw [g1]
    split <;> rfl
  have hraw2 : ∀ {β : Type} (op : payload_type → Int → Int → Option β),
      impl.heterop_raw op b a = none := by
    intro β op
    unfold impl.heterop_raw
    rw [g2]
    split <;> rfl
  have hop : ∀ op : payload_type → Int → Int → Option Int, impl.heterop op a b = none := by
    intro op
    unfold impl.heterop
    rw [g1]
    rfl
  refine ⟨g1, g2, hop _, hop _, hraw _, ?_, hraw _⟩
  rw [quantity.le, quantity.lt, hraw2]
  rfl

/-- Witness for C37 at two quantities of the identical unit `-1 * kg`. -/
theorem negative_scale_rejected_witness :
    ((-1 : Int) < 0 ∨ (-1 : Int) < 0) ∧
    quantity.add ⟨.int, 1, ⟨dimension 1, ⟨-1, 1⟩⟩⟩ ⟨.int, 2, ⟨dimension 1, ⟨-1, 1⟩⟩⟩ = none ∧
    quantity.lt ⟨.int, 1, ⟨dimension 1, ⟨-1, 1⟩⟩⟩ ⟨.int, 2, ⟨dimension 1, ⟨-1, 1⟩⟩⟩ = none ∧
    quantity.eq ⟨.int, 1, ⟨dimension 1, ⟨-1, 1⟩⟩⟩ ⟨.int, 2, ⟨dimension 1, ⟨1, 1⟩⟩⟩ = none :=
  ⟨by decide,
    (negative_scale_rejected ⟨.int, 1, ⟨dimension 1, ⟨-1, 1⟩⟩⟩
      ⟨.int, 2, ⟨dimension 1, ⟨-1, 1⟩⟩⟩ (by decide)).2.2.1,
    (negative_scale_rejected ⟨.int, 1, ⟨dimension 1, ⟨-1, 1⟩⟩⟩
      ⟨.int, 2, ⟨dimension 1, ⟨-1, 1⟩⟩⟩ (by decide)).2.2.2.2.1,
    (negative_scale_rejected ⟨.int, 1, ⟨dimension 1, ⟨-1, 1⟩⟩⟩
      ⟨.int, 2, ⟨dimension 1, ⟨1, 1⟩⟩⟩ (by decide)).2.2.2.2.2.2⟩

/-- C38 (amended): roots are implemented only for indices of the form `2^a * 3^b`. For
a rational constant `x` in canonical form: `mjk::root(x, 0)` is rejected; for every
index `I > 1` divisible by neither 2 nor 3, `mjk::root` is rejected at every argument
and hence `pow(x, p/I)` is rejected for every `p`; a positive index at which
`mjk::root(x, I)` is accepted has the form `2^a * 3^b`; and for `I = 2^a * 3^b` the
root is `a` square roots applied to `b` cube roots of `x`. For `x` within the range of
`std::ratio` (numerator not `INTMAX_MIN`) it equals `y` exactly when `y` is a
canonical rational with `y^I = x` (and `y >= 0` when `a > 0`), so it is accepted
exactly when `x` is the `I`-th power of a rational; for `x` outside that range and
`I > 1` it is rejected. The library roots `std::sqrt` and `std::cbrt` are taken exact
on perfect squares and cubes. -/
theorem root_index_support (x : rational_constant) (hx : x.valid) :
    mjk.root x 0 = none ∧
    (∀ I : Int, 1 < I → I.tmod 2 ≠ 0 → I.tmod 3 ≠ 0 →
      (∀ z : rational_constant, mjk.root z I = none) ∧
      ∀ p : Int, rational_constant.pow x ⟨p, I⟩ = none) ∧
    (∀ I : Int, 0 < I → mjk.root x I ≠ none → ∃ a b : Nat, I = (2 : Int) ^ a * 3 ^ b) ∧
    ∀ a b : Nat,
      mjk.root x ((2 : Int) ^ a * 3 ^ b) =
        (fun o : Option rational_constant => o.bind fun r => r.sqrt)^[a]
          ((fun o : Option rational_constant => o.bind fun r => r.cbrt)^[b] (some x)) ∧
      (x.fits → ∀ y : rational_constant, mjk.root x ((2 : Int) ^ a * 3 ^ b) = some y ↔
        y.valid ∧ (0 < a → 0 ≤ y.toRat) ∧ y.toRat ^ (2 ^ a * 3 ^ b) = x.toRat) ∧
      (x.fits → ((mjk.root x ((2 : Int) ^ a * 3 ^ b)).isSome = true ↔
        ∃ q : ℚ, q ^ (2 ^ a * 3 ^ b) = x.toRat)) ∧
      (¬ x.fits → 0 < a + b → mjk.root x ((2 : Int) ^ a * 3 ^ b) = none) := by
  refine ⟨mjk.root_zero x, fun I h1 h2 h3 => ⟨fun z => ?_, fun p => ?_⟩,
    fun I => mjk.root_pos_smooth x I, fun a b => ⟨mjk.root_smooth_iterate x a b,
      fun hf y => mjk.root_smooth_iff hx hf a b y, fun hf => mjk.root_smooth_isSome hx hf a b,
      fun hf hab => mjk.root_smooth_eq_none_of_not_fits hf a b hab⟩⟩
  · exact mjk.root_other z h1 h2 h3
  · unfold rational_constant.pow
    cases mjk.pow x p with
    | none => rfl
    | some q => exact mjk.root_other q h1 h2 h3

/-- Witness for C38: `pow(32, 1/5)` is rejected although `32 = 2^5`, while the sixth
root (`a = 1`, `b = 1`) of `64` is `2`. -/
theorem root_index_support_witness :
    rational_constant.valid ⟨32, 1⟩ ∧
    rational_constant.pow ⟨32, 1⟩ ⟨1, 5⟩ = none ∧
    mjk.root ⟨64, 1⟩ ((2 : Int) ^ 1 * 3 ^ 1) = some ⟨2, 1⟩ :=
  ⟨by decide,
    ((root_index_support ⟨32, 1⟩ (by decide)).2.1 5 (by decide) (by decide)
      (by decide)).2 1,
    ((((root_index_support ⟨64, 1⟩ (by decide)).2.2.2 1 1).2.1 (by decide)) ⟨2, 1⟩).mpr
      ⟨by decide, fun _ => by norm_num [rational_constant.toRat],
        by norm_num [rational_constant.toRat]⟩⟩

/-- Counterexample to C38 as stated: `x = INTMAX_MIN/1` is the cube of the rational
`-2097152`, a perfect third power (`a = 0`, `b = 1`), and `mjk::root(x, 3)` is
rejected: the check `cube(root) == x` multiplies by `x`, whose numerator is outside
the range of `std::ratio`. -/
theorem root_perfect_cube_counterexample :
    (⟨intmax_min, 1⟩ : rational_constant).valid ∧
    (-2097152 : ℚ) ^ (2 ^ 0 * 3 ^ 1) = (⟨intmax_min, 1⟩ : rational_constant).toRat ∧
    mjk.root ⟨intmax_min, 1⟩ ((2 : Int) ^ 0 * 3 ^ 1) = none := by
  refine ⟨by decide, by norm_num [rational_constant.toRat, intmax_min],
    mjk.root_smooth_eq_none_of_not_fits (by decide) 0 1 (by decide)⟩

/-- C39 (amended): `mjk::sgcd` terminates for all `intmax_t` arguments `a` and `b`, with
the truncating remainder of C++, and has a value except at `(INTMAX_MIN, -1)` and
`(-1, INTMAX_MIN)`, where the remainder `INTMAX_MIN % -1` has none. Every value
satisfies `|sgcd(a, b)| = gcd(|a|, |b|)`; `sgcd(a, 0) = a`, `sgcd(0, 0) = 0`, the
result is the non-negative gcd whenever both arguments are non-negative, and it may be
negative when an argument is negative: `sgcd(-4, 0) = -4` and `sgcd(4, -6) = -2`. -/
theorem sgcd_abs_and_sign (a b : Int) (ha : representable a) (hb : representable b) :
    (mjk.sgcd a b = none ↔ (a = intmax_min ∧ b = -1) ∨ (a = -1 ∧ b = intmax_min)) ∧
    (∀ g, mjk.sgcd a b = some g →
      g.natAbs = Nat.gcd a.natAbs b.natAbs ∧ |g| = (Int.gcd |a| |b| : Int)) ∧
    mjk.sgcd a 0 = some a ∧ mjk.sgcd 0 0 = some 0 ∧
    (0 ≤ a → 0 ≤ b → ∃ g, mjk.sgcd a b = some g ∧ 0 ≤ g) ∧
    mjk.sgcd (-4) 0 = some (-4) ∧ mjk.sgcd 4 (-6) = some (-2) := by
  refine ⟨mjk.sgcd_eq_none_iff ha hb, ?_, mjk.sgcd_zero a, mjk.sgcd_zero 0,
    fun h1 h2 => ⟨_, mjk.sgcd_of_nonneg h1 h2, Int.natCast_nonneg _⟩, mjk.sgcd_zero (-4), ?_⟩
  · intro g hg
    have h := mjk.sgcd_eq_some hg
    refine ⟨h, ?_⟩
    rw [Int.abs_eq_natAbs, h]
    simp [Int.gcd, Int.natAbs_abs]
  · have e1 : mjk.sgcd 4 (-6) = mjk.sgcd (-6) 4 := by
      rw [mjk.sgcd_step (by decide) (by decide)]
      rfl
    have e2 : mjk.sgcd (-6) 4 = mjk.sgcd 4 (-2) := by
      rw [mjk.sgcd_step (by decide) (by decide)]
      rfl
    have e3 : mjk.sgcd 4 (-2) = mjk.sgcd (-2) 0 := by
      rw [mjk.sgcd_step (by decide) (by decide)]
      rfl
    rw [e1, e2, e3, mjk.sgcd_zero]

/-- Witness for C39 at `sgcd(12, 18)` and `sgcd(-12, 18)`: neither is rejected, and both
have absolute value 6. -/
theorem sgcd_abs_and_sign_witness :
    mjk.sgcd 12 18 ≠ none ∧ mjk.sgcd (-12) 18 ≠ none ∧
    (∀ g, mjk.sgcd 12 18 = some g → g.natAbs = 6) ∧
    (∀ g, mjk.sgcd (-12) 18 = some g → g.natAbs = 6) :=
  ⟨fun h => absurd ((sgcd_abs_and_sign 12 18 (by decide) (by decide)).1.mp h) (by decide),
    fun h => absurd ((sgcd_abs_and_sign (-12) 18 (by decide) (by decide)).1.mp h) (by decide),
    fun g hg => ((sgcd_abs_and_sign 12 18 (by decide) (by decide)).2.1 g hg).1,
    fun g hg => ((sgcd_abs_and_sign (-12) 18 (by decide) (by decide)).2.1 g hg).1⟩

/-- Counterexample to C39 as stated: at the `intmax_t` arguments `INTMAX_MIN` and `-1`
the first step of `mjk::sgcd` evaluates `INTMAX_MIN % -1`, which has no value, so
`sgcd(INTMAX_MIN, -1)` has none; and `sgcd(-1, INTMAX_MIN)` reaches the same step. -/
theorem sgcd_min_counterexample :
    representable intmax_min ∧ representable (-1) ∧
    mjk.sgcd intmax_min (-1) = none ∧ mjk.sgcd (-1) intmax_min = none :=
  ⟨by decide, by decide, mjk.sgcd_min_neg_one, mjk.sgcd_neg_one_min⟩

/-- C40: what `seq::find_if<Seq, Pred>::value` and `seq::find<Seq, X>::value` are on
the code. The value is true exactly when an element BEFORE the last position satisfies
the predicate (resp. is `X`): the specialisation for the exhausted sequence is
`false_type` whatever `Found` is, so a match in the last position alone is missed. The
claimed equivalence with "some element satisfies `Pred`" holds for the sequences whose
last element does not satisfy it, and fails for every sequence whose only match is the
last element, such as `find<sequence<int>, int>` and the digits `1e` searched for the
marker `e` by `parse_number`. -/
theorem find_if_misses_last_position {α : Type} [DecidableEq α] (s : List α)
    (pred : α → Bool) (what : α) :
    ((seq.find_if s pred).value = true ↔ ∃ x ∈ s.dropLast, pred x = true) ∧
    ((seq.find s what).value = true ↔ what ∈ s.dropLast) ∧
    ((∀ x, s.getLast? = some x → pred x = false) →
      ((seq.find_if s pred).value = true ↔ ∃ x ∈ s, pred x = true)) ∧
    (what ∉ s → (seq.find (s ++ [what]) what).value = false ∧
      what ∈ s ++ [what]) ∧
    ((seq.find (s ++ [what]) what).tail_size =
      (((s ++ [what]).dropWhile fun x => decide (x ≠ what)).drop 1).length) := by
  have hv := seq.find_if_impl_value s pred none
  refine ⟨hv, ?_, fun hlast => ?_, fun hn => ⟨?_, by simp⟩, seq.find_tail_size _ _⟩
  · rw [seq.find, seq.find_if, seq.find_if_impl_value]
    constructor
    · rintro ⟨x, hx, hp⟩
      have e : what = x := by simpa using hp
      rw [e]
      exact hx
    · intro h
      exact ⟨what, h, by simp⟩
  · rw [seq.find_if, hv]
    constructor
    · rintro ⟨x, hx, hp⟩
      exact ⟨x, List.mem_of_mem_dropLast hx, hp⟩
    · rintro ⟨x, hx, hp⟩
      cases hl : s.getLast? with
      | none =>
        rw [List.getLast?_eq_none_iff] at hl
        rw [hl] at hx
        cases hx
      | some l =>
        have e := List.dropLast_append_getLast? l (by rw [hl]; rfl)
        rw [← e, List.mem_append, List.mem_singleton] at hx
        rcases hx with hx | hx
        · exact ⟨x, hx, hp⟩
        · rw [hx, hlast l hl] at hp
          cases hp
  · cases hf : (seq.find (s ++ [what]) what).value with
    | false => rfl
    | true =>
      rw [seq.find, seq.find_if, seq.find_if_impl_value] at hf
      obtain ⟨x, hx, hp⟩ := hf
      rw [List.dropLast_concat] at hx
      have e : what = x := by simpa using hp
      rw [← e] at hx
      exact absurd hx hn

/-- Witness for C40: `find<sequence<int>, int>` and the search for the marker `e` in
the digits `1e` are false, the search in `e1` is true. -/
theorem find_if_misses_last_position_witness :
    (seq.find [0] 0).value = false ∧ 0 ∈ [0] ∧
    (seq.find ['1', 'e'] 'e').value = false ∧ 'e' ∈ ['1', 'e'] ∧
    (seq.find ['e', '1'] 'e').value = true :=
  ⟨((find_if_misses_last_position [] (fun _ => false) 0).2.2.2.1 (by decide)).1,
    by decide,
    ((find_if_misses_last_position ['1'] (fun _ => false) 'e').2.2.2.1 (by decide)).1,
    by decide,
    (find_if_misses_last_position ['e', '1'] (fun _ => false) 'e').2.1.mpr (by decide)⟩

end Dimensional
